import Mathlib

/-! Friends-of-friends clustering core: binned grids and union-find.

A shallow embedding of `binned_grid.go`, `particle.go`, `union_find.go`, `pairs.go` and
`fof.go`.

Modelling conventions.

* `int64` / `int32` values are integers of `Int`; every arithmetic operation of
  the source is followed by the two's-complement reduction `wrap64` / `wrap32`,
  which is what Go does on overflow. `int` is taken to be 64 bits wide.
* A `float32` coordinate is a rational number (every finite `float32` is one)
  in the grids, the pair finder and `FOF`; in `SortParticles`, which only
  compares coordinates, it is an `F32` and may be infinite or NaN.
  The conversion `int64(x)` truncates toward zero. The result of a `float32`
  operation is an `F32`: the exact result rounded to the nearest `float32`, ties
  to even, or an infinity on overflow. Every operation is rounded on its own, as
  the Go compiler does where it does not fuse a multiplication with an addition
  (the default on amd64).
* A Go slice is a `Slice`: its visible elements together with the elements that
  sit between its length and its capacity (these survive a reslice and become
  visible again when the slice is grown). A slice that is only read, written
  by index and replaced as a whole is a plain `List`.
* An index out of range, a nil dereference, a negative length: the operation
  panics and the model returns `none`.
* The neighbour finder that `FOF` calls (`NewFinder`, `Find`) and the library sort
  `slices.SortFunc` are not part of the sources: `FOF` and `SortParticles` take them
  as parameters, and the theorems assume what the finder returns, respectively the
  documented contract of the sort.
-/

namespace Symfof

/-! ## Machine integers and slices -/

/-- Reduction of an integer to the `int64` range, as in two's-complement overflow. -/
@[irreducible] def wrap64 (x : Int) : Int := (x + 2 ^ 63) % 2 ^ 64 - 2 ^ 63

/-- Reduction of an integer to the `int32` range, as in two's-complement overflow. -/
@[irreducible] def wrap32 (x : Int) : Int := (x + 2 ^ 31) % 2 ^ 32 - 2 ^ 31

/-- The `int64` sum. -/
def add64 (a b : Int) : Int := wrap64 (a + b)

/-- The `int64` product. -/
def mul64 (a b : Int) : Int := wrap64 (a * b)

/-- The `int64` difference. -/
def sub64 (a b : Int) : Int := wrap64 (a - b)

/-- The read `l[i]` of a slice by a signed index; `none` is the out-of-range panic. -/
@[irreducible] def getI {α : Type} (l : List α) (i : Int) : Option α :=
  if i < 0 then none else l[i.toNat]?

/-- The write `l[i] = v` of a slice by a signed index; `none` is the out-of-range panic. -/
@[irreducible] def setI {α : Type} (l : List α) (i : Int) (v : α) : Option (List α) :=
  if i < 0 then none
  else if i.toNat < l.length then some (l.set i.toNat v) else none

/-- A Go slice: the elements below its length, and the elements of its backing
array between its length and its capacity. -/
structure Slice (α : Type) where
  elems : List α
  spare : List α

/-- The empty (nil) slice. -/
def Slice.empty {α : Type} : Slice α := { elems := [], spare := [] }

/-- The call `slices.Grow(s, n)`: panics on a negative `n`, otherwise makes sure that
`n` more elements fit behind the length, new room being zeroed. -/
def Slice.grow {α : Type} (s : Slice α) (n : Int) (zero : α) : Option (Slice α) :=
  if n < 0 then none
  else some { elems := s.elems,
              spare := s.spare ++ List.replicate (n.toNat - s.spare.length) zero }

/-- The reslice `s[:m]`: panics unless `0 ≤ m ≤ cap(s)`. -/
def Slice.upTo {α : Type} (s : Slice α) (m : Int) : Option (Slice α) :=
  if m < 0 then none
  else if m.toNat ≤ s.elems.length + s.spare.length then
    some { elems := (s.elems ++ s.spare).take m.toNat,
           spare := (s.elems ++ s.spare).drop m.toNat }
  else none

/-- The expression `slices.Grow(s, n)[:m]`. -/
def Slice.growTo {α : Type} (s : Slice α) (n m : Int) (zero : α) : Option (Slice α) :=
  match s.grow n zero with
  | none => none
  | some t => t.upTo m

/-- The slice expression `s[lo:hi]`: panics unless `0 ≤ lo ≤ hi ≤ cap(s)`. -/
def Slice.sub {α : Type} (s : Slice α) (lo hi : Int) : Option (List α) :=
  if lo < 0 then none
  else if hi < lo then none
  else if hi.toNat ≤ s.elems.length + s.spare.length then
    some (((s.elems ++ s.spare).take hi.toNat).drop lo.toNat)
  else none

/-! ## Particles (`particle.go`) -/

/-- A value of type `[3]float32`. -/
structure Vec3 where
  x0 : ℚ
  x1 : ℚ
  x2 : ℚ
  deriving DecidableEq

/-- The component `v[d]` of a `[3]float32`. -/
def Vec3.get (v : Vec3) (d : Nat) : Option ℚ :=
  match d with
  | 0 => some v.x0
  | 1 => some v.x1
  | 2 => some v.x2
  | _ => none

/-- A particle: its id, position and velocity. -/
structure Particle where
  ID : Nat
  X : Vec3
  V : Vec3
  deriving DecidableEq

/-- The zero value of `Particle`. -/
def Particle.zero : Particle := { ID := 0, X := ⟨0, 0, 0⟩, V := ⟨0, 0, 0⟩ }

/-- The conversion `int64(x)` of a float: truncation toward zero. -/
def toInt64 (x : ℚ) : Int := x.num.tdiv x.den

/-- A value of type `[3]int64`: a grid span or a cell index. -/
structure Idx3 where
  i0 : Int
  i1 : Int
  i2 : Int
  deriving DecidableEq

/-- The cell of a particle: `{int64(pi.X[0]), int64(pi.X[1]), int64(pi.X[2])}`. -/
def cellOf (pi : Particle) : Idx3 :=
  { i0 := toInt64 pi.X.x0, i1 := toInt64 pi.X.x1, i2 := toInt64 pi.X.x2 }

/-- The flat index `idx[0] + idx[1]*Dy + idx[2]*Dz` of a cell. -/
def flatIndex (Dy Dz : Int) (idx : Idx3) : Int :=
  add64 (add64 idx.i0 (mul64 idx.i1 Dy)) (mul64 idx.i2 Dz)

/-- The number of cells `span[0]*span[1]*span[2]` computed by every `Resize`. -/
def cellCount (span : Idx3) : Int := mul64 (mul64 span.i0 span.i1) span.i2

/-! ## ArrayListGrid -/

/-- The grid that keeps one growable array per cell. -/
structure ArrayListGrid where
  Data : Slice (List Particle)
  Span : Idx3
  Dy : Int
  Dz : Int

/-- The zero value `new(ArrayListGrid)`. -/
def ArrayListGrid.new : ArrayListGrid :=
  { Data := Slice.empty, Span := ⟨0, 0, 0⟩, Dy := 0, Dz := 0 }

/-- The method `ArrayListGrid.Resize`. -/
def ArrayListGrid.Resize (g : ArrayListGrid) (span : Idx3) : Option ArrayListGrid :=
  let n := cellCount span
  match g.Data.growTo n n [] with
  | none => none
  | some d =>
    some { Data := { elems := d.elems.map (fun _ => []), spare := d.spare },
           Span := span, Dy := span.i0, Dz := mul64 span.i0 span.i1 }

/-- One iteration of the loop of `ArrayListGrid.Bin`. -/
def ArrayListGrid.binStep (g : ArrayListGrid) (pi : Particle) : Option ArrayListGrid :=
  let j := flatIndex g.Dy g.Dz (cellOf pi)
  match getI g.Data.elems j with
  | none => none
  | some cell =>
    match setI g.Data.elems j (cell ++ [pi]) with
    | none => none
    | some d => some { g with Data := { elems := d, spare := g.Data.spare } }

/-- The method `ArrayListGrid.Bin`. -/
def ArrayListGrid.Bin (g : ArrayListGrid) (p : List Particle) : Option ArrayListGrid :=
  p.foldlM ArrayListGrid.binStep g

/-- The method `ArrayListGrid.Size`. -/
def ArrayListGrid.Size (g : ArrayListGrid) (idx : Idx3) : Option Int :=
  match getI g.Data.elems (flatIndex g.Dy g.Dz idx) with
  | none => none
  | some cell => some (cell.length : Int)

/-- The method `ArrayListGrid.Get`; the optional buffers `out` are ignored. -/
def ArrayListGrid.Get (g : ArrayListGrid) (idx : Idx3) (_out : List (Slice Particle)) :
    Option (List Particle) :=
  getI g.Data.elems (flatIndex g.Dy g.Dz idx)

/-! ## NaiveLinkedListGrid -/

/-- A value of type `*ListNode`: the nil pointer, or a node with its particle and
the pointer to the next node. Nodes are never written after their creation. -/
inductive ListNode where
  | null : ListNode
  | node (P : Particle) (Next : ListNode) : ListNode

/-- The grid that keeps one pointer-based linked list per cell. -/
structure NaiveLinkedListGrid where
  Heads : Slice ListNode
  Sizes : Slice Int
  Dy : Int
  Dz : Int

/-- The zero value `new(NaiveLinkedListGrid)`. -/
def NaiveLinkedListGrid.new : NaiveLinkedListGrid :=
  { Heads := Slice.empty, Sizes := Slice.empty, Dy := 0, Dz := 0 }

/-- The loop `for i := range g.Sizes { g.Heads[i], g.Sizes[i] = v, 0 }` of the two
linked-list grids: it writes `g.Heads[i]` for every index `i` of `g.Sizes`. -/
def resetHeads {α : Type} (v : α) (heads : List α) (sizes : List Int) :
    Option (List α × List Int) :=
  if sizes.length ≤ heads.length then
    some (List.replicate sizes.length v ++ heads.drop sizes.length, sizes.map (fun _ => 0))
  else none

/-- The method `NaiveLinkedListGrid.Resize`. -/
def NaiveLinkedListGrid.Resize (g : NaiveLinkedListGrid) (span : Idx3) :
    Option NaiveLinkedListGrid :=
  let n := cellCount span
  match g.Heads.growTo n n ListNode.null, g.Sizes.growTo n n 0 with
  | some h, some s =>
    match resetHeads ListNode.null h.elems s.elems with
    | none => none
    | some (he, se) =>
      some { Heads := { elems := he, spare := h.spare },
             Sizes := { elems := se, spare := s.spare },
             Dy := span.i0, Dz := mul64 span.i0 span.i1 }
  | _, _ => none

/-- One iteration of the loop of `NaiveLinkedListGrid.Bin`. -/
def NaiveLinkedListGrid.binStep (g : NaiveLinkedListGrid) (pi : Particle) :
    Option NaiveLinkedListGrid :=
  let j := flatIndex g.Dy g.Dz (cellOf pi)
  match getI g.Heads.elems j with
  | none => none
  | some head =>
    match setI g.Heads.elems j (ListNode.node pi head), getI g.Sizes.elems j with
    | some he, some s =>
      match setI g.Sizes.elems j (add64 s 1) with
      | none => none
      | some se =>
        some { g with Heads := { elems := he, spare := g.Heads.spare },
                      Sizes := { elems := se, spare := g.Sizes.spare } }
    | _, _ => none

/-- The method `NaiveLinkedListGrid.Bin`. -/
def NaiveLinkedListGrid.Bin (g : NaiveLinkedListGrid) (p : List Particle) :
    Option NaiveLinkedListGrid :=
  p.foldlM NaiveLinkedListGrid.binStep g

/-- The method `NaiveLinkedListGrid.Size`. -/
def NaiveLinkedListGrid.Size (g : NaiveLinkedListGrid) (idx : Idx3) : Option Int :=
  getI g.Sizes.elems (flatIndex g.Dy g.Dz idx)

/-- The buffer of length `n` that the `Get` of the two linked-list grids fills:
`make([]Particle, n)` without a caller buffer, `slices.Grow(out[0], int(n))[:n]`
with one. -/
def getBuffer (n : Int) (out : List (Slice Particle)) : Option (List Particle) :=
  match out with
  | [] => if n < 0 then none else some (List.replicate n.toNat Particle.zero)
  | o :: _ =>
    match o.growTo n n Particle.zero with
    | none => none
    | some b => some b.elems

/-- The loop `for i := range buf { buf[i] = node.P; node = node.Next }`. -/
def NaiveLinkedListGrid.fill : ListNode → List Particle → Option (List Particle)
  | _, [] => some []
  | ListNode.null, _ :: _ => none
  | ListNode.node P next, _ :: rest =>
    match NaiveLinkedListGrid.fill next rest with
    | none => none
    | some filled => some (P :: filled)

/-- The method `NaiveLinkedListGrid.Get`. -/
def NaiveLinkedListGrid.Get (g : NaiveLinkedListGrid) (idx : Idx3)
    (out : List (Slice Particle)) : Option (List Particle) :=
  let i := flatIndex g.Dy g.Dz idx
  match getI g.Sizes.elems i with
  | none => none
  | some n =>
    match getBuffer n out, getI g.Heads.elems i with
    | some buf, some head => NaiveLinkedListGrid.fill head buf
    | _, _ => none

/-! ## LinkedListGrid -/

/-- The grid that keeps one index-based linked list per cell; the index `-1` ends a
list. `Data` refers to the array handed to `Bin`. -/
structure LinkedListGrid where
  Heads : Slice Int
  Sizes : Slice Int
  Dy : Int
  Dz : Int
  Data : List Particle
  Next : Slice Int

/-- The zero value `new(LinkedListGrid)`. -/
def LinkedListGrid.new : LinkedListGrid :=
  { Heads := Slice.empty, Sizes := Slice.empty, Dy := 0, Dz := 0, Data := [],
    Next := Slice.empty }

/-- The method `LinkedListGrid.Resize`. -/
def LinkedListGrid.Resize (g : LinkedListGrid) (span : Idx3) : Option LinkedListGrid :=
  let n := cellCount span
  match g.Heads.growTo n n 0, g.Sizes.growTo n n 0 with
  | some h, some s =>
    match resetHeads (-1) h.elems s.elems, g.Next.upTo 0 with
    | some (he, se), some nx =>
      some { Heads := { elems := he, spare := h.spare },
             Sizes := { elems := se, spare := s.spare },
             Dy := span.i0, Dz := mul64 span.i0 span.i1,
             Data := [], Next := nx }
    | _, _ => none
  | _, _ => none

/-- One iteration, for the index `i`, of the loop of `LinkedListGrid.Bin`. -/
def LinkedListGrid.binStep (g : LinkedListGrid) (i : Nat) (pi : Particle) :
    Option LinkedListGrid :=
  let j := flatIndex g.Dy g.Dz (cellOf pi)
  match getI g.Heads.elems j with
  | none => none
  | some head =>
    match setI g.Next.elems (i : Int) head, setI g.Heads.elems j (i : Int),
        getI g.Sizes.elems j with
    | some nx, some he, some s =>
      match setI g.Sizes.elems j (add64 s 1) with
      | none => none
      | some se =>
        some { g with Heads := { elems := he, spare := g.Heads.spare },
                      Sizes := { elems := se, spare := g.Sizes.spare },
                      Next := { elems := nx, spare := g.Next.spare } }
    | _, _, _ => none

/-- The loop `for i := range p` of `LinkedListGrid.Bin`, from the index `i` on. -/
def LinkedListGrid.binLoop : LinkedListGrid → Nat → List Particle → Option LinkedListGrid
  | g, _, [] => some g
  | g, i, pi :: rest =>
    match LinkedListGrid.binStep g i pi with
    | none => none
    | some g1 => LinkedListGrid.binLoop g1 (i + 1) rest

/-- The method `LinkedListGrid.Bin`. -/
def LinkedListGrid.Bin (g : LinkedListGrid) (p : List Particle) : Option LinkedListGrid :=
  match g.Next.growTo (p.length : Int) (p.length : Int) 0 with
  | none => none
  | some nx => LinkedListGrid.binLoop { g with Next := nx, Data := p } 0 p

/-- The method `LinkedListGrid.Size`. -/
def LinkedListGrid.Size (g : LinkedListGrid) (idx : Idx3) : Option Int :=
  getI g.Sizes.elems (flatIndex g.Dy g.Dz idx)

/-- The loop `for i := range buf { buf[i] = g.Data[node]; node = g.Next[node] }`. -/
def LinkedListGrid.fill (data : List Particle) (next : List Int) :
    Int → List Particle → Option (List Particle)
  | _, [] => some []
  | node, _ :: rest =>
    match getI data node, getI next node with
    | some P, some nx =>
      match LinkedListGrid.fill data next nx rest with
      | none => none
      | some filled => some (P :: filled)
    | _, _ => none

/-- The method `LinkedListGrid.Get`. -/
def LinkedListGrid.Get (g : LinkedListGrid) (idx : Idx3) (out : List (Slice Particle)) :
    Option (List Particle) :=
  let i := flatIndex g.Dy g.Dz idx
  match getI g.Sizes.elems i with
  | none => none
  | some n =>
    match getBuffer n out, getI g.Heads.elems i with
    | some buf, some head => LinkedListGrid.fill g.Data g.Next.elems head buf
    | _, _ => none

/-! ## CountingSortGrid -/

/-- The read `counts[j]` through the view `Counts = BinEdges[1:]`. -/
def countsGet (edges : List Int) (j : Int) : Option Int :=
  if j < 0 then none else getI edges (j + 1)

/-- The write `counts[j] = v` through the view `Counts = BinEdges[1:]`. -/
def countsSet (edges : List Int) (j : Int) (v : Int) : Option (List Int) :=
  if j < 0 then none else setI edges (j + 1) v

/-- The statement `g.Counts[j]++` for the cell of `pi`: one iteration of the counting
loop of `CountingSortGrid.Bin` and of `CycleSortGrid.Bin`. -/
def countStep (Dy Dz : Int) (edges : List Int) (pi : Particle) : Option (List Int) :=
  let j := flatIndex Dy Dz (cellOf pi)
  match countsGet edges j with
  | none => none
  | some c => countsSet edges j (add64 c 1)

/-- The grid that sorts the particles by cell into an internal buffer. The field
`Counts` of the source is the view `BinEdges[1:]` of the same array and is not
kept separately. -/
structure CountingSortGrid where
  BinEdges : Slice Int
  Data : Slice Particle
  Dy : Int
  Dz : Int

/-- The zero value `new(CountingSortGrid)`. -/
def CountingSortGrid.new : CountingSortGrid :=
  { BinEdges := Slice.empty, Data := Slice.empty, Dy := 0, Dz := 0 }

/-- The method `CountingSortGrid.Resize`. -/
def CountingSortGrid.Resize (g : CountingSortGrid) (span : Idx3) : Option CountingSortGrid :=
  let n := cellCount span
  match g.BinEdges.growTo (add64 n 1) (add64 n 1) 0 with
  | none => none
  | some e =>
    some { g with BinEdges := { elems := e.elems.map (fun _ => 0), spare := e.spare },
                  Dy := span.i0, Dz := mul64 span.i1 span.i0 }

/-- The loop of `CountingSortGrid.Bin` that turns the counts into bin starts: `k`
iterations are left, `i` is the loop index and `prev` the variable `prevCount`. -/
def CountingSortGrid.startsLoop : Nat → Int → Int → List Int → Option (List Int)
  | 0, _, _, edges => some edges
  | k + 1, i, prev, edges =>
    match countsGet edges i, getI edges i with
    | some curr, some e =>
      match countsSet edges i (add64 e prev) with
      | none => none
      | some edges1 => CountingSortGrid.startsLoop k (i + 1) curr edges1
    | _, _ => none

/-- One iteration of the last loop of `CountingSortGrid.Bin`:
`g.Data[binStarts[j]] = pi; binStarts[j]++`. -/
def CountingSortGrid.placeStep (Dy Dz : Int) (st : List Int × List Particle)
    (pi : Particle) : Option (List Int × List Particle) :=
  let j := flatIndex Dy Dz (cellOf pi)
  match countsGet st.1 j with
  | none => none
  | some start =>
    match setI st.2 start pi with
    | none => none
    | some data =>
      match countsSet st.1 j (add64 start 1) with
      | none => none
      | some edges => some (edges, data)

/-- The method `CountingSortGrid.Bin`. -/
def CountingSortGrid.Bin (g : CountingSortGrid) (p : List Particle) :
    Option CountingSortGrid :=
  match g.Data.growTo (p.length : Int) (p.length : Int) Particle.zero with
  | none => none
  | some d =>
    match p.foldlM (countStep g.Dy g.Dz) g.BinEdges.elems with
    | none => none
    | some counted =>
      match CountingSortGrid.startsLoop (counted.length - 1) 0 0 counted with
      | none => none
      | some starts =>
        match p.foldlM (CountingSortGrid.placeStep g.Dy g.Dz) (starts, d.elems) with
        | none => none
        | some (edges, data) =>
          some { g with BinEdges := { elems := edges, spare := g.BinEdges.spare },
                        Data := { elems := data, spare := d.spare } }

/-- The method `CountingSortGrid.Size`. -/
def CountingSortGrid.Size (g : CountingSortGrid) (idx : Idx3) : Option Int :=
  let i := flatIndex g.Dy g.Dz idx
  match getI g.BinEdges.elems (add64 i 1), getI g.BinEdges.elems i with
  | some hi, some lo => some (sub64 hi lo)
  | _, _ => none

/-- The method `CountingSortGrid.Get`; the optional buffers `out` are ignored. -/
def CountingSortGrid.Get (g : CountingSortGrid) (idx : Idx3) (_out : List (Slice Particle)) :
    Option (List Particle) :=
  let i := flatIndex g.Dy g.Dz idx
  match getI g.BinEdges.elems i, getI g.BinEdges.elems (add64 i 1) with
  | some lo, some hi => g.Data.sub lo hi
  | _, _ => none

/-! ## CycleSortGrid -/

/-- The grid that sorts the caller's array by cell in place. The field `Counts` of
the source is the view `BinEdges[1:]` of the same array and is not kept separately;
`Data` refers to the array handed to `Bin`. -/
structure CycleSortGrid where
  BinEdges : Slice Int
  BinEnds : Slice Int
  Data : List Particle
  Dy : Int
  Dz : Int

/-- The zero value `new(CycleSortGrid)`. -/
def CycleSortGrid.new : CycleSortGrid :=
  { BinEdges := Slice.empty, BinEnds := Slice.empty, Data := [], Dy := 0, Dz := 0 }

/-- The method `CycleSortGrid.Resize`. -/
def CycleSortGrid.Resize (g : CycleSortGrid) (span : Idx3) : Option CycleSortGrid :=
  let n := cellCount span
  match g.BinEdges.growTo (add64 n 1) (add64 n 1) 0, g.BinEnds.growTo n n 0 with
  | some e, some b =>
    some { g with BinEdges := { elems := e.elems.map (fun _ => 0), spare := e.spare },
                  BinEnds := b, Dy := span.i0, Dz := mul64 span.i1 span.i0 }
  | _, _ => none

/-- The loop `for i := 1; i < len(g.BinEdges); i++ { g.BinEdges[i] += g.BinEdges[i-1] }`:
`k` iterations are left and `i` is the loop index. -/
def CycleSortGrid.sumLoop : Nat → Int → List Int → Option (List Int)
  | 0, _, edges => some edges
  | k + 1, i, edges =>
    match getI edges i, getI edges (i - 1) with
    | some e, some before =>
      match setI edges i (add64 e before) with
      | none => none
      | some edges1 => CycleSortGrid.sumLoop k (i + 1) edges1
    | _, _ => none

/-- The loop `for i := range g.BinEnds { g.BinEnds[i] = g.BinEdges[i] }`. -/
def CycleSortGrid.copyEdges (edges ends : List Int) : Option (List Int) :=
  if ends.length ≤ edges.length then some (edges.take ends.length) else none

/-- The innermost loop `for ; dstBin != srcBin; { ... }` of `CycleSortGrid.Bin`; the
state is the caller's array `p` and `g.BinEnds`. -/
def CycleSortGrid.swapLoop (Dy Dz : Int) (srcBin i : Int) :
    Nat → Int → List Particle × List Int → Option (List Particle × List Int)
  | 0, _, _ => none
  | fuel + 1, dstBin, (p, ends) =>
    if dstBin ≠ srcBin then
      match getI ends dstBin with
      | none => none
      | some j =>
        match getI p j, getI p i with
        | some pj, some pi =>
          match setI p i pj with
          | none => none
          | some p1 =>
            match setI p1 j pi, setI ends dstBin (add64 j 1) with
            | some p2, some ends1 =>
              match getI p2 i with
              | none => none
              | some arrived =>
                CycleSortGrid.swapLoop Dy Dz srcBin i fuel
                  (flatIndex Dy Dz (cellOf arrived)) (p2, ends1)
            | _, _ => none
        | _, _ => none
    else some (p, ends)

/-- The loop `for lim := g.BinEdges[srcBin+1]; g.BinEnds[srcBin] < lim; { ... }` of
`CycleSortGrid.Bin`; `inner` is the fuel handed to each run of the innermost loop. -/
def CycleSortGrid.binLoop (Dy Dz : Int) (inner : Nat) (srcBin lim : Int) :
    Nat → List Particle × List Int → Option (List Particle × List Int)
  | 0, _ => none
  | fuel + 1, (p, ends) =>
    match getI ends srcBin with
    | none => none
    | some i =>
      if i < lim then
        match getI p i with
        | none => none
        | some pi =>
          match CycleSortGrid.swapLoop Dy Dz srcBin i inner
              (flatIndex Dy Dz (cellOf pi)) (p, ends) with
          | none => none
          | some (p1, ends1) =>
            match getI ends1 srcBin with
            | none => none
            | some e =>
              match setI ends1 srcBin (add64 e 1) with
              | none => none
              | some ends2 => CycleSortGrid.binLoop Dy Dz inner srcBin lim fuel (p1, ends2)
      else some (p, ends)

/-- The loop `for srcBin := int64(0); srcBin < int64(len(g.BinEnds)); srcBin++` of
`CycleSortGrid.Bin`: `k` iterations are left. -/
def CycleSortGrid.srcLoop (Dy Dz : Int) (edges : List Int) (fuel : Nat) :
    Nat → Int → List Particle × List Int → Option (List Particle × List Int)
  | 0, _, st => some st
  | k + 1, srcBin, st =>
    match getI edges (add64 srcBin 1) with
    | none => none
    | some lim =>
      match CycleSortGrid.binLoop Dy Dz fuel srcBin lim fuel st with
      | none => none
      | some st1 => CycleSortGrid.srcLoop Dy Dz edges fuel k (add64 srcBin 1) st1

/-- The method `CycleSortGrid.Bin`. Each `for` loop without a bound of its own runs
on `len(p) + 1` units of fuel: every iteration advances one entry of `g.BinEnds`,
which can happen `len(p)` times at most before an index leaves the array. -/
def CycleSortGrid.Bin (g : CycleSortGrid) (p : List Particle) : Option CycleSortGrid :=
  match p.foldlM (countStep g.Dy g.Dz) g.BinEdges.elems with
  | none => none
  | some counted =>
    match CycleSortGrid.sumLoop (counted.length - 1) 1 counted with
    | none => none
    | some edges =>
      match CycleSortGrid.copyEdges edges g.BinEnds.elems with
      | none => none
      | some ends =>
        match CycleSortGrid.srcLoop g.Dy g.Dz edges (p.length + 1) ends.length 0
            (p, ends) with
        | none => none
        | some (sorted, ends1) =>
          some { g with BinEdges := { elems := edges, spare := g.BinEdges.spare },
                        BinEnds := { elems := ends1, spare := g.BinEnds.spare },
                        Data := sorted }

/-- The method `CycleSortGrid.Size`. -/
def CycleSortGrid.Size (g : CycleSortGrid) (idx : Idx3) : Option Int :=
  let i := flatIndex g.Dy g.Dz idx
  match getI g.BinEdges.elems (add64 i 1), getI g.BinEdges.elems i with
  | some hi, some lo => some (sub64 hi lo)
  | _, _ => none

/-- The method `CycleSortGrid.Get`; the optional buffers `out` are ignored. The
capacity of the caller's array is taken to be its length. -/
def CycleSortGrid.Get (g : CycleSortGrid) (idx : Idx3) (_out : List (Slice Particle)) :
    Option (List Particle) :=
  let i := flatIndex g.Dy g.Dz idx
  match getI g.BinEdges.elems i, getI g.BinEdges.elems (add64 i 1) with
  | some lo, some hi => Slice.sub { elems := g.Data, spare := [] } lo hi
  | _, _ => none

/-! ## Union-find (`union_find.go`) -/

/-- The structure `UnionFinder`; the entries of `Parent` and `Size` and the field
`NGroup` are `int32` values. -/
structure UnionFinder where
  Parent : List Int
  Size : List Int
  NGroup : Int

/-- The function `NewUnionFinder`: `make` panics on a negative length; the loop sets
`Parent[i] = int32(i)` and `Size[i] = 1`; the field `NGroup` is not assigned and keeps
the zero value. -/
def NewUnionFinder (n : Int) : Option UnionFinder :=
  if n < 0 then none
  else some { Parent := (List.range n.toNat).map (fun (i : Nat) => wrap32 (Int.ofNat i)),
              Size := List.replicate n.toNat 1,
              NGroup := 0 }

/-- The first loop of `Find`, `for uf.Parent[j] != j { j = uf.Parent[j] }`, on `fuel`
iterations. -/
def UnionFinder.findRoot (parent : List Int) : Nat → Int → Option Int
  | 0, _ => none
  | fuel + 1, j =>
    match getI parent j with
    | none => none
    | some pj => if pj ≠ j then UnionFinder.findRoot parent fuel pj else some j

/-- The second loop of `Find`,
`for j = i; uf.Parent[j] != j; { next := uf.Parent[j]; uf.Parent[j] = root; j = next }`,
on `fuel` iterations. -/
def UnionFinder.compress (root : Int) : Nat → List Int → Int → Option (List Int)
  | 0, _, _ => none
  | fuel + 1, parent, j =>
    match getI parent j with
    | none => none
    | some next =>
      if next ≠ j then
        match setI parent j root with
        | none => none
        | some parent1 => UnionFinder.compress root fuel parent1 next
      else some parent

/-- The method `Find`: the root and the state with the compressed path. Each loop runs
on `len(Parent) + 1` units of fuel: a walk along `Parent` that has not reached a fixed
point after that many steps has entered a cycle, in which the Go loop spins forever. -/
def UnionFinder.Find (uf : UnionFinder) (i : Int) : Option (Int × UnionFinder) :=
  match UnionFinder.findRoot uf.Parent (uf.Parent.length + 1) i with
  | none => none
  | some root =>
    match UnionFinder.compress root (uf.Parent.length + 1) uf.Parent i with
    | none => none
    | some parent => some (root, { uf with Parent := parent })

/-- The method `Union`. -/
def UnionFinder.Union (uf : UnionFinder) (i j : Int) : Option UnionFinder :=
  match uf.Find i with
  | none => none
  | some (rooti, uf1) =>
    match uf1.Find j with
    | none => none
    | some (rootj, uf2) =>
      if rooti = rootj then some uf2
      else
        match getI uf2.Size rooti, getI uf2.Size rootj with
        | some sizei, some sizej =>
          if sizei < sizej then
            match setI uf2.Parent rooti rootj, setI uf2.Size rootj (wrap32 (sizei + sizej)) with
            | some parent, some size =>
              some { Parent := parent, Size := size, NGroup := wrap32 (uf2.NGroup - 1) }
            | _, _ => none
          else
            match setI uf2.Parent rootj rooti, setI uf2.Size rooti (wrap32 (sizei + sizej)) with
            | some parent, some size =>
              some { Parent := parent, Size := size, NGroup := wrap32 (uf2.NGroup - 1) }
            | _, _ => none
        | _, _ => none

/-- The states that `NewUnionFinder(n)` followed by calls of `Union` and `Find` with
indices in `[0, n)` can reach, with the list of the pairs handed to `Union`, last first. -/
inductive UnionFinder.Reachable (n : Int) : List (Int × Int) → UnionFinder → Prop
  | init (uf : UnionFinder) : NewUnionFinder n = some uf → UnionFinder.Reachable n [] uf
  | union (edges : List (Int × Int)) (uf uf1 : UnionFinder) (i j : Int) :
      UnionFinder.Reachable n edges uf → 0 ≤ i → i < n → 0 ≤ j → j < n →
      uf.Union i j = some uf1 → UnionFinder.Reachable n ((i, j) :: edges) uf1
  | find (edges : List (Int × Int)) (uf uf1 : UnionFinder) (i r : Int) :
      UnionFinder.Reachable n edges uf → 0 ≤ i → i < n →
      uf.Find i = some (r, uf1) → UnionFinder.Reachable n edges uf1

/-- The indices `x` and `y` lie in the same connected component of the undirected graph
whose edges are the pairs of `edges`. -/
def Connected (edges : List (Int × Int)) (x y : Int) : Prop :=
  Relation.EqvGen (fun a b => (a, b) ∈ edges) x y

/-- The number of indices `x` of `[0, n)` with `rho x = r`. -/
def classCount (n : Int) (rho : Int → Int) (r : Int) : Int :=
  (((List.range n.toNat).filter (fun (x : Nat) => decide (rho (Int.ofNat x) = r))).length : Int)

/-- The forest invariant of a union-find state over `[0, n)`, for a root map `rho` and a
height bound `d`: every `Parent` entry is an index and has the root of its index, the
root of an index is a fixed point of `Parent`, a fixed point is its own root and has
height 0, and the height drops along `Parent` elsewhere. -/
def UnionFinder.Forest (n : Int) (parent : List Int) (rho : Int → Int) (d : Int → Nat) :
    Prop :=
  (parent.length : Int) = n ∧
  ∀ x : Int, 0 ≤ x → x < n →
    ∃ px, getI parent x = some px ∧ (0 ≤ px ∧ px < n) ∧ (0 ≤ rho x ∧ rho x < n) ∧
      rho px = rho x ∧ getI parent (rho x) = some (rho x) ∧
      (px = x → rho x = x ∧ d x = 0) ∧ (px ≠ x → d px < d x)

/-- The size invariant: the `Size` entry of every root is the number of indices with
that root, and the height of an index is below the size of its tree. -/
def UnionFinder.Sized (n : Int) (parent size : List Int) (rho : Int → Int) (d : Int → Nat) :
    Prop :=
  (size.length : Int) = n ∧
  (∀ r : Int, 0 ≤ r → r < n → getI parent r = some r →
    getI size r = some (classCount n rho r)) ∧
  ∀ x : Int, 0 ≤ x → x < n → (d x : Int) + 1 ≤ classCount n rho (rho x)

/-- The invariant that ties the roots to the pairs handed to `Union`: the two ends of
every pair have the same root, and two indices with the same root are connected. -/
def UnionFinder.Linked (n : Int) (edges : List (Int × Int)) (rho : Int → Int) : Prop :=
  (∀ e ∈ edges, rho e.1 = rho e.2) ∧
  ∀ x y : Int, 0 ≤ x → x < n → 0 ≤ y → y < n → rho x = rho y → Connected edges x y

/-- The invariant of the reachable states. -/
def UnionFinder.Valid (n : Int) (edges : List (Int × Int)) (uf : UnionFinder)
    (rho : Int → Int) (d : Int → Nat) : Prop :=
  UnionFinder.Forest n uf.Parent rho d ∧ UnionFinder.Sized n uf.Parent uf.Size rho d ∧
  UnionFinder.Linked n edges rho

/-- The root map after the tree of the root `a` has been attached under the root `b`. -/
def mergeRoot (rho : Int → Int) (a b : Int) (x : Int) : Int :=
  if rho x = a then b else rho x

/-- The height bound after the tree of the root `a` has been attached under another
root: the indices of that tree are one step further from their root. -/
def mergeHeight (rho : Int → Int) (d : Int → Nat) (a : Int) (x : Int) : Nat :=
  if rho x = a then d x + 1 else d x

/-- The number of indices of `[0, n)` that are their own root. -/
def rootCount (n : Int) (rho : Int → Int) : Int :=
  (((List.range n.toNat).filter
    (fun (x : Nat) => decide (rho (Int.ofNat x) = Int.ofNat x))).length : Int)

/-- The value that a call `Find(k)` returns in the state `uf`. -/
def UnionFinder.rootOf (uf : UnionFinder) (k : Int) : Option Int :=
  (uf.Find k).map Prod.fst

/-- The number of indices `k` of `[0, n)` for which `Find(k)` returns `r` in the state
`uf`. -/
def UnionFinder.findCount (n : Int) (uf : UnionFinder) (r : Int) : Int :=
  (((List.range n.toNat).filter
    (fun (k : Nat) => decide (uf.rootOf (Int.ofNat k) = some r))).length : Int)

/-- The index reached from `x` by `k` reads of `Parent`. -/
def UnionFinder.follow (parent : List Int) : Nat → Int → Option Int
  | 0, x => some x
  | k + 1, x =>
    match getI parent x with
    | none => none
    | some px => UnionFinder.follow parent k px

/-- Following `Parent` from `x` reaches the fixed point `r`. -/
def UnionFinder.RootOf (parent : List Int) (x r : Int) : Prop :=
  ∃ k, UnionFinder.follow parent k x = some r ∧ getI parent r = some r

/-- The index `k` is one of those met when `Parent` is followed from `i`. -/
def UnionFinder.OnPath (parent : List Int) (i k : Int) : Prop :=
  ∃ m, UnionFinder.follow parent m i = some k

/-- Following `Parent` from any index of the state reaches a fixed point. -/
def UnionFinder.Rooted (uf : UnionFinder) : Prop :=
  ∀ x : Int, 0 ≤ x → x < uf.Parent.length → ∃ r, UnionFinder.RootOf uf.Parent x r

/-- Following `Parent` from `x` meets its first fixed point, `r`, after exactly `k`
reads. -/
def UnionFinder.StepsTo (parent : List Int) (x : Int) (k : Nat) (r : Int) : Prop :=
  UnionFinder.follow parent k x = some r ∧ getI parent r = some r ∧
  ∀ m : Nat, m < k → ∀ y : Int, UnionFinder.follow parent m x = some y → getI parent y ≠ some y

/-- The state that `NewUnionFinder(4)` returns. -/
def exampleStart : UnionFinder :=
  { Parent := [0, 1, 2, 3], Size := [1, 1, 1, 1], NGroup := 0 }

/-- The state after `NewUnionFinder(4)` and `Union(0, 1)`. -/
def examplePair : UnionFinder :=
  { Parent := [0, 0, 2, 3], Size := [2, 1, 1, 1], NGroup := -1 }

/-- A state over four indices with the chain `2 -> 1 -> 0`. -/
def exampleChain : UnionFinder :=
  { Parent := [0, 0, 1, 3], Size := [3, 1, 1, 1], NGroup := 2 }

/-! ## Preconditions of the grid contracts -/

/-- The span has no negative component and its cell count `n`, as well as `n + 1`,
is representable as an `int64`. -/
def SpanFits (span : Idx3) : Prop :=
  0 ≤ span.i0 ∧ 0 ≤ span.i1 ∧ 0 ≤ span.i2 ∧ span.i0 * span.i1 * span.i2 < 2 ^ 63 - 1

/-- The cell `c` lies in `[0, span[0]) x [0, span[1]) x [0, span[2])`. -/
def InSpan (span c : Idx3) : Prop :=
  (0 ≤ c.i0 ∧ c.i0 < span.i0) ∧ (0 ≤ c.i1 ∧ c.i1 < span.i1) ∧ (0 ≤ c.i2 ∧ c.i2 < span.i2)

/-- Every point of `p` has its truncated coordinates in the span. -/
def PointsIn (span : Idx3) (p : List Particle) : Prop :=
  ∀ pi ∈ p, InSpan span (cellOf pi)

/-- The input points whose truncated coordinates are the cell `c`, in input order. -/
def pointsOf (p : List Particle) (c : Idx3) : List Particle :=
  p.filter (fun pi => decide (cellOf pi = c))

/-- The particles of the list that starts at a node pointer, in list order. -/
def ListNode.toList : ListNode → List Particle
  | ListNode.null => []
  | ListNode.node P next => P :: ListNode.toList next

/-- The index-based list that starts at `head` holds the particles `l` in list order
and then ends with the index `-1`, and every index it visits lies in `[0, m)`. -/
def LinkedListGrid.Chain (data : List Particle) (next : List Int) (m : Int) :
    Int → List Particle → Prop
  | head, [] => head = -1
  | head, P :: l =>
    0 ≤ head ∧ head < m ∧ getI data head = some P ∧
      ∃ nx, getI next head = some nx ∧ LinkedListGrid.Chain data next m nx l

/-- The state of `LinkedListGrid.Bin` after the particles `done` have been linked:
the list of every cell `j` holds the particles of `done` that fall into the cell, last
first, and the size of the cell counts them. -/
def LinkedListGrid.Inv (g : LinkedListGrid) (done : List Particle) : Prop :=
  g.Sizes.elems.length = g.Heads.elems.length ∧
  ∀ j : Int, 0 ≤ j → j < g.Heads.elems.length →
    ∃ head s, getI g.Heads.elems j = some head ∧ getI g.Sizes.elems j = some s ∧
      LinkedListGrid.Chain g.Data g.Next.elems done.length head
        (done.filter (fun pi => decide (flatIndex g.Dy g.Dz (cellOf pi) = j))).reverse ∧
      s = wrap64 ((done.filter (fun pi =>
        decide (flatIndex g.Dy g.Dz (cellOf pi) = j))).length)

/-! ## The interface `BinnedGrid` and the statements of its contract -/

/-- The interface `BinnedGrid`: the four methods of a grid whose state has type `G`. -/
structure BinnedGrid (G : Type) where
  Resize : G → Idx3 → Option G
  Bin : G → List Particle → Option G
  Size : G → Idx3 → Option Int
  Get : G → Idx3 → List (Slice Particle) → Option (List Particle)

/-- `ArrayListGrid` as a `BinnedGrid`. -/
def ArrayListGrid.methods : BinnedGrid ArrayListGrid :=
  { Resize := ArrayListGrid.Resize, Bin := ArrayListGrid.Bin,
    Size := ArrayListGrid.Size, Get := ArrayListGrid.Get }

/-- `NaiveLinkedListGrid` as a `BinnedGrid`. -/
def NaiveLinkedListGrid.methods : BinnedGrid NaiveLinkedListGrid :=
  { Resize := NaiveLinkedListGrid.Resize, Bin := NaiveLinkedListGrid.Bin,
    Size := NaiveLinkedListGrid.Size, Get := NaiveLinkedListGrid.Get }

/-- `LinkedListGrid` as a `BinnedGrid`. -/
def LinkedListGrid.methods : BinnedGrid LinkedListGrid :=
  { Resize := LinkedListGrid.Resize, Bin := LinkedListGrid.Bin,
    Size := LinkedListGrid.Size, Get := LinkedListGrid.Get }

/-- `CountingSortGrid` as a `BinnedGrid`. -/
def CountingSortGrid.methods : BinnedGrid CountingSortGrid :=
  { Resize := CountingSortGrid.Resize, Bin := CountingSortGrid.Bin,
    Size := CountingSortGrid.Size, Get := CountingSortGrid.Get }

/-- `CycleSortGrid` as a `BinnedGrid`. -/
def CycleSortGrid.methods : BinnedGrid CycleSortGrid :=
  { Resize := CycleSortGrid.Resize, Bin := CycleSortGrid.Bin,
    Size := CycleSortGrid.Size, Get := CycleSortGrid.Get }

/-- The calls `Resize(span)` then `Bin(p)` on a grid in the state `g`. -/
def BinnedGrid.resizeBin {G : Type} (I : BinnedGrid G) (g : G) (span : Idx3)
    (p : List Particle) : Option G :=
  match I.Resize g span with
  | none => none
  | some g1 => I.Bin g1 p

/-- Contract of one grid variant, from any state `g`: `Resize(span)` returns a grid all
of whose cells are empty, and after `Bin(p)` every cell of the span holds, in some
order, the input points whose truncated coordinates are the cell, `Size` being
their number. -/
def BinnedGrid.Contract {G : Type} (I : BinnedGrid G) : Prop :=
  ∀ (g : G) (span : Idx3) (p : List Particle), SpanFits span → PointsIn span p →
    (p.length : Int) < 2 ^ 63 →
    ∃ g1 g2, I.Resize g span = some g1 ∧ I.Bin g1 p = some g2 ∧
      ∀ c, InSpan span c → ∀ out,
        I.Size g1 c = some 0 ∧ I.Get g1 c out = some [] ∧
        ∃ l, I.Get g2 c out = some l ∧ l.Perm (pointsOf p c) ∧
          I.Size g2 c = some (l.length : Int)

/-! ## Counting the points of a cell -/

/-- The number of points of `p` whose flat cell index is `j`. -/
def countAt (Dy Dz : Int) (p : List Particle) (j : Int) : Int :=
  ((p.filter (fun pi => decide (flatIndex Dy Dz (cellOf pi) = j))).length : Int)

/-- The number of points of `p` whose flat cell index is below `j`. -/
def countBelow (Dy Dz : Int) (p : List Particle) (j : Int) : Int :=
  ((p.filter (fun pi => decide (flatIndex Dy Dz (cellOf pi) < j))).length : Int)

/-! ## The loop invariant of the cycle sort -/

/-- The state of the sorting loops of `CycleSortGrid.Bin`: the array `arr` holds the
input points `p` in some order, and for every cell `d` the cursor `ends[d]` lies in the
range of the cell, every position of the range below the cursor holding a point of
the cell. The range of the cell `d` is `[countBelow d, countBelow (d + 1))`. -/
def CycleSortGrid.Placed (Dy Dz : Int) (p : List Particle) (n : Int)
    (arr : List Particle) (ends : List Int) : Prop :=
  arr.Perm p ∧ (ends.length : Int) = n ∧
  ∀ d : Int, 0 ≤ d → d < n →
    ∃ e, getI ends d = some e ∧ countBelow Dy Dz p d ≤ e ∧ e ≤ countBelow Dy Dz p (d + 1) ∧
      ∀ x : Int, countBelow Dy Dz p d ≤ x → x < e →
        ∃ q, getI arr x = some q ∧ flatIndex Dy Dz (cellOf q) = d

/-- The number of positions that the cursors `ends` have not passed yet. -/
def CycleSortGrid.room (Dy Dz : Int) (p : List Particle) (ends : List Int) : Int :=
  Finset.sum (Finset.range ends.length)
    (fun d => countBelow Dy Dz p ((d : Int) + 1) - ends.getD d 0)

/-! ## The statements of the grid claims -/

instance SpanFits.instDecidable (span : Idx3) : Decidable (SpanFits span) := by
  unfold SpanFits; infer_instance

instance InSpan.instDecidable (span c : Idx3) : Decidable (InSpan span c) := by
  unfold InSpan; infer_instance

instance PointsIn.instDecidable (span : Idx3) (p : List Particle) :
    Decidable (PointsIn span p) := by
  unfold PointsIn; infer_instance

/-- Every component of the span is positive. -/
def SpanPositive (span : Idx3) : Prop := 0 < span.i0 ∧ 0 < span.i1 ∧ 0 < span.i2

instance SpanPositive.instDecidable (span : Idx3) : Decidable (SpanPositive span) := by
  unfold SpanPositive; infer_instance

/-- Membership: from any state `g`, after `Resize(span)` and `Bin(p)` the call `Get(c)`,
with or without a buffer `out`, returns for every cell `c` of the span a permutation of
the input points whose truncated coordinates are `c`. -/
def BinnedGrid.CellsHoldPoints {G : Type} (I : BinnedGrid G) (span : Idx3)
    (p : List Particle) : Prop :=
  ∀ (g : G) (c : Idx3) (out : List (Slice Particle)), InSpan span c →
    ∃ g2 l, I.resizeBin g span p = some g2 ∧ I.Get g2 c out = some l ∧
      l.Perm (pointsOf p c)

/-- No panic: from any state `g` the calls `Resize(span)` and then `Bin(p)` return, and
`Size(c)` and `Get(c)`, with or without a buffer `out`, return for every cell `c` of the
span, after `Resize` as well as after `Bin`. -/
def BinnedGrid.Infallible {G : Type} (I : BinnedGrid G) (span : Idx3)
    (p : List Particle) : Prop :=
  ∀ g : G, ∃ g1 g2, I.Resize g span = some g1 ∧ I.Bin g1 p = some g2 ∧
    ∀ (c : Idx3) (out : List (Slice Particle)), InSpan span c →
      (∃ n, I.Size g1 c = some n) ∧ (∃ l, I.Get g1 c out = some l) ∧
      (∃ n, I.Size g2 c = some n) ∧ (∃ l, I.Get g2 c out = some l)

/-- The swaps of `CycleSortGrid.Bin`: from any state `g` the calls `Resize(span)` and
`Bin(p)` return, `BinEdges[m]` is then the number of points below the cell `m`, and the
sorting loops start in the state `(p, BinEdges[:n])`, which satisfies the invariant
`Placed` and leaves `len(p)` positions to fill. In every state `(arr, ends)` of the
invariant in which the element `q` at `i = BinEnds[s]`, inside the range of the cell `s`,
belongs to another cell, the swap target `j = BinEnds[dstBin]` lies in the range of the
cell of `q`; the innermost loop goes on with the arrays after the swap, which satisfy
the invariant, hold `q` at `j` and leave one position less to fill. -/
def CycleSortGrid.SwapsInRange (span : Idx3) (p : List Particle) : Prop :=
  ∀ g : CycleSortGrid, ∃ g1 g2, g.Resize span = some g1 ∧ g1.Bin p = some g2 ∧
    (∀ m : Int, 0 ≤ m → m ≤ cellCount span →
      getI g2.BinEdges.elems m = some (countBelow g1.Dy g1.Dz p m)) ∧
    CycleSortGrid.Placed g1.Dy g1.Dz p (cellCount span) p
      (g2.BinEdges.elems.take (cellCount span).toNat) ∧
    CycleSortGrid.room g1.Dy g1.Dz p (g2.BinEdges.elems.take (cellCount span).toNat) =
      (p.length : Int) ∧
    ∀ (s i : Int) (fuel : Nat) (arr : List Particle) (ends : List Int) (q : Particle),
      0 ≤ s → s < cellCount span →
      CycleSortGrid.Placed g1.Dy g1.Dz p (cellCount span) arr ends →
      getI ends s = some i → i < countBelow g1.Dy g1.Dz p (s + 1) →
      getI arr i = some q → flatIndex g1.Dy g1.Dz (cellOf q) ≠ s →
      ∃ (j : Int) (pj : Particle),
        getI ends (flatIndex g1.Dy g1.Dz (cellOf q)) = some j ∧
        countBelow g1.Dy g1.Dz p (flatIndex g1.Dy g1.Dz (cellOf q)) ≤ j ∧
        j < countBelow g1.Dy g1.Dz p (flatIndex g1.Dy g1.Dz (cellOf q) + 1) ∧
        getI arr j = some pj ∧
        CycleSortGrid.swapLoop g1.Dy g1.Dz s i (fuel + 1)
            (flatIndex g1.Dy g1.Dz (cellOf q)) (arr, ends) =
          CycleSortGrid.swapLoop g1.Dy g1.Dz s i fuel (flatIndex g1.Dy g1.Dz (cellOf pj))
            ((arr.set i.toNat pj).set j.toNat q,
              ends.set (flatIndex g1.Dy g1.Dz (cellOf q)).toNat (j + 1)) ∧
        CycleSortGrid.Placed g1.Dy g1.Dz p (cellCount span)
          ((arr.set i.toNat pj).set j.toNat q)
          (ends.set (flatIndex g1.Dy g1.Dz (cellOf q)).toNat (j + 1)) ∧
        getI ((arr.set i.toNat pj).set j.toNat q) j = some q ∧
        CycleSortGrid.room g1.Dy g1.Dz p
            (ends.set (flatIndex g1.Dy g1.Dz (cellOf q)).toNat (j + 1)) =
          CycleSortGrid.room g1.Dy g1.Dz p ends - 1 ∧
        0 ≤ CycleSortGrid.room g1.Dy g1.Dz p
          (ends.set (flatIndex g1.Dy g1.Dz (cellOf q)).toNat (j + 1))

/-- The cells of a span in the order of the loops `for iz { for iy { for ix { ... } } }`
of the tests. -/
def allCells (span : Idx3) : List Idx3 :=
  (List.range span.i2.toNat).flatMap (fun (iz : Nat) =>
    (List.range span.i1.toNat).flatMap (fun (iy : Nat) =>
      (List.range span.i0.toNat).map (fun (ix : Nat) =>
        { i0 := Int.ofNat ix, i1 := Int.ofNat iy, i2 := Int.ofNat iz })))

/-- The sum of `Size(c)` over the cells of a list. -/
def BinnedGrid.totalSize {G : Type} (I : BinnedGrid G) (g : G) : List Idx3 → Option Int
  | [] => some 0
  | c :: cs =>
    match I.Size g c, BinnedGrid.totalSize I g cs with
    | some a, some b => some (a + b)
    | _, _ => none

/-- Count conservation: from any state `g`, after `Resize(span)` and `Bin(p)` the sizes
of all the cells of the span add up to the number of points. -/
def BinnedGrid.SizesSumTo {G : Type} (I : BinnedGrid G) (span : Idx3)
    (p : List Particle) : Prop :=
  ∀ g : G, ∃ g2, I.resizeBin g span p = some g2 ∧
    I.totalSize g2 (allCells span) = some (p.length : Int)

/-- Size agreement: from any state `g`, after `Resize(span)` and `Bin(p)`, for every cell
`c` of the span `Size(c)` is the length of what `Get(c)` returns, with or without a
buffer `out`. -/
def BinnedGrid.SizeIsLength {G : Type} (I : BinnedGrid G) (span : Idx3)
    (p : List Particle) : Prop :=
  ∀ (g : G) (c : Idx3) (out : List (Slice Particle)), InSpan span c →
    ∃ g2 l, I.resizeBin g span p = some g2 ∧ I.Get g2 c out = some l ∧
      I.Size g2 c = some (l.length : Int)

/-- Reset by `Resize`: from any state `g`, whatever calls led to it, `Resize(b)` leaves
every cell of `b` with `Size` 0 and an empty `Get`, and after `Bin(pb)` every cell has
the `Size` and, up to order, the `Get` of the grid `fresh` given the same two calls. -/
def BinnedGrid.ResizeResets {G : Type} (I : BinnedGrid G) (fresh : G) (b : Idx3)
    (pb : List Particle) : Prop :=
  ∀ g : G, ∃ g1 g2 f2, I.Resize g b = some g1 ∧ I.Bin g1 pb = some g2 ∧
    I.resizeBin fresh b pb = some f2 ∧
    ∀ (c : Idx3) (out : List (Slice Particle)), InSpan b c →
      I.Size g1 c = some 0 ∧ I.Get g1 c out = some [] ∧
      ∃ l l1, I.Get g2 c out = some l ∧ I.Get f2 c out = some l1 ∧ l.Perm l1 ∧
        I.Size g2 c = I.Size f2 c

/-- In-place sort of `CycleSortGrid`: from any state `g`, after `Resize(span)` and
`Bin(p)` the caller's array, which is `g.Data`, is a permutation of `p`, its flat cell
indices do not decrease along the array, and the points of the flat cell index `i` sit
exactly at the positions `[BinEdges[i], BinEdges[i+1])`. -/
def CycleSortGrid.SortsInPlace (span : Idx3) (p : List Particle) : Prop :=
  ∀ g : CycleSortGrid, ∃ g2, CycleSortGrid.methods.resizeBin g span p = some g2 ∧
    g2.Data.Perm p ∧
    (∀ (x y : Int) (a b : Particle), x ≤ y → getI g2.Data x = some a →
      getI g2.Data y = some b →
      flatIndex g2.Dy g2.Dz (cellOf a) ≤ flatIndex g2.Dy g2.Dz (cellOf b)) ∧
    ∀ i : Int, 0 ≤ i → i < cellCount span →
      ∃ lo hi, getI g2.BinEdges.elems i = some lo ∧
        getI g2.BinEdges.elems (i + 1) = some hi ∧
        ∀ (k : Int) (q : Particle), getI g2.Data k = some q →
          (flatIndex g2.Dy g2.Dz (cellOf q) = i ↔ lo ≤ k ∧ k < hi)

/-- The lists of `NaiveLinkedListGrid` have the length that `Sizes` records: after
`Resize(span)` and `Bin(p)` the list that starts at `Heads[c]` has exactly `Sizes[c]`
nodes before the nil pointer. -/
def NaiveLinkedListGrid.ChainsMatchSizes (span : Idx3) (p : List Particle) : Prop :=
  ∀ (g : NaiveLinkedListGrid) (c : Idx3), InSpan span c →
    ∃ g2 head s, NaiveLinkedListGrid.methods.resizeBin g span p = some g2 ∧
      getI g2.Heads.elems (flatIndex g2.Dy g2.Dz c) = some head ∧
      getI g2.Sizes.elems (flatIndex g2.Dy g2.Dz c) = some s ∧
      (head.toList.length : Int) = s

/-- The lists of `LinkedListGrid` have the length that `Sizes` records: after
`Resize(span)` and `Bin(p)` the list that starts at `Heads[c]` has exactly `Sizes[c]`
nodes before the index `-1`. -/
def LinkedListGrid.ChainsMatchSizes (span : Idx3) (p : List Particle) : Prop :=
  ∀ (g : LinkedListGrid) (c : Idx3), InSpan span c →
    ∃ g2 head s l, LinkedListGrid.methods.resizeBin g span p = some g2 ∧
      getI g2.Heads.elems (flatIndex g2.Dy g2.Dz c) = some head ∧
      getI g2.Sizes.elems (flatIndex g2.Dy g2.Dz c) = some s ∧
      LinkedListGrid.Chain g2.Data g2.Next.elems (p.length : Int) head l ∧
      (l.length : Int) = s

/-- The points of `TestSmallGrid`, for the span `{2, 3, 2}`. -/
def smallGridPoints : List Particle :=
  [ { ID := 0, X := ⟨mkRat 1 2, mkRat 1 2, mkRat 1 2⟩, V := ⟨0, 0, 0⟩ },
    { ID := 1, X := ⟨mkRat 55 100, mkRat 1 4, mkRat 15 100⟩, V := ⟨0, 0, 0⟩ },
    { ID := 2, X := ⟨mkRat 3 2, 2, 0⟩, V := ⟨0, 0, 0⟩ },
    { ID := 30000, X := ⟨mkRat 12 10, mkRat 19 10, mkRat 11 10⟩, V := ⟨0, 0, 0⟩ },
    { ID := 3, X := ⟨1, 2, 0⟩, V := ⟨0, 0, 0⟩ },
    { ID := 10, X := ⟨1, 1, 1⟩, V := ⟨0, 0, 0⟩ },
    { ID := 9, X := ⟨mkRat 1999 1000, mkRat 2999 1000, mkRat 999 1000⟩, V := ⟨0, 0, 0⟩ } ]

/-- The calls `Resize(span)`, `Bin(p1)` and `Bin(p2)`, with no `Resize` in between, on a
grid in the state `g`. -/
def BinnedGrid.resizeBinBin {G : Type} (I : BinnedGrid G) (g : G) (span : Idx3)
    (p1 p2 : List Particle) : Option G :=
  match I.resizeBin g span p1 with
  | none => none
  | some g2 => I.Bin g2 p2

/-- The method `Size` on the result of a sequence of calls that may have panicked. -/
def BinnedGrid.sizeAfter {G : Type} (I : BinnedGrid G) (g : Option G) (c : Idx3) :
    Option Int :=
  match g with
  | none => none
  | some g1 => I.Size g1 c

/-! ## `float32` arithmetic -/

/-- A `float32` result: a finite value, an infinity or a NaN. The two zeros are not told
apart; no operation of the source does. -/
inductive F32 where
  | fin (q : ℚ)
  | pinf
  | ninf
  | nan
  deriving DecidableEq

/-- One step of the binary search of `F32.shiftOf`: `s + k` if `2^(s+k) ≤ g`, else `s`. -/
def F32.bump (g s k : Nat) : Nat := if 2 ^ (s + k) ≤ g then s + k else s

/-- The greatest `s < 256` with `2^s ≤ g`, and 0 if there is none. -/
def F32.shiftOf (g : Nat) : Nat := [128, 64, 32, 16, 8, 4, 2, 1].foldl (F32.bump g) 0

/-- The quotient `a / b` rounded to the nearest integer, ties to even. -/
def F32.rneDiv (a b : Nat) : Nat :=
  if 2 * (a % b) < b then a / b
  else if b < 2 * (a % b) then a / b + 1
  else if (a / b) % 2 = 0 then a / b else a / b + 1

/-- The magnitude `a / d` rounded to `float32`, in units of `2^(-149)`, the least
positive `float32`. With `f` the magnitude in these units, the spacing of the `float32`
values at `f` is `2^s` where `s` is the greatest number with `2^(23+s) ≤ f` (and 0 below
`2^24`, where the subnormal numbers and the first binade lie). A magnitude from `2^278`
on gives `2^278`; every result from `2^277` on stands for an overflow. -/
def F32.roundMag (a d : Nat) : Nat :=
  let g := a * 2 ^ 149 / d / 2 ^ 23
  if 2 ^ 255 ≤ g then 2 ^ 24 * 2 ^ 254
  else F32.rneDiv (a * 2 ^ 149) (d * 2 ^ F32.shiftOf g) * 2 ^ F32.shiftOf g

/-- The fraction `n / d` rounded to `float32`: to nearest, ties to even, and to an
infinity from `2^128 - 2^103` on. -/
def F32.round (n : Int) (d : Nat) : F32 :=
  if 2 ^ 24 * 2 ^ 253 ≤ F32.roundMag n.natAbs d then (if n < 0 then F32.ninf else F32.pinf)
  else F32.fin (mkRat (if n < 0 then -(F32.roundMag n.natAbs d : Int)
    else (F32.roundMag n.natAbs d : Int)) (2 ^ 149))

/-- A rational number rounded to `float32`. -/
def F32.ofRat (x : ℚ) : F32 := F32.round x.num x.den

/-- The `float32` difference `a - b`. -/
def F32.sub : F32 → F32 → F32
  | F32.fin a, F32.fin b => F32.round (a.num * b.den - b.num * a.den) (a.den * b.den)
  | F32.nan, _ => F32.nan
  | _, F32.nan => F32.nan
  | F32.pinf, F32.pinf => F32.nan
  | F32.ninf, F32.ninf => F32.nan
  | F32.pinf, _ => F32.pinf
  | F32.ninf, _ => F32.ninf
  | F32.fin _, F32.pinf => F32.ninf
  | F32.fin _, F32.ninf => F32.pinf

/-- The `float32` product `a * b`. -/
def F32.mul : F32 → F32 → F32
  | F32.fin a, F32.fin b => F32.round (a.num * b.num) (a.den * b.den)
  | F32.nan, _ => F32.nan
  | _, F32.nan => F32.nan
  | F32.fin a, F32.pinf => if a.num = 0 then F32.nan else if a.num < 0 then F32.ninf else F32.pinf
  | F32.fin a, F32.ninf => if a.num = 0 then F32.nan else if a.num < 0 then F32.pinf else F32.ninf
  | F32.pinf, F32.fin b => if b.num = 0 then F32.nan else if b.num < 0 then F32.ninf else F32.pinf
  | F32.ninf, F32.fin b => if b.num = 0 then F32.nan else if b.num < 0 then F32.pinf else F32.ninf
  | F32.pinf, F32.pinf => F32.pinf
  | F32.ninf, F32.ninf => F32.pinf
  | F32.pinf, F32.ninf => F32.ninf
  | F32.ninf, F32.pinf => F32.ninf

/-- The `float32` sum `a + b`. -/
def F32.add : F32 → F32 → F32
  | F32.fin a, F32.fin b => F32.round (a.num * b.den + b.num * a.den) (a.den * b.den)
  | F32.nan, _ => F32.nan
  | _, F32.nan => F32.nan
  | F32.pinf, F32.ninf => F32.nan
  | F32.ninf, F32.pinf => F32.nan
  | F32.pinf, _ => F32.pinf
  | F32.ninf, _ => F32.ninf
  | F32.fin _, F32.pinf => F32.pinf
  | F32.fin _, F32.ninf => F32.ninf

/-- The comparison `a <= b` of two `float32`: false when one of them is a NaN. -/
def F32.le : F32 → F32 → Bool
  | F32.fin a, F32.fin b => decide (a ≤ b)
  | F32.nan, _ => false
  | _, F32.nan => false
  | F32.ninf, _ => true
  | _, F32.pinf => true
  | F32.pinf, _ => false
  | F32.fin _, F32.ninf => false

/-- The comparison `a < b` of two `float32`: false when one of them is a NaN. -/
def F32.lt : F32 → F32 → Bool
  | F32.fin a, F32.fin b => decide (a < b)
  | F32.nan, _ => false
  | _, F32.nan => false
  | F32.pinf, _ => false
  | _, F32.ninf => false
  | F32.ninf, _ => true
  | F32.fin _, F32.pinf => true

/-! ## The pair finder (`pairs.go`) -/

/-- The call `append(s, v)`: the element goes into the spare room of the array if there
is some, else into a new array, whose spare room is not modelled. -/
def Slice.append {α : Type} (s : Slice α) (v : α) : Slice α :=
  { elems := s.elems ++ [v], spare := s.spare.drop 1 }

/-- The component `v[d]` of a `[3]float32` for an `int64` or `int` index; `none` is the
out-of-range panic. -/
def Vec3.getI (v : Vec3) (d : Int) : Option ℚ :=
  if d < 0 then none else v.get d.toNat

/-- The buffer struct `Pairer`. -/
structure Pairer where
  StopEarly : Bool
  i1 : Slice Int
  i2 : Slice Int

/-- The integers `lo, lo + 1, ..., hi - 1`. -/
def intRange (lo hi : Int) : List Int :=
  (List.range (hi - lo).toNat).map (fun (k : Nat) => lo + Int.ofNat k)

/-- The loop `for k := lo; k < hi; k++ { ... }` whose body changes neither `k` nor `hi`:
the body is run for `k = lo, lo + 1, ..., hi - 1`. The counters of the loops of
`pairs.go` are bounded by the length of a slice, so they do not wrap. -/
def forRange {σ : Type} (lo hi : Int) (body : Int → σ → Option σ) (s : σ) : Option σ :=
  (intRange lo hi).foldlM (fun acc k => body k acc) s

/-- The squared distance `dr2 := dx*dx + dy*dy + dz*dz` of two particles, with
`dx := pi.X[0] - pj.X[0]` and so on, in `float32` arithmetic. -/
def dist2 (pi pj : Particle) : F32 :=
  let dx := F32.sub (F32.fin pi.X.x0) (F32.fin pj.X.x0)
  let dy := F32.sub (F32.fin pi.X.x1) (F32.fin pj.X.x1)
  let dz := F32.sub (F32.fin pi.X.x2) (F32.fin pj.X.x2)
  F32.add (F32.add (F32.mul dx dx) (F32.mul dy dy)) (F32.mul dz dz)

/-- The body of the inner loops: `if dr2 <= r2 { append i to i1 and j to i2 }`. -/
def Pairer.test (r2 : F32) (pi pj : Particle) (i j : Int) (out : Slice Int × Slice Int) :
    Slice Int × Slice Int :=
  if F32.le (dist2 pi pj) r2 then (out.1.append i, out.2.append j) else out

/-- The inner loop `for j := lo; j < hi; j++` over `p1[i]` and `p2[j]`. -/
def Pairer.scan (r2 : F32) (p1 p2 : List Particle) (i lo hi : Int)
    (out : Slice Int × Slice Int) : Option (Slice Int × Slice Int) :=
  forRange lo hi (fun j acc =>
    match getI p1 i, getI p2 j with
    | some pi, some pj => some (Pairer.test r2 pi pj i j acc)
    | _, _ => none) out

/-- The cursor loop
`for ; high < len(p2); high++ { delta := p2[high].X[sortDim] - p1[i].X[sortDim]; if delta > r { break } }`
on `fuel` iterations; the result is the final `high`. -/
def Pairer.advanceHigh (r : ℚ) (sortDim : Int) (p1 p2 : List Particle) (i : Int) :
    Nat → Int → Option Int
  | 0, _ => none
  | fuel + 1, high =>
    if high < (p2.length : Int) then
      match getI p2 high, getI p1 i with
      | some ph, some pi =>
        match Vec3.getI ph.X sortDim, Vec3.getI pi.X sortDim with
        | some a, some b =>
          if F32.lt (F32.fin r) (F32.sub (F32.fin a) (F32.fin b)) then some high
          else Pairer.advanceHigh r sortDim p1 p2 i fuel (high + 1)
        | _, _ => none
      | _, _ => none
    else some high

/-- The cursor loop
`for ; low < len(p2); low++ { delta := p1[i].X[sortDim] - p2[low].X[sortDim]; if delta <= r { break } }`
on `fuel` iterations; the result is the final `low`. -/
def Pairer.advanceLow (r : ℚ) (sortDim : Int) (p1 p2 : List Particle) (i : Int) :
    Nat → Int → Option Int
  | 0, _ => none
  | fuel + 1, low =>
    if low < (p2.length : Int) then
      match getI p1 i, getI p2 low with
      | some pi, some pl =>
        match Vec3.getI pi.X sortDim, Vec3.getI pl.X sortDim with
        | some a, some b =>
          if F32.le (F32.sub (F32.fin a) (F32.fin b)) (F32.fin r) then some low
          else Pairer.advanceLow r sortDim p1 p2 i fuel (low + 1)
        | _, _ => none
      | _, _ => none
    else some low

/-- The method `FindPairsOneCell`; the returned slices are `i1` and `i2` of the new
state. The flag `StopEarly` is not read. Each cursor loop runs on `len(p) + 1` units of
fuel. -/
def Pairer.FindPairsOneCell (pair : Pairer) (p : List Particle) (r : ℚ) (sortDim : Int) :
    Option Pairer :=
  let r2 := F32.mul (F32.fin r) (F32.fin r)
  match pair.i1.upTo 0, pair.i2.upTo 0 with
  | some b1, some b2 =>
    if sortDim = -1 then
      match forRange 0 ((p.length : Int) - 1)
          (fun i acc => Pairer.scan r2 p p i (i + 1) (p.length : Int) acc) (b1, b2) with
      | none => none
      | some out => some { pair with i1 := out.1, i2 := out.2 }
    else
      match forRange 0 ((p.length : Int) - 1)
          (fun i (st : Int × Slice Int × Slice Int) =>
            match Pairer.advanceHigh r sortDim p p i (p.length + 1) st.1 with
            | none => none
            | some high =>
              match Pairer.scan r2 p p i (i + 1) high st.2 with
              | none => none
              | some acc => some (high, acc)) (1, b1, b2) with
      | none => none
      | some st => some { pair with i1 := st.2.1, i2 := st.2.2 }
  | _, _ => none

/-- The method `FindPairsTwoCells`; the returned slices are `i1` and `i2` of the new
state. The flag `StopEarly` is not read. Each cursor loop runs on `len(p2) + 1` units of
fuel. -/
def Pairer.FindPairsTwoCells (pair : Pairer) (p1 p2 : List Particle) (r : ℚ)
    (sortDim : Int) : Option Pairer :=
  let r2 := F32.mul (F32.fin r) (F32.fin r)
  match pair.i1.upTo 0, pair.i2.upTo 0 with
  | some b1, some b2 =>
    if sortDim = -1 then
      match forRange 0 (p1.length : Int)
          (fun i acc => Pairer.scan r2 p1 p2 i 0 (p2.length : Int) acc) (b1, b2) with
      | none => none
      | some out => some { pair with i1 := out.1, i2 := out.2 }
    else
      match forRange 0 (p1.length : Int)
          (fun i (st : Int × Int × Slice Int × Slice Int) =>
            match Pairer.advanceLow r sortDim p1 p2 i (p2.length + 1) st.1 with
            | none => none
            | some low =>
              match Pairer.advanceHigh r sortDim p1 p2 i (p2.length + 1) st.2.1 with
              | none => none
              | some high =>
                match Pairer.scan r2 p1 p2 i low high st.2.2 with
                | none => none
                | some acc => some (low, high, acc)) (0, 0, b1, b2) with
      | none => none
      | some st => some { pair with i1 := st.2.2.1, i2 := st.2.2.2 }
  | _, _ => none

/-- The test `dr2 <= r2` of the inner loops for `p1[i]` and `p2[j]`; false when an index
is out of range. -/
def closeAt (r2 : F32) (p1 p2 : List Particle) (i j : Int) : Bool :=
  match getI p1 i, getI p2 j with
  | some pi, some pj => F32.le (dist2 pi pj) r2
  | _, _ => false

/-- The pairs `(i, j)` with `lo ≤ j < hi` for which `p1[i]` and `p2[j]` pass the test of the
inner loops, by increasing `j`. -/
def Pairer.hits (r2 : F32) (p1 p2 : List Particle) (i lo hi : Int) : List (Int × Int) :=
  ((intRange lo hi).filter (fun j => closeAt r2 p1 p2 i j)).map (fun j => (i, j))

/-- The index pairs `(i, j)` with `0 ≤ i < j < len(p)` whose squared distance, as the
source computes it, is at most `r*r`, in lexicographic order. -/
def oneCellPairs (r : ℚ) (p : List Particle) : List (Int × Int) :=
  (intRange 0 ((p.length : Int) - 1)).flatMap (fun i =>
    Pairer.hits (F32.mul (F32.fin r) (F32.fin r)) p p i (i + 1) (p.length : Int))

/-- The index pairs `(i, j)` with `0 ≤ i < len(p1)` and `0 ≤ j < len(p2)` whose squared
distance, as the source computes it, is at most `r*r`, in lexicographic order. -/
def twoCellPairs (r : ℚ) (p1 p2 : List Particle) : List (Int × Int) :=
  (intRange 0 (p1.length : Int)).flatMap (fun i =>
    Pairer.hits (F32.mul (F32.fin r) (F32.fin r)) p1 p2 i 0 (p2.length : Int))

/-- The coordinate `a.X[dim]`, and 0 when `dim` is not 0, 1 or 2. -/
def Particle.coord (dim : Int) (a : Particle) : ℚ := (Vec3.getI a.X dim).getD 0

/-- The list is sorted ascending along the coordinate `dim`:
`p[k].X[dim] <= p[k+1].X[dim]` for all `k`. -/
def SortedAlong (dim : Int) : List Particle → Prop
  | [] => True
  | [_] => True
  | a :: b :: l => a.coord dim ≤ b.coord dim ∧ SortedAlong dim (b :: l)

/-- The test `delta > r` of the `high` cursor for `p1[i]` and `p2[j]`, with
`delta := p2[j].X[sortDim] - p1[i].X[sortDim]`; false when an index is out of range. -/
def Pairer.beyond (r : ℚ) (sortDim : Int) (p1 p2 : List Particle) (i j : Int) : Bool :=
  match getI p2 j, getI p1 i with
  | some pj, some pi =>
    match Vec3.getI pj.X sortDim, Vec3.getI pi.X sortDim with
    | some a, some b => F32.lt (F32.fin r) (F32.sub (F32.fin a) (F32.fin b))
    | _, _ => false
  | _, _ => false

/-- The negation of the test `delta <= r` of the `low` cursor for `p1[i]` and `p2[j]`,
with `delta := p1[i].X[sortDim] - p2[j].X[sortDim]`; false when an index is out of
range. -/
def Pairer.before (r : ℚ) (sortDim : Int) (p1 p2 : List Particle) (i j : Int) : Bool :=
  match getI p1 i, getI p2 j with
  | some pi, some pj =>
    match Vec3.getI pi.X sortDim, Vec3.getI pj.X sortDim with
    | some a, some b => !(F32.le (F32.sub (F32.fin a) (F32.fin b)) (F32.fin r))
    | _, _ => false
  | _, _ => false

/-- The pairs of `oneCellPairs` whose coordinate gap `p[j].X[dim] - p[i].X[dim]`, as the
source computes it, is not above `r`. -/
def oneCellSlabPairs (r : ℚ) (dim : Int) (p : List Particle) : List (Int × Int) :=
  (intRange 0 ((p.length : Int) - 1)).flatMap (fun i =>
    ((intRange (i + 1) (p.length : Int)).filter (fun j =>
      closeAt (F32.mul (F32.fin r) (F32.fin r)) p p i j && !Pairer.beyond r dim p p i j)).map
      (fun j => (i, j)))

/-- The pairs of `twoCellPairs` whose coordinate gaps `p1[i].X[dim] - p2[j].X[dim]` and
`p2[j].X[dim] - p1[i].X[dim]`, as the source computes them, are not above `r`. -/
def twoCellSlabPairs (r : ℚ) (dim : Int) (p1 p2 : List Particle) : List (Int × Int) :=
  (intRange 0 (p1.length : Int)).flatMap (fun i =>
    ((intRange 0 (p2.length : Int)).filter (fun j =>
      closeAt (F32.mul (F32.fin r) (F32.fin r)) p1 p2 i j &&
        (!Pairer.before r dim p1 p2 i j && !Pairer.beyond r dim p1 p2 i j))).map
      (fun j => (i, j)))

/-- The decision procedure for `SortedAlong`, by recursion on the list. -/
def SortedAlong.decide (dim : Int) : (p : List Particle) → Decidable (SortedAlong dim p)
  | [] => isTrue trivial
  | [_] => isTrue trivial
  | a :: b :: l =>
    match (inferInstance : Decidable (a.coord dim ≤ b.coord dim)),
        SortedAlong.decide dim (b :: l) with
    | isTrue h1, isTrue h2 => isTrue ⟨h1, h2⟩
    | isFalse h1, _ => isFalse (fun h => h1 h.1)
    | _, isFalse h2 => isFalse (fun h => h2 h.2)

instance SortedAlong.instDecidable (dim : Int) (p : List Particle) :
    Decidable (SortedAlong dim p) := SortedAlong.decide dim p

/-- The zero value `Pairer{}`. -/
def Pairer.new : Pairer := { StopEarly := false, i1 := Slice.empty, i2 := Slice.empty }

/-- The pairs `(i1[k], i2[k])` of the two returned slices. -/
def Pairer.pairs (pair : Pairer) : List (Int × Int) := pair.i1.elems.zip pair.i2.elems

/-- The particle at `(x, y, z)`, at rest and with the id 0. -/
def pointAt (x y z : ℚ) : Particle := { ID := 0, X := ⟨x, y, z⟩, V := ⟨0, 0, 0⟩ }

/-- Two points at the distance `2^(-100)` along the first axis; the square of this
distance is below the least positive `float32`. -/
def tinyGapPoints : List Particle := [pointAt 0 0 0, pointAt (mkRat 1 (2 ^ 100)) 0 0]

/-- Four points sorted along the first axis: three on a line at unit steps, and one
more a unit step aside of the last. -/
def linePoints : List Particle :=
  [pointAt 0 0 0, pointAt 1 0 0, pointAt 2 0 0, pointAt 2 1 0]

/-- The squared Euclidean distance of two points, in exact arithmetic. -/
def sqDist (a b : Particle) : ℚ :=
  (a.X.x0 - b.X.x0) * (a.X.x0 - b.X.x0) + (a.X.x1 - b.X.x1) * (a.X.x1 - b.X.x1) +
    (a.X.x2 - b.X.x2) * (a.X.x2 - b.X.x2)

/-- The rational number `q` is a `float32` value: rounding leaves it as it is. -/
def F32.Exact (q : ℚ) : Prop := F32.ofRat q = F32.fin q

instance F32.Exact.instDecidable (q : ℚ) : Decidable (F32.Exact q) := by
  unfold F32.Exact; infer_instance

/-- No operation of `dr2` rounds for the two points: the three differences, their
squares, the sum of the first two squares and the sum of all three are `float32`
values. -/
def ExactDist (a b : Particle) : Prop :=
  F32.Exact (a.X.x0 - b.X.x0) ∧ F32.Exact (a.X.x1 - b.X.x1) ∧ F32.Exact (a.X.x2 - b.X.x2) ∧
  F32.Exact ((a.X.x0 - b.X.x0) * (a.X.x0 - b.X.x0)) ∧
  F32.Exact ((a.X.x1 - b.X.x1) * (a.X.x1 - b.X.x1)) ∧
  F32.Exact ((a.X.x2 - b.X.x2) * (a.X.x2 - b.X.x2)) ∧
  F32.Exact ((a.X.x0 - b.X.x0) * (a.X.x0 - b.X.x0) +
    (a.X.x1 - b.X.x1) * (a.X.x1 - b.X.x1)) ∧
  F32.Exact (sqDist a b)

instance ExactDist.instDecidable (a b : Particle) : Decidable (ExactDist a b) := by
  unfold ExactDist; infer_instance

/-- The origin and a point at the distance `3 * 2^(-76)` from it along the first axis;
the square of this distance, `1.125 * 2^(-149)`, rounds to the least positive `float32`,
`2^(-149)`. -/
def roundedGapPoints : List Particle := [pointAt 0 0 0, pointAt (mkRat 3 (2 ^ 76)) 0 0]

/-- Two points at the same place. -/
def coincidentPoints : List Particle := [pointAt 1 2 3, pointAt 1 2 3]

/-- A `Pairer` whose flag `StopEarly` is set. -/
def Pairer.stopping : Pairer := { StopEarly := true, i1 := Slice.empty, i2 := Slice.empty }

/-! ## Sorting particles (`particle.go`, `pairs.go`)

The sort compares coordinates only, and a comparison with a NaN is false whatever the
other side is. The particles of this section therefore carry `F32` coordinates: finite,
infinite or NaN. -/

/-- A value of type `[3]float32` whose components may be infinite or NaN. -/
structure FloatVec3 where
  x0 : F32
  x1 : F32
  x2 : F32
  deriving DecidableEq

/-- The component `v[d]` of a `[3]float32` for an `int` index; `none` is the out-of-range
panic. -/
def FloatVec3.getI (v : FloatVec3) (d : Int) : Option F32 :=
  if d = 0 then some v.x0 else if d = 1 then some v.x1 else if d = 2 then some v.x2 else none

/-- The struct `Particle` with coordinates that may be infinite or NaN. -/
structure FloatParticle where
  ID : Nat
  X : FloatVec3
  V : FloatVec3
  deriving DecidableEq

/-- A `Vec3`, whose components are finite, as a `FloatVec3`. -/
def Vec3.toFloat (v : Vec3) : FloatVec3 :=
  { x0 := F32.fin v.x0, x1 := F32.fin v.x1, x2 := F32.fin v.x2 }

/-- A `Particle`, whose coordinates are finite, as a `FloatParticle`. -/
def Particle.toFloat (a : Particle) : FloatParticle :=
  { ID := a.ID, X := a.X.toFloat, V := a.V.toFloat }

/-- The comparison `a > b` of two `float32`: false when one of them is a NaN. -/
def F32.gt (a b : F32) : Bool := F32.lt b a

/-- The comparator `ParticleXCmp`. -/
def ParticleXCmp (p1 p2 : FloatParticle) : Int :=
  if F32.lt p1.X.x0 p2.X.x0 then -1 else if F32.gt p1.X.x0 p2.X.x0 then 1 else 0

/-- The comparator `ParticleYCmp`. -/
def ParticleYCmp (p1 p2 : FloatParticle) : Int :=
  if F32.lt p1.X.x1 p2.X.x1 then -1 else if F32.gt p1.X.x1 p2.X.x1 then 1 else 0

/-- The comparator `ParticleZCmp`. -/
def ParticleZCmp (p1 p2 : FloatParticle) : Int :=
  if F32.lt p1.X.x2 p2.X.x2 then -1 else if F32.gt p1.X.x2 p2.X.x2 then 1 else 0

/-- The function `sort3Index`: the result is `(maxi, midi, mini)`. -/
def sort3Index (x y z : F32) (ix iy iz : Int) : Int × Int × Int :=
  if F32.gt x y then
    if F32.gt x z then
      if F32.gt y z then (ix, iy, iz) else (ix, iz, iy)
    else (iz, ix, iy)
  else
    if F32.gt y z then
      if F32.gt x z then (iy, ix, iz) else (iy, iz, ix)
    else (iz, iy, ix)

/-- The comparator is a strict weak ordering of the elements of the slice, as
`slices.SortFunc` requires: "less" is asymmetric, its negation is transitive, and the
sign of `cmp(a, b)` is opposite to the sign of `cmp(b, a)`. -/
def StrictWeakOn (cmp : FloatParticle → FloatParticle → Int) (l : List FloatParticle) :
    Prop :=
  (∀ a ∈ l, ∀ b ∈ l, cmp a b < 0 → ¬ cmp b a < 0) ∧
  (∀ a ∈ l, ∀ b ∈ l, ∀ c ∈ l, cmp c a < 0 → cmp b a < 0 ∨ cmp c b < 0) ∧
  (∀ a ∈ l, ∀ b ∈ l, (0 < cmp a b ↔ cmp b a < 0))

/-- The contract of the library function `slices.SortFunc`, which is not part of the
repository: for a comparator that is a strict weak ordering of the elements of the slice,
the slice is rearranged, and afterwards no element is less than the one before it. The
sort need not be stable. Nothing is assumed of the sort for another comparator. -/
def SortFuncContract
    (sortFunc : (FloatParticle → FloatParticle → Int) → List FloatParticle →
      List FloatParticle) : Prop :=
  ∀ cmp l, StrictWeakOn cmp l →
    (sortFunc cmp l).Perm l ∧ List.Chain' (fun a b => ¬ cmp b a < 0) (sortFunc cmp l)

/-- The method `SortParticles`, over the library function `slices.SortFunc`; the result
is the slice `p` after the call, `none` the panic of `X[dim]` for `dim` out of range. -/
def Pairer.SortParticles
    (sortFunc : (FloatParticle → FloatParticle → Int) → List FloatParticle →
      List FloatParticle)
    (p : List FloatParticle) (dim : Int) : Option (List FloatParticle) :=
  match p with
  | [] => some p
  | [_] => some p
  | [a, b] =>
    match FloatVec3.getI a.X dim, FloatVec3.getI b.X dim with
    | some ka, some kb => if F32.gt ka kb then some [b, a] else some [a, b]
    | _, _ => none
  | [a, b, c] =>
    match FloatVec3.getI a.X dim, FloatVec3.getI b.X dim, FloatVec3.getI c.X dim with
    | some ka, some kb, some kc =>
      match getI p (sort3Index ka kb kc 0 1 2).2.2, getI p (sort3Index ka kb kc 0 1 2).2.1,
          getI p (sort3Index ka kb kc 0 1 2).1 with
      | some pmin, some pmid, some pmax => some [pmin, pmid, pmax]
      | _, _, _ => none
    | _, _, _ => none
  | _ =>
    if dim = 0 then some (sortFunc ParticleXCmp p)
    else if dim = 1 then some (sortFunc ParticleYCmp p)
    else if dim = 2 then some (sortFunc ParticleZCmp p)
    else some p

/-- The coordinate `a.X[dim]`, and a NaN when `dim` is not 0, 1 or 2. -/
def FloatParticle.coord (dim : Int) (a : FloatParticle) : F32 :=
  (FloatVec3.getI a.X dim).getD F32.nan

/-- No particle of the list has a NaN for its coordinate `dim`. -/
def NoNaNAlong (dim : Int) (p : List FloatParticle) : Prop :=
  ∀ a ∈ p, FloatParticle.coord dim a ≠ F32.nan

instance NoNaNAlong.instDecidable (dim : Int) (p : List FloatParticle) :
    Decidable (NoNaNAlong dim p) := by
  unfold NoNaNAlong; infer_instance

/-- An insertion sort by the comparator, one function that meets the contract of
`slices.SortFunc`. -/
def insertionSortFunc (cmp : FloatParticle → FloatParticle → Int) (l : List FloatParticle) :
    List FloatParticle :=
  l.insertionSort (fun a b => ¬ cmp b a < 0)

/-- The particle at `(x, y, z)`, at rest and with the id `n`, for coordinates that may
be infinite or NaN. -/
def floatPointAt (n : Nat) (x y z : F32) : FloatParticle :=
  { ID := n, X := ⟨x, y, z⟩, V := ⟨F32.fin 0, F32.fin 0, F32.fin 0⟩ }

/-- Five points that are not sorted along the first axis, two of them at infinity. -/
def shuffledPoints : List FloatParticle :=
  [floatPointAt 0 (F32.fin 2) (F32.fin 0) (F32.fin 0),
    floatPointAt 1 F32.pinf (F32.fin 0) (F32.fin 0),
    floatPointAt 2 (F32.fin 0) (F32.fin 0) (F32.fin 0),
    floatPointAt 3 F32.ninf (F32.fin 0) (F32.fin 0),
    floatPointAt 4 (F32.fin 1) (F32.fin 0) (F32.fin 0)]

/-- Three points with the first coordinates 2, NaN and 1. -/
def nanPoints : List FloatParticle :=
  [floatPointAt 0 (F32.fin 2) (F32.fin 0) (F32.fin 0),
    floatPointAt 1 F32.nan (F32.fin 0) (F32.fin 0),
    floatPointAt 2 (F32.fin 1) (F32.fin 0) (F32.fin 0)]

/-! ## Friends of friends (`fof.go`) -/

/-- The inner loop of the first loop of `FOF` for the point `i`:
`idx := f.Find(x[i], r); for _, j := range idx { if i == j { continue }; uf.Union(i, j) }`.
The neighbour finder `f` is not part of the sources; `find q` stands for the call
`f.Find(q, r)` on the finder that `NewFinder(L, x, nGrid)` returns. -/
def FOF.link (find : Vec3 → List Int) (x : List Vec3) (i : Int) (uf : UnionFinder) :
    Option UnionFinder :=
  match getI x i with
  | none => none
  | some xi => (find xi).foldlM (fun acc j => if i = j then some acc else acc.Union i j) uf

/-- The body of the second loop of `FOF`:
`groups[i] = uf.Find(int32(i)); if uf.Size[groups[i]] < int32(nMin) { groups[i] = -1 }`,
with `nMin32` for `int32(nMin)`. -/
def FOF.label (nMin32 : Int) (i : Int) (st : List Int × UnionFinder) :
    Option (List Int × UnionFinder) :=
  match st.2.Find (wrap32 i) with
  | none => none
  | some (root, uf1) =>
    match setI st.1 i root with
    | none => none
    | some groups =>
      match getI uf1.Size root with
      | none => none
      | some size =>
        if size < nMin32 then
          match setI groups i (-1) with
          | none => none
          | some groups1 => some (groups1, uf1)
        else some (groups, uf1)

/-- The body of the third loop of `FOF`:
`idx := f.Find(cen[i], r); if len(idx) == 0 { cenGroups[i] = -1 } else { cenGroups[i] = groups[idx[0]] }`. -/
def FOF.probe (find : Vec3 → List Int) (cen : List Vec3) (groups : List Int) (i : Int)
    (cenGroups : List Int) : Option (List Int) :=
  match getI cen i with
  | none => none
  | some c =>
    match find c with
    | [] => setI cenGroups i (-1)
    | k :: _ =>
      match getI groups k with
      | none => none
      | some g => setI cenGroups i g

/-- The function `FOF`, over the neighbour finder: the result is `(groups, cenGroups)`.
The arguments `L`, `r` and `nGrid` of the source only reach the finder. -/
def FOF (find : Vec3 → List Int) (x cen : List Vec3) (nMin : Int) :
    Option (List Int × List Int) :=
  (NewUnionFinder (wrap32 (x.length : Int))).bind fun uf0 =>
  (forRange 0 (wrap32 (x.length : Int)) (FOF.link find x) uf0).bind fun uf1 =>
  (forRange 0 (x.length : Int) (FOF.label (wrap32 nMin))
      (List.replicate x.length 0, uf1)).bind fun st =>
  (forRange 0 (cen.length : Int) (FOF.probe find cen st.1)
      (List.replicate cen.length 0)).bind fun cenGroups =>
  some (st.1, cenGroups)

/-- The points `a` and `b` of `x` are within the linking length of each other, for the
relation `within` that the neighbour finder decides. -/
def Linked (within : Vec3 → Vec3 → Prop) (x : List Vec3) (a b : Int) : Prop :=
  ∃ xa xb, getI x a = some xa ∧ getI x b = some xb ∧ within xa xb

/-- The points `a` and `b` are joined by a chain of points each within the linking
length of the next. -/
def ChainConnected (within : Vec3 → Vec3 → Prop) (x : List Vec3) (a b : Int) : Prop :=
  Relation.EqvGen (Linked within x) a b

/-- The assumption on the neighbour finder: for a query position it returns exactly the
indices of the points of `x` within the linking length of it. -/
def FinderExact (find : Vec3 → List Int) (within : Vec3 → Vec3 → Prop) (x : List Vec3) :
    Prop :=
  ∀ (q : Vec3) (j : Int), j ∈ find q ↔ ∃ xj, getI x j = some xj ∧ within q xj

/-- Modelled from the spec: the distance test of the neighbour finder, "test each
candidate j against the true distance r": the squared distance of `q` and `a` is at most
`r*r`. -/
def withinLength (r : ℚ) (q a : Vec3) : Bool :=
  decide ((q.x0 - a.x0) * (q.x0 - a.x0) + (q.x1 - a.x1) * (q.x1 - a.x1) +
    (q.x2 - a.x2) * (q.x2 - a.x2) ≤ r * r)

/-- Modelled from the spec: the call `f.Find(q, r)` on the finder that
`NewFinder(L, x, nGrid)` returns, which is not part of the sources: the indices of the
points of `x` within the linking length of `q`, in increasing order. -/
def Finder.Find (x : List Vec3) (r : ℚ) (q : Vec3) : List Int :=
  (intRange 0 (x.length : Int)).filter (fun j =>
    match getI x j with
    | some a => withinLength r q a
    | none => false)

/-- Three points on a line: two at unit distance and one far from both. -/
def pairAndLoner : List Vec3 := [⟨0, 0, 0⟩, ⟨1, 0, 0⟩, ⟨5, 0, 0⟩]


/-! ## Integer and slice lemmas -/

theorem wrap64_of_fits {x : Int} (h0 : -2 ^ 63 ≤ x) (h1 : x < 2 ^ 63) : wrap64 x = x := by
  unfold wrap64
  norm_num at h0 h1 ⊢
  omega

theorem wrap64_of_nonneg {x : Int} (h0 : 0 ≤ x) (h1 : x < 2 ^ 63) : wrap64 x = x :=
  wrap64_of_fits (by norm_num; omega) h1

theorem getI_of_lt {α : Type} (l : List α) (i : Int) (h0 : 0 ≤ i) (h1 : i < l.length) :
    ∃ v, getI l i = some v := by
  have h2 : i.toNat < l.length := by omega
  exact ⟨l[i.toNat], by simp [getI, h0, List.getElem?_eq_getElem h2]⟩

theorem setI_of_lt {α : Type} (l : List α) (i : Int) (v : α) (h0 : 0 ≤ i) (h1 : i < l.length) :
    setI l i v = some (l.set i.toNat v) := by
  have h2 : i.toNat < l.length := by omega
  simp [setI, h0, h2]

theorem getI_set {α : Type} (l : List α) (i j : Int) (v : α) (h0 : 0 ≤ i) (h1 : i < l.length)
    (hj : 0 ≤ j) :
    getI (l.set i.toNat v) j = if j = i then some v else getI l j := by
  have h2 : i.toNat < l.length := by omega
  have hj0 : ¬ j < 0 := by omega
  unfold getI
  simp only [hj0, if_false]
  rw [List.getElem?_set]
  by_cases hij : j = i
  · subst hij; simp [h2]
  · have : i.toNat ≠ j.toNat := by omega
    simp [hij, this]
/-! ## Arithmetic of the flat cell index -/

theorem cellCount_eq {span : Idx3} (h : SpanFits span) :
    cellCount span = span.i0 * span.i1 * span.i2 := by
  obtain ⟨h0, h1, h2, h3⟩ := h
  unfold cellCount mul64
  rcases eq_or_lt_of_le h2 with hz | hz
  · rw [← hz]; simp [wrap64]
  · have h4 : span.i0 * span.i1 ≤ span.i0 * span.i1 * span.i2 := by
      have := mul_le_mul_of_nonneg_left (show (1 : Int) ≤ span.i2 by omega)
        (mul_nonneg h0 h1)
      linarith
    rw [wrap64_of_nonneg (mul_nonneg h0 h1) (by linarith),
      wrap64_of_nonneg (mul_nonneg (mul_nonneg h0 h1) h2) (by linarith)]

theorem cellCount_nonneg {span : Idx3} (h : SpanFits span) : 0 ≤ cellCount span := by
  rw [cellCount_eq h]
  exact mul_nonneg (mul_nonneg h.1 h.2.1) h.2.2.1

theorem cellCount_lt {span : Idx3} (h : SpanFits span) : cellCount span < 2 ^ 63 - 1 := by
  rw [cellCount_eq h]
  exact h.2.2.2

theorem stride_eq {span c : Idx3} (h : SpanFits span) (hc : InSpan span c) :
    mul64 span.i0 span.i1 = span.i0 * span.i1 := by
  obtain ⟨h0, h1, h2, h3⟩ := h
  obtain ⟨-, -, hc2, hc3⟩ := hc
  have h4 : span.i0 * span.i1 ≤ span.i0 * span.i1 * span.i2 := by
    have := mul_le_mul_of_nonneg_left (show (1 : Int) ≤ span.i2 by omega)
      (mul_nonneg h0 h1)
    linarith
  exact wrap64_of_nonneg (mul_nonneg h0 h1) (by linarith)

/-- The flat index over the integers, without overflow. -/
theorem flat_bounds {span c : Idx3} (h : SpanFits span) (hc : InSpan span c) :
    0 ≤ c.i1 * span.i0 ∧ 0 ≤ c.i2 * (span.i0 * span.i1) ∧
    c.i0 + c.i1 * span.i0 < span.i0 * span.i1 ∧
    c.i0 + c.i1 * span.i0 + c.i2 * (span.i0 * span.i1) < span.i0 * span.i1 * span.i2 := by
  obtain ⟨h0, h1, h2, h3⟩ := h
  obtain ⟨⟨a0, a1⟩, ⟨b0, b1⟩, c0, c1⟩ := hc
  have e1 : c.i1 * span.i0 ≤ (span.i1 - 1) * span.i0 :=
    mul_le_mul_of_nonneg_right (by omega) h0
  have e2 : c.i2 * (span.i0 * span.i1) ≤ (span.i2 - 1) * (span.i0 * span.i1) :=
    mul_le_mul_of_nonneg_right (by omega) (mul_nonneg h0 h1)
  refine ⟨mul_nonneg b0 h0, mul_nonneg c0 (mul_nonneg h0 h1), ?_, ?_⟩
  · nlinarith
  · nlinarith

theorem flatIndex_eq {span c : Idx3} (h : SpanFits span) (hc : InSpan span c) :
    flatIndex span.i0 (span.i0 * span.i1) c
      = c.i0 + c.i1 * span.i0 + c.i2 * (span.i0 * span.i1) := by
  obtain ⟨f1, f2, f3, f4⟩ := flat_bounds h hc
  have h4 : span.i0 * span.i1 ≤ span.i0 * span.i1 * span.i2 := by
    have := mul_le_mul_of_nonneg_left (show (1 : Int) ≤ span.i2 by have := hc.2.2; omega)
      (mul_nonneg h.1 h.2.1)
    linarith
  have h5 := h.2.2.2
  have a0 := hc.1.1
  unfold flatIndex add64 mul64
  have w1 : wrap64 (c.i1 * span.i0) = c.i1 * span.i0 :=
    wrap64_of_nonneg f1 (by linarith)
  have w2 : wrap64 (c.i2 * (span.i0 * span.i1)) = c.i2 * (span.i0 * span.i1) :=
    wrap64_of_nonneg f2 (by linarith)
  have w3 : wrap64 (c.i0 + c.i1 * span.i0) = c.i0 + c.i1 * span.i0 :=
    wrap64_of_nonneg (by linarith) (by linarith)
  rw [w1, w2, w3]
  exact wrap64_of_nonneg (by linarith) (by linarith)

theorem flatIndex_range {span c : Idx3} (h : SpanFits span) (hc : InSpan span c) :
    0 ≤ flatIndex span.i0 (span.i0 * span.i1) c ∧
    flatIndex span.i0 (span.i0 * span.i1) c < cellCount span := by
  rw [flatIndex_eq h hc, cellCount_eq h]
  obtain ⟨f1, f2, f3, f4⟩ := flat_bounds h hc
  have a0 := hc.1.1
  exact ⟨by linarith, f4⟩

theorem flatIndex_inj {span c d : Idx3} (h : SpanFits span) (hc : InSpan span c)
    (hd : InSpan span d)
    (e : flatIndex span.i0 (span.i0 * span.i1) c = flatIndex span.i0 (span.i0 * span.i1) d) :
    c = d := by
  rw [flatIndex_eq h hc, flatIndex_eq h hd] at e
  obtain ⟨⟨a0, a1⟩, ⟨b0, b1⟩, c0, c1⟩ := hc
  obtain ⟨⟨a0', a1'⟩, ⟨b0', b1'⟩, c0', c1'⟩ := hd
  have k1 : c.i0 - d.i0 = 0 := by
    apply Int.eq_zero_of_abs_lt_dvd (m := span.i0)
    · exact ⟨(d.i1 - c.i1) + (d.i2 - c.i2) * span.i1, by linear_combination e⟩
    · rw [abs_lt]; constructor <;> omega
  have k1' : c.i0 = d.i0 := by omega
  have hs0 : 0 < span.i0 := by omega
  have e2 : c.i1 + c.i2 * span.i1 = d.i1 + d.i2 * span.i1 := by
    have : span.i0 * (c.i1 + c.i2 * span.i1) = span.i0 * (d.i1 + d.i2 * span.i1) := by
      linear_combination e - k1
    exact mul_left_cancel₀ (ne_of_gt hs0) this
  have k2 : c.i1 - d.i1 = 0 := by
    apply Int.eq_zero_of_abs_lt_dvd (m := span.i1)
    · exact ⟨d.i2 - c.i2, by linear_combination e2⟩
    · rw [abs_lt]; constructor <;> omega
  have k2' : c.i1 = d.i1 := by omega
  have hs1 : 0 < span.i1 := by omega
  have k3 : c.i2 = d.i2 := by
    have : span.i1 * c.i2 = span.i1 * d.i2 := by linear_combination e2 - k2
    exact mul_left_cancel₀ (ne_of_gt hs1) this
  cases c; cases d; simp_all
theorem growTo_spec {α : Type} (s : Slice α) (n : Int) (zero : α) (h : 0 ≤ n) :
    ∃ t, s.growTo n n zero = some t ∧ (t.elems.length : Int) = n := by
  have h0 : ¬ n < 0 := by omega
  unfold Slice.growTo Slice.grow Slice.upTo
  simp only [h0, if_false]
  have hle : n.toNat ≤ s.elems.length
      + (s.spare ++ List.replicate (n.toNat - s.spare.length) zero).length := by
    simp only [List.length_append, List.length_replicate]
    omega
  rw [if_pos hle]
  refine ⟨_, rfl, ?_⟩
  simp only [List.length_take, List.length_append, List.length_replicate]
  omega

theorem getI_replicate {α : Type} (n : Nat) (v : α) (j : Int) (h0 : 0 ≤ j) (h1 : j < n) :
    getI (List.replicate n v) j = some v := by
  have : j.toNat < n := by omega
  simp [getI, h0, List.getElem?_replicate, this]

theorem map_const_eq_replicate {α β : Type} (l : List α) (v : β) :
    l.map (fun _ => v) = List.replicate l.length v := by
  induction l with
  | nil => rfl
  | cons a l ih => simp [List.replicate_succ, ih]

/-! ## ArrayListGrid -/

theorem arrayList_Resize_spec (g : ArrayListGrid) {span : Idx3} (h : SpanFits span) :
    ∃ g1, g.Resize span = some g1 ∧ g1.Dy = span.i0 ∧ g1.Dz = mul64 span.i0 span.i1 ∧
      g1.Data.elems = List.replicate (cellCount span).toNat [] := by
  obtain ⟨t, ht, hlen⟩ := growTo_spec g.Data (cellCount span) [] (cellCount_nonneg h)
  delta ArrayListGrid.Resize
  simp only [ht]
  refine ⟨_, rfl, rfl, rfl, ?_⟩
  simp only [map_const_eq_replicate]
  congr 1
  omega

theorem arrayList_binStep_spec (g : ArrayListGrid) (pi : Particle)
    (h0 : 0 ≤ flatIndex g.Dy g.Dz (cellOf pi))
    (h1 : flatIndex g.Dy g.Dz (cellOf pi) < g.Data.elems.length) :
    ∃ g1, g.binStep pi = some g1 ∧ g1.Dy = g.Dy ∧ g1.Dz = g.Dz ∧
      g1.Data.elems.length = g.Data.elems.length ∧
      ∀ j : Int, 0 ≤ j →
        getI g1.Data.elems j = (getI g.Data.elems j).map
          (fun cell => if j = flatIndex g.Dy g.Dz (cellOf pi) then cell ++ [pi] else cell) := by
  obtain ⟨cell, hcell⟩ := getI_of_lt _ _ h0 h1
  delta ArrayListGrid.binStep
  simp only [hcell, setI_of_lt _ _ _ h0 h1]
  refine ⟨_, rfl, rfl, rfl, by simp, ?_⟩
  intro j hj
  simp only [getI_set _ _ _ _ h0 h1 hj]
  by_cases hji : j = flatIndex g.Dy g.Dz (cellOf pi)
  · subst hji; simp [hcell]
  · simp only [hji, if_false]
    cases getI g.Data.elems j <;> simp

theorem arrayList_Bin_spec (p : List Particle) : ∀ (g : ArrayListGrid),
    (∀ pi ∈ p, 0 ≤ flatIndex g.Dy g.Dz (cellOf pi) ∧
      flatIndex g.Dy g.Dz (cellOf pi) < g.Data.elems.length) →
    ∃ g1, g.Bin p = some g1 ∧ g1.Dy = g.Dy ∧ g1.Dz = g.Dz ∧
      g1.Data.elems.length = g.Data.elems.length ∧
      ∀ j : Int, 0 ≤ j →
        getI g1.Data.elems j = (getI g.Data.elems j).map
          (fun cell => cell ++ p.filter (fun pi => decide (flatIndex g.Dy g.Dz (cellOf pi) = j))) := by
  induction p with
  | nil =>
    intro g _
    refine ⟨g, rfl, rfl, rfl, rfl, ?_⟩
    intro j _
    cases getI g.Data.elems j <;> simp
  | cons pi p ih =>
    intro g hp
    obtain ⟨g1, e1, hy, hz, hl, hget⟩ :=
      arrayList_binStep_spec g pi (hp pi (List.mem_cons_self _ _)).1
        (hp pi (List.mem_cons_self _ _)).2
    obtain ⟨g2, e2, hy2, hz2, hl2, hget2⟩ := ih g1 (by
      intro q hq
      rw [hy, hz, hl]
      exact hp q (List.mem_cons_of_mem _ hq))
    refine ⟨g2, ?_, hy2.trans hy, hz2.trans hz, hl2.trans hl, ?_⟩
    · simp only [ArrayListGrid.Bin, List.foldlM_cons, e1]
      exact e2
    · intro j hj
      rw [hget2 j hj, hget j hj, hy, hz]
      cases getI g.Data.elems j with
      | none => rfl
      | some cell =>
        simp only [Option.map_some', List.filter_cons]
        by_cases hji : j = flatIndex g.Dy g.Dz (cellOf pi)
        · subst hji; simp
        · have : ¬ flatIndex g.Dy g.Dz (cellOf pi) = j := fun e => hji e.symm
          simp [hji, this]
theorem wrap64_add_wrap64 (a b : Int) : wrap64 (wrap64 a + b) = wrap64 (a + b) := by
  unfold wrap64
  norm_num
  omega

theorem add64_wrap64 (a b : Int) : add64 (wrap64 a) b = wrap64 (a + b) :=
  wrap64_add_wrap64 a b

theorem wrap64_idem (a : Int) : wrap64 (wrap64 a) = wrap64 a := by
  have := wrap64_add_wrap64 a 0
  simpa using this

theorem wrap64_add_congr {a b : Int} (c : Int) (h : wrap64 a = wrap64 b) :
    wrap64 (a + c) = wrap64 (b + c) := by
  rw [← wrap64_add_wrap64 a, h, wrap64_add_wrap64]

theorem wrap64_zero : wrap64 0 = 0 := by with_unfolding_all decide

/-! ## NaiveLinkedListGrid -/

theorem resetHeads_spec {α : Type} (v : α) (heads : List α) (sizes : List Int)
    (h : heads.length = sizes.length) :
    resetHeads v heads sizes
      = some (List.replicate sizes.length v, List.replicate sizes.length 0) := by
  unfold resetHeads
  rw [if_pos (le_of_eq h.symm), ← h, List.drop_length, List.append_nil,
    map_const_eq_replicate, h]

theorem naiveList_Resize_spec (g : NaiveLinkedListGrid) {span : Idx3}
    (h : SpanFits span) :
    ∃ g1, g.Resize span = some g1 ∧ g1.Dy = span.i0 ∧ g1.Dz = mul64 span.i0 span.i1 ∧
      g1.Heads.elems = List.replicate (cellCount span).toNat ListNode.null ∧
      g1.Sizes.elems = List.replicate (cellCount span).toNat 0 := by
  obtain ⟨t, ht, hlen⟩ := growTo_spec g.Heads (cellCount span) ListNode.null (cellCount_nonneg h)
  obtain ⟨u, hu, hlen2⟩ := growTo_spec g.Sizes (cellCount span) 0 (cellCount_nonneg h)
  have e : t.elems.length = u.elems.length := by omega
  delta NaiveLinkedListGrid.Resize
  simp only [ht, hu, resetHeads_spec _ _ _ e]
  have e2 : u.elems.length = (cellCount span).toNat := by omega
  exact ⟨_, rfl, rfl, rfl, by simp only [e2], by simp only [e2]⟩

theorem naiveList_fill_spec : ∀ (head : ListNode) (buf : List Particle),
    buf.length = head.toList.length → NaiveLinkedListGrid.fill head buf = some head.toList
  | ListNode.null, [], _ => rfl
  | ListNode.null, _ :: _, h => by simp [ListNode.toList] at h
  | ListNode.node P next, [], h => by simp [ListNode.toList] at h
  | ListNode.node P next, _ :: rest, h => by
    have h2 : rest.length = next.toList.length := by
      simpa [ListNode.toList] using h
    simp [NaiveLinkedListGrid.fill, naiveList_fill_spec next rest h2, ListNode.toList]

theorem naiveList_binStep_spec (g : NaiveLinkedListGrid) (pi : Particle)
    (h0 : 0 ≤ flatIndex g.Dy g.Dz (cellOf pi))
    (h1 : flatIndex g.Dy g.Dz (cellOf pi) < g.Heads.elems.length)
    (h2 : g.Sizes.elems.length = g.Heads.elems.length) :
    ∃ g1, g.binStep pi = some g1 ∧ g1.Dy = g.Dy ∧ g1.Dz = g.Dz ∧
      g1.Heads.elems.length = g.Heads.elems.length ∧
      g1.Sizes.elems.length = g.Sizes.elems.length ∧
      ∀ j : Int, 0 ≤ j →
        (getI g1.Heads.elems j = (getI g.Heads.elems j).map
          (fun head => if j = flatIndex g.Dy g.Dz (cellOf pi)
            then ListNode.node pi head else head)) ∧
        (getI g1.Sizes.elems j = (getI g.Sizes.elems j).map
          (fun s => if j = flatIndex g.Dy g.Dz (cellOf pi) then add64 s 1 else s)) := by
  have h3 : flatIndex g.Dy g.Dz (cellOf pi) < g.Sizes.elems.length := by omega
  obtain ⟨head, hhead⟩ := getI_of_lt _ _ h0 h1
  obtain ⟨s, hs⟩ := getI_of_lt _ _ h0 h3
  delta NaiveLinkedListGrid.binStep
  simp only [hhead, hs, setI_of_lt _ _ _ h0 h1,
    setI_of_lt _ _ _ h0 h3]
  refine ⟨_, rfl, rfl, rfl, by simp, by simp, ?_⟩
  intro j hj
  simp only [getI_set _ _ _ _ h0 h1 hj, getI_set _ _ _ _ h0 h3 hj]
  by_cases hji : j = flatIndex g.Dy g.Dz (cellOf pi)
  · subst hji; simp [hhead, hs]
  · simp only [hji, if_false]
    constructor
    · cases getI g.Heads.elems j <;> simp
    · cases getI g.Sizes.elems j <;> simp

theorem naiveList_Bin_spec (p : List Particle) : ∀ (g : NaiveLinkedListGrid),
    g.Sizes.elems.length = g.Heads.elems.length →
    (∀ pi ∈ p, 0 ≤ flatIndex g.Dy g.Dz (cellOf pi) ∧
      flatIndex g.Dy g.Dz (cellOf pi) < g.Heads.elems.length) →
    (∀ (j : Int) (s : Int), 0 ≤ j → getI g.Sizes.elems j = some s → wrap64 s = s) →
    ∃ g1, g.Bin p = some g1 ∧ g1.Dy = g.Dy ∧ g1.Dz = g.Dz ∧
      g1.Heads.elems.length = g.Heads.elems.length ∧
      g1.Sizes.elems.length = g.Sizes.elems.length ∧
      ∀ j : Int, 0 ≤ j →
        ((getI g1.Heads.elems j).map ListNode.toList = (getI g.Heads.elems j).map
          (fun head => (p.filter (fun pi =>
            decide (flatIndex g.Dy g.Dz (cellOf pi) = j))).reverse ++ head.toList)) ∧
        (getI g1.Sizes.elems j = (getI g.Sizes.elems j).map
          (fun s => wrap64 (s + (p.filter (fun pi =>
            decide (flatIndex g.Dy g.Dz (cellOf pi) = j))).length))) := by
  induction p with
  | nil =>
    intro g _ _ hw
    refine ⟨g, rfl, rfl, rfl, rfl, rfl, ?_⟩
    intro j hj
    constructor
    · cases getI g.Heads.elems j <;> simp
    · cases hs : getI g.Sizes.elems j with
      | none => rfl
      | some s => simp [hw j s hj hs]
  | cons pi p ih =>
    intro g hl hp hw
    obtain ⟨g1, e1, hy, hz, hl1, hl1', hget⟩ :=
      naiveList_binStep_spec g pi (hp pi (List.mem_cons_self _ _)).1
        (hp pi (List.mem_cons_self _ _)).2 hl
    obtain ⟨g2, e2, hy2, hz2, hl2, hl2', hget2⟩ := ih g1 (by omega) (by
      intro q hq
      rw [hy, hz, hl1]
      exact hp q (List.mem_cons_of_mem _ hq)) (by
      intro j s hj hs
      rw [(hget j hj).2] at hs
      cases hs0 : getI g.Sizes.elems j with
      | none => rw [hs0] at hs; cases hs
      | some s0 =>
        rw [hs0] at hs
        simp only [Option.map_some', Option.some.injEq] at hs
        rw [← hs]
        split
        · exact wrap64_idem _
        · exact hw j s0 hj hs0)
    refine ⟨g2, ?_, hy2.trans hy, hz2.trans hz, hl2.trans hl1, hl2'.trans hl1', ?_⟩
    · simp only [NaiveLinkedListGrid.Bin, List.foldlM_cons, e1]
      exact e2
    · intro j hj
      rw [(hget2 j hj).1, (hget2 j hj).2, (hget j hj).1, (hget j hj).2, hy, hz]
      constructor
      · cases getI g.Heads.elems j with
        | none => rfl
        | some head =>
          simp only [Option.map_some', List.filter_cons]
          by_cases hji : j = flatIndex g.Dy g.Dz (cellOf pi)
          · subst hji; simp [ListNode.toList]
          · have : ¬ flatIndex g.Dy g.Dz (cellOf pi) = j := fun e => hji e.symm
            simp [hji, this]
      · cases getI g.Sizes.elems j with
        | none => rfl
        | some s =>
          simp only [Option.map_some', List.filter_cons]
          by_cases hji : j = flatIndex g.Dy g.Dz (cellOf pi)
          · subst hji
            simp only [if_true, decide_True, List.length_cons, add64, Nat.cast_add,
              Nat.cast_one]
            rw [wrap64_add_wrap64]
            congr 2
            ring
          · have : ¬ flatIndex g.Dy g.Dz (cellOf pi) = j := fun e => hji e.symm
            simp [hji, this]
/-! ## LinkedListGrid -/

theorem linkedList_Chain_fill (data : List Particle) (next : List Int) (m : Int) :
    ∀ (l : List Particle) (head : Int) (buf : List Particle),
    LinkedListGrid.Chain data next m head l → buf.length = l.length →
    LinkedListGrid.fill data next head buf = some l
  | [], _, [], _, _ => rfl
  | [], _, _ :: _, _, h => by simp at h
  | _ :: _, _, [], _, h => by simp at h
  | P :: l, head, _ :: rest, hc, h => by
    obtain ⟨-, -, hP, nx, hnx, hrest⟩ := hc
    have h2 : rest.length = l.length := by simpa using h
    simp [LinkedListGrid.fill, hP, hnx, linkedList_Chain_fill data next m l nx rest hrest h2]

theorem linkedList_Chain_set (data : List Particle) (next : List Int) (m m1 : Int)
    (i : Int) (v : Int) (hm : m ≤ i) (hm1 : m ≤ m1) (hi : i < next.length) :
    ∀ (l : List Particle) (head : Int),
    LinkedListGrid.Chain data next m head l →
    LinkedListGrid.Chain data (next.set i.toNat v) m1 head l
  | [], _, h => h
  | P :: l, head, hc => by
    obtain ⟨h0, h1, hP, nx, hnx, hrest⟩ := hc
    refine ⟨h0, by omega, hP, nx, ?_, linkedList_Chain_set data next m m1 i v hm hm1 hi l nx hrest⟩
    rw [getI_set _ _ _ _ (by omega) hi h0, if_neg (by omega)]
    exact hnx

theorem getI_append_length {α : Type} (l r : List α) (a : α) :
    getI (l ++ a :: r) (l.length : Int) = some a := by
  have : (l ++ a :: r)[l.length]? = some a := by
    rw [List.getElem?_append_right (le_refl _)]
    simp
  simpa [getI] using this

theorem linkedList_binStep_spec (g : LinkedListGrid) (done rest : List Particle)
    (pi : Particle) (hd : g.Data = done ++ pi :: rest)
    (hnx : g.Next.elems.length = g.Data.length)
    (hinv : LinkedListGrid.Inv g done)
    (h0 : 0 ≤ flatIndex g.Dy g.Dz (cellOf pi))
    (h1 : flatIndex g.Dy g.Dz (cellOf pi) < g.Heads.elems.length) :
    ∃ g1, g.binStep done.length pi = some g1 ∧ g1.Dy = g.Dy ∧ g1.Dz = g.Dz ∧
      g1.Data = g.Data ∧ g1.Heads.elems.length = g.Heads.elems.length ∧
      g1.Next.elems.length = g.Next.elems.length ∧
      LinkedListGrid.Inv g1 (done ++ [pi]) := by
  obtain ⟨hl, hall⟩ := hinv
  have h3 : flatIndex g.Dy g.Dz (cellOf pi) < g.Sizes.elems.length := by omega
  obtain ⟨head, s, hhead, hs, hchain, hsz⟩ := hall _ h0 h1
  have hi0 : (0 : Int) ≤ (done.length : Int) := by omega
  have hi1 : (done.length : Int) < g.Next.elems.length := by
    rw [hnx, hd]; simp
  delta LinkedListGrid.binStep
  simp only [hhead, hs, setI_of_lt _ _ _ h0 h1,
    setI_of_lt _ _ _ h0 h3, setI_of_lt _ _ _ hi0 hi1]
  refine ⟨_, rfl, rfl, rfl, rfl, by simp, by simp, by simp [hl], ?_⟩
  intro j hj0 hj1
  simp only [List.length_set] at hj1
  obtain ⟨hdj, sj, hhj, hsj, hcj, hszj⟩ := hall j hj0 hj1
  simp only [getI_set _ _ _ _ h0 h1 hj0, getI_set _ _ _ _ h0 h3 hj0]
  by_cases hji : j = flatIndex g.Dy g.Dz (cellOf pi)
  · subst hji
    refine ⟨(done.length : Int), add64 s 1, by simp, by simp, ?_, ?_⟩
    · simp only [List.filter_append, List.filter_cons, decide_True, if_true, List.filter_nil,
        List.reverse_append, List.reverse_cons, List.reverse_nil, List.nil_append,
        List.singleton_append, List.length_append, List.length_singleton]
      refine ⟨hi0, by push_cast; omega, ?_, head, ?_, ?_⟩
      · rw [hd]; exact getI_append_length _ _ _
      · rw [getI_set _ _ _ _ hi0 hi1 hi0, if_pos rfl]
      · rw [hhead] at hhj
        cases hhj
        have := linkedList_Chain_set g.Data g.Next.elems done.length (done.length + 1)
          done.length head (le_refl _) (by omega) hi1 _ _ hcj
        simpa using this
    · rw [hs] at hsj
      cases hsj
      simp only [List.filter_append, List.filter_cons, decide_True, if_true, List.filter_nil,
        List.length_append, List.length_singleton, add64]
      push_cast
      rw [hszj]
      exact wrap64_add_wrap64 _ _
  · have hne : ¬ flatIndex g.Dy g.Dz (cellOf pi) = j := fun e => hji e.symm
    refine ⟨hdj, sj, by simp [hji, hhj], by simp [hji, hsj], ?_, ?_⟩
    · simp only [List.filter_append, List.filter_cons, hne, decide_False, List.filter_nil,
        List.append_nil, List.length_append, List.length_singleton]
      have := linkedList_Chain_set g.Data g.Next.elems done.length (done.length + 1)
        done.length head (le_refl _) (by omega) hi1 _ _ hcj
      simpa using this
    · simpa [List.filter_append, List.filter_cons, hne] using hszj

theorem linkedList_binLoop_cons (g : LinkedListGrid) (i : Nat) (pi : Particle)
    (rest : List Particle) :
    LinkedListGrid.binLoop g i (pi :: rest) =
      match LinkedListGrid.binStep g i pi with
      | none => none
      | some g1 => LinkedListGrid.binLoop g1 (i + 1) rest := rfl

theorem linkedList_binLoop_spec (rest : List Particle) :
    ∀ (g : LinkedListGrid) (done : List Particle), g.Data = done ++ rest →
    g.Next.elems.length = g.Data.length → LinkedListGrid.Inv g done →
    (∀ pi ∈ rest, 0 ≤ flatIndex g.Dy g.Dz (cellOf pi) ∧
      flatIndex g.Dy g.Dz (cellOf pi) < g.Heads.elems.length) →
    ∃ g1, LinkedListGrid.binLoop g done.length rest = some g1 ∧ g1.Dy = g.Dy ∧ g1.Dz = g.Dz ∧
      g1.Data = g.Data ∧ g1.Heads.elems.length = g.Heads.elems.length ∧
      LinkedListGrid.Inv g1 (done ++ rest) := by
  induction rest with
  | nil =>
    intro g done _ _ hinv _
    exact ⟨g, rfl, rfl, rfl, rfl, rfl, by simpa using hinv⟩
  | cons pi rest ih =>
    intro g done hd hnx hinv hp
    obtain ⟨g1, e1, hy, hz, hdat, hl, hnl, hinv1⟩ :=
      linkedList_binStep_spec g done rest pi hd hnx hinv
        (hp pi (List.mem_cons_self _ _)).1 (hp pi (List.mem_cons_self _ _)).2
    obtain ⟨g2, e2, hy2, hz2, hdat2, hl2, hinv2⟩ := ih g1 (done ++ [pi])
      (by rw [hdat, hd]; simp) (by rw [hnl, hdat]; exact hnx) hinv1 (by
        intro q hq
        rw [hy, hz, hl]
        exact hp q (List.mem_cons_of_mem _ hq))
    refine ⟨g2, ?_, hy2.trans hy, hz2.trans hz, hdat2.trans hdat, hl2.trans hl, ?_⟩
    · rw [List.length_append, List.length_singleton] at e2
      rw [linkedList_binLoop_cons, e1]
      exact e2
    · have e3 : done ++ [pi] ++ rest = done ++ pi :: rest := by simp
      rw [e3] at hinv2
      exact hinv2
/-! ## The contract of the three list-based grids -/

theorem flat_range_of_span {span c : Idx3} (h : SpanFits span) (hc : InSpan span c) :
    0 ≤ flatIndex span.i0 (mul64 span.i0 span.i1) c ∧
    flatIndex span.i0 (mul64 span.i0 span.i1) c < ((cellCount span).toNat : Int) := by
  rw [stride_eq h hc, Int.toNat_of_nonneg (cellCount_nonneg h)]
  exact flatIndex_range h hc

theorem filter_flat_eq {span c : Idx3} {p : List Particle} (h : SpanFits span)
    (hp : PointsIn span p) (hc : InSpan span c) :
    p.filter (fun pi => decide (flatIndex span.i0 (mul64 span.i0 span.i1) (cellOf pi)
      = flatIndex span.i0 (mul64 span.i0 span.i1) c)) = pointsOf p c := by
  unfold pointsOf
  apply List.filter_congr
  intro pi hpi
  rw [stride_eq h hc]
  by_cases e : cellOf pi = c
  · simp [e]
  · have : ¬ flatIndex span.i0 (span.i0 * span.i1) (cellOf pi)
        = flatIndex span.i0 (span.i0 * span.i1) c :=
      fun e2 => e (flatIndex_inj h (hp pi hpi) hc e2)
    simp [e, this]

theorem wrap64_length_filter {p : List Particle} (hn : (p.length : Int) < 2 ^ 63)
    (f : Particle → Bool) : wrap64 ((p.filter f).length : Int) = ((p.filter f).length : Int) := by
  have := List.length_filter_le f p
  exact wrap64_of_nonneg (by omega) (by omega)

theorem wrap64_length_pointsOf {p : List Particle} (hn : (p.length : Int) < 2 ^ 63)
    (c : Idx3) : wrap64 ((pointsOf p c).length : Int) = ((pointsOf p c).length : Int) :=
  wrap64_length_filter hn _

theorem arrayList_contract : ArrayListGrid.methods.Contract := by
  intro g span p hs hp hn
  obtain ⟨g1, e1, hy, hz, hd⟩ := arrayList_Resize_spec g hs
  have hlen : g1.Data.elems.length = (cellCount span).toNat := by rw [hd]; simp
  obtain ⟨g2, e2, hy2, hz2, hl2, hget⟩ := arrayList_Bin_spec p g1 (by
    intro pi hpi
    rw [hy, hz, hlen]
    exact flat_range_of_span hs (hp pi hpi))
  refine ⟨g1, g2, e1, e2, ?_⟩
  intro c hc out
  obtain ⟨r0, r1⟩ := flat_range_of_span hs hc
  have h1 : getI g1.Data.elems (flatIndex g1.Dy g1.Dz c) = some [] := by
    rw [hy, hz, hd]
    exact getI_replicate _ _ _ r0 r1
  have h2 : getI g2.Data.elems (flatIndex g2.Dy g2.Dz c) = some (pointsOf p c) := by
    rw [hy2, hz2, hget _ (by rw [hy, hz]; exact r0), h1, hy, hz]
    simp only [Option.map_some', List.nil_append]
    rw [filter_flat_eq hs hp hc]
  refine ⟨?_, h1, pointsOf p c, h2, List.Perm.refl _, ?_⟩
  · show ArrayListGrid.Size g1 c = some 0
    delta ArrayListGrid.Size
    simp only [h1]
    rfl
  · show ArrayListGrid.Size g2 c = some _
    delta ArrayListGrid.Size
    simp only [h2]

theorem getBuffer_length (n : Int) (out : List (Slice Particle)) (h : 0 ≤ n) :
    ∃ buf, getBuffer n out = some buf ∧ (buf.length : Int) = n := by
  cases out with
  | nil =>
    refine ⟨List.replicate n.toNat Particle.zero, ?_, ?_⟩
    · simp [getBuffer, h]
    · simp [h]
  | cons o rest =>
    obtain ⟨t, ht, hl⟩ := growTo_spec o n Particle.zero h
    exact ⟨t.elems, by simp [getBuffer, ht], hl⟩

/-- The lists of `NaiveLinkedListGrid` after `Resize(span)` and `Bin(p)`: the list of
every cell of the span holds the points of the cell, last first, and the size of the
cell is their number. -/
theorem naiveList_lists_spec (g : NaiveLinkedListGrid) (span : Idx3)
    (p : List Particle) (hs : SpanFits span) (hp : PointsIn span p)
    (hn : (p.length : Int) < 2 ^ 63) :
    ∃ g1 g2, g.Resize span = some g1 ∧ g1.Bin p = some g2 ∧
      ∀ c, InSpan span c →
        getI g1.Heads.elems (flatIndex g1.Dy g1.Dz c) = some ListNode.null ∧
        getI g1.Sizes.elems (flatIndex g1.Dy g1.Dz c) = some 0 ∧
        ∃ head, getI g2.Heads.elems (flatIndex g2.Dy g2.Dz c) = some head ∧
          head.toList = (pointsOf p c).reverse ∧
          getI g2.Sizes.elems (flatIndex g2.Dy g2.Dz c)
            = some ((pointsOf p c).length : Int) := by
  obtain ⟨g1, e1, hy, hz, hh, hsz⟩ := naiveList_Resize_spec g hs
  have hlen : g1.Heads.elems.length = (cellCount span).toNat := by rw [hh]; simp
  have hlen2 : g1.Sizes.elems.length = g1.Heads.elems.length := by rw [hh, hsz]; simp
  obtain ⟨g2, e2, hy2, hz2, hl2, hl2', hget⟩ := naiveList_Bin_spec p g1 hlen2 (by
    intro pi hpi
    rw [hy, hz, hlen]
    exact flat_range_of_span hs (hp pi hpi)) (by
    intro j s hj hs
    rw [hsz] at hs
    by_cases hjn : j < ((cellCount span).toNat : Int)
    · rw [getI_replicate _ _ _ hj hjn] at hs
      cases hs
      exact wrap64_zero
    · have : getI (List.replicate (cellCount span).toNat (0 : Int)) j = none := by
        unfold getI
        rw [if_neg (by omega)]
        simp
        omega
      rw [this] at hs
      cases hs)
  refine ⟨g1, g2, e1, e2, ?_⟩
  intro c hc
  obtain ⟨r0, r1⟩ := flat_range_of_span hs hc
  have h1 : getI g1.Heads.elems (flatIndex g1.Dy g1.Dz c) = some ListNode.null := by
    rw [hy, hz, hh]
    exact getI_replicate _ _ _ r0 r1
  have s1 : getI g1.Sizes.elems (flatIndex g1.Dy g1.Dz c) = some 0 := by
    rw [hy, hz, hsz]
    exact getI_replicate _ _ _ r0 r1
  have r0' : 0 ≤ flatIndex g1.Dy g1.Dz c := by rw [hy, hz]; exact r0
  obtain ⟨hg, hs2⟩ := hget _ r0'
  rw [h1] at hg
  rw [s1] at hs2
  simp only [Option.map_some', ListNode.toList, List.append_nil, zero_add] at hg hs2
  rw [hy, hz, filter_flat_eq hs hp hc] at hg hs2
  rw [wrap64_length_pointsOf hn] at hs2
  obtain ⟨head, hhead, htl⟩ : ∃ head, getI g2.Heads.elems (flatIndex span.i0
      (mul64 span.i0 span.i1) c) = some head ∧ head.toList = (pointsOf p c).reverse := by
    cases hh2 : getI g2.Heads.elems (flatIndex span.i0 (mul64 span.i0 span.i1) c) with
    | none => rw [hh2] at hg; cases hg
    | some head =>
      rw [hh2] at hg
      exact ⟨head, rfl, by simpa using hg⟩
  refine ⟨h1, s1, head, ?_, htl, ?_⟩
  · rw [hy2, hz2, hy, hz]; exact hhead
  · rw [hy2, hz2, hy, hz]; exact hs2

theorem naiveList_contract : NaiveLinkedListGrid.methods.Contract := by
  intro g span p hs hp hn
  obtain ⟨g1, g2, e1, e2, hall⟩ := naiveList_lists_spec g span p hs hp hn
  refine ⟨g1, g2, e1, e2, ?_⟩
  intro c hc out
  obtain ⟨h1, s1, head, hhead, htl, hs2⟩ := hall c hc
  refine ⟨s1, ?_, (pointsOf p c).reverse, ?_, List.reverse_perm _, ?_⟩
  · show NaiveLinkedListGrid.Get g1 c out = some []
    delta NaiveLinkedListGrid.Get
    obtain ⟨buf, hb, hbl⟩ := getBuffer_length 0 out (le_refl _)
    have : buf = [] := List.length_eq_zero.mp (by omega)
    subst this
    simp only [s1, hb, h1]
    rfl
  · show NaiveLinkedListGrid.Get g2 c out = some _
    delta NaiveLinkedListGrid.Get
    obtain ⟨buf, hb, hbl⟩ := getBuffer_length ((pointsOf p c).length : Int) out (by omega)
    simp only [hs2, hb, hhead]
    rw [← htl]
    apply naiveList_fill_spec
    rw [htl, List.length_reverse]
    omega
  · show NaiveLinkedListGrid.Size g2 c = some _
    delta NaiveLinkedListGrid.Size
    rw [hs2, List.length_reverse]
theorem linkedList_Resize_spec (g : LinkedListGrid) {span : Idx3}
    (h : SpanFits span) :
    ∃ g1, g.Resize span = some g1 ∧ g1.Dy = span.i0 ∧ g1.Dz = mul64 span.i0 span.i1 ∧
      g1.Heads.elems = List.replicate (cellCount span).toNat (-1) ∧
      g1.Sizes.elems = List.replicate (cellCount span).toNat 0 ∧ g1.Data = [] := by
  obtain ⟨t, ht, hlen⟩ := growTo_spec g.Heads (cellCount span) 0 (cellCount_nonneg h)
  obtain ⟨u, hu, hlen2⟩ := growTo_spec g.Sizes (cellCount span) 0 (cellCount_nonneg h)
  have e : t.elems.length = u.elems.length := by omega
  obtain ⟨nx, e3⟩ : ∃ nx, g.Next.upTo 0 = some nx := ⟨_, by simp [Slice.upTo]; rfl⟩
  delta LinkedListGrid.Resize
  simp only [ht, hu, resetHeads_spec _ _ _ e, e3]
  have e2 : u.elems.length = (cellCount span).toNat := by omega
  exact ⟨_, rfl, rfl, rfl, by simp only [e2], by simp only [e2], rfl⟩

theorem linkedList_Inv_init (g : LinkedListGrid) (n : Nat)
    (hh : g.Heads.elems = List.replicate n (-1)) (hs : g.Sizes.elems = List.replicate n 0) :
    LinkedListGrid.Inv g [] := by
  refine ⟨by rw [hh, hs]; simp, ?_⟩
  intro j hj0 hj1
  have hj2 : j < (n : Int) := by rw [hh] at hj1; simpa using hj1
  refine ⟨-1, 0, by rw [hh]; exact getI_replicate _ _ _ hj0 hj2,
    by rw [hs]; exact getI_replicate _ _ _ hj0 hj2, rfl, ?_⟩
  simp [wrap64_zero]

/-- The lists of `LinkedListGrid` after `Resize(span)` and `Bin(p)`: the list of every
cell of the span holds the points of the cell, last first, before it reaches the index
`-1`, and the size of the cell is their number. -/
theorem linkedList_lists_spec (g : LinkedListGrid) (span : Idx3)
    (p : List Particle) (hs : SpanFits span) (hp : PointsIn span p)
    (hn : (p.length : Int) < 2 ^ 63) :
    ∃ g1 g2, g.Resize span = some g1 ∧ g1.Bin p = some g2 ∧
      ∀ c, InSpan span c →
        getI g1.Heads.elems (flatIndex g1.Dy g1.Dz c) = some (-1) ∧
        getI g1.Sizes.elems (flatIndex g1.Dy g1.Dz c) = some 0 ∧
        ∃ head, getI g2.Heads.elems (flatIndex g2.Dy g2.Dz c) = some head ∧
          LinkedListGrid.Chain g2.Data g2.Next.elems (p.length : Int) head
            (pointsOf p c).reverse ∧
          getI g2.Sizes.elems (flatIndex g2.Dy g2.Dz c)
            = some ((pointsOf p c).length : Int) := by
  obtain ⟨g1, e1, hy, hz, hh, hsz, hdat⟩ := linkedList_Resize_spec g hs
  have hlen : g1.Heads.elems.length = (cellCount span).toNat := by rw [hh]; simp
  obtain ⟨nx, hnx, hnl⟩ := growTo_spec g1.Next (p.length : Int) 0 (by omega)
  obtain ⟨g2, e2, hy2, hz2, hd2, hl2, hinv⟩ :=
    linkedList_binLoop_spec p { g1 with Next := nx, Data := p } [] rfl
      (by simpa using hnl) (linkedList_Inv_init _ _ hh hsz) (by
        intro pi hpi
        show 0 ≤ flatIndex g1.Dy g1.Dz (cellOf pi) ∧
          flatIndex g1.Dy g1.Dz (cellOf pi) < g1.Heads.elems.length
        rw [hy, hz, hlen]
        exact flat_range_of_span hs (hp pi hpi))
  have e2' : g1.Bin p = some g2 := by
    delta LinkedListGrid.Bin
    simp only [hnx]
    exact e2
  refine ⟨g1, g2, e1, e2', ?_⟩
  intro c hc
  obtain ⟨r0, r1⟩ := flat_range_of_span hs hc
  have h1 : getI g1.Heads.elems (flatIndex g1.Dy g1.Dz c) = some (-1) := by
    rw [hy, hz, hh]
    exact getI_replicate _ _ _ r0 r1
  have s1 : getI g1.Sizes.elems (flatIndex g1.Dy g1.Dz c) = some 0 := by
    rw [hy, hz, hsz]
    exact getI_replicate _ _ _ r0 r1
  have hy2' : g2.Dy = span.i0 := hy2.trans hy
  have hz2' : g2.Dz = mul64 span.i0 span.i1 := hz2.trans hz
  have hl2' : g2.Heads.elems.length = (cellCount span).toNat := hl2.trans hlen
  obtain ⟨head, s, hhead, hs2, hchain, hsv⟩ := hinv.2 (flatIndex g2.Dy g2.Dz c)
    (by rw [hy2', hz2']; exact r0) (by rw [hy2', hz2', hl2']; exact r1)
  simp only [List.nil_append] at hchain hsv
  rw [hy2', hz2', filter_flat_eq hs hp hc] at hchain hsv
  rw [wrap64_length_pointsOf hn] at hsv
  subst hsv
  exact ⟨h1, s1, head, hhead, hchain, hs2⟩

theorem linkedList_contract : LinkedListGrid.methods.Contract := by
  intro g span p hs hp hn
  obtain ⟨g1, g2, e1, e2, hall⟩ := linkedList_lists_spec g span p hs hp hn
  refine ⟨g1, g2, e1, e2, ?_⟩
  intro c hc out
  obtain ⟨h1, s1, head, hhead, hchain, hs2⟩ := hall c hc
  refine ⟨s1, ?_, (pointsOf p c).reverse, ?_, List.reverse_perm _, ?_⟩
  · show LinkedListGrid.Get g1 c out = some []
    delta LinkedListGrid.Get
    obtain ⟨buf, hb, hbl⟩ := getBuffer_length 0 out (le_refl _)
    have : buf = [] := List.length_eq_zero.mp (by omega)
    subst this
    simp only [s1, hb, h1]
    rfl
  · show LinkedListGrid.Get g2 c out = some _
    delta LinkedListGrid.Get
    obtain ⟨buf, hb, hbl⟩ := getBuffer_length ((pointsOf p c).length : Int) out (by omega)
    simp only [hs2, hb, hhead]
    apply linkedList_Chain_fill _ _ _ _ _ _ hchain
    rw [List.length_reverse]
    omega
  · show LinkedListGrid.Size g2 c = some _
    delta LinkedListGrid.Size
    rw [hs2, List.length_reverse]
/-! ## Counting lemmas -/

theorem countAt_nil (Dy Dz j : Int) : countAt Dy Dz [] j = 0 := rfl

theorem countBelow_nil (Dy Dz j : Int) : countBelow Dy Dz [] j = 0 := rfl

theorem countAt_cons (Dy Dz : Int) (pi : Particle) (p : List Particle) (j : Int) :
    countAt Dy Dz (pi :: p) j
      = (if flatIndex Dy Dz (cellOf pi) = j then 1 else 0) + countAt Dy Dz p j := by
  unfold countAt
  by_cases h : flatIndex Dy Dz (cellOf pi) = j
  · simp [List.filter_cons, h]; ring
  · simp [List.filter_cons, h]

theorem countBelow_cons (Dy Dz : Int) (pi : Particle) (p : List Particle) (j : Int) :
    countBelow Dy Dz (pi :: p) j
      = (if flatIndex Dy Dz (cellOf pi) < j then 1 else 0) + countBelow Dy Dz p j := by
  unfold countBelow
  by_cases h : flatIndex Dy Dz (cellOf pi) < j
  · simp [List.filter_cons, h]; ring
  · simp [List.filter_cons, h]

theorem countAt_append (Dy Dz : Int) (p q : List Particle) (j : Int) :
    countAt Dy Dz (p ++ q) j = countAt Dy Dz p j + countAt Dy Dz q j := by
  unfold countAt
  simp [List.filter_append]

theorem countAt_nonneg (Dy Dz : Int) (p : List Particle) (j : Int) : 0 ≤ countAt Dy Dz p j := by
  unfold countAt; omega

theorem countBelow_nonneg (Dy Dz : Int) (p : List Particle) (j : Int) :
    0 ≤ countBelow Dy Dz p j := by
  unfold countBelow; omega

theorem countBelow_succ (Dy Dz : Int) (p : List Particle) (j : Int) :
    countBelow Dy Dz p (j + 1) = countBelow Dy Dz p j + countAt Dy Dz p j := by
  induction p with
  | nil => rfl
  | cons pi p ih =>
    rw [countBelow_cons, countBelow_cons, countAt_cons, ih]
    split_ifs <;> omega

theorem countBelow_mono (Dy Dz : Int) (p : List Particle) {a b : Int} (h : a ≤ b) :
    countBelow Dy Dz p a ≤ countBelow Dy Dz p b := by
  induction p with
  | nil => exact le_refl _
  | cons pi p ih =>
    rw [countBelow_cons, countBelow_cons]
    split_ifs <;> omega

theorem countAt_eq_zero (Dy Dz : Int) (p : List Particle) (j : Int)
    (h : ∀ pi ∈ p, flatIndex Dy Dz (cellOf pi) ≠ j) : countAt Dy Dz p j = 0 := by
  induction p with
  | nil => rfl
  | cons pi p ih =>
    rw [countAt_cons, if_neg (h pi (List.mem_cons_self _ _)),
      ih (fun q hq => h q (List.mem_cons_of_mem _ hq))]
    rfl

theorem countBelow_eq_zero (Dy Dz : Int) (p : List Particle) (j : Int)
    (h : ∀ pi ∈ p, j ≤ flatIndex Dy Dz (cellOf pi)) : countBelow Dy Dz p j = 0 := by
  induction p with
  | nil => rfl
  | cons pi p ih =>
    have := h pi (List.mem_cons_self _ _)
    rw [countBelow_cons, if_neg (by omega),
      ih (fun q hq => h q (List.mem_cons_of_mem _ hq))]
    rfl

theorem countBelow_eq_length (Dy Dz : Int) (p : List Particle) (j : Int)
    (h : ∀ pi ∈ p, flatIndex Dy Dz (cellOf pi) < j) : countBelow Dy Dz p j = p.length := by
  induction p with
  | nil => rfl
  | cons pi p ih =>
    rw [countBelow_cons, if_pos (h pi (List.mem_cons_self _ _)),
      ih (fun q hq => h q (List.mem_cons_of_mem _ hq))]
    simp; ring

theorem countBelow_le_length (Dy Dz : Int) (p : List Particle) (j : Int) :
    countBelow Dy Dz p j ≤ p.length := by
  unfold countBelow
  have := List.length_filter_le (fun pi => decide (flatIndex Dy Dz (cellOf pi) < j)) p
  omega

theorem countAt_le_length (Dy Dz : Int) (p : List Particle) (j : Int) :
    countAt Dy Dz p j ≤ p.length := by
  unfold countAt
  have := List.length_filter_le (fun pi => decide (flatIndex Dy Dz (cellOf pi) = j)) p
  omega
/-! ## The counting loop of the two sorting grids -/

theorem countStep_spec (Dy Dz : Int) (edges : List Int) (pi : Particle) (c : Int)
    (h0 : 0 ≤ flatIndex Dy Dz (cellOf pi))
    (h1 : flatIndex Dy Dz (cellOf pi) + 1 < edges.length)
    (hc : getI edges (flatIndex Dy Dz (cellOf pi) + 1) = some c) :
    countStep Dy Dz edges pi
      = some (edges.set (flatIndex Dy Dz (cellOf pi) + 1).toNat (add64 c 1)) := by
  have h2 : ¬ flatIndex Dy Dz (cellOf pi) < 0 := by omega
  delta countStep countsGet countsSet
  simp only [h2, if_false, hc]
  exact setI_of_lt _ _ _ (by omega) h1

theorem countLoop_spec (Dy Dz : Int) (n : Int) (rest : List Particle) :
    ∀ (edges : List Int) (done : List Particle),
    (edges.length : Int) = n + 1 →
    (∀ m : Int, 0 ≤ m → m ≤ n → getI edges m = some (wrap64 (countAt Dy Dz done (m - 1)))) →
    (∀ pi ∈ rest, 0 ≤ flatIndex Dy Dz (cellOf pi) ∧ flatIndex Dy Dz (cellOf pi) < n) →
    ∃ edges1, rest.foldlM (countStep Dy Dz) edges = some edges1 ∧
      (edges1.length : Int) = n + 1 ∧
      ∀ m : Int, 0 ≤ m → m ≤ n →
        getI edges1 m = some (wrap64 (countAt Dy Dz (done ++ rest) (m - 1))) := by
  induction rest with
  | nil =>
    intro edges done hl hinv _
    exact ⟨edges, rfl, hl, by simpa using hinv⟩
  | cons pi rest ih =>
    intro edges done hl hinv hp
    obtain ⟨k0, k1⟩ := hp pi (List.mem_cons_self _ _)
    have hc := hinv (flatIndex Dy Dz (cellOf pi) + 1) (by omega) (by omega)
    have e1 := countStep_spec Dy Dz edges pi _ k0 (by omega) hc
    obtain ⟨edges2, e2, hl2, hinv2⟩ := ih
      (edges.set (flatIndex Dy Dz (cellOf pi) + 1).toNat
        (add64 (wrap64 (countAt Dy Dz done (flatIndex Dy Dz (cellOf pi) + 1 - 1))) 1))
      (done ++ [pi]) (by simpa using hl) (by
        intro m hm0 hm1
        rw [getI_set _ _ _ _ (by omega) (by omega) hm0, countAt_append, countAt_cons,
          countAt_nil]
        by_cases hmk : m = flatIndex Dy Dz (cellOf pi) + 1
        · subst hmk
          simp only [if_true, add_sub_cancel_right, add64_wrap64, add_zero]
        · have : ¬ flatIndex Dy Dz (cellOf pi) = m - 1 := by omega
          simp only [hmk, this, if_false, add_zero]
          exact hinv m hm0 hm1)
      (fun q hq => hp q (List.mem_cons_of_mem _ hq))
    refine ⟨edges2, ?_, hl2, ?_⟩
    · rw [List.foldlM_cons, e1]
      exact e2
    · intro m hm0 hm1
      have := hinv2 m hm0 hm1
      rw [List.append_assoc, List.singleton_append] at this
      exact this
/-! ## CountingSortGrid -/

theorem countingSort_startsLoop_succ (k : Nat) (i prev : Int) (edges : List Int) :
    CountingSortGrid.startsLoop (k + 1) i prev edges =
      match countsGet edges i, getI edges i with
      | some curr, some e =>
        match countsSet edges i (add64 e prev) with
        | none => none
        | some edges1 => CountingSortGrid.startsLoop k (i + 1) curr edges1
      | _, _ => none := rfl

theorem wrap64_countBelow (Dy Dz : Int) (p : List Particle) (hn : (p.length : Int) < 2 ^ 63)
    (j : Int) : wrap64 (countBelow Dy Dz p j) = countBelow Dy Dz p j :=
  wrap64_of_nonneg (countBelow_nonneg _ _ _ _)
    (lt_of_le_of_lt (countBelow_le_length _ _ _ _) hn)

theorem wrap64_countAt (Dy Dz : Int) (p : List Particle) (hn : (p.length : Int) < 2 ^ 63)
    (j : Int) : wrap64 (countAt Dy Dz p j) = countAt Dy Dz p j :=
  wrap64_of_nonneg (countAt_nonneg _ _ _ _)
    (lt_of_le_of_lt (countAt_le_length _ _ _ _) hn)

theorem countingSort_startsLoop_spec (Dy Dz : Int) (n : Int) (p : List Particle)
    (hn : (p.length : Int) < 2 ^ 63) :
    ∀ (k : Nat) (i prev : Int) (edges : List Int), 0 ≤ i → i + k = n →
    (edges.length : Int) = n + 1 → prev = countAt Dy Dz p (i - 1) →
    (∀ m : Int, 0 ≤ m → m ≤ i → getI edges m = some (countBelow Dy Dz p (m - 1))) →
    (∀ m : Int, i < m → m ≤ n → getI edges m = some (countAt Dy Dz p (m - 1))) →
    ∃ edges1, CountingSortGrid.startsLoop k i prev edges = some edges1 ∧
      (edges1.length : Int) = n + 1 ∧
      ∀ m : Int, 0 ≤ m → m ≤ n → getI edges1 m = some (countBelow Dy Dz p (m - 1)) := by
  intro k
  induction k with
  | zero =>
    intro i prev edges _ hik hl _ hlow _
    refine ⟨edges, rfl, hl, ?_⟩
    intro m hm0 hm1
    exact hlow m hm0 (by omega)
  | succ k ih =>
    intro i prev edges hi hik hl hprev hlow hhigh
    have hcurr := hhigh (i + 1) (by omega) (by omega)
    have he := hlow i hi (le_refl _)
    have hi0 : ¬ i < 0 := by omega
    have hval : add64 (countBelow Dy Dz p (i - 1)) prev = countBelow Dy Dz p i := by
      rw [hprev]
      unfold add64
      rw [← countBelow_succ, sub_add_cancel]
      exact wrap64_countBelow Dy Dz p hn i
    obtain ⟨edges2, e2, hl2, hall⟩ := ih (i + 1) (countAt Dy Dz p (i + 1 - 1))
      (edges.set (i + 1).toNat (countBelow Dy Dz p i)) (by omega) (by push_cast at hik ⊢; omega)
      (by simpa using hl) rfl (by
        intro m hm0 hm1
        rw [getI_set _ _ _ _ (by omega) (by omega) hm0]
        by_cases hmi : m = i + 1
        · subst hmi; simp
        · rw [if_neg hmi]
          exact hlow m hm0 (by omega)) (by
        intro m hm0 hm1
        rw [getI_set _ _ _ _ (by omega) (by omega) (by omega), if_neg (by omega)]
        exact hhigh m (by omega) hm1)
    refine ⟨edges2, ?_, hl2, hall⟩
    rw [countingSort_startsLoop_succ]
    delta countsGet countsSet
    simp only [hi0, if_false, hcurr, he, hval, setI_of_lt edges (i + 1) _ (by omega) (by omega)]
    exact e2
theorem countingSort_placeStep_spec (Dy Dz : Int) (edges : List Int)
    (data : List Particle) (pi : Particle) (start : Int)
    (h0 : 0 ≤ flatIndex Dy Dz (cellOf pi))
    (h1 : flatIndex Dy Dz (cellOf pi) + 1 < edges.length)
    (hc : getI edges (flatIndex Dy Dz (cellOf pi) + 1) = some start)
    (hs0 : 0 ≤ start) (hs1 : start < data.length) :
    CountingSortGrid.placeStep Dy Dz (edges, data) pi
      = some (edges.set (flatIndex Dy Dz (cellOf pi) + 1).toNat (add64 start 1),
          data.set start.toNat pi) := by
  have h2 : ¬ flatIndex Dy Dz (cellOf pi) < 0 := by omega
  delta CountingSortGrid.placeStep countsGet countsSet
  simp only [h2, if_false, hc, setI_of_lt data start pi hs0 hs1,
    setI_of_lt edges _ (add64 start 1) (show 0 ≤ flatIndex Dy Dz (cellOf pi) + 1 by omega) h1]

theorem countAt_mono_append (Dy Dz : Int) (done rest : List Particle) (j : Int) :
    countAt Dy Dz done j ≤ countAt Dy Dz (done ++ rest) j := by
  rw [countAt_append]
  have := countAt_nonneg Dy Dz rest j
  omega

theorem countAt_succ_le (Dy Dz : Int) (done rest : List Particle) (pi : Particle) :
    countAt Dy Dz done (flatIndex Dy Dz (cellOf pi)) + 1
      ≤ countAt Dy Dz (done ++ pi :: rest) (flatIndex Dy Dz (cellOf pi)) := by
  rw [countAt_append, countAt_cons, if_pos rfl]
  have := countAt_nonneg Dy Dz rest (flatIndex Dy Dz (cellOf pi))
  omega

theorem countingSort_placeLoop_spec (Dy Dz : Int) (n : Int) (p : List Particle)
    (hn : (p.length : Int) < 2 ^ 63) (rest : List Particle) :
    ∀ (edges : List Int) (data : List Particle) (done : List Particle),
    p = done ++ rest →
    (edges.length : Int) = n + 1 → data.length = p.length →
    (∀ m : Int, 0 ≤ m → m ≤ n →
      getI edges m = some (countBelow Dy Dz p (m - 1) + countAt Dy Dz done (m - 1))) →
    (∀ (j : Int) (t : Nat) (x : Particle),
      (done.filter (fun pi => decide (flatIndex Dy Dz (cellOf pi) = j)))[t]? = some x →
      getI data (countBelow Dy Dz p j + t) = some x) →
    (∀ pi ∈ p, 0 ≤ flatIndex Dy Dz (cellOf pi) ∧ flatIndex Dy Dz (cellOf pi) < n) →
    ∃ edges1 data1,
      rest.foldlM (CountingSortGrid.placeStep Dy Dz) (edges, data) = some (edges1, data1) ∧
      (edges1.length : Int) = n + 1 ∧ data1.length = p.length ∧
      (∀ m : Int, 0 ≤ m → m ≤ n →
        getI edges1 m = some (countBelow Dy Dz p (m - 1) + countAt Dy Dz p (m - 1))) ∧
      (∀ (j : Int) (t : Nat) (x : Particle),
        (p.filter (fun pi => decide (flatIndex Dy Dz (cellOf pi) = j)))[t]? = some x →
        getI data1 (countBelow Dy Dz p j + t) = some x) := by
  induction rest with
  | nil =>
    intro edges data done hp hl hdl hedges hdata _
    have : done = p := by simpa using hp.symm
    subst this
    exact ⟨edges, data, rfl, hl, hdl, hedges, hdata⟩
  | cons pi rest ih =>
    intro edges data done hp hl hdl hedges hdata hkeys
    have hpi : pi ∈ p := by rw [hp]; simp
    obtain ⟨k0, k1⟩ := hkeys pi hpi
    have hstart := hedges (flatIndex Dy Dz (cellOf pi) + 1) (by omega) (by omega)
    rw [add_sub_cancel_right] at hstart
    have hle := countAt_succ_le Dy Dz done rest pi
    rw [← hp] at hle
    have hsucc := countBelow_succ Dy Dz p (flatIndex Dy Dz (cellOf pi))
    have htop := countBelow_le_length Dy Dz p (flatIndex Dy Dz (cellOf pi) + 1)
    have hb0 := countBelow_nonneg Dy Dz p (flatIndex Dy Dz (cellOf pi))
    have hc0 := countAt_nonneg Dy Dz done (flatIndex Dy Dz (cellOf pi))
    have hs1 : countBelow Dy Dz p (flatIndex Dy Dz (cellOf pi))
        + countAt Dy Dz done (flatIndex Dy Dz (cellOf pi)) < data.length := by
      rw [hdl]; omega
    have e1 := countingSort_placeStep_spec Dy Dz edges data pi _ k0 (by omega) hstart
      (by omega) hs1
    have hval : add64 (countBelow Dy Dz p (flatIndex Dy Dz (cellOf pi))
        + countAt Dy Dz done (flatIndex Dy Dz (cellOf pi))) 1
        = countBelow Dy Dz p (flatIndex Dy Dz (cellOf pi))
        + countAt Dy Dz done (flatIndex Dy Dz (cellOf pi)) + 1 :=
      wrap64_of_nonneg (by omega) (by omega)
    rw [hval] at e1
    obtain ⟨edges2, data2, e2, hl2, hdl2, hedges2, hdata2⟩ := ih
      (edges.set (flatIndex Dy Dz (cellOf pi) + 1).toNat
        (countBelow Dy Dz p (flatIndex Dy Dz (cellOf pi))
          + countAt Dy Dz done (flatIndex Dy Dz (cellOf pi)) + 1))
      (data.set (countBelow Dy Dz p (flatIndex Dy Dz (cellOf pi))
          + countAt Dy Dz done (flatIndex Dy Dz (cellOf pi))).toNat pi) (done ++ [pi])
      (by rw [hp]; simp) (by simpa using hl) (by simpa using hdl) (by
        intro m hm0 hm1
        rw [getI_set _ _ _ _ (by omega) (by omega) hm0, countAt_append, countAt_cons,
          countAt_nil]
        by_cases hmk : m = flatIndex Dy Dz (cellOf pi) + 1
        · subst hmk
          simp only [if_true, add_sub_cancel_right, add_zero, add_assoc]
        · have : ¬ flatIndex Dy Dz (cellOf pi) = m - 1 := by omega
          simp only [hmk, this, if_false, add_zero]
          exact hedges m hm0 hm1) (by
        intro j t x hx
        have hpos0 := countBelow_nonneg Dy Dz p j
        rw [getI_set _ _ _ _ (by omega) hs1 (by omega)]
        rw [List.filter_append] at hx
        by_cases hjk : flatIndex Dy Dz (cellOf pi) = j
        · subst hjk
          simp only [List.filter_cons, decide_True, if_true, List.filter_nil] at hx
          by_cases ht : t < (done.filter (fun q => decide (flatIndex Dy Dz (cellOf q)
              = flatIndex Dy Dz (cellOf pi)))).length
          · rw [List.getElem?_append_left ht] at hx
            have hne : ¬ (countBelow Dy Dz p (flatIndex Dy Dz (cellOf pi)) + (t : Int)
                = countBelow Dy Dz p (flatIndex Dy Dz (cellOf pi))
                  + countAt Dy Dz done (flatIndex Dy Dz (cellOf pi))) := by
              unfold countAt; omega
            rw [if_neg hne]
            exact hdata _ t x hx
          · rw [List.getElem?_append_right (by omega)] at hx
            have ht2 : t = (done.filter (fun q => decide (flatIndex Dy Dz (cellOf q)
                = flatIndex Dy Dz (cellOf pi)))).length := by
              by_contra hcon
              have : 1 ≤ t - (done.filter (fun q => decide (flatIndex Dy Dz (cellOf q)
                = flatIndex Dy Dz (cellOf pi)))).length := by omega
              rw [List.getElem?_eq_none (by simpa using this)] at hx
              cases hx
            rw [ht2] at hx ⊢
            simp only [Nat.sub_self, List.getElem?_cons_zero, Option.some.injEq] at hx
            rw [if_pos (by unfold countAt; rfl), hx]
        · simp only [List.filter_cons, hjk, decide_False, List.filter_nil,
            List.append_nil, Bool.false_eq_true, if_false] at hx
          have htlt : (t : Int) < countAt Dy Dz done j := by
            have := (List.getElem?_eq_some_iff.mp hx).1
            unfold countAt; omega
          have hmono := countAt_mono_append Dy Dz done (pi :: rest) j
          rw [← hp] at hmono
          have hsj := countBelow_succ Dy Dz p j
          have hne : ¬ (countBelow Dy Dz p j + (t : Int)
              = countBelow Dy Dz p (flatIndex Dy Dz (cellOf pi))
                + countAt Dy Dz done (flatIndex Dy Dz (cellOf pi))) := by
            rcases lt_or_gt_of_ne hjk with hlt | hgt
            · have := countBelow_mono Dy Dz p (show flatIndex Dy Dz (cellOf pi) + 1 ≤ j by omega)
              omega
            · have := countBelow_mono Dy Dz p (show j + 1 ≤ flatIndex Dy Dz (cellOf pi) by omega)
              omega
          rw [if_neg hne]
          exact hdata j t x hx) hkeys
    refine ⟨edges2, data2, ?_, hl2, hdl2, hedges2, hdata2⟩
    rw [List.foldlM_cons, e1]
    exact e2
theorem mul64_comm (a b : Int) : mul64 a b = mul64 b a := by
  unfold mul64; rw [mul_comm]

theorem getI_eq_getElem? {α : Type} (l : List α) (i : Int) (h : 0 ≤ i) :
    getI l i = l[i.toNat]? := by
  unfold getI
  rw [if_neg (by omega)]

/-- The slice expression `s[lo:hi]` is the list `l` once `l` has the right length and
agrees with the elements of `s` from `lo` on. -/
theorem Slice.sub_eq {α : Type} (s : Slice α) (lo hi : Int) (l : List α)
    (h0 : 0 ≤ lo) (h1 : lo ≤ hi) (h2 : hi ≤ s.elems.length)
    (hl : (l.length : Int) = hi - lo)
    (hget : ∀ (t : Nat) (x : α), l[t]? = some x → getI s.elems (lo + t) = some x) :
    s.sub lo hi = some l := by
  have hcap : hi.toNat ≤ s.elems.length + s.spare.length := by omega
  have htk : (List.take hi.toNat (s.elems ++ s.spare)).length = hi.toNat := by
    rw [List.length_take, List.length_append]; omega
  unfold Slice.sub
  rw [if_neg (by omega), if_neg (by omega), if_pos hcap]
  congr 1
  apply List.ext_getElem?
  intro t
  rw [List.getElem?_drop]
  by_cases ht : t < l.length
  · have hx : l[t]? = some l[t] := List.getElem?_eq_getElem ht
    have := hget t _ hx
    rw [getI_eq_getElem? _ _ (by omega)] at this
    have e : (lo + (t : Int)).toNat = lo.toNat + t := by omega
    rw [e] at this
    rw [List.getElem?_take_of_lt (by omega), List.getElem?_append_left (by omega), this, hx]
  · rw [List.getElem?_eq_none (by omega), List.getElem?_eq_none (by omega)]

theorem growTo_succ_spec {α : Type} (s : Slice α) (n : Int) (zero : α) (h : 0 ≤ n)
    (h1 : n + 1 < 2 ^ 63) :
    ∃ t, s.growTo (add64 n 1) (add64 n 1) zero = some t ∧ (t.elems.length : Int) = n + 1 := by
  have e : add64 n 1 = n + 1 := wrap64_of_nonneg (by omega) h1
  rw [e]
  exact growTo_spec s (n + 1) zero (by omega)

theorem countingSort_Resize_spec (g : CountingSortGrid) {span : Idx3}
    (h : SpanFits span) :
    ∃ g1, g.Resize span = some g1 ∧ g1.Dy = span.i0 ∧ g1.Dz = mul64 span.i0 span.i1 ∧
      g1.BinEdges.elems = List.replicate ((cellCount span).toNat + 1) 0 := by
  have hc := cellCount_lt h
  obtain ⟨t, ht, hlen⟩ := growTo_succ_spec g.BinEdges (cellCount span) 0 (cellCount_nonneg h)
    (by omega)
  delta CountingSortGrid.Resize
  simp only [ht]
  refine ⟨_, rfl, rfl, mul64_comm _ _, ?_⟩
  simp only [map_const_eq_replicate]
  congr 1
  have := cellCount_nonneg h
  omega

theorem countingSort_Bin_spec (g : CountingSortGrid) (n : Nat) (p : List Particle)
    (hn : (p.length : Int) < 2 ^ 63)
    (hedges : g.BinEdges.elems = List.replicate (n + 1) 0)
    (hkeys : ∀ pi ∈ p, 0 ≤ flatIndex g.Dy g.Dz (cellOf pi) ∧
      flatIndex g.Dy g.Dz (cellOf pi) < n) :
    ∃ g2, g.Bin p = some g2 ∧ g2.Dy = g.Dy ∧ g2.Dz = g.Dz ∧
      g2.Data.elems.length = p.length ∧
      (∀ m : Int, 0 ≤ m → m ≤ n → getI g2.BinEdges.elems m = some (countBelow g.Dy g.Dz p m)) ∧
      (∀ (j : Int) (t : Nat) (x : Particle),
        (p.filter (fun pi => decide (flatIndex g.Dy g.Dz (cellOf pi) = j)))[t]? = some x →
        getI g2.Data.elems (countBelow g.Dy g.Dz p j + t) = some x) := by
  obtain ⟨d, hd, hdl⟩ := growTo_spec g.Data (p.length : Int) Particle.zero (by omega)
  obtain ⟨counted, e1, hl1, hc1⟩ := countLoop_spec g.Dy g.Dz n p g.BinEdges.elems []
    (by rw [hedges]; simp) (by
      intro m hm0 hm1
      rw [hedges, countAt_nil, wrap64_zero]
      exact getI_replicate _ _ _ hm0 (by push_cast; omega)) hkeys
  simp only [List.nil_append] at hc1
  obtain ⟨starts, e2, hl2, hc2⟩ := countingSort_startsLoop_spec g.Dy g.Dz n p hn n 0 0
    counted (le_refl _) (by omega) hl1
    (by
      rw [countAt_eq_zero]
      intro pi hpi
      have := (hkeys pi hpi).1
      omega)
    (by
      intro m hm0 hm1
      have : m = 0 := by omega
      subst this
      rw [hc1 0 (le_refl _) (by omega), wrap64_countAt _ _ _ hn,
        countAt_eq_zero, countBelow_eq_zero]
      · intro pi hpi
        have := (hkeys pi hpi).1
        omega
      · intro pi hpi
        have := (hkeys pi hpi).1
        omega)
    (by
      intro m hm0 hm1
      rw [hc1 m (by omega) hm1, wrap64_countAt _ _ _ hn])
  obtain ⟨edges, data, e3, hl3, hdl3, hc3, hdata3⟩ :=
    countingSort_placeLoop_spec g.Dy g.Dz n p hn p starts d.elems [] rfl hl2
      (by omega) (by
        intro m hm0 hm1
        rw [hc2 m hm0 hm1, countAt_nil, add_zero]) (by
        intro j t x hx
        simp at hx) hkeys
  have hcl : counted.length - 1 = n := by omega
  delta CountingSortGrid.Bin
  simp only [hd, e1, hcl, e2, e3]
  refine ⟨_, rfl, rfl, rfl, hdl3, ?_, hdata3⟩
  intro m hm0 hm1
  rw [hc3 m hm0 hm1, ← countBelow_succ, sub_add_cancel]
theorem add64_one_of_lt {i n : Int} (h0 : 0 ≤ i) (h1 : i < n) (hn : n < 2 ^ 63 - 1) :
    add64 i 1 = i + 1 :=
  wrap64_of_nonneg (by omega) (by omega)

theorem countingSort_contract : CountingSortGrid.methods.Contract := by
  intro g span p hs hp hn
  obtain ⟨g1, e1, hy, hz, hed⟩ := countingSort_Resize_spec g hs
  have hcn := cellCount_nonneg hs
  have hcl := cellCount_lt hs
  have hkeys : ∀ pi ∈ p, 0 ≤ flatIndex g1.Dy g1.Dz (cellOf pi) ∧
      flatIndex g1.Dy g1.Dz (cellOf pi) < ((cellCount span).toNat : Int) := by
    intro pi hpi
    rw [hy, hz]
    exact flat_range_of_span hs (hp pi hpi)
  obtain ⟨g2, e2, hy2, hz2, hdl, hedges, hdata⟩ :=
    countingSort_Bin_spec g1 (cellCount span).toNat p hn hed hkeys
  refine ⟨g1, g2, e1, e2, ?_⟩
  intro c hc out
  obtain ⟨r0, r1⟩ := flat_range_of_span hs hc
  have hi1 : add64 (flatIndex span.i0 (mul64 span.i0 span.i1) c) 1
      = flatIndex span.i0 (mul64 span.i0 span.i1) c + 1 :=
    add64_one_of_lt r0 r1 (by omega)
  have z0 : getI g1.BinEdges.elems (flatIndex span.i0 (mul64 span.i0 span.i1) c) = some 0 := by
    rw [hed]; exact getI_replicate _ _ _ r0 (by push_cast; omega)
  have z1 : getI g1.BinEdges.elems (flatIndex span.i0 (mul64 span.i0 span.i1) c + 1)
      = some 0 := by
    rw [hed]; exact getI_replicate _ _ _ (by omega) (by push_cast; omega)
  have b0 := hedges (flatIndex span.i0 (mul64 span.i0 span.i1) c) r0 (by omega)
  have b1 := hedges (flatIndex span.i0 (mul64 span.i0 span.i1) c + 1) (by omega) (by omega)
  rw [hy, hz] at b0 b1 hdata
  have hsucc := countBelow_succ span.i0 (mul64 span.i0 span.i1) p
    (flatIndex span.i0 (mul64 span.i0 span.i1) c)
  have hcnt : countAt span.i0 (mul64 span.i0 span.i1) p
      (flatIndex span.i0 (mul64 span.i0 span.i1) c) = ((pointsOf p c).length : Int) := by
    unfold countAt
    rw [filter_flat_eq hs hp hc]
  have hbn := countBelow_nonneg span.i0 (mul64 span.i0 span.i1) p
    (flatIndex span.i0 (mul64 span.i0 span.i1) c)
  have htop := countBelow_le_length span.i0 (mul64 span.i0 span.i1) p
    (flatIndex span.i0 (mul64 span.i0 span.i1) c + 1)
  refine ⟨?_, ?_, pointsOf p c, ?_, List.Perm.refl _, ?_⟩
  · show CountingSortGrid.Size g1 c = some 0
    delta CountingSortGrid.Size
    simp only [hy, hz, hi1, z0, z1]
    rw [sub64, sub_self, wrap64_zero]
  · show CountingSortGrid.Get g1 c out = some []
    delta CountingSortGrid.Get
    simp only [hy, hz, hi1, z0, z1]
    exact Slice.sub_eq _ 0 0 [] (le_refl _) (le_refl _) (by omega) (by simp) (by simp)
  · show CountingSortGrid.Get g2 c out = some _
    delta CountingSortGrid.Get
    simp only [hy2, hz2, hy, hz, hi1, b0, b1]
    apply Slice.sub_eq _ _ _ _ hbn (by omega) (by omega) (by omega)
    intro t x hx
    apply hdata (flatIndex span.i0 (mul64 span.i0 span.i1) c) t x
    rw [filter_flat_eq hs hp hc]
    exact hx
  · show CountingSortGrid.Size g2 c = some _
    delta CountingSortGrid.Size
    simp only [hy2, hz2, hy, hz, hi1, b0, b1]
    rw [sub64, hsucc, add_sub_cancel_left, hcnt, wrap64_length_pointsOf hn]
/-! ## CycleSortGrid: the scan of the counts and two list lemmas -/

theorem cycleSort_sumLoop_succ (k : Nat) (i : Int) (edges : List Int) :
    CycleSortGrid.sumLoop (k + 1) i edges =
      match getI edges i, getI edges (i - 1) with
      | some e, some before =>
        match setI edges i (add64 e before) with
        | none => none
        | some edges1 => CycleSortGrid.sumLoop k (i + 1) edges1
      | _, _ => none := rfl

theorem cycleSort_sumLoop_spec (Dy Dz : Int) (n : Int) (p : List Particle)
    (hn : (p.length : Int) < 2 ^ 63) :
    ∀ (k : Nat) (i : Int) (edges : List Int), 1 ≤ i → i + k = n + 1 →
    (edges.length : Int) = n + 1 →
    (∀ m : Int, 0 ≤ m → m < i → getI edges m = some (countBelow Dy Dz p m)) →
    (∀ m : Int, i ≤ m → m ≤ n → getI edges m = some (countAt Dy Dz p (m - 1))) →
    ∃ edges1, CycleSortGrid.sumLoop k i edges = some edges1 ∧
      (edges1.length : Int) = n + 1 ∧
      ∀ m : Int, 0 ≤ m → m ≤ n → getI edges1 m = some (countBelow Dy Dz p m) := by
  intro k
  induction k with
  | zero =>
    intro i edges _ hik hl hlow _
    refine ⟨edges, rfl, hl, ?_⟩
    intro m hm0 hm1
    exact hlow m hm0 (by omega)
  | succ k ih =>
    intro i edges hi hik hl hlow hhigh
    have hcurr := hhigh i (le_refl _) (by omega)
    have hbefore := hlow (i - 1) (by omega) (by omega)
    have hval : add64 (countAt Dy Dz p (i - 1)) (countBelow Dy Dz p (i - 1))
        = countBelow Dy Dz p i := by
      unfold add64
      rw [add_comm, ← countBelow_succ, sub_add_cancel]
      exact wrap64_countBelow Dy Dz p hn i
    obtain ⟨edges2, e2, hl2, hall⟩ := ih (i + 1)
      (edges.set i.toNat (countBelow Dy Dz p i)) (by omega) (by push_cast at hik ⊢; omega)
      (by simpa using hl) (by
        intro m hm0 hm1
        rw [getI_set _ _ _ _ (by omega) (by omega) hm0]
        by_cases hmi : m = i
        · subst hmi; simp
        · rw [if_neg hmi]
          exact hlow m hm0 (by omega)) (by
        intro m hm0 hm1
        rw [getI_set _ _ _ _ (by omega) (by omega) (by omega), if_neg (by omega)]
        exact hhigh m (by omega) hm1)
    refine ⟨edges2, ?_, hl2, hall⟩
    rw [cycleSort_sumLoop_succ]
    simp only [hcurr, hbefore, hval, setI_of_lt edges i _ (by omega) (by omega)]
    exact e2

/-- Putting an element at a position and the element that was there in front gives the
same elements as putting the new element in front. -/
theorem set_cons_perm {α : Type} : ∀ (t : List α) (k : Nat) (h : α) (b : α),
    t[k]? = some b → (b :: t.set k h).Perm (h :: t)
  | [], _, _, _, hb => by simp at hb
  | c :: t, 0, h, b, hb => by
    simp only [List.getElem?_cons_zero, Option.some.injEq] at hb
    subst hb
    exact List.Perm.swap _ _ _
  | c :: t, k + 1, h, b, hb => by
    simp only [List.getElem?_cons_succ] at hb
    simp only [List.set_cons_succ]
    exact (List.Perm.swap _ _ _).trans
      (((set_cons_perm t k h b hb).cons c).trans (List.Perm.swap _ _ _))

theorem swap_perm_lt {α : Type} : ∀ (l : List α) (i j : Nat) (a b : α), i < j →
    l[i]? = some a → l[j]? = some b → ((l.set i b).set j a).Perm l
  | [], _, _, _, _, _, ha, _ => by simp at ha
  | c :: t, 0, j + 1, a, b, _, ha, hb => by
    simp only [List.getElem?_cons_zero, Option.some.injEq] at ha
    subst ha
    simp only [List.getElem?_cons_succ] at hb
    simp only [List.set_cons_zero, List.set_cons_succ]
    exact set_cons_perm t j _ b hb
  | c :: t, i + 1, j + 1, a, b, hij, ha, hb => by
    simp only [List.getElem?_cons_succ] at ha hb
    simp only [List.set_cons_succ]
    exact (swap_perm_lt t i j a b (by omega) ha hb).cons c

theorem swap_perm {α : Type} (l : List α) (i j : Nat) (a b : α) (hij : i ≠ j)
    (ha : l[i]? = some a) (hb : l[j]? = some b) : ((l.set i b).set j a).Perm l := by
  rcases Nat.lt_or_gt_of_ne hij with h | h
  · exact swap_perm_lt l i j a b h ha hb
  · rw [List.set_comm _ _ _ hij]
    exact swap_perm_lt l j i b a h hb ha
theorem countAt_perm (Dy Dz : Int) {arr p : List Particle} (h : arr.Perm p) (j : Int) :
    countAt Dy Dz arr j = countAt Dy Dz p j := by
  unfold countAt
  rw [(h.filter _).length_eq]

theorem countBelow_perm (Dy Dz : Int) {arr p : List Particle} (h : arr.Perm p) (j : Int) :
    countBelow Dy Dz arr j = countBelow Dy Dz p j := by
  unfold countBelow
  rw [(h.filter _).length_eq]

theorem countAt_pos_of_mem (Dy Dz : Int) (l : List Particle) (q : Particle) (hq : q ∈ l) :
    1 ≤ countAt Dy Dz l (flatIndex Dy Dz (cellOf q)) := by
  induction l with
  | nil => cases hq
  | cons a l ih =>
    rw [countAt_cons]
    rcases List.mem_cons.mp hq with e | e
    · subst e
      have := countAt_nonneg Dy Dz l (flatIndex Dy Dz (cellOf q))
      simp only [if_true]
      omega
    · have := ih e
      split_ifs <;> omega

theorem countAt_eq_length (Dy Dz : Int) (l : List Particle) (d : Int)
    (h : ∀ q ∈ l, flatIndex Dy Dz (cellOf q) = d) : countAt Dy Dz l d = l.length := by
  induction l with
  | nil => rfl
  | cons a l ih =>
    rw [countAt_cons, if_pos (h a (List.mem_cons_self _ _)),
      ih (fun q hq => h q (List.mem_cons_of_mem _ hq))]
    simp; ring

/-- The segment `arr[lo:hi]` of a list. -/
theorem segment_split {α : Type} (arr : List α) (lo hi : Nat) (h : lo ≤ hi) :
    arr = arr.take lo ++ ((arr.take hi).drop lo ++ arr.drop hi) := by
  have e1 : arr = arr.take hi ++ arr.drop hi := (List.take_append_drop hi arr).symm
  have e2 : arr.take hi = (arr.take hi).take lo ++ (arr.take hi).drop lo :=
    (List.take_append_drop lo _).symm
  have e3 : (arr.take hi).take lo = arr.take lo := by
    rw [List.take_take, Nat.min_eq_left h]
  rw [e3] at e2
  calc arr = arr.take hi ++ arr.drop hi := e1
    _ = (arr.take lo ++ (arr.take hi).drop lo) ++ arr.drop hi := by rw [← e2]
    _ = _ := List.append_assoc _ _ _

/-- When a whole segment of `arr` holds points of the cell `d` and a position outside
of the segment holds one as well, the cell has more points than the segment is long. -/
theorem countAt_gt_of_outside (Dy Dz : Int) (arr : List Particle) (d lo hi i : Int)
    (q : Particle) (h0 : 0 ≤ lo) (h1 : lo ≤ hi) (h2 : hi ≤ arr.length)
    (hin : ∀ x : Int, lo ≤ x → x < hi →
      ∃ r, getI arr x = some r ∧ flatIndex Dy Dz (cellOf r) = d)
    (hout : i < lo ∨ hi ≤ i) (hi0 : 0 ≤ i) (hq : getI arr i = some q)
    (hk : flatIndex Dy Dz (cellOf q) = d) :
    hi - lo + 1 ≤ countAt Dy Dz arr d := by
  have hsplit := segment_split arr lo.toNat hi.toNat (by omega)
  have hmid : countAt Dy Dz ((arr.take hi.toNat).drop lo.toNat) d = hi - lo := by
    rw [countAt_eq_length]
    · simp only [List.length_drop, List.length_take]
      omega
    · intro r hr
      obtain ⟨t, ht⟩ := List.getElem?_of_mem hr
      have htl : t < ((arr.take hi.toNat).drop lo.toNat).length :=
        (List.getElem?_eq_some_iff.mp ht).1
      simp only [List.length_drop, List.length_take] at htl
      rw [List.getElem?_drop, List.getElem?_take_of_lt (by omega)] at ht
      obtain ⟨r2, hr2, hk2⟩ := hin (lo + t) (by omega) (by omega)
      rw [getI_eq_getElem? _ _ (by omega)] at hr2
      have e : (lo + (t : Int)).toNat = lo.toNat + t := by omega
      rw [e, ht] at hr2
      cases hr2
      exact hk2
  rw [getI_eq_getElem? _ _ hi0] at hq
  have hA := countAt_nonneg Dy Dz (arr.take lo.toNat) d
  have hC := countAt_nonneg Dy Dz (arr.drop hi.toNat) d
  have htot : countAt Dy Dz arr d = countAt Dy Dz (arr.take lo.toNat) d
      + (countAt Dy Dz ((arr.take hi.toNat).drop lo.toNat) d
        + countAt Dy Dz (arr.drop hi.toNat) d) := by
    conv_lhs => rw [hsplit]
    rw [countAt_append, countAt_append]
  rcases hout with hlt | hge
  · have hmem : q ∈ arr.take lo.toNat := by
      apply List.getElem?_mem (n := i.toNat)
      rw [List.getElem?_take_of_lt (by omega)]
      exact hq
    have := countAt_pos_of_mem Dy Dz _ q hmem
    rw [hk] at this
    omega
  · have hmem : q ∈ arr.drop hi.toNat := by
      apply List.getElem?_mem (n := i.toNat - hi.toNat)
      rw [List.getElem?_drop]
      have e : hi.toNat + (i.toNat - hi.toNat) = i.toNat := by omega
      rw [e]
      exact hq
    have := countAt_pos_of_mem Dy Dz _ q hmem
    rw [hk] at this
    omega
/-! ## CycleSortGrid: the measure of the sorting loops -/

theorem getI_natCast {α : Type} (l : List α) (d : Nat) : getI l (d : Int) = l[d]? := by
  rw [getI_eq_getElem? _ _ (by omega)]
  simp

theorem cycleSort_room_set (Dy Dz : Int) (p : List Particle) (ends : List Int)
    (d : Int) (e : Int) (hd : 0 ≤ d) (he : getI ends d = some e) :
    CycleSortGrid.room Dy Dz p (ends.set d.toNat (e + 1))
      = CycleSortGrid.room Dy Dz p ends - 1 := by
  rw [getI_eq_getElem? _ _ hd] at he
  have hlt : d.toNat < ends.length := (List.getElem?_eq_some_iff.mp he).1
  unfold CycleSortGrid.room
  rw [List.length_set]
  have hmem : d.toNat ∈ Finset.range ends.length := Finset.mem_range.mpr hlt
  rw [← Finset.add_sum_erase _ _ hmem, ← Finset.add_sum_erase (Finset.range ends.length) _ hmem]
  have e1 : (ends.set d.toNat (e + 1)).getD d.toNat 0 = e + 1 := by
    rw [List.getD_eq_getElem?_getD, List.getElem?_set_self hlt]
    rfl
  have e2 : ends.getD d.toNat 0 = e := by
    rw [List.getD_eq_getElem?_getD, he]
    rfl
  have e3 : Finset.sum ((Finset.range ends.length).erase d.toNat)
      (fun x => countBelow Dy Dz p ((x : Int) + 1) - (ends.set d.toNat (e + 1)).getD x 0)
      = Finset.sum ((Finset.range ends.length).erase d.toNat)
      (fun x => countBelow Dy Dz p ((x : Int) + 1) - ends.getD x 0) := by
    apply Finset.sum_congr rfl
    intro x hx
    have hne : d.toNat ≠ x := fun h => (Finset.mem_erase.mp hx).1 h.symm
    rw [List.getD_eq_getElem?_getD, List.getD_eq_getElem?_getD, List.getElem?_set_ne hne]
  rw [e1, e2, e3]
  ring

theorem cycleSort_room_nonneg (Dy Dz : Int) (p : List Particle) (n : Int)
    (arr : List Particle) (ends : List Int)
    (h : CycleSortGrid.Placed Dy Dz p n arr ends) : 0 ≤ CycleSortGrid.room Dy Dz p ends := by
  obtain ⟨-, hl, hall⟩ := h
  unfold CycleSortGrid.room
  apply Finset.sum_nonneg
  intro d hd
  have hd1 := Finset.mem_range.mp hd
  obtain ⟨e, he, -, hle, -⟩ := hall (d : Int) (by omega) (by omega)
  rw [getI_natCast] at he
  rw [List.getD_eq_getElem?_getD, he]
  simp only [Option.getD_some]
  omega

theorem cycleSort_room_init (Dy Dz : Int) (p : List Particle) (ends : List Int)
    (h : ∀ d : Nat, d < ends.length → ends[d]? = some (countBelow Dy Dz p d)) :
    CycleSortGrid.room Dy Dz p ends
      = countBelow Dy Dz p ends.length - countBelow Dy Dz p 0 := by
  unfold CycleSortGrid.room
  have e : Finset.sum (Finset.range ends.length)
      (fun d => countBelow Dy Dz p ((d : Int) + 1) - ends.getD d 0)
      = Finset.sum (Finset.range ends.length)
      (fun d => (fun k : Nat => countBelow Dy Dz p (k : Int)) (d + 1)
        - (fun k : Nat => countBelow Dy Dz p (k : Int)) d) := by
    apply Finset.sum_congr rfl
    intro d hd
    rw [List.getD_eq_getElem?_getD, h d (Finset.mem_range.mp hd)]
    simp
  rw [e]
  have := Finset.sum_range_sub (fun k : Nat => countBelow Dy Dz p (k : Int)) ends.length
  simpa using this
/-! ## CycleSortGrid: the invariant is kept by a swap and by an advance -/

theorem cycleSort_Placed_length {Dy Dz : Int} {p : List Particle} {n : Int}
    {arr : List Particle} {ends : List Int}
    (h : CycleSortGrid.Placed Dy Dz p n arr ends) : arr.length = p.length :=
  h.1.length_eq

/-- A point of the cell `d` that sits outside of the range of the cell leaves room
behind the cursor of the cell. -/
theorem cycleSort_Placed_room {Dy Dz : Int} {p : List Particle} {n : Int}
    {arr : List Particle} {ends : List Int}
    (h : CycleSortGrid.Placed Dy Dz p n arr ends) (d i j : Int) (q : Particle)
    (hd0 : 0 ≤ d) (hd1 : d < n) (hj : getI ends d = some j) (hi0 : 0 ≤ i)
    (hq : getI arr i = some q) (hk : flatIndex Dy Dz (cellOf q) = d)
    (hout : i < countBelow Dy Dz p d ∨ countBelow Dy Dz p (d + 1) ≤ i) :
    j < countBelow Dy Dz p (d + 1) := by
  obtain ⟨e, he, hlo, hhi, hseg⟩ := h.2.2 d hd0 hd1
  rw [hj] at he
  cases he
  have htop := countBelow_le_length Dy Dz p (d + 1)
  have hlen := cycleSort_Placed_length h
  have := countAt_gt_of_outside Dy Dz arr d (countBelow Dy Dz p d) j i q
    (countBelow_nonneg _ _ _ _) hlo (by omega) hseg (by omega) hi0 hq hk
  rw [countAt_perm Dy Dz h.1] at this
  have hs := countBelow_succ Dy Dz p d
  omega

theorem cycleSort_ranges_disjoint (Dy Dz : Int) (p : List Particle) {s d x y : Int}
    (hsd : s ≠ d)
    (hx0 : countBelow Dy Dz p s ≤ x) (hx1 : x < countBelow Dy Dz p (s + 1))
    (hy0 : countBelow Dy Dz p d ≤ y) (hy1 : y < countBelow Dy Dz p (d + 1)) : x ≠ y := by
  rcases lt_or_gt_of_ne hsd with h | h
  · have := countBelow_mono Dy Dz p (show s + 1 ≤ d by omega)
    omega
  · have := countBelow_mono Dy Dz p (show d + 1 ≤ s by omega)
    omega

theorem cycleSort_Placed_swap {Dy Dz : Int} {p : List Particle} {n : Int}
    {arr : List Particle} {ends : List Int}
    (h : CycleSortGrid.Placed Dy Dz p n arr ends) (s d i j : Int) (q pj : Particle)
    (hs0 : 0 ≤ s) (hs1 : s < n) (hd0 : 0 ≤ d) (hd1 : d < n) (hsd : d ≠ s)
    (hi : getI ends s = some i) (hi1 : i < countBelow Dy Dz p (s + 1))
    (hj : getI ends d = some j) (hj1 : j < countBelow Dy Dz p (d + 1))
    (hq : getI arr i = some q) (hk : flatIndex Dy Dz (cellOf q) = d)
    (hpj : getI arr j = some pj) :
    CycleSortGrid.Placed Dy Dz p n ((arr.set i.toNat pj).set j.toNat q)
      (ends.set d.toNat (j + 1)) := by
  obtain ⟨hperm, hl, hall⟩ := h
  obtain ⟨es, hes, hslo, hshi, hsseg⟩ := hall s hs0 hs1
  rw [hi] at hes; cases hes
  obtain ⟨ed, hed, hdlo, hdhi, hdseg⟩ := hall d hd0 hd1
  rw [hj] at hed; cases hed
  have hb0 := countBelow_nonneg Dy Dz p s
  have hb1 := countBelow_nonneg Dy Dz p d
  have hlen : arr.length = p.length := hperm.length_eq
  have htop1 := countBelow_le_length Dy Dz p (s + 1)
  have htop2 := countBelow_le_length Dy Dz p (d + 1)
  have hij : i ≠ j := cycleSort_ranges_disjoint Dy Dz p (fun e => hsd e.symm)
    hslo hi1 hdlo hj1
  have hq2 := hq
  have hpj2 := hpj
  rw [getI_eq_getElem? _ _ (by omega)] at hq2 hpj2
  refine ⟨?_, by simpa using hl, ?_⟩
  · exact (swap_perm arr i.toNat j.toNat q pj (by omega) hq2 hpj2).trans hperm
  · intro c hc0 hc1
    obtain ⟨ec, hec, hclo, hchi, hcseg⟩ := hall c hc0 hc1
    have hbc := countBelow_nonneg Dy Dz p c
    have key : ∀ x : Int, 0 ≤ x → x ≠ i → x ≠ j →
        getI ((arr.set i.toNat pj).set j.toNat q) x = getI arr x := by
      intro x hx0 hxi hxj
      rw [getI_set _ _ _ _ (by omega) (by simp; omega) hx0, if_neg hxj,
        getI_set _ _ _ _ (by omega) (by omega) hx0, if_neg hxi]
    rw [getI_set _ _ _ _ hd0 (by omega) hc0]
    by_cases hcd : c = d
    · subst hcd
      rw [hj] at hec; cases hec
      refine ⟨j + 1, by simp, by omega, by omega, ?_⟩
      intro x hx0 hx1
      by_cases hxj : x = j
      · subst hxj
        refine ⟨q, ?_, hk⟩
        rw [getI_set _ _ _ _ (by omega) (by simp; omega) (by omega), if_pos rfl]
      · have hxi : x ≠ i := fun e => by
          subst e
          exact cycleSort_ranges_disjoint Dy Dz p (fun e => hsd e.symm)
            hslo hi1 hx0 (by omega) rfl
        rw [key x (by omega) hxi hxj]
        exact hcseg x hx0 (by omega)
    · rw [if_neg hcd]
      refine ⟨ec, hec, hclo, hchi, ?_⟩
      intro x hx0 hx1
      have hxj : x ≠ j := cycleSort_ranges_disjoint Dy Dz p hcd hx0 (by omega) hdlo hj1
      have hxi : x ≠ i := by
        by_cases hcs : c = s
        · subst hcs
          rw [hi] at hec; cases hec
          omega
        · exact cycleSort_ranges_disjoint Dy Dz p hcs hx0 (by omega) hslo hi1
      rw [key x (by omega) hxi hxj]
      exact hcseg x hx0 hx1

theorem cycleSort_Placed_advance {Dy Dz : Int} {p : List Particle} {n : Int}
    {arr : List Particle} {ends : List Int}
    (h : CycleSortGrid.Placed Dy Dz p n arr ends) (s i : Int) (q : Particle)
    (hs0 : 0 ≤ s) (hs1 : s < n)
    (hi : getI ends s = some i) (hi1 : i < countBelow Dy Dz p (s + 1))
    (hq : getI arr i = some q) (hk : flatIndex Dy Dz (cellOf q) = s) :
    CycleSortGrid.Placed Dy Dz p n arr (ends.set s.toNat (i + 1)) := by
  obtain ⟨hperm, hl, hall⟩ := h
  refine ⟨hperm, by simpa using hl, ?_⟩
  intro c hc0 hc1
  obtain ⟨ec, hec, hclo, hchi, hcseg⟩ := hall c hc0 hc1
  rw [getI_set _ _ _ _ hs0 (by omega) hc0]
  by_cases hcs : c = s
  · subst hcs
    rw [hi] at hec; cases hec
    refine ⟨i + 1, by simp, by omega, by omega, ?_⟩
    intro x hx0 hx1
    by_cases hxi : x = i
    · subst hxi; exact ⟨q, hq, hk⟩
    · exact hcseg x hx0 (by omega)
  · rw [if_neg hcs]
    exact ⟨ec, hec, hclo, hchi, hcseg⟩
/-! ## CycleSortGrid: the three sorting loops -/

theorem cycleSort_swapLoop_zero (Dy Dz srcBin i dstBin : Int)
    (st : List Particle × List Int) :
    CycleSortGrid.swapLoop Dy Dz srcBin i 0 dstBin st = none := rfl

theorem cycleSort_swapLoop_succ (Dy Dz srcBin i : Int) (fuel : Nat) (dstBin : Int)
    (p : List Particle) (ends : List Int) :
    CycleSortGrid.swapLoop Dy Dz srcBin i (fuel + 1) dstBin (p, ends) =
      if dstBin ≠ srcBin then
        match getI ends dstBin with
        | none => none
        | some j =>
          match getI p j, getI p i with
          | some pj, some pi =>
            match setI p i pj with
            | none => none
            | some p1 =>
              match setI p1 j pi, setI ends dstBin (add64 j 1) with
              | some p2, some ends1 =>
                match getI p2 i with
                | none => none
                | some arrived =>
                  CycleSortGrid.swapLoop Dy Dz srcBin i fuel
                    (flatIndex Dy Dz (cellOf arrived)) (p2, ends1)
              | _, _ => none
          | _, _ => none
      else some (p, ends) := rfl

theorem mem_of_getI {α : Type} {l : List α} {i : Int} {a : α} (h : getI l i = some a) :
    a ∈ l := by
  unfold getI at h
  split at h
  · cases h
  · exact List.getElem?_mem h

theorem getI_lt_length {α : Type} {l : List α} {i : Int} {a : α} (h : getI l i = some a) :
    0 ≤ i ∧ i < l.length := by
  unfold getI at h
  split at h
  · cases h
  · have := (List.getElem?_eq_some_iff.mp h).1
    omega

theorem cycleSort_outside_of_ne (Dy Dz : Int) (p : List Particle) {s d i : Int}
    (hsd : d ≠ s) (hi0 : countBelow Dy Dz p s ≤ i) (hi1 : i < countBelow Dy Dz p (s + 1)) :
    i < countBelow Dy Dz p d ∨ countBelow Dy Dz p (d + 1) ≤ i := by
  rcases lt_or_gt_of_ne hsd with h | h
  · have := countBelow_mono Dy Dz p (show d + 1 ≤ s by omega)
    omega
  · have := countBelow_mono Dy Dz p (show s + 1 ≤ d by omega)
    omega

theorem cycleSort_swapLoop_spec (Dy Dz : Int) (n : Int) (p : List Particle)
    (hn : (p.length : Int) < 2 ^ 63)
    (hkeys : ∀ pi ∈ p, 0 ≤ flatIndex Dy Dz (cellOf pi) ∧ flatIndex Dy Dz (cellOf pi) < n)
    (s i : Int) (hs0 : 0 ≤ s) (hs1 : s < n) (hi1 : i < countBelow Dy Dz p (s + 1)) :
    ∀ (fuel : Nat) (dst : Int) (arr : List Particle) (ends : List Int),
    CycleSortGrid.Placed Dy Dz p n arr ends → getI ends s = some i →
    (∃ q, getI arr i = some q ∧ flatIndex Dy Dz (cellOf q) = dst) →
    CycleSortGrid.room Dy Dz p ends < fuel →
    ∃ arr1 ends1,
      CycleSortGrid.swapLoop Dy Dz s i fuel dst (arr, ends) = some (arr1, ends1) ∧
      CycleSortGrid.Placed Dy Dz p n arr1 ends1 ∧ getI ends1 s = some i ∧
      (∃ q, getI arr1 i = some q ∧ flatIndex Dy Dz (cellOf q) = s) ∧
      CycleSortGrid.room Dy Dz p ends1 ≤ CycleSortGrid.room Dy Dz p ends ∧
      (∀ (d e : Int), 0 ≤ d → getI ends d = some e →
        ∃ e1, getI ends1 d = some e1 ∧ e ≤ e1) := by
  intro fuel
  induction fuel with
  | zero =>
    intro dst arr ends hpl _ _ hroom
    have := cycleSort_room_nonneg Dy Dz p n arr ends hpl
    simp at hroom
    omega
  | succ fuel ih =>
    intro dst arr ends hpl hi hq hroom
    obtain ⟨q, hq, hk⟩ := hq
    rw [cycleSort_swapLoop_succ]
    by_cases hds : dst = s
    · rw [if_neg (by simpa using hds)]
      exact ⟨arr, ends, rfl, hpl, hi, ⟨q, hq, hk.trans hds⟩, le_refl _,
        fun d e _ he => ⟨e, he, le_refl _⟩⟩
    · rw [if_pos hds]
      have hqp : q ∈ p := hpl.1.subset (mem_of_getI hq)
      obtain ⟨hd0, hd1⟩ := hkeys q hqp
      rw [hk] at hd0 hd1
      obtain ⟨es, hes, hslo, -, -⟩ := hpl.2.2 s hs0 hs1
      rw [hi] at hes; cases hes
      obtain ⟨j, hj, hjlo, -, -⟩ := hpl.2.2 dst hd0 hd1
      have hi0 : 0 ≤ i := le_trans (countBelow_nonneg _ _ _ _) hslo
      have hj1 := cycleSort_Placed_room hpl dst i j q hd0 hd1 hj hi0 hq hk
        (cycleSort_outside_of_ne Dy Dz p hds hslo hi1)
      have hlen := cycleSort_Placed_length hpl
      have htop := countBelow_le_length Dy Dz p (dst + 1)
      have hj0 : 0 ≤ j := le_trans (countBelow_nonneg _ _ _ _) hjlo
      obtain ⟨pj, hpj⟩ := getI_of_lt arr j hj0 (by omega)
      have hij : i ≠ j := cycleSort_ranges_disjoint Dy Dz p (fun e => hds e.symm)
        hslo hi1 hjlo hj1
      have hil := (getI_lt_length hq).2
      have hel := (getI_lt_length hj).2
      have hadd : add64 j 1 = j + 1 := wrap64_of_nonneg (by omega) (by omega)
      have hget : getI ((arr.set i.toNat pj).set j.toNat q) i = some pj := by
        rw [getI_set _ _ _ _ hj0 (by simp; omega) hi0, if_neg hij,
          getI_set _ _ _ _ hi0 hil hi0, if_pos rfl]
      have hpl2 := cycleSort_Placed_swap hpl s dst i j q pj hs0 hs1 hd0 hd1 hds hi hi1
        hj hj1 hq hk hpj
      have hroom2 := cycleSort_room_set Dy Dz p ends dst j hd0 hj
      have hi2 : getI (ends.set dst.toNat (j + 1)) s = some i := by
        rw [getI_set _ _ _ _ hd0 hel hs0, if_neg (fun e => hds e.symm)]
        exact hi
      obtain ⟨arr1, ends1, e1, hpl1, hi3, hq3, hroom3, hmono⟩ := ih
        (flatIndex Dy Dz (cellOf pj)) ((arr.set i.toNat pj).set j.toNat q)
        (ends.set dst.toNat (j + 1)) hpl2 hi2 ⟨pj, hget, rfl⟩ (by
          rw [hroom2]; push_cast at hroom; omega)
      refine ⟨arr1, ends1, ?_, hpl1, hi3, hq3, by omega, ?_⟩
      · simp only [hj, hpj, hq, setI_of_lt arr i pj hi0 hil,
          setI_of_lt (arr.set i.toNat pj) j q hj0 (by simp; omega),
          hadd, setI_of_lt ends dst (j + 1) hd0 hel, hget]
        exact e1
      · intro d e hd he
        by_cases hdd : d = dst
        · subst hdd
          rw [hj] at he; cases he
          obtain ⟨e1', he1, hle⟩ := hmono d (j + 1) hd (by
            rw [getI_set _ _ _ _ hd0 hel hd, if_pos rfl])
          exact ⟨e1', he1, by omega⟩
        · exact hmono d e hd (by
            rw [getI_set _ _ _ _ hd0 hel hd, if_neg hdd]
            exact he)
theorem cycleSort_binLoop_succ (Dy Dz : Int) (inner : Nat) (srcBin lim : Int)
    (fuel : Nat) (p : List Particle) (ends : List Int) :
    CycleSortGrid.binLoop Dy Dz inner srcBin lim (fuel + 1) (p, ends) =
      match getI ends srcBin with
      | none => none
      | some i =>
        if i < lim then
          match getI p i with
          | none => none
          | some pi =>
            match CycleSortGrid.swapLoop Dy Dz srcBin i inner
                (flatIndex Dy Dz (cellOf pi)) (p, ends) with
            | none => none
            | some (p1, ends1) =>
              match getI ends1 srcBin with
              | none => none
              | some e =>
                match setI ends1 srcBin (add64 e 1) with
                | none => none
                | some ends2 =>
                  CycleSortGrid.binLoop Dy Dz inner srcBin lim fuel (p1, ends2)
        else some (p, ends) := rfl

theorem cycleSort_binLoop_spec (Dy Dz : Int) (n : Int) (p : List Particle)
    (hn : (p.length : Int) < 2 ^ 63)
    (hkeys : ∀ pi ∈ p, 0 ≤ flatIndex Dy Dz (cellOf pi) ∧ flatIndex Dy Dz (cellOf pi) < n)
    (inner : Nat) (s : Int) (hs0 : 0 ≤ s) (hs1 : s < n) :
    ∀ (fuel : Nat) (arr : List Particle) (ends : List Int),
    CycleSortGrid.Placed Dy Dz p n arr ends →
    CycleSortGrid.room Dy Dz p ends < fuel → CycleSortGrid.room Dy Dz p ends < inner →
    ∃ arr1 ends1,
      CycleSortGrid.binLoop Dy Dz inner s (countBelow Dy Dz p (s + 1)) fuel (arr, ends)
        = some (arr1, ends1) ∧
      CycleSortGrid.Placed Dy Dz p n arr1 ends1 ∧
      getI ends1 s = some (countBelow Dy Dz p (s + 1)) ∧
      CycleSortGrid.room Dy Dz p ends1 ≤ CycleSortGrid.room Dy Dz p ends ∧
      (∀ (d e : Int), 0 ≤ d → getI ends d = some e →
        ∃ e1, getI ends1 d = some e1 ∧ e ≤ e1) := by
  intro fuel
  induction fuel with
  | zero =>
    intro arr ends hpl hroom _
    have := cycleSort_room_nonneg Dy Dz p n arr ends hpl
    simp at hroom
    omega
  | succ fuel ih =>
    intro arr ends hpl hroom hinner
    obtain ⟨i, hi, hilo, hihi, -⟩ := hpl.2.2 s hs0 hs1
    rw [cycleSort_binLoop_succ]
    simp only [hi]
    by_cases hlt : i < countBelow Dy Dz p (s + 1)
    · rw [if_pos hlt]
      have hlen := cycleSort_Placed_length hpl
      have htop := countBelow_le_length Dy Dz p (s + 1)
      have hi0 : 0 ≤ i := le_trans (countBelow_nonneg _ _ _ _) hilo
      obtain ⟨pi, hpi⟩ := getI_of_lt arr i hi0 (by omega)
      obtain ⟨arr1, ends1, e1, hpl1, hi1, ⟨q, hq, hk⟩, hroom1, hmono1⟩ :=
        cycleSort_swapLoop_spec Dy Dz n p hn hkeys s i hs0 hs1 hlt inner
          (flatIndex Dy Dz (cellOf pi)) arr ends hpl hi ⟨pi, hpi, rfl⟩ hinner
      have hadd : add64 i 1 = i + 1 := wrap64_of_nonneg (by omega) (by omega)
      have hel := (getI_lt_length hi1).2
      have hpl2 := cycleSort_Placed_advance hpl1 s i q hs0 hs1 hi1 hlt hq hk
      have hroom2 := cycleSort_room_set Dy Dz p ends1 s i hs0 hi1
      obtain ⟨arr3, ends3, e3, hpl3, hi3, hroom3, hmono3⟩ := ih arr1
        (ends1.set s.toNat (i + 1)) hpl2 (by rw [hroom2]; push_cast at hroom; omega)
        (by rw [hroom2]; omega)
      refine ⟨arr3, ends3, ?_, hpl3, hi3, by omega, ?_⟩
      · simp only [hpi, e1, hi1, hadd, setI_of_lt ends1 s (i + 1) hs0 hel]
        exact e3
      · intro d e hd he
        obtain ⟨e1', he1, hle1⟩ := hmono1 d e hd he
        by_cases hds : d = s
        · have h1 : e1' = i := by
            rw [hds, hi1] at he1
            exact (Option.some.inj he1).symm
          obtain ⟨e3', he3, hle3⟩ := hmono3 d (i + 1) hd (by
            rw [hds, getI_set _ _ _ _ hs0 hel hs0, if_pos rfl])
          exact ⟨e3', he3, by omega⟩
        · obtain ⟨e3', he3, hle3⟩ := hmono3 d e1' hd (by
            rw [getI_set _ _ _ _ hs0 hel hd, if_neg hds]
            exact he1)
          exact ⟨e3', he3, by omega⟩
    · rw [if_neg hlt]
      have : i = countBelow Dy Dz p (s + 1) := by omega
      subst this
      exact ⟨arr, ends, rfl, hpl, hi, le_refl _, fun d e _ he => ⟨e, he, le_refl _⟩⟩

theorem cycleSort_srcLoop_succ (Dy Dz : Int) (edges : List Int) (fuel : Nat)
    (k : Nat) (srcBin : Int) (st : List Particle × List Int) :
    CycleSortGrid.srcLoop Dy Dz edges fuel (k + 1) srcBin st =
      match getI edges (add64 srcBin 1) with
      | none => none
      | some lim =>
        match CycleSortGrid.binLoop Dy Dz fuel srcBin lim fuel st with
        | none => none
        | some st1 => CycleSortGrid.srcLoop Dy Dz edges fuel k (add64 srcBin 1) st1 := rfl

theorem cycleSort_srcLoop_spec (Dy Dz : Int) (n : Int) (p : List Particle)
    (hn : (p.length : Int) < 2 ^ 63) (hn2 : n < 2 ^ 63 - 1)
    (hkeys : ∀ pi ∈ p, 0 ≤ flatIndex Dy Dz (cellOf pi) ∧ flatIndex Dy Dz (cellOf pi) < n)
    (edges : List Int)
    (hedges : ∀ m : Int, 0 ≤ m → m ≤ n → getI edges m = some (countBelow Dy Dz p m))
    (fuel : Nat) :
    ∀ (k : Nat) (s : Int) (arr : List Particle) (ends : List Int), 0 ≤ s → s + k = n →
    CycleSortGrid.Placed Dy Dz p n arr ends →
    CycleSortGrid.room Dy Dz p ends < fuel →
    (∀ d : Int, 0 ≤ d → d < s → getI ends d = some (countBelow Dy Dz p (d + 1))) →
    ∃ arr1 ends1,
      CycleSortGrid.srcLoop Dy Dz edges fuel k s (arr, ends) = some (arr1, ends1) ∧
      CycleSortGrid.Placed Dy Dz p n arr1 ends1 ∧
      ∀ d : Int, 0 ≤ d → d < n → getI ends1 d = some (countBelow Dy Dz p (d + 1)) := by
  intro k
  induction k with
  | zero =>
    intro s arr ends _ hsk hpl _ hdone
    exact ⟨arr, ends, rfl, hpl, fun d hd0 hd1 => hdone d hd0 (by simp at hsk; omega)⟩
  | succ k ih =>
    intro s arr ends hs0 hsk hpl hroom hdone
    have hs1 : s < n := by push_cast at hsk; omega
    have hadd : add64 s 1 = s + 1 := wrap64_of_nonneg (by omega) (by omega)
    obtain ⟨arr1, ends1, e1, hpl1, hi1, hroom1, hmono1⟩ :=
      cycleSort_binLoop_spec Dy Dz n p hn hkeys fuel s hs0 hs1 fuel arr ends hpl
        hroom hroom
    obtain ⟨arr2, ends2, e2, hpl2, hall2⟩ := ih (s + 1) arr1 ends1 (by omega)
      (by push_cast at hsk ⊢; omega) hpl1 (by omega) (by
        intro d hd0 hd1
        by_cases hds : d = s
        · subst hds; exact hi1
        · obtain ⟨e1', he1, hle⟩ := hmono1 d _ hd0 (hdone d hd0 (by omega))
          obtain ⟨e', he', -, hhi, -⟩ := hpl1.2.2 d hd0 (by omega)
          rw [he1] at he'; cases he'
          rw [he1]
          congr 1
          omega)
    refine ⟨arr2, ends2, ?_, hpl2, hall2⟩
    rw [cycleSort_srcLoop_succ]
    simp only [hadd, hedges (s + 1) (by omega) (by omega), e1]
    exact e2
/-! ## CycleSortGrid: `Resize`, `Bin` and the contract -/

theorem cycleSort_Resize_spec (g : CycleSortGrid) {span : Idx3} (h : SpanFits span) :
    ∃ g1, g.Resize span = some g1 ∧ g1.Dy = span.i0 ∧ g1.Dz = mul64 span.i0 span.i1 ∧
      g1.BinEdges.elems = List.replicate ((cellCount span).toNat + 1) 0 ∧
      g1.BinEnds.elems.length = (cellCount span).toNat ∧ g1.Data = g.Data := by
  have hc := cellCount_lt h
  have hc0 := cellCount_nonneg h
  obtain ⟨t, ht, hlen⟩ := growTo_succ_spec g.BinEdges (cellCount span) 0 hc0 (by omega)
  obtain ⟨u, hu, hlen2⟩ := growTo_spec g.BinEnds (cellCount span) 0 hc0
  delta CycleSortGrid.Resize
  simp only [ht, hu]
  refine ⟨_, rfl, rfl, mul64_comm _ _, ?_, by show u.elems.length = _; omega, rfl⟩
  simp only [map_const_eq_replicate]
  congr 1
  omega

theorem getI_take {α : Type} (l : List α) (k : Nat) (i : Int) (h0 : 0 ≤ i) (h1 : i < k) :
    getI (l.take k) i = getI l i := by
  rw [getI_eq_getElem? _ _ h0, getI_eq_getElem? _ _ h0, List.getElem?_take_of_lt (by omega)]

theorem cycleSort_Bin_spec (g : CycleSortGrid) (n : Nat) (p : List Particle)
    (hn : (p.length : Int) < 2 ^ 63) (hn2 : (n : Int) < 2 ^ 63 - 1)
    (hedges : g.BinEdges.elems = List.replicate (n + 1) 0)
    (hends : g.BinEnds.elems.length = n)
    (hkeys : ∀ pi ∈ p, 0 ≤ flatIndex g.Dy g.Dz (cellOf pi) ∧
      flatIndex g.Dy g.Dz (cellOf pi) < n) :
    ∃ g2, g.Bin p = some g2 ∧ g2.Dy = g.Dy ∧ g2.Dz = g.Dz ∧
      (∀ m : Int, 0 ≤ m → m ≤ n → getI g2.BinEdges.elems m = some (countBelow g.Dy g.Dz p m)) ∧
      CycleSortGrid.Placed g.Dy g.Dz p n g2.Data g2.BinEnds.elems ∧
      (∀ d : Int, 0 ≤ d → d < n →
        getI g2.BinEnds.elems d = some (countBelow g.Dy g.Dz p (d + 1))) := by
  have hlow : ∀ pi ∈ p, (0 : Int) ≤ flatIndex g.Dy g.Dz (cellOf pi) :=
    fun pi hpi => (hkeys pi hpi).1
  have hB0 : countBelow g.Dy g.Dz p 0 = 0 := countBelow_eq_zero _ _ _ _ hlow
  have hBn : countBelow g.Dy g.Dz p n = p.length :=
    countBelow_eq_length _ _ _ _ (fun pi hpi => (hkeys pi hpi).2)
  obtain ⟨counted, e1, hl1, hc1⟩ := countLoop_spec g.Dy g.Dz n p g.BinEdges.elems []
    (by rw [hedges]; simp) (by
      intro m hm0 hm1
      rw [hedges, countAt_nil, wrap64_zero]
      exact getI_replicate _ _ _ hm0 (by push_cast; omega)) hkeys
  simp only [List.nil_append] at hc1
  obtain ⟨edges, e2, hl2, hc2⟩ := cycleSort_sumLoop_spec g.Dy g.Dz n p hn n 1 counted
    (le_refl _) (by omega) hl1 (by
      intro m hm0 hm1
      have : m = 0 := by omega
      subst this
      rw [hc1 0 (le_refl _) (by omega), wrap64_countAt _ _ _ hn, hB0, countAt_eq_zero]
      intro pi hpi
      have := hlow pi hpi
      omega) (by
      intro m hm0 hm1
      rw [hc1 m (by omega) hm1, wrap64_countAt _ _ _ hn])
  have hel : edges.length = n + 1 := by omega
  have e3 : CycleSortGrid.copyEdges edges g.BinEnds.elems = some (edges.take n) := by
    unfold CycleSortGrid.copyEdges
    rw [if_pos (by omega), hends]
  have htk : (edges.take n).length = n := by
    rw [List.length_take]; omega
  have hinit : CycleSortGrid.Placed g.Dy g.Dz p n p (edges.take n) := by
    refine ⟨List.Perm.refl _, by rw [htk], ?_⟩
    intro d hd0 hd1
    refine ⟨countBelow g.Dy g.Dz p d, ?_, le_refl _, countBelow_mono _ _ _ (by omega), ?_⟩
    · rw [getI_take _ _ _ hd0 hd1]
      exact hc2 d hd0 (by omega)
    · intro x hx0 hx1
      omega
  have hroom : CycleSortGrid.room g.Dy g.Dz p (edges.take n) < ((p.length + 1 : Nat) : Int) := by
    rw [cycleSort_room_init, htk, hBn, hB0]
    · push_cast; omega
    · intro d hd
      rw [htk] at hd
      rw [← getI_natCast, getI_take _ _ _ (by omega) (by omega)]
      exact hc2 d (by omega) (by omega)
  obtain ⟨arr1, ends1, e4, hpl, hall⟩ := cycleSort_srcLoop_spec g.Dy g.Dz n p hn hn2
    hkeys edges hc2 (p.length + 1) n 0 p (edges.take n) (le_refl _) (by omega) hinit hroom
    (by intro d hd0 hd1; omega)
  have hcl : counted.length - 1 = n := by omega
  delta CycleSortGrid.Bin
  simp only [e1, hcl, e2, e3, htk, e4]
  exact ⟨_, rfl, rfl, rfl, hc2, hpl, hall⟩
/-- A segment of `arr` that holds points of the cell `d` only, and as many as the cell
has, is the list of the points of the cell in array order. -/
theorem filter_eq_segment (Dy Dz : Int) (arr : List Particle) (d : Int) (lo hi : Nat)
    (h : lo ≤ hi) (hhi : hi ≤ arr.length)
    (hall : ∀ q ∈ (arr.take hi).drop lo, flatIndex Dy Dz (cellOf q) = d)
    (hcount : countAt Dy Dz arr d = ((hi - lo : Nat) : Int)) :
    arr.filter (fun q => decide (flatIndex Dy Dz (cellOf q) = d)) = (arr.take hi).drop lo := by
  have hsplit := segment_split arr lo hi h
  have hmid : ((arr.take hi).drop lo).filter (fun q => decide (flatIndex Dy Dz (cellOf q) = d))
      = (arr.take hi).drop lo :=
    List.filter_eq_self.mpr (fun q hq => by simpa using hall q hq)
  have hlen : ((arr.take hi).drop lo).length = hi - lo := by
    rw [List.length_drop, List.length_take]; omega
  have hcnt : countAt Dy Dz arr d = countAt Dy Dz (arr.take lo) d
      + (countAt Dy Dz ((arr.take hi).drop lo) d + countAt Dy Dz (arr.drop hi) d) := by
    conv_lhs => rw [hsplit]
    rw [countAt_append, countAt_append]
  have hm2 : countAt Dy Dz ((arr.take hi).drop lo) d = ((hi - lo : Nat) : Int) := by
    rw [countAt_eq_length _ _ _ _ hall, hlen]
  have hA := countAt_nonneg Dy Dz (arr.take lo) d
  have hC := countAt_nonneg Dy Dz (arr.drop hi) d
  have hA0 : (arr.take lo).filter (fun q => decide (flatIndex Dy Dz (cellOf q) = d)) = [] := by
    apply List.length_eq_zero.mp
    have : countAt Dy Dz (arr.take lo) d = 0 := by omega
    unfold countAt at this
    omega
  have hC0 : (arr.drop hi).filter (fun q => decide (flatIndex Dy Dz (cellOf q) = d)) = [] := by
    apply List.length_eq_zero.mp
    have : countAt Dy Dz (arr.drop hi) d = 0 := by omega
    unfold countAt at this
    omega
  conv_lhs => rw [hsplit]
  rw [List.filter_append, List.filter_append, hA0, hC0, hmid]
  simp

theorem cycleSort_segment_spec {Dy Dz : Int} {p : List Particle} {n : Int}
    {arr : List Particle} {ends : List Int}
    (hpl : CycleSortGrid.Placed Dy Dz p n arr ends)
    (hall : ∀ d : Int, 0 ≤ d → d < n → getI ends d = some (countBelow Dy Dz p (d + 1)))
    (d : Int) (hd0 : 0 ≤ d) (hd1 : d < n) :
    Slice.sub { elems := arr, spare := [] } (countBelow Dy Dz p d) (countBelow Dy Dz p (d + 1))
      = some (arr.filter (fun q => decide (flatIndex Dy Dz (cellOf q) = d))) := by
  obtain ⟨e, he, hlo, hhi, hseg⟩ := hpl.2.2 d hd0 hd1
  rw [hall d hd0 hd1] at he
  cases he
  have hb0 := countBelow_nonneg Dy Dz p d
  have hlen := cycleSort_Placed_length hpl
  have htop := countBelow_le_length Dy Dz p (d + 1)
  have hsucc := countBelow_succ Dy Dz p d
  have hf := filter_eq_segment Dy Dz arr d (countBelow Dy Dz p d).toNat
    (countBelow Dy Dz p (d + 1)).toNat (by omega) (by omega) (by
      intro q hq
      obtain ⟨t, ht⟩ := List.getElem?_of_mem hq
      have htl : t < ((arr.take (countBelow Dy Dz p (d + 1)).toNat).drop
          (countBelow Dy Dz p d).toNat).length := (List.getElem?_eq_some_iff.mp ht).1
      simp only [List.length_drop, List.length_take] at htl
      rw [List.getElem?_drop, List.getElem?_take_of_lt (by omega)] at ht
      obtain ⟨r, hr, hk⟩ := hseg (countBelow Dy Dz p d + t) (by omega) (by omega)
      rw [getI_eq_getElem? _ _ (by omega)] at hr
      have e : (countBelow Dy Dz p d + (t : Int)).toNat = (countBelow Dy Dz p d).toNat + t := by
        omega
      rw [e, ht] at hr
      cases hr
      exact hk) (by
      rw [countAt_perm Dy Dz hpl.1]
      omega)
  rw [hf]
  unfold Slice.sub
  rw [if_neg (by omega), if_neg (by omega), if_pos (by simp; omega)]
  simp

theorem cycleSort_contract : CycleSortGrid.methods.Contract := by
  intro g span p hs hp hn
  obtain ⟨g1, e1, hy, hz, hed, hen, -⟩ := cycleSort_Resize_spec g hs
  have hcn := cellCount_nonneg hs
  have hcl := cellCount_lt hs
  have hkeys : ∀ pi ∈ p, 0 ≤ flatIndex g1.Dy g1.Dz (cellOf pi) ∧
      flatIndex g1.Dy g1.Dz (cellOf pi) < ((cellCount span).toNat : Int) := by
    intro pi hpi
    rw [hy, hz]
    exact flat_range_of_span hs (hp pi hpi)
  obtain ⟨g2, e2, hy2, hz2, hedges, hpl, hall⟩ :=
    cycleSort_Bin_spec g1 (cellCount span).toNat p hn (by omega) hed hen hkeys
  refine ⟨g1, g2, e1, e2, ?_⟩
  intro c hc out
  obtain ⟨r0, r1⟩ := flat_range_of_span hs hc
  have hi1 : add64 (flatIndex span.i0 (mul64 span.i0 span.i1) c) 1
      = flatIndex span.i0 (mul64 span.i0 span.i1) c + 1 :=
    add64_one_of_lt r0 r1 (by omega)
  have z0 : getI g1.BinEdges.elems (flatIndex span.i0 (mul64 span.i0 span.i1) c) = some 0 := by
    rw [hed]; exact getI_replicate _ _ _ r0 (by push_cast; omega)
  have z1 : getI g1.BinEdges.elems (flatIndex span.i0 (mul64 span.i0 span.i1) c + 1)
      = some 0 := by
    rw [hed]; exact getI_replicate _ _ _ (by omega) (by push_cast; omega)
  have b0 := hedges (flatIndex span.i0 (mul64 span.i0 span.i1) c) r0 (by omega)
  have b1 := hedges (flatIndex span.i0 (mul64 span.i0 span.i1) c + 1) (by omega) (by omega)
  have hseg := cycleSort_segment_spec hpl hall
    (flatIndex span.i0 (mul64 span.i0 span.i1) c) r0 r1
  rw [hy, hz] at b0 b1 hseg
  have hsucc := countBelow_succ span.i0 (mul64 span.i0 span.i1) p
    (flatIndex span.i0 (mul64 span.i0 span.i1) c)
  have hperm : (g2.Data.filter (fun q => decide (flatIndex span.i0 (mul64 span.i0 span.i1)
      (cellOf q) = flatIndex span.i0 (mul64 span.i0 span.i1) c))).Perm (pointsOf p c) := by
    rw [← filter_flat_eq hs hp hc]
    exact hpl.1.filter _
  have hcnt : countAt span.i0 (mul64 span.i0 span.i1) p
      (flatIndex span.i0 (mul64 span.i0 span.i1) c) = ((pointsOf p c).length : Int) := by
    unfold countAt
    rw [filter_flat_eq hs hp hc]
  refine ⟨?_, ?_, _, ?_, hperm, ?_⟩
  · show CycleSortGrid.Size g1 c = some 0
    delta CycleSortGrid.Size
    simp only [hy, hz, hi1, z0, z1]
    rw [sub64, sub_self, wrap64_zero]
  · show CycleSortGrid.Get g1 c out = some []
    delta CycleSortGrid.Get
    simp only [hy, hz, hi1, z0, z1]
    exact Slice.sub_eq _ 0 0 [] (le_refl _) (le_refl _) (by simp) (by simp) (by simp)
  · show CycleSortGrid.Get g2 c out = some _
    delta CycleSortGrid.Get
    simp only [hy2, hz2, hy, hz, hi1, b0, b1]
    exact hseg
  · show CycleSortGrid.Size g2 c = some _
    delta CycleSortGrid.Size
    simp only [hy2, hz2, hy, hz, hi1, b0, b1]
    rw [sub64, hsucc, add_sub_cancel_left, hcnt, wrap64_length_pointsOf hn, hperm.length_eq]
/-! ## From the contract of a variant to the claims -/

theorem BinnedGrid.resizeBin_eq {G : Type} (I : BinnedGrid G) {g g1 g2 : G} {span : Idx3}
    {p : List Particle} (e1 : I.Resize g span = some g1) (e2 : I.Bin g1 p = some g2) :
    I.resizeBin g span p = some g2 := by
  unfold BinnedGrid.resizeBin
  rw [e1]
  exact e2

theorem BinnedGrid.Contract.cellsHoldPoints {G : Type} {I : BinnedGrid G} (h : I.Contract)
    {span : Idx3} {p : List Particle} (hs : SpanFits span) (hp : PointsIn span p)
    (hn : (p.length : Int) < 2 ^ 63) : I.CellsHoldPoints span p := by
  intro g c out hc
  obtain ⟨g1, g2, e1, e2, hall⟩ := h g span p hs hp hn
  obtain ⟨-, -, l, hl, hperm, -⟩ := hall c hc out
  exact ⟨g2, l, I.resizeBin_eq e1 e2, hl, hperm⟩

theorem BinnedGrid.Contract.sizeIsLength {G : Type} {I : BinnedGrid G} (h : I.Contract)
    {span : Idx3} {p : List Particle} (hs : SpanFits span) (hp : PointsIn span p)
    (hn : (p.length : Int) < 2 ^ 63) : I.SizeIsLength span p := by
  intro g c out hc
  obtain ⟨g1, g2, e1, e2, hall⟩ := h g span p hs hp hn
  obtain ⟨-, -, l, hl, -, hsz⟩ := hall c hc out
  exact ⟨g2, l, I.resizeBin_eq e1 e2, hl, hsz⟩

theorem BinnedGrid.Contract.resizeResets {G : Type} {I : BinnedGrid G} (h : I.Contract)
    (fresh : G) {b : Idx3} {pb : List Particle} (hs : SpanFits b) (hp : PointsIn b pb)
    (hn : (pb.length : Int) < 2 ^ 63) : I.ResizeResets fresh b pb := by
  intro g
  obtain ⟨g1, g2, e1, e2, hall⟩ := h g b pb hs hp hn
  obtain ⟨f1, f2, d1, d2, hfresh⟩ := h fresh b pb hs hp hn
  refine ⟨g1, g2, f2, e1, e2, I.resizeBin_eq d1 d2, ?_⟩
  intro c out hc
  obtain ⟨hz, he, l, hl, hperm, hsz⟩ := hall c hc out
  obtain ⟨-, -, l1, hl1, hperm1, hsz1⟩ := hfresh c hc out
  refine ⟨hz, he, l, l1, hl, hl1, hperm.trans hperm1.symm, ?_⟩
  rw [hsz, hsz1, hperm.length_eq, hperm1.length_eq]

/-! ### The sum of the sizes -/

theorem mem_allCells {span c : Idx3} (hc : InSpan span c) : c ∈ allCells span := by
  obtain ⟨⟨a0, a1⟩, ⟨b0, b1⟩, c0, c1⟩ := hc
  unfold allCells
  simp only [List.mem_flatMap, List.mem_map, List.mem_range, Int.ofNat_eq_coe]
  refine ⟨c.i2.toNat, by omega, c.i1.toNat, by omega, c.i0.toNat, by omega, ?_⟩
  rw [Int.toNat_of_nonneg a0, Int.toNat_of_nonneg b0, Int.toNat_of_nonneg c0]

theorem inSpan_of_mem_allCells {span c : Idx3} (hc : c ∈ allCells span) : InSpan span c := by
  unfold allCells at hc
  simp only [List.mem_flatMap, List.mem_map, List.mem_range, Int.ofNat_eq_coe] at hc
  obtain ⟨iz, hz, iy, hy, ix, hx, rfl⟩ := hc
  refine ⟨⟨?_, ?_⟩, ⟨?_, ?_⟩, ?_, ?_⟩ <;> simp only <;> omega

theorem nodup_allCells (span : Idx3) : (allCells span).Nodup := by
  unfold allCells
  rw [List.nodup_flatMap]
  constructor
  · intro iz _
    rw [List.nodup_flatMap]
    constructor
    · intro iy _
      apply List.Nodup.map _ (List.nodup_range _)
      intro a b hab
      simpa using hab
    · apply List.Pairwise.imp_of_mem _ (List.nodup_range _)
      intro a b _ _ hab
      simp only [Function.onFun]
      intro x hx1 hx2
      simp only [List.mem_map, Int.ofNat_eq_coe] at hx1 hx2
      obtain ⟨_, _, rfl⟩ := hx1
      obtain ⟨_, _, e⟩ := hx2
      simp only [Idx3.mk.injEq] at e
      omega
  · apply List.Pairwise.imp_of_mem _ (List.nodup_range _)
    intro a b _ _ hab
    simp only [Function.onFun]
    intro x hx1 hx2
    simp only [List.mem_flatMap, List.mem_map, Int.ofNat_eq_coe] at hx1 hx2
    obtain ⟨_, _, _, _, rfl⟩ := hx1
    obtain ⟨_, _, _, _, e⟩ := hx2
    simp only [Idx3.mk.injEq] at e
    omega

theorem sum_pointsOf_length (cells : List Idx3) (hnd : cells.Nodup) :
    ∀ p : List Particle, (∀ pi ∈ p, cellOf pi ∈ cells) →
    (cells.map (fun c => ((pointsOf p c).length : Int))).sum = p.length
  | [], _ => by simp [pointsOf]
  | pi :: p, h => by
    have ih := sum_pointsOf_length cells hnd p (fun q hq => h q (List.mem_cons_of_mem _ hq))
    have e : (fun c => ((pointsOf (pi :: p) c).length : Int))
        = fun c => (if c = cellOf pi then (1 : Int) else 0) + ((pointsOf p c).length : Int) := by
      funext c
      unfold pointsOf
      by_cases hc : cellOf pi = c
      · simp [List.filter_cons, hc]; ring
      · have : ¬ c = cellOf pi := fun e => hc e.symm
        simp [List.filter_cons, hc, this]
    rw [e, List.sum_map_add, ih]
    have hcount : (cells.map (fun c => if c = cellOf pi then (1 : Int) else 0)).sum = 1 := by
      have := List.sum_map_ite_eq cells (fun _ => (1 : Int)) (fun _ => 0) (cellOf pi)
      rw [this, List.count_eq_one_of_mem hnd (h pi (List.mem_cons_self _ _))]
      simp
    rw [hcount]
    simp; ring

theorem BinnedGrid.totalSize_eq {G : Type} (I : BinnedGrid G) (g : G) (f : Idx3 → Int) :
    ∀ cells : List Idx3, (∀ c ∈ cells, I.Size g c = some (f c)) →
    I.totalSize g cells = some (cells.map f).sum
  | [], _ => rfl
  | c :: cs, h => by
    have ih := BinnedGrid.totalSize_eq I g f cs (fun d hd => h d (List.mem_cons_of_mem _ hd))
    unfold BinnedGrid.totalSize
    rw [h c (List.mem_cons_self _ _), ih]
    simp

theorem BinnedGrid.Contract.sizesSumTo {G : Type} {I : BinnedGrid G} (h : I.Contract)
    {span : Idx3} {p : List Particle} (hs : SpanFits span) (hp : PointsIn span p)
    (hn : (p.length : Int) < 2 ^ 63) : I.SizesSumTo span p := by
  intro g
  obtain ⟨g1, g2, e1, e2, hall⟩ := h g span p hs hp hn
  refine ⟨g2, I.resizeBin_eq e1 e2, ?_⟩
  rw [BinnedGrid.totalSize_eq I g2 (fun c => ((pointsOf p c).length : Int))]
  · rw [sum_pointsOf_length _ (nodup_allCells span) p
      (fun pi hpi => mem_allCells (hp pi hpi))]
  · intro c hc
    obtain ⟨-, -, l, -, hperm, hsz⟩ := hall c (inSpan_of_mem_allCells hc) []
    rw [hsz, hperm.length_eq]
/-! ### The in-place sort of `CycleSortGrid` -/

theorem cycleSort_sortsInPlace {span : Idx3} {p : List Particle} (hs : SpanFits span)
    (hp : PointsIn span p) (hn : (p.length : Int) < 2 ^ 63) :
    CycleSortGrid.SortsInPlace span p := by
  intro g
  obtain ⟨g1, e1, hy, hz, hed, hen, -⟩ := cycleSort_Resize_spec g hs
  have hcn := cellCount_nonneg hs
  have hcl := cellCount_lt hs
  have hkeys : ∀ pi ∈ p, 0 ≤ flatIndex g1.Dy g1.Dz (cellOf pi) ∧
      flatIndex g1.Dy g1.Dz (cellOf pi) < ((cellCount span).toNat : Int) := by
    intro pi hpi
    rw [hy, hz]
    exact flat_range_of_span hs (hp pi hpi)
  obtain ⟨g2, e2, hy2, hz2, hedges, hpl, hall⟩ :=
    cycleSort_Bin_spec g1 (cellCount span).toNat p hn (by omega) hed hen hkeys
  have hcc : (((cellCount span).toNat : Nat) : Int) = cellCount span :=
    Int.toNat_of_nonneg hcn
  -- where a point of the array sits
  have hwhere : ∀ (k : Int) (q : Particle), getI g2.Data k = some q →
      countBelow g1.Dy g1.Dz p (flatIndex g1.Dy g1.Dz (cellOf q)) ≤ k ∧
      k < countBelow g1.Dy g1.Dz p (flatIndex g1.Dy g1.Dz (cellOf q) + 1) := by
    intro k q hq
    have hqp : q ∈ p := hpl.1.subset (mem_of_getI hq)
    obtain ⟨d0, d1⟩ := hkeys q hqp
    have hk0 := (getI_lt_length hq).1
    by_contra hcon
    have hout : k < countBelow g1.Dy g1.Dz p (flatIndex g1.Dy g1.Dz (cellOf q)) ∨
        countBelow g1.Dy g1.Dz p (flatIndex g1.Dy g1.Dz (cellOf q) + 1) ≤ k := by omega
    have := cycleSort_Placed_room hpl _ k _ q d0 d1 (hall _ d0 d1) hk0 hq rfl hout
    omega
  refine ⟨g2, CycleSortGrid.methods.resizeBin_eq e1 e2, hpl.1, ?_, ?_⟩
  · intro x y a b hxy ha hb
    rw [hy2, hz2]
    obtain ⟨a0, a1⟩ := hwhere x a ha
    obtain ⟨b0, b1⟩ := hwhere y b hb
    by_contra hcon
    have := countBelow_mono g1.Dy g1.Dz p
      (show flatIndex g1.Dy g1.Dz (cellOf b) + 1 ≤ flatIndex g1.Dy g1.Dz (cellOf a) by omega)
    omega
  · intro i hi0 hi1
    refine ⟨_, _, hedges i hi0 (by omega), hedges (i + 1) (by omega) (by omega), ?_⟩
    intro k q hq
    rw [hy2, hz2]
    constructor
    · intro hk
      have := hwhere k q hq
      rw [hk] at this
      exact this
    · intro ⟨hlo, hhi⟩
      obtain ⟨e, he, -, -, hseg⟩ := hpl.2.2 i hi0 (by omega)
      rw [hall i hi0 (by omega)] at he
      cases he
      obtain ⟨r, hr, hkr⟩ := hseg k hlo hhi
      rw [hq] at hr
      cases hr
      exact hkr
/-! ## The grid claims -/

/-! ### The span `{2^32, 2^32, 1}`: its cell count `2^64` wraps to 0 -/

theorem arrayList_bin_panics_past_int64 :
    ArrayListGrid.methods.resizeBin ArrayListGrid.new ⟨2 ^ 32, 2 ^ 32, 1⟩
      [Particle.zero] = none := by with_unfolding_all rfl

theorem naiveList_bin_panics_past_int64 :
    NaiveLinkedListGrid.methods.resizeBin NaiveLinkedListGrid.new ⟨2 ^ 32, 2 ^ 32, 1⟩
      [Particle.zero] = none := by with_unfolding_all rfl

theorem linkedList_bin_panics_past_int64 :
    LinkedListGrid.methods.resizeBin LinkedListGrid.new ⟨2 ^ 32, 2 ^ 32, 1⟩
      [Particle.zero] = none := by with_unfolding_all rfl

theorem countingSort_bin_panics_past_int64 :
    CountingSortGrid.methods.resizeBin CountingSortGrid.new ⟨2 ^ 32, 2 ^ 32, 1⟩
      [Particle.zero] = none := by with_unfolding_all rfl

theorem cycleSort_bin_panics_past_int64 :
    CycleSortGrid.methods.resizeBin CycleSortGrid.new ⟨2 ^ 32, 2 ^ 32, 1⟩
      [Particle.zero] = none := by with_unfolding_all rfl

/-- C1, amended: for each of the five grid variants, every span without a negative
component whose cell count `n` has `n + 1` representable as an `int64` (so every such
span with positive components) and every list `p` of fewer than `2^63` points whose
truncated coordinates lie in the span: after `Resize(span)` then `Bin(p)`, from any
state of the grid, `Get(c)` is for every cell `c` of the span a permutation of the
input points whose truncated coordinates are `c`. -/
theorem grid_get_is_cell_content (span : Idx3) (p : List Particle) (hs : SpanFits span)
    (hp : PointsIn span p) (hn : (p.length : Int) < 2 ^ 63) :
    ArrayListGrid.methods.CellsHoldPoints span p ∧
    NaiveLinkedListGrid.methods.CellsHoldPoints span p ∧
    LinkedListGrid.methods.CellsHoldPoints span p ∧
    CountingSortGrid.methods.CellsHoldPoints span p ∧
    CycleSortGrid.methods.CellsHoldPoints span p :=
  ⟨arrayList_contract.cellsHoldPoints hs hp hn,
    naiveList_contract.cellsHoldPoints hs hp hn,
    linkedList_contract.cellsHoldPoints hs hp hn,
    countingSort_contract.cellsHoldPoints hs hp hn,
    cycleSort_contract.cellsHoldPoints hs hp hn⟩

/-- C1, witness: the span `{2, 3, 2}` and the seven points of `TestSmallGrid`. -/
theorem grid_get_is_cell_content_witness :
    SpanFits ⟨2, 3, 2⟩ ∧ PointsIn ⟨2, 3, 2⟩ smallGridPoints ∧
    ((smallGridPoints.length : Int) < 2 ^ 63) ∧
    (ArrayListGrid.methods.CellsHoldPoints ⟨2, 3, 2⟩ smallGridPoints ∧
    NaiveLinkedListGrid.methods.CellsHoldPoints ⟨2, 3, 2⟩ smallGridPoints ∧
    LinkedListGrid.methods.CellsHoldPoints ⟨2, 3, 2⟩ smallGridPoints ∧
    CountingSortGrid.methods.CellsHoldPoints ⟨2, 3, 2⟩ smallGridPoints ∧
    CycleSortGrid.methods.CellsHoldPoints ⟨2, 3, 2⟩ smallGridPoints) :=
  ⟨by decide, by decide, by decide,
    grid_get_is_cell_content ⟨2, 3, 2⟩ smallGridPoints (by decide) (by decide) (by decide)⟩

/-- C1, counterexample: the span `{2^32, 2^32, 1}` has positive components and the point
at the origin lies in it, but its cell count `2^64` wraps to 0 in `int64`: `Resize`
allocates no cell and `Bin` panics in each of the five variants, so that no cell ever
returns its points. -/
theorem grid_get_fails_past_int64 :
    SpanPositive ⟨2 ^ 32, 2 ^ 32, 1⟩ ∧ PointsIn ⟨2 ^ 32, 2 ^ 32, 1⟩ [Particle.zero] ∧
    InSpan ⟨2 ^ 32, 2 ^ 32, 1⟩ ⟨0, 0, 0⟩ ∧
    ¬ ArrayListGrid.methods.CellsHoldPoints ⟨2 ^ 32, 2 ^ 32, 1⟩ [Particle.zero] ∧
    ¬ NaiveLinkedListGrid.methods.CellsHoldPoints ⟨2 ^ 32, 2 ^ 32, 1⟩ [Particle.zero] ∧
    ¬ LinkedListGrid.methods.CellsHoldPoints ⟨2 ^ 32, 2 ^ 32, 1⟩ [Particle.zero] ∧
    ¬ CountingSortGrid.methods.CellsHoldPoints ⟨2 ^ 32, 2 ^ 32, 1⟩ [Particle.zero] ∧
    ¬ CycleSortGrid.methods.CellsHoldPoints ⟨2 ^ 32, 2 ^ 32, 1⟩ [Particle.zero] := by
  refine ⟨by decide, by decide, by decide, ?_, ?_, ?_, ?_, ?_⟩
  · intro h
    obtain ⟨g2, l, e, -⟩ := h ArrayListGrid.new ⟨0, 0, 0⟩ [] (by decide)
    rw [arrayList_bin_panics_past_int64] at e
    cases e
  · intro h
    obtain ⟨g2, l, e, -⟩ := h NaiveLinkedListGrid.new ⟨0, 0, 0⟩ [] (by decide)
    rw [naiveList_bin_panics_past_int64] at e
    cases e
  · intro h
    obtain ⟨g2, l, e, -⟩ := h LinkedListGrid.new ⟨0, 0, 0⟩ [] (by decide)
    rw [linkedList_bin_panics_past_int64] at e
    cases e
  · intro h
    obtain ⟨g2, l, e, -⟩ := h CountingSortGrid.new ⟨0, 0, 0⟩ [] (by decide)
    rw [countingSort_bin_panics_past_int64] at e
    cases e
  · intro h
    obtain ⟨g2, l, e, -⟩ := h CycleSortGrid.new ⟨0, 0, 0⟩ [] (by decide)
    rw [cycleSort_bin_panics_past_int64] at e
    cases e
/-- C2, amended: for each of the five grid variants, every span without a negative
component whose cell count `n` has `n + 1` representable as an `int64`, and every list
`p` of fewer than `2^63` points with truncated coordinates in the span: after
`Resize(span)` then `Bin(p)`, from any state of the grid, the sum of `Size(c)` over all
the cells `c` of the span is the number of points. -/
theorem grid_sizes_sum_to_count (span : Idx3) (p : List Particle) (hs : SpanFits span)
    (hp : PointsIn span p) (hn : (p.length : Int) < 2 ^ 63) :
    ArrayListGrid.methods.SizesSumTo span p ∧
    NaiveLinkedListGrid.methods.SizesSumTo span p ∧
    LinkedListGrid.methods.SizesSumTo span p ∧
    CountingSortGrid.methods.SizesSumTo span p ∧
    CycleSortGrid.methods.SizesSumTo span p :=
  ⟨arrayList_contract.sizesSumTo hs hp hn,
    naiveList_contract.sizesSumTo hs hp hn,
    linkedList_contract.sizesSumTo hs hp hn,
    countingSort_contract.sizesSumTo hs hp hn,
    cycleSort_contract.sizesSumTo hs hp hn⟩

/-- C2, witness: the span `{2, 3, 2}` and the seven points of `TestSmallGrid`. -/
theorem grid_sizes_sum_to_count_witness :
    SpanFits ⟨2, 3, 2⟩ ∧ PointsIn ⟨2, 3, 2⟩ smallGridPoints ∧
    ((smallGridPoints.length : Int) < 2 ^ 63) ∧
    (ArrayListGrid.methods.SizesSumTo ⟨2, 3, 2⟩ smallGridPoints ∧
    NaiveLinkedListGrid.methods.SizesSumTo ⟨2, 3, 2⟩ smallGridPoints ∧
    LinkedListGrid.methods.SizesSumTo ⟨2, 3, 2⟩ smallGridPoints ∧
    CountingSortGrid.methods.SizesSumTo ⟨2, 3, 2⟩ smallGridPoints ∧
    CycleSortGrid.methods.SizesSumTo ⟨2, 3, 2⟩ smallGridPoints) :=
  ⟨by decide, by decide, by decide,
    grid_sizes_sum_to_count ⟨2, 3, 2⟩ smallGridPoints (by decide) (by decide) (by decide)⟩

/-- C2, counterexample: with the span `{2^32, 2^32, 1}`, whose cell count wraps to 0 in
`int64`, and the one point at the origin, `Bin` panics in each of the five variants:
there are no sizes to add up, whereas the claim promises the sum 1. -/
theorem grid_sizes_fail_past_int64 :
    SpanPositive ⟨2 ^ 32, 2 ^ 32, 1⟩ ∧ PointsIn ⟨2 ^ 32, 2 ^ 32, 1⟩ [Particle.zero] ∧
    ¬ ArrayListGrid.methods.SizesSumTo ⟨2 ^ 32, 2 ^ 32, 1⟩ [Particle.zero] ∧
    ¬ NaiveLinkedListGrid.methods.SizesSumTo ⟨2 ^ 32, 2 ^ 32, 1⟩ [Particle.zero] ∧
    ¬ LinkedListGrid.methods.SizesSumTo ⟨2 ^ 32, 2 ^ 32, 1⟩ [Particle.zero] ∧
    ¬ CountingSortGrid.methods.SizesSumTo ⟨2 ^ 32, 2 ^ 32, 1⟩ [Particle.zero] ∧
    ¬ CycleSortGrid.methods.SizesSumTo ⟨2 ^ 32, 2 ^ 32, 1⟩ [Particle.zero] := by
  refine ⟨by decide, by decide, ?_, ?_, ?_, ?_, ?_⟩
  · intro h
    obtain ⟨g2, e, -⟩ := h ArrayListGrid.new
    rw [arrayList_bin_panics_past_int64] at e
    cases e
  · intro h
    obtain ⟨g2, e, -⟩ := h NaiveLinkedListGrid.new
    rw [naiveList_bin_panics_past_int64] at e
    cases e
  · intro h
    obtain ⟨g2, e, -⟩ := h LinkedListGrid.new
    rw [linkedList_bin_panics_past_int64] at e
    cases e
  · intro h
    obtain ⟨g2, e, -⟩ := h CountingSortGrid.new
    rw [countingSort_bin_panics_past_int64] at e
    cases e
  · intro h
    obtain ⟨g2, e, -⟩ := h CycleSortGrid.new
    rw [cycleSort_bin_panics_past_int64] at e
    cases e

theorem naiveList_chainsMatchSizes {span : Idx3} {p : List Particle}
    (hs : SpanFits span) (hp : PointsIn span p) (hn : (p.length : Int) < 2 ^ 63) :
    NaiveLinkedListGrid.ChainsMatchSizes span p := by
  intro g c hc
  obtain ⟨g1, g2, e1, e2, hall⟩ := naiveList_lists_spec g span p hs hp hn
  obtain ⟨-, -, head, hhead, htl, hsz⟩ := hall c hc
  exact ⟨g2, head, _, NaiveLinkedListGrid.methods.resizeBin_eq e1 e2, hhead, hsz, by
    rw [htl, List.length_reverse]⟩

theorem linkedList_chainsMatchSizes {span : Idx3} {p : List Particle}
    (hs : SpanFits span) (hp : PointsIn span p) (hn : (p.length : Int) < 2 ^ 63) :
    LinkedListGrid.ChainsMatchSizes span p := by
  intro g c hc
  obtain ⟨g1, g2, e1, e2, hall⟩ := linkedList_lists_spec g span p hs hp hn
  obtain ⟨-, -, head, hhead, hchain, hsz⟩ := hall c hc
  exact ⟨g2, head, _, _, LinkedListGrid.methods.resizeBin_eq e1 e2, hhead, hsz, hchain, by
    rw [List.length_reverse]⟩

/-- C3, amended: for each of the five grid variants, every span without a negative
component whose cell count `n` has `n + 1` representable as an `int64`, and every list
`p` of fewer than `2^63` points with truncated coordinates in the span: after
`Resize(span)` then `Bin(p)`, from any state of the grid, `Size(c)` is for every cell
`c` of the span the length of what `Get(c)` returns, with or without a caller buffer;
in the two linked-list variants the list that starts at `Heads[c]` has exactly
`Sizes[c]` nodes before it reaches nil, respectively `-1`. -/
theorem grid_size_is_get_length (span : Idx3) (p : List Particle) (hs : SpanFits span)
    (hp : PointsIn span p) (hn : (p.length : Int) < 2 ^ 63) :
    (ArrayListGrid.methods.SizeIsLength span p ∧
    NaiveLinkedListGrid.methods.SizeIsLength span p ∧
    LinkedListGrid.methods.SizeIsLength span p ∧
    CountingSortGrid.methods.SizeIsLength span p ∧
    CycleSortGrid.methods.SizeIsLength span p) ∧
    NaiveLinkedListGrid.ChainsMatchSizes span p ∧
    LinkedListGrid.ChainsMatchSizes span p :=
  ⟨⟨arrayList_contract.sizeIsLength hs hp hn,
    naiveList_contract.sizeIsLength hs hp hn,
    linkedList_contract.sizeIsLength hs hp hn,
    countingSort_contract.sizeIsLength hs hp hn,
    cycleSort_contract.sizeIsLength hs hp hn⟩,
    naiveList_chainsMatchSizes hs hp hn,
    linkedList_chainsMatchSizes hs hp hn⟩

/-- C3, witness: the span `{2, 3, 2}` and the seven points of `TestSmallGrid`. -/
theorem grid_size_is_get_length_witness :
    SpanFits ⟨2, 3, 2⟩ ∧ PointsIn ⟨2, 3, 2⟩ smallGridPoints ∧
    ((smallGridPoints.length : Int) < 2 ^ 63) ∧
    ((ArrayListGrid.methods.SizeIsLength ⟨2, 3, 2⟩ smallGridPoints ∧
    NaiveLinkedListGrid.methods.SizeIsLength ⟨2, 3, 2⟩ smallGridPoints ∧
    LinkedListGrid.methods.SizeIsLength ⟨2, 3, 2⟩ smallGridPoints ∧
    CountingSortGrid.methods.SizeIsLength ⟨2, 3, 2⟩ smallGridPoints ∧
    CycleSortGrid.methods.SizeIsLength ⟨2, 3, 2⟩ smallGridPoints) ∧
    NaiveLinkedListGrid.ChainsMatchSizes ⟨2, 3, 2⟩ smallGridPoints ∧
    LinkedListGrid.ChainsMatchSizes ⟨2, 3, 2⟩ smallGridPoints) :=
  ⟨by decide, by decide, by decide,
    grid_size_is_get_length ⟨2, 3, 2⟩ smallGridPoints (by decide) (by decide) (by decide)⟩

/-- C3, counterexample: with the span `{2^32, 2^32, 1}`, whose cell count wraps to 0 in
`int64`, and the one point at the origin, `Bin` panics in each of the five variants, so
that the cell at the origin, which is in range, has neither a `Size` nor a `Get`. -/
theorem grid_size_fails_past_int64 :
    SpanPositive ⟨2 ^ 32, 2 ^ 32, 1⟩ ∧ PointsIn ⟨2 ^ 32, 2 ^ 32, 1⟩ [Particle.zero] ∧
    InSpan ⟨2 ^ 32, 2 ^ 32, 1⟩ ⟨0, 0, 0⟩ ∧
    ¬ ArrayListGrid.methods.SizeIsLength ⟨2 ^ 32, 2 ^ 32, 1⟩ [Particle.zero] ∧
    ¬ NaiveLinkedListGrid.methods.SizeIsLength ⟨2 ^ 32, 2 ^ 32, 1⟩ [Particle.zero] ∧
    ¬ LinkedListGrid.methods.SizeIsLength ⟨2 ^ 32, 2 ^ 32, 1⟩ [Particle.zero] ∧
    ¬ CountingSortGrid.methods.SizeIsLength ⟨2 ^ 32, 2 ^ 32, 1⟩ [Particle.zero] ∧
    ¬ CycleSortGrid.methods.SizeIsLength ⟨2 ^ 32, 2 ^ 32, 1⟩ [Particle.zero] := by
  refine ⟨by decide, by decide, by decide, ?_, ?_, ?_, ?_, ?_⟩
  · intro h
    obtain ⟨g2, l, e, -⟩ := h ArrayListGrid.new ⟨0, 0, 0⟩ [] (by decide)
    rw [arrayList_bin_panics_past_int64] at e
    cases e
  · intro h
    obtain ⟨g2, l, e, -⟩ := h NaiveLinkedListGrid.new ⟨0, 0, 0⟩ [] (by decide)
    rw [naiveList_bin_panics_past_int64] at e
    cases e
  · intro h
    obtain ⟨g2, l, e, -⟩ := h LinkedListGrid.new ⟨0, 0, 0⟩ [] (by decide)
    rw [linkedList_bin_panics_past_int64] at e
    cases e
  · intro h
    obtain ⟨g2, l, e, -⟩ := h CountingSortGrid.new ⟨0, 0, 0⟩ [] (by decide)
    rw [countingSort_bin_panics_past_int64] at e
    cases e
  · intro h
    obtain ⟨g2, l, e, -⟩ := h CycleSortGrid.new ⟨0, 0, 0⟩ [] (by decide)
    rw [cycleSort_bin_panics_past_int64] at e
    cases e
/-- C4, amended: for each of the five grid variants, in any state `g` (whatever calls
led to it), every span `b` without a negative component whose cell count `n` has
`n + 1` representable as an `int64` (spans with zero cells included) and every list `pb`
of fewer than `2^63` points with truncated coordinates in `b`: after `Resize(b)` every
cell of `b` has `Size` 0 and an empty `Get`, and after the following `Bin(pb)` every
cell has the same `Size` and, as a multiset, the same `Get` as a fresh grid given
`Resize(b)` then `Bin(pb)`. -/
theorem grid_resize_resets (b : Idx3) (pb : List Particle) (hs : SpanFits b)
    (hp : PointsIn b pb) (hn : (pb.length : Int) < 2 ^ 63) :
    ArrayListGrid.methods.ResizeResets ArrayListGrid.new b pb ∧
    NaiveLinkedListGrid.methods.ResizeResets NaiveLinkedListGrid.new b pb ∧
    LinkedListGrid.methods.ResizeResets LinkedListGrid.new b pb ∧
    CountingSortGrid.methods.ResizeResets CountingSortGrid.new b pb ∧
    CycleSortGrid.methods.ResizeResets CycleSortGrid.new b pb :=
  ⟨arrayList_contract.resizeResets _ hs hp hn,
    naiveList_contract.resizeResets _ hs hp hn,
    linkedList_contract.resizeResets _ hs hp hn,
    countingSort_contract.resizeResets _ hs hp hn,
    cycleSort_contract.resizeResets _ hs hp hn⟩

/-- C4, witness: the span `{2, 3, 2}` and the seven points of `TestSmallGrid`. -/
theorem grid_resize_resets_witness :
    SpanFits ⟨2, 3, 2⟩ ∧ PointsIn ⟨2, 3, 2⟩ smallGridPoints ∧
    ((smallGridPoints.length : Int) < 2 ^ 63) ∧
    (ArrayListGrid.methods.ResizeResets ArrayListGrid.new ⟨2, 3, 2⟩ smallGridPoints ∧
    NaiveLinkedListGrid.methods.ResizeResets NaiveLinkedListGrid.new ⟨2, 3, 2⟩
      smallGridPoints ∧
    LinkedListGrid.methods.ResizeResets LinkedListGrid.new ⟨2, 3, 2⟩ smallGridPoints ∧
    CountingSortGrid.methods.ResizeResets CountingSortGrid.new ⟨2, 3, 2⟩ smallGridPoints ∧
    CycleSortGrid.methods.ResizeResets CycleSortGrid.new ⟨2, 3, 2⟩ smallGridPoints) :=
  ⟨by decide, by decide, by decide,
    grid_resize_resets ⟨2, 3, 2⟩ smallGridPoints (by decide) (by decide) (by decide)⟩

/-- C4, counterexample: after `Resize` with the span `{2^32, 2^32, 1}`, whose cell count
wraps to 0 in `int64`, the cell at the origin, which is in range, has no `Size` at all
(the call panics) instead of the `Size` 0, in each of the five variants, and the
following `Bin` of the point at the origin panics. -/
theorem grid_resize_fails_past_int64 :
    InSpan ⟨2 ^ 32, 2 ^ 32, 1⟩ ⟨0, 0, 0⟩ ∧
    (ArrayListGrid.methods.sizeAfter
      (ArrayListGrid.methods.Resize ArrayListGrid.new ⟨2 ^ 32, 2 ^ 32, 1⟩) ⟨0, 0, 0⟩ = none ∧
    NaiveLinkedListGrid.methods.sizeAfter
      (NaiveLinkedListGrid.methods.Resize NaiveLinkedListGrid.new ⟨2 ^ 32, 2 ^ 32, 1⟩)
      ⟨0, 0, 0⟩ = none ∧
    LinkedListGrid.methods.sizeAfter
      (LinkedListGrid.methods.Resize LinkedListGrid.new ⟨2 ^ 32, 2 ^ 32, 1⟩)
      ⟨0, 0, 0⟩ = none ∧
    CountingSortGrid.methods.sizeAfter
      (CountingSortGrid.methods.Resize CountingSortGrid.new ⟨2 ^ 32, 2 ^ 32, 1⟩)
      ⟨0, 0, 0⟩ = none ∧
    CycleSortGrid.methods.sizeAfter
      (CycleSortGrid.methods.Resize CycleSortGrid.new ⟨2 ^ 32, 2 ^ 32, 1⟩)
      ⟨0, 0, 0⟩ = none) ∧
    ¬ ArrayListGrid.methods.ResizeResets ArrayListGrid.new ⟨2 ^ 32, 2 ^ 32, 1⟩
      [Particle.zero] ∧
    ¬ NaiveLinkedListGrid.methods.ResizeResets NaiveLinkedListGrid.new ⟨2 ^ 32, 2 ^ 32, 1⟩
      [Particle.zero] ∧
    ¬ LinkedListGrid.methods.ResizeResets LinkedListGrid.new ⟨2 ^ 32, 2 ^ 32, 1⟩
      [Particle.zero] ∧
    ¬ CountingSortGrid.methods.ResizeResets CountingSortGrid.new ⟨2 ^ 32, 2 ^ 32, 1⟩
      [Particle.zero] ∧
    ¬ CycleSortGrid.methods.ResizeResets CycleSortGrid.new ⟨2 ^ 32, 2 ^ 32, 1⟩
      [Particle.zero] := by
  refine ⟨by decide, ⟨by with_unfolding_all decide, by with_unfolding_all decide,
    by with_unfolding_all decide, by with_unfolding_all decide,
    by with_unfolding_all decide⟩, ?_, ?_, ?_, ?_, ?_⟩
  · intro h
    obtain ⟨g1, g2, f2, -, -, e, -⟩ := h ArrayListGrid.new
    rw [arrayList_bin_panics_past_int64] at e
    cases e
  · intro h
    obtain ⟨g1, g2, f2, -, -, e, -⟩ := h NaiveLinkedListGrid.new
    rw [naiveList_bin_panics_past_int64] at e
    cases e
  · intro h
    obtain ⟨g1, g2, f2, -, -, e, -⟩ := h LinkedListGrid.new
    rw [linkedList_bin_panics_past_int64] at e
    cases e
  · intro h
    obtain ⟨g1, g2, f2, -, -, e, -⟩ := h CountingSortGrid.new
    rw [countingSort_bin_panics_past_int64] at e
    cases e
  · intro h
    obtain ⟨g1, g2, f2, -, -, e, -⟩ := h CycleSortGrid.new
    rw [cycleSort_bin_panics_past_int64] at e
    cases e

/-- C5, the code against the claim: with the span `{1, 1, 1}`, `Bin` of one point after
`Bin` of one point leaves the cell of `ArrayListGrid`, `NaiveLinkedListGrid` and
`LinkedListGrid` with `Size` 2, where one `Bin` leaves 1; the second `Bin` of
`CycleSortGrid` panics; and with the span `{2, 1, 1}` the second `Bin` of
`CountingSortGrid` leaves the cell `{1, 0, 0}`, into which no point falls, with `Size` 1:
`Bin` does not clear the bins of the call before. -/
theorem second_bin_keeps_first_points :
    (ArrayListGrid.methods.sizeAfter (ArrayListGrid.methods.resizeBin ArrayListGrid.new
        ⟨1, 1, 1⟩ [Particle.zero]) ⟨0, 0, 0⟩ = some 1 ∧
      ArrayListGrid.methods.sizeAfter (ArrayListGrid.methods.resizeBinBin ArrayListGrid.new
        ⟨1, 1, 1⟩ [Particle.zero] [Particle.zero]) ⟨0, 0, 0⟩ = some 2) ∧
    (NaiveLinkedListGrid.methods.sizeAfter (NaiveLinkedListGrid.methods.resizeBin
        NaiveLinkedListGrid.new ⟨1, 1, 1⟩ [Particle.zero]) ⟨0, 0, 0⟩ = some 1 ∧
      NaiveLinkedListGrid.methods.sizeAfter (NaiveLinkedListGrid.methods.resizeBinBin
        NaiveLinkedListGrid.new ⟨1, 1, 1⟩ [Particle.zero] [Particle.zero]) ⟨0, 0, 0⟩
        = some 2) ∧
    (LinkedListGrid.methods.sizeAfter (LinkedListGrid.methods.resizeBin
        LinkedListGrid.new ⟨1, 1, 1⟩ [Particle.zero]) ⟨0, 0, 0⟩ = some 1 ∧
      LinkedListGrid.methods.sizeAfter (LinkedListGrid.methods.resizeBinBin
        LinkedListGrid.new ⟨1, 1, 1⟩ [Particle.zero] [Particle.zero]) ⟨0, 0, 0⟩
        = some 2) ∧
    (CountingSortGrid.methods.sizeAfter (CountingSortGrid.methods.resizeBin
        CountingSortGrid.new ⟨2, 1, 1⟩ [Particle.zero]) ⟨1, 0, 0⟩ = some 0 ∧
      CountingSortGrid.methods.sizeAfter (CountingSortGrid.methods.resizeBinBin
        CountingSortGrid.new ⟨2, 1, 1⟩ [Particle.zero] [Particle.zero]) ⟨1, 0, 0⟩
        = some 1) ∧
    (CycleSortGrid.methods.sizeAfter (CycleSortGrid.methods.resizeBin
        CycleSortGrid.new ⟨1, 1, 1⟩ [Particle.zero]) ⟨0, 0, 0⟩ = some 1 ∧
      CycleSortGrid.methods.sizeAfter (CycleSortGrid.methods.resizeBinBin
        CycleSortGrid.new ⟨1, 1, 1⟩ [Particle.zero] [Particle.zero]) ⟨0, 0, 0⟩
        = none) := by
  refine ⟨⟨?_, ?_⟩, ⟨?_, ?_⟩, ⟨?_, ?_⟩, ⟨?_, ?_⟩, ⟨?_, ?_⟩⟩ <;> with_unfolding_all decide

/-- C6, amended: for every span without a negative component whose cell count `n` has
`n + 1` representable as an `int64` and every array `p` of fewer than `2^63` points with
truncated coordinates in the span, `CycleSortGrid.Bin` after `Resize(span)`, from any
state of the grid, leaves the caller's array a permutation of its original contents,
with the flat cell index non-decreasing along the array and the flat cell index `i`
occupying exactly the positions `[BinEdges[i], BinEdges[i+1])`. -/
theorem cycle_sort_sorts_in_place (span : Idx3) (p : List Particle) (hs : SpanFits span)
    (hp : PointsIn span p) (hn : (p.length : Int) < 2 ^ 63) :
    CycleSortGrid.SortsInPlace span p :=
  cycleSort_sortsInPlace hs hp hn

/-- C6, witness: the span `{2, 3, 2}` and the seven points of `TestSmallGrid`. -/
theorem cycle_sort_sorts_in_place_witness :
    SpanFits ⟨2, 3, 2⟩ ∧ PointsIn ⟨2, 3, 2⟩ smallGridPoints ∧
    ((smallGridPoints.length : Int) < 2 ^ 63) ∧
    CycleSortGrid.SortsInPlace ⟨2, 3, 2⟩ smallGridPoints :=
  ⟨by decide, by decide, by decide,
    cycle_sort_sorts_in_place ⟨2, 3, 2⟩ smallGridPoints (by decide) (by decide) (by decide)⟩

/-- C6, counterexample: with the span `{2^32, 2^32, 1}`, which has positive components
and whose cell count wraps to 0 in `int64`, and the array of the one point at the
origin, which is in range, `CycleSortGrid.Bin` panics instead of sorting the array. -/
theorem cycle_sort_fails_past_int64 :
    SpanPositive ⟨2 ^ 32, 2 ^ 32, 1⟩ ∧ PointsIn ⟨2 ^ 32, 2 ^ 32, 1⟩ [Particle.zero] ∧
    ¬ CycleSortGrid.SortsInPlace ⟨2 ^ 32, 2 ^ 32, 1⟩ [Particle.zero] := by
  refine ⟨by decide, by decide, ?_⟩
  intro h
  obtain ⟨g2, e, -⟩ := h CycleSortGrid.new
  rw [cycleSort_bin_panics_past_int64] at e
  cases e

/-! ## Union-find: `Find` -/

theorem wrap32_of_nonneg {x : Int} (h0 : 0 ≤ x) (h1 : x < 2 ^ 31) : wrap32 x = x := by
  unfold wrap32
  norm_num at h1 ⊢
  omega

theorem getI_neg {α : Type} (l : List α) (i : Int) (h : i < 0) : getI l i = none := by
  unfold getI
  rw [if_pos h]

theorem findRoot_succ (parent : List Int) (fuel : Nat) (j : Int) :
    UnionFinder.findRoot parent (fuel + 1) j =
      match getI parent j with
      | none => none
      | some pj => if pj ≠ j then UnionFinder.findRoot parent fuel pj else some j := rfl

theorem compress_succ (root : Int) (fuel : Nat) (parent : List Int) (j : Int) :
    UnionFinder.compress root (fuel + 1) parent j =
      match getI parent j with
      | none => none
      | some next =>
        if next ≠ j then
          match setI parent j root with
          | none => none
          | some parent1 => UnionFinder.compress root fuel parent1 next
        else some parent := rfl

theorem findRoot_spec {n : Int} {parent : List Int} {rho : Int → Int} {d : Int → Nat}
    (h : UnionFinder.Forest n parent rho d) :
    ∀ (fuel : Nat) (x : Int), 0 ≤ x → x < n → d x < fuel →
    UnionFinder.findRoot parent fuel x = some (rho x) := by
  intro fuel
  induction fuel with
  | zero => intro x _ _ hd; omega
  | succ fuel ih =>
    intro x hx0 hx1 hd
    obtain ⟨px, hpx, ⟨hp0, hp1⟩, -, hrho, -, hroot, hstep⟩ := h.2 x hx0 hx1
    rw [findRoot_succ]
    simp only [hpx]
    by_cases e : px = x
    · rw [if_neg (by simpa using e), (hroot e).1]
    · rw [if_pos e, ih px hp0 hp1 (by have := hstep e; omega), hrho]

theorem forest_root_fixed {n : Int} {parent : List Int} {rho : Int → Int} {d : Int → Nat}
    (h : UnionFinder.Forest n parent rho d) (x : Int) (hx0 : 0 ≤ x) (hx1 : x < n) :
    rho (rho x) = rho x ∧ d (rho x) = 0 := by
  obtain ⟨-, -, -, ⟨hr0, hr1⟩, -, hfix, -, -⟩ := h.2 x hx0 hx1
  obtain ⟨pr, hpr, -, -, -, -, hroot, -⟩ := h.2 (rho x) hr0 hr1
  rw [hfix] at hpr
  exact hroot (Option.some.inj hpr).symm

/-- Pointing a node that is not a root at its root keeps the forest and its roots. -/
theorem forest_set_root {n : Int} {parent : List Int} {rho : Int → Int} {d : Int → Nat}
    (h : UnionFinder.Forest n parent rho d) (x px : Int) (hx0 : 0 ≤ x) (hx1 : x < n)
    (hpx : getI parent x = some px) (hne : px ≠ x) :
    UnionFinder.Forest n (parent.set x.toNat (rho x)) rho d ∧
    ∀ r : Int, getI (parent.set x.toNat (rho x)) r = some r ↔ getI parent r = some r := by
  obtain ⟨hl, hall⟩ := h
  have hxl : x < (parent.length : Int) := by omega
  obtain ⟨px', hpx', -, ⟨hr0, hr1⟩, -, hfix, -, hstep⟩ := hall x hx0 hx1
  rw [hpx] at hpx'
  cases hpx'
  have hrx : rho x ≠ x := by
    intro e
    rw [e, hpx] at hfix
    exact hne (Option.some.inj hfix)
  have hdx := hstep hne
  obtain ⟨hrr, hdr⟩ := forest_root_fixed ⟨hl, hall⟩ x hx0 hx1
  constructor
  · refine ⟨by simpa using hl, ?_⟩
    intro y hy0 hy1
    obtain ⟨py, hpy, hpyr, hryr, hrho, hfixy, hrooty, hstepy⟩ := hall y hy0 hy1
    have hroot_ne : rho y ≠ x := by
      intro e
      rw [e, hpx] at hfixy
      exact hne (Option.some.inj hfixy)
    have hfix2 : getI (parent.set x.toNat (rho x)) (rho y) = some (rho y) := by
      rw [getI_set _ _ _ _ hx0 hxl hryr.1, if_neg hroot_ne]
      exact hfixy
    rw [getI_set _ _ _ _ hx0 hxl hy0]
    by_cases e : y = x
    · subst e
      refine ⟨rho y, by simp, ⟨hr0, hr1⟩, hryr, hrr, hfix2, ?_, ?_⟩
      · intro e2; exact absurd e2 hrx
      · intro _; omega
    · rw [if_neg e]
      exact ⟨py, hpy, hpyr, hryr, hrho, hfix2, hrooty, hstepy⟩
  · intro r
    by_cases hr : r < 0
    · rw [getI_neg _ _ hr, getI_neg _ _ hr]
    · rw [getI_set _ _ _ _ hx0 hxl (by omega)]
      by_cases e : r = x
      · subst e
        rw [if_pos rfl, hpx]
        constructor
        · intro e2; exact absurd (Option.some.inj e2) hrx
        · intro e2; exact absurd (Option.some.inj e2) hne
      · rw [if_neg e]

theorem compress_spec {n : Int} {rho : Int → Int} {d : Int → Nat} :
    ∀ (fuel : Nat) (parent : List Int) (x : Int), UnionFinder.Forest n parent rho d →
    0 ≤ x → x < n → d x < fuel →
    ∃ parent1, UnionFinder.compress (rho x) fuel parent x = some parent1 ∧
      UnionFinder.Forest n parent1 rho d ∧
      ∀ r : Int, getI parent1 r = some r ↔ getI parent r = some r := by
  intro fuel
  induction fuel with
  | zero => intro parent x _ _ _ hd; omega
  | succ fuel ih =>
    intro parent x h hx0 hx1 hd
    obtain ⟨px, hpx, ⟨hp0, hp1⟩, -, hrho, -, -, hstep⟩ := h.2 x hx0 hx1
    rw [compress_succ]
    simp only [hpx]
    by_cases e : px = x
    · rw [if_neg (by simpa using e)]
      exact ⟨parent, rfl, h, fun r => Iff.rfl⟩
    · rw [if_pos e, setI_of_lt parent x (rho x) hx0 (by have := h.1; omega)]
      obtain ⟨h2, hroots⟩ := forest_set_root h x px hx0 hx1 hpx e
      obtain ⟨parent1, e1, h3, hroots3⟩ := ih (parent.set x.toNat (rho x)) px h2 hp0 hp1
        (by have := hstep e; omega)
      rw [hrho] at e1
      exact ⟨parent1, e1, h3, fun r => (hroots3 r).trans (hroots r)⟩

theorem height_lt {n : Int} {parent size : List Int} {rho : Int → Int} {d : Int → Nat}
    (h : UnionFinder.Forest n parent rho d) (hs : UnionFinder.Sized n parent size rho d)
    (x : Int) (hx0 : 0 ≤ x) (hx1 : x < n) : d x < parent.length + 1 := by
  have h1 := hs.2.2 x hx0 hx1
  have h2 : classCount n rho (rho x) ≤ n.toNat := by
    unfold classCount
    have := List.length_filter_le (fun (x_1 : Nat) => decide (rho (Int.ofNat x_1) = rho x))
      (List.range n.toNat)
    simp only [List.length_range] at this
    exact_mod_cast this
  have h3 := h.1
  omega

/-- The method `Find` on a valid state: it returns the root, and keeps the invariant,
the sizes and the group count. -/
theorem Find_spec {n : Int} {edges : List (Int × Int)} {uf : UnionFinder} {rho : Int → Int}
    {d : Int → Nat} (h : UnionFinder.Valid n edges uf rho d) (i : Int) (hi0 : 0 ≤ i)
    (hi1 : i < n) :
    ∃ uf1, uf.Find i = some (rho i, uf1) ∧ UnionFinder.Valid n edges uf1 rho d ∧
      uf1.Size = uf.Size ∧ uf1.NGroup = uf.NGroup := by
  obtain ⟨hf, hs, hl⟩ := h
  have hd := height_lt hf hs i hi0 hi1
  obtain ⟨parent1, e1, hf1, hroots⟩ := compress_spec (uf.Parent.length + 1) uf.Parent i hf
    hi0 hi1 hd
  refine ⟨{ uf with Parent := parent1 }, ?_, ⟨hf1, ⟨hs.1, ?_, hs.2.2⟩, hl⟩, rfl, rfl⟩
  · delta UnionFinder.Find
    simp only [findRoot_spec hf _ i hi0 hi1 hd, e1]
  · intro r hr0 hr1 hr
    exact hs.2.1 r hr0 hr1 ((hroots r).mp hr)
/-! ## Union-find: counting the classes -/

theorem classCount_nonneg (n : Int) (rho : Int → Int) (r : Int) : 0 ≤ classCount n rho r := by
  unfold classCount
  exact Int.ofNat_nonneg _

theorem classCount_le (n : Int) (rho : Int → Int) (r : Int) (hn : 0 ≤ n) :
    classCount n rho r ≤ n := by
  unfold classCount
  have := List.length_filter_le (fun (x : Nat) => decide (rho (Int.ofNat x) = r))
    (List.range n.toNat)
  simp only [List.length_range] at this
  omega

theorem classCount_pos (n : Int) (rho : Int → Int) (r : Int) (hr0 : 0 ≤ r) (hr1 : r < n)
    (hr : rho r = r) : 1 ≤ classCount n rho r := by
  unfold classCount
  have hm : r.toNat ∈ (List.range n.toNat).filter
      (fun (x : Nat) => decide (rho (Int.ofNat x) = r)) := by
    rw [List.mem_filter, List.mem_range]
    refine ⟨by omega, ?_⟩
    simp only [Int.ofNat_eq_coe, Int.toNat_of_nonneg hr0, hr, decide_True]
  have := List.length_pos_of_mem hm
  omega

theorem filter_merge_length (rho : Int → Int) (a b : Int) (hab : a ≠ b) (l : List Nat) :
    (l.filter (fun (x : Nat) => decide (mergeRoot rho a b (Int.ofNat x) = b))).length =
      (l.filter (fun (x : Nat) => decide (rho (Int.ofNat x) = a))).length +
      (l.filter (fun (x : Nat) => decide (rho (Int.ofNat x) = b))).length := by
  induction l with
  | nil => rfl
  | cons x l ih =>
    have hba : b ≠ a := Ne.symm hab
    by_cases h1 : rho (Int.ofNat x) = a
    · have h2 : rho (Int.ofNat x) ≠ b := fun e => hab (h1.symm.trans e)
      have h3 : mergeRoot rho a b (Int.ofNat x) = b := by simp only [mergeRoot, h1, if_true]
      rw [List.filter_cons_of_pos (by simpa using h3), List.filter_cons_of_pos (by simpa using h1),
        List.filter_cons_of_neg (by simpa using h2), List.length_cons, List.length_cons, ih]
      omega
    · have h4 : mergeRoot rho a b (Int.ofNat x) = rho (Int.ofNat x) := by
        simp only [mergeRoot, h1, if_false]
      by_cases h2 : rho (Int.ofNat x) = b
      · rw [List.filter_cons_of_pos (by rw [decide_eq_true_eq, h4]; exact h2),
          List.filter_cons_of_neg (by simpa using h1),
          List.filter_cons_of_pos (by simpa using h2), List.length_cons, List.length_cons, ih]
        omega
      · rw [List.filter_cons_of_neg (by rw [decide_eq_true_eq, h4]; exact h2),
          List.filter_cons_of_neg (by simpa using h1),
          List.filter_cons_of_neg (by simpa using h2), ih]

theorem classCount_merge (n : Int) (rho : Int → Int) (a b : Int) (hab : a ≠ b) :
    classCount n (mergeRoot rho a b) b = classCount n rho a + classCount n rho b := by
  unfold classCount
  rw [filter_merge_length rho a b hab]
  push_cast
  rfl

theorem classCount_merge_other (n : Int) (rho : Int → Int) (a b r : Int) (ha : r ≠ a)
    (hb : r ≠ b) : classCount n (mergeRoot rho a b) r = classCount n rho r := by
  unfold classCount
  congr 2
  apply List.filter_congr
  intro x _
  simp only [mergeRoot]
  by_cases h1 : rho (Int.ofNat x) = a
  · have h2 : rho (Int.ofNat x) ≠ r := fun e => ha (e.symm.trans h1)
    simp only [h1, if_true, Ne.symm hb, decide_False, Ne.symm ha]
  · simp only [h1, if_false]

/-! ## Union-find: attaching one root under another -/

theorem mergeRoot_of_eq (rho : Int → Int) (a b x : Int) (h : rho x = a) :
    mergeRoot rho a b x = b := by
  unfold mergeRoot
  rw [if_pos h]

theorem mergeRoot_of_ne (rho : Int → Int) (a b x : Int) (h : rho x ≠ a) :
    mergeRoot rho a b x = rho x := by
  unfold mergeRoot
  rw [if_neg h]

theorem mergeHeight_of_eq (rho : Int → Int) (d : Int → Nat) (a x : Int) (h : rho x = a) :
    mergeHeight rho d a x = d x + 1 := by
  unfold mergeHeight
  rw [if_pos h]

theorem mergeHeight_of_ne (rho : Int → Int) (d : Int → Nat) (a x : Int) (h : rho x ≠ a) :
    mergeHeight rho d a x = d x := by
  unfold mergeHeight
  rw [if_neg h]

theorem forest_of_root {n : Int} {parent : List Int} {rho : Int → Int} {d : Int → Nat}
    (h : UnionFinder.Forest n parent rho d) (a : Int) (ha0 : 0 ≤ a) (ha1 : a < n)
    (hra : getI parent a = some a) : rho a = a ∧ d a = 0 := by
  obtain ⟨pa, hpa, -, -, -, -, hroot, -⟩ := h.2 a ha0 ha1
  rw [hra] at hpa
  exact hroot (Option.some.inj hpa).symm

theorem merge_forest {n : Int} {parent : List Int} {rho : Int → Int} {d : Int → Nat}
    (h : UnionFinder.Forest n parent rho d) (a b : Int) (ha0 : 0 ≤ a) (ha1 : a < n)
    (hb0 : 0 ≤ b) (hb1 : b < n) (hra : getI parent a = some a) (hrb : getI parent b = some b)
    (hab : a ≠ b) :
    UnionFinder.Forest n (parent.set a.toNat b) (mergeRoot rho a b) (mergeHeight rho d a) ∧
    ∀ r : Int, getI (parent.set a.toNat b) r = some r ↔ (getI parent r = some r ∧ r ≠ a) := by
  obtain ⟨hfa, hda⟩ := forest_of_root h a ha0 ha1 hra
  obtain ⟨hfb, hdb⟩ := forest_of_root h b hb0 hb1 hrb
  obtain ⟨hl, hall⟩ := h
  have hal : a < (parent.length : Int) := by omega
  have hba : b ≠ a := Ne.symm hab
  have hrba : rho b ≠ a := by rw [hfb]; exact hba
  have hfixb : getI (parent.set a.toNat b) b = some b := by
    rw [getI_set _ _ _ _ ha0 hal hb0, if_neg hba]
    exact hrb
  constructor
  · refine ⟨by simpa using hl, ?_⟩
    intro y hy0 hy1
    obtain ⟨py, hpy, hpyr, hryr, hrho, hfixy, hrooty, hstepy⟩ := hall y hy0 hy1
    rw [getI_set _ _ _ _ ha0 hal hy0]
    by_cases e : y = a
    · subst e
      refine ⟨b, by simp, ⟨hb0, hb1⟩, ?_, ?_, ?_, ?_, ?_⟩
      · rw [mergeRoot_of_eq rho y b y hfa]; exact ⟨hb0, hb1⟩
      · rw [mergeRoot_of_eq rho y b y hfa, mergeRoot_of_ne rho y b b hrba, hfb]
      · rw [mergeRoot_of_eq rho y b y hfa]; exact hfixb
      · intro e2; exact absurd e2 hba
      · intro _
        rw [mergeHeight_of_eq rho d y y hfa, mergeHeight_of_ne rho d y b hrba]
        omega
    · rw [if_neg e]
      by_cases e2 : rho y = a
      · have e3 : rho py = a := hrho.trans e2
        refine ⟨py, hpy, hpyr, ?_, ?_, ?_, ?_, ?_⟩
        · rw [mergeRoot_of_eq rho a b y e2]; exact ⟨hb0, hb1⟩
        · rw [mergeRoot_of_eq rho a b y e2, mergeRoot_of_eq rho a b py e3]
        · rw [mergeRoot_of_eq rho a b y e2]; exact hfixb
        · intro e4
          exact absurd ((hrooty e4).1.symm.trans e2) e
        · intro e4
          rw [mergeHeight_of_eq rho d a y e2, mergeHeight_of_eq rho d a py e3]
          have := hstepy e4
          omega
      · have e3 : rho py ≠ a := by rw [hrho]; exact e2
        refine ⟨py, hpy, hpyr, ?_, ?_, ?_, ?_, ?_⟩
        · rw [mergeRoot_of_ne rho a b y e2]; exact hryr
        · rw [mergeRoot_of_ne rho a b y e2, mergeRoot_of_ne rho a b py e3, hrho]
        · rw [mergeRoot_of_ne rho a b y e2, getI_set _ _ _ _ ha0 hal hryr.1, if_neg e2]
          exact hfixy
        · intro e4
          rw [mergeRoot_of_ne rho a b y e2, mergeHeight_of_ne rho d a y e2]
          exact hrooty e4
        · intro e4
          rw [mergeHeight_of_ne rho d a y e2, mergeHeight_of_ne rho d a py e3]
          exact hstepy e4
  · intro r
    by_cases hr : r < 0
    · rw [getI_neg _ _ hr, getI_neg _ _ hr]
      constructor
      · intro e; cases e
      · intro e; cases e.1
    · rw [getI_set _ _ _ _ ha0 hal (by omega)]
      by_cases e : r = a
      · subst e
        rw [if_pos rfl]
        constructor
        · intro e2; exact absurd (Option.some.inj e2) hba
        · intro e2; exact absurd rfl e2.2
      · rw [if_neg e]
        exact ⟨fun e2 => ⟨e2, e⟩, fun e2 => e2.1⟩

theorem merge_sized {n : Int} {parent size : List Int} {rho : Int → Int} {d : Int → Nat}
    (h : UnionFinder.Forest n parent rho d) (hs : UnionFinder.Sized n parent size rho d)
    (a b : Int) (ha0 : 0 ≤ a) (ha1 : a < n)
    (hb0 : 0 ≤ b) (hb1 : b < n) (hra : getI parent a = some a) (hrb : getI parent b = some b)
    (hab : a ≠ b) :
    UnionFinder.Sized n (parent.set a.toNat b)
      (size.set b.toNat (classCount n rho a + classCount n rho b))
      (mergeRoot rho a b) (mergeHeight rho d a) := by
  obtain ⟨-, hroots⟩ := merge_forest h a b ha0 ha1 hb0 hb1 hra hrb hab
  obtain ⟨hfb, -⟩ := forest_of_root h b hb0 hb1 hrb
  obtain ⟨hsl, hsr, hsd⟩ := hs
  have hbl : b < (size.length : Int) := by omega
  refine ⟨by simpa using hsl, ?_, ?_⟩
  · intro r hr0 hr1 hr
    obtain ⟨hr2, hr3⟩ := (hroots r).mp hr
    rw [getI_set _ _ _ _ hb0 hbl hr0]
    by_cases e : r = b
    · subst e
      rw [if_pos rfl, classCount_merge n rho a r hab]
    · rw [if_neg e, classCount_merge_other n rho a b r hr3 e]
      exact hsr r hr0 hr1 hr2
  · intro x hx0 hx1
    have h1 := hsd x hx0 hx1
    by_cases e : rho x = a
    · rw [mergeRoot_of_eq rho a b x e, mergeHeight_of_eq rho d a x e,
        classCount_merge n rho a b hab]
      rw [e] at h1
      have := classCount_pos n rho b hb0 hb1 hfb
      push_cast
      omega
    · rw [mergeRoot_of_ne rho a b x e, mergeHeight_of_ne rho d a x e]
      by_cases e2 : rho x = b
      · rw [e2, classCount_merge n rho a b hab]
        rw [e2] at h1
        have := classCount_nonneg n rho a
        omega
      · rw [classCount_merge_other n rho a b (rho x) e e2]
        exact h1
/-! ## Union-find: `Union` -/

theorem connected_cons {edges : List (Int × Int)} (e : Int × Int) {x y : Int}
    (h : Connected edges x y) : Connected (e :: edges) x y := by
  unfold Connected at h ⊢
  exact Relation.EqvGen.mono (fun a b hab => List.mem_cons_of_mem e hab) h

theorem connected_head (edges : List (Int × Int)) (i j : Int) :
    Connected ((i, j) :: edges) i j := by
  unfold Connected
  exact Relation.EqvGen.rel i j (List.mem_cons_self _ _)

theorem connected_symm {edges : List (Int × Int)} {x y : Int} (h : Connected edges x y) :
    Connected edges y x := by
  unfold Connected at h ⊢
  exact Relation.EqvGen.symm x y h

theorem connected_trans {edges : List (Int × Int)} {x y z : Int} (h1 : Connected edges x y)
    (h2 : Connected edges y z) : Connected edges x z := by
  unfold Connected at h1 h2 ⊢
  exact Relation.EqvGen.trans x y z h1 h2

/-- Two connected indices have the same root. -/
theorem linked_of_connected {n : Int} {edges : List (Int × Int)} {rho : Int → Int}
    (h : UnionFinder.Linked n edges rho) {x y : Int} (hc : Connected edges x y) :
    rho x = rho y := by
  unfold Connected at hc
  induction hc with
  | rel a b hab => exact h.1 (a, b) hab
  | refl a => rfl
  | symm a b _ ih => exact ih.symm
  | trans a b c _ _ ih1 ih2 => exact ih1.trans ih2

theorem linked_same_root {n : Int} {edges : List (Int × Int)} {rho : Int → Int}
    (h : UnionFinder.Linked n edges rho) (i j : Int) (hij : rho i = rho j) :
    UnionFinder.Linked n ((i, j) :: edges) rho := by
  refine ⟨?_, ?_⟩
  · intro e he
    rcases List.mem_cons.mp he with e1 | e1
    · rw [e1]; exact hij
    · exact h.1 e e1
  · intro x y hx0 hx1 hy0 hy1 hxy
    exact connected_cons _ (h.2 x y hx0 hx1 hy0 hy1 hxy)

theorem merge_linked {n : Int} {edges : List (Int × Int)} {rho : Int → Int}
    (h : UnionFinder.Linked n edges rho) (a b : Int) (hab : a ≠ b)
    (i j : Int) (hi0 : 0 ≤ i) (hi1 : i < n) (hj0 : 0 ≤ j) (hj1 : j < n)
    (hij : (rho i = a ∧ rho j = b) ∨ (rho i = b ∧ rho j = a)) :
    UnionFinder.Linked n ((i, j) :: edges) (mergeRoot rho a b) := by
  have hba : b ≠ a := Ne.symm hab
  have hmb : ∀ x, rho x = b → mergeRoot rho a b x = b := by
    intro x hx
    rw [mergeRoot_of_ne rho a b x (by rw [hx]; exact hba), hx]
  have hma : ∀ x, rho x = a → mergeRoot rho a b x = b := mergeRoot_of_eq rho a b
  -- an index of the tree of `a` is connected with an index of the tree of `b`
  have key : ∀ x y : Int, 0 ≤ x → x < n → 0 ≤ y → y < n → rho x = a → rho y = b →
      Connected ((i, j) :: edges) x y := by
    intro x y hx0 hx1 hy0 hy1 hx hy
    rcases hij with ⟨e1, e2⟩ | ⟨e1, e2⟩
    · have c1 := connected_cons (i, j) (h.2 x i hx0 hx1 hi0 hi1 (hx.trans e1.symm))
      have c2 := connected_cons (i, j) (h.2 j y hj0 hj1 hy0 hy1 (e2.trans hy.symm))
      exact connected_trans c1 (connected_trans (connected_head edges i j) c2)
    · have c1 := connected_cons (i, j) (h.2 x j hx0 hx1 hj0 hj1 (hx.trans e2.symm))
      have c2 := connected_cons (i, j) (h.2 i y hi0 hi1 hy0 hy1 (e1.trans hy.symm))
      exact connected_trans c1
        (connected_trans (connected_symm (connected_head edges i j)) c2)
  refine ⟨?_, ?_⟩
  · intro e he
    rcases List.mem_cons.mp he with e1 | e1
    · rw [e1]
      rcases hij with ⟨e2, e3⟩ | ⟨e2, e3⟩
      · show mergeRoot rho a b i = mergeRoot rho a b j
        rw [hma i e2, hmb j e3]
      · show mergeRoot rho a b i = mergeRoot rho a b j
        rw [hmb i e2, hma j e3]
    · have := h.1 e e1
      unfold mergeRoot
      rw [this]
  · intro x y hx0 hx1 hy0 hy1 hxy
    by_cases ex : rho x = a
    · by_cases ey : rho y = a
      · exact connected_cons _ (h.2 x y hx0 hx1 hy0 hy1 (ex.trans ey.symm))
      · rw [hma x ex, mergeRoot_of_ne rho a b y ey] at hxy
        exact key x y hx0 hx1 hy0 hy1 ex hxy.symm
    · by_cases ey : rho y = a
      · rw [mergeRoot_of_ne rho a b x ex, hma y ey] at hxy
        exact connected_symm (key y x hy0 hy1 hx0 hx1 ey hxy)
      · rw [mergeRoot_of_ne rho a b x ex, mergeRoot_of_ne rho a b y ey] at hxy
        exact connected_cons _ (h.2 x y hx0 hx1 hy0 hy1 hxy)

/-- The method `Union` on a valid state over fewer than `2^31` indices: it returns, and
the new state is valid for the pairs extended by `(i, j)`. When the two roots differ the
tree of the smaller size is attached under the other root, the tree of `j` on a tie. -/
theorem Union_spec {n : Int} {edges : List (Int × Int)} {uf : UnionFinder} {rho : Int → Int}
    {d : Int → Nat} (h : UnionFinder.Valid n edges uf rho d) (hn : n < 2 ^ 31) (i j : Int)
    (hi0 : 0 ≤ i) (hi1 : i < n) (hj0 : 0 ≤ j) (hj1 : j < n) :
    ∃ uf1 rho1 d1, uf.Union i j = some uf1 ∧ UnionFinder.Valid n ((i, j) :: edges) uf1 rho1 d1 ∧
      (rho i = rho j → rho1 = rho ∧ uf1.Size = uf.Size ∧ uf1.NGroup = uf.NGroup) ∧
      (rho i ≠ rho j → uf1.NGroup = wrap32 (uf.NGroup - 1) ∧
        ((classCount n rho (rho i) < classCount n rho (rho j) →
          rho1 = mergeRoot rho (rho i) (rho j) ∧ getI uf1.Parent (rho i) = some (rho j)) ∧
         (¬ classCount n rho (rho i) < classCount n rho (rho j) →
          rho1 = mergeRoot rho (rho j) (rho i) ∧
            getI uf1.Parent (rho j) = some (rho i)))) := by
  obtain ⟨u1, e1, hv1, hs1, hg1⟩ := Find_spec h i hi0 hi1
  obtain ⟨u2, e2, hv2, hs2, hg2⟩ := Find_spec hv1 j hj0 hj1
  delta UnionFinder.Union
  simp only [e1, e2]
  by_cases e : rho i = rho j
  · rw [if_pos e]
    exact ⟨u2, rho, d, rfl, ⟨hv2.1, hv2.2.1, linked_same_root hv2.2.2 i j e⟩,
      fun _ => ⟨rfl, hs2.trans hs1, hg2.trans hg1⟩, fun e2 => absurd e e2⟩
  · rw [if_neg e]
    obtain ⟨hf, hs, hl⟩ := hv2
    obtain ⟨-, -, -, ⟨hri0, hri1⟩, -, hfi, -, -⟩ := hf.2 i hi0 hi1
    obtain ⟨-, -, -, ⟨hrj0, hrj1⟩, -, hfj, -, -⟩ := hf.2 j hj0 hj1
    have hsi := hs.2.1 (rho i) hri0 hri1 hfi
    have hsj := hs.2.1 (rho j) hrj0 hrj1 hfj
    have hpl := hf.1
    have hsl := hs.1
    have hsum : wrap32 (classCount n rho (rho i) + classCount n rho (rho j)) =
        classCount n rho (rho i) + classCount n rho (rho j) := by
      apply wrap32_of_nonneg
      · have := classCount_nonneg n rho (rho i)
        have := classCount_nonneg n rho (rho j)
        omega
      · have := classCount_le n (mergeRoot rho (rho i) (rho j)) (rho j) (by omega)
        rw [classCount_merge n rho _ _ e] at this
        omega
    simp only [hsi, hsj, hsum]
    by_cases hlt : classCount n rho (rho i) < classCount n rho (rho j)
    · rw [if_pos hlt, setI_of_lt _ _ _ hri0 (by omega), setI_of_lt _ _ _ hrj0 (by omega)]
      refine ⟨_, mergeRoot rho (rho i) (rho j), mergeHeight rho d (rho i), rfl, ⟨?_, ?_, ?_⟩,
        fun e2 => absurd e2 e, fun _ => ⟨by rw [hg2, hg1],
          fun _ => ⟨rfl, by
            show getI (u2.Parent.set (rho i).toNat (rho j)) (rho i) = some (rho j)
            rw [getI_set _ _ _ _ hri0 (by omega) hri0, if_pos rfl]⟩,
          fun e2 => absurd hlt e2⟩⟩
      · exact (merge_forest hf _ _ hri0 hri1 hrj0 hrj1 hfi hfj e).1
      · exact merge_sized hf hs _ _ hri0 hri1 hrj0 hrj1 hfi hfj e
      · exact merge_linked hl _ _ e i j hi0 hi1 hj0 hj1 (Or.inl ⟨rfl, rfl⟩)
    · rw [if_neg hlt, setI_of_lt _ _ _ hrj0 (by omega), setI_of_lt _ _ _ hri0 (by omega)]
      have e' : rho j ≠ rho i := Ne.symm e
      refine ⟨_, mergeRoot rho (rho j) (rho i), mergeHeight rho d (rho j), rfl, ⟨?_, ?_, ?_⟩,
        fun e2 => absurd e2 e, fun _ => ⟨by rw [hg2, hg1], fun e2 => absurd e2 hlt,
          fun _ => ⟨rfl, by
            show getI (u2.Parent.set (rho j).toNat (rho i)) (rho j) = some (rho i)
            rw [getI_set _ _ _ _ hrj0 (by omega) hrj0, if_pos rfl]⟩⟩⟩
      · exact (merge_forest hf _ _ hrj0 hrj1 hri0 hri1 hfj hfi e').1
      · have := merge_sized hf hs _ _ hrj0 hrj1 hri0 hri1 hfj hfi e'
        rw [add_comm] at this
        exact this
      · exact merge_linked hl _ _ e' i j hi0 hi1 hj0 hj1 (Or.inr ⟨rfl, rfl⟩)
/-! ## Union-find: the reachable states -/

theorem newUnionFinder_spec (n : Int) (uf : UnionFinder) (hn : n < 2 ^ 31)
    (h : NewUnionFinder n = some uf) :
    0 ≤ n ∧ (uf.Parent.length : Int) = n ∧ uf.Size = List.replicate n.toNat 1 ∧ uf.NGroup = 0 ∧
      ∀ x : Int, 0 ≤ x → x < n → getI uf.Parent x = some x := by
  delta NewUnionFinder at h
  by_cases h0 : n < 0
  · rw [if_pos h0] at h
    cases h
  · rw [if_neg h0] at h
    cases h
    refine ⟨by omega, by simp; omega, rfl, rfl, ?_⟩
    intro x hx0 hx1
    have hx2 : x.toNat < n.toNat := by omega
    rw [getI_eq_getElem? _ _ hx0, List.getElem?_map, List.getElem?_range hx2]
    simp only [Option.map_some', Int.ofNat_eq_coe, Int.toNat_of_nonneg hx0]
    rw [wrap32_of_nonneg hx0 (by omega)]

theorem classCount_id (n : Int) (r : Int) (hr0 : 0 ≤ r) (hr1 : r < n) :
    classCount n (fun x => x) r = 1 := by
  unfold classCount
  have h1 : (List.range n.toNat).filter (fun (x : Nat) => decide (Int.ofNat x = r)) =
      (List.range n.toNat).filter (fun (x : Nat) => x == r.toNat) := by
    apply List.filter_congr
    intro x _
    simp only [Int.ofNat_eq_coe, beq_iff_eq, decide_eq_decide]
    rw [Bool.eq_iff_iff]
    simp only [decide_eq_true_eq, beq_iff_eq]
    omega
  rw [h1, ← List.countP_eq_length_filter]
  have h2 := List.count_eq_one_of_mem (List.nodup_range n.toNat)
    (List.mem_range.mpr (show r.toNat < n.toNat by omega))
  unfold List.count at h2
  rw [h2]
  rfl

theorem newUnionFinder_valid (n : Int) (uf : UnionFinder) (hn : n < 2 ^ 31)
    (h : NewUnionFinder n = some uf) :
    UnionFinder.Valid n [] uf (fun x => x) (fun _ => 0) := by
  obtain ⟨h0, hl, hs, -, hp⟩ := newUnionFinder_spec n uf hn h
  refine ⟨⟨hl, ?_⟩, ⟨?_, ?_, ?_⟩, ?_, ?_⟩
  · intro x hx0 hx1
    exact ⟨x, hp x hx0 hx1, ⟨hx0, hx1⟩, ⟨hx0, hx1⟩, rfl, hp x hx0 hx1, fun _ => ⟨rfl, rfl⟩,
      fun e => absurd rfl e⟩
  · rw [hs, List.length_replicate]
    omega
  · intro r hr0 hr1 _
    rw [hs, getI_replicate _ _ _ hr0 (by omega), classCount_id n r hr0 hr1]
  · intro x hx0 hx1
    rw [classCount_id n x hx0 hx1]
    rfl
  · intro e he
    cases he
  · intro x y _ _ _ _ hxy
    have e : x = y := hxy
    rw [e]
    exact Relation.EqvGen.refl y

/-- Every reachable state over fewer than `2^31` indices is valid for some root map. -/
theorem reachable_valid {n : Int} {edges : List (Int × Int)} {uf : UnionFinder}
    (hn : n < 2 ^ 31) (h : UnionFinder.Reachable n edges uf) :
    ∃ rho d, UnionFinder.Valid n edges uf rho d := by
  induction h with
  | init uf h0 => exact ⟨_, _, newUnionFinder_valid n uf hn h0⟩
  | union edges uf uf1 i j _ hi0 hi1 hj0 hj1 hu ih =>
    obtain ⟨rho, d, hv⟩ := ih
    obtain ⟨uf2, rho1, d1, e, hv1, -⟩ := Union_spec hv hn i j hi0 hi1 hj0 hj1
    rw [hu] at e
    cases e
    exact ⟨rho1, d1, hv1⟩
  | find edges uf uf1 i r _ hi0 hi1 hf ih =>
    obtain ⟨rho, d, hv⟩ := ih
    obtain ⟨uf2, e, hv1, -⟩ := Find_spec hv i hi0 hi1
    rw [hf] at e
    cases e
    exact ⟨rho, d, hv1⟩
/-! ## Union-find: the roots of a reachable state -/

theorem connected_of_subset {edges edges1 : List (Int × Int)}
    (hsub : ∀ e, e ∈ edges → e ∈ edges1) {x y : Int} (h : Connected edges x y) :
    Connected edges1 x y := by
  unfold Connected at h ⊢
  exact Relation.EqvGen.mono (fun a b hab => hsub (a, b) hab) h

theorem findCount_eq (n : Int) (uf : UnionFinder) (rho : Int → Int) (r : Int)
    (h : ∀ k : Int, 0 ≤ k → k < n → uf.rootOf k = some (rho k)) :
    uf.findCount n r = classCount n rho r := by
  unfold UnionFinder.findCount classCount
  congr 2
  apply List.filter_congr
  intro x hx
  have hx1 := List.mem_range.mp hx
  rw [h (Int.ofNat x) (Int.ofNat_nonneg x) (by simp only [Int.ofNat_eq_coe]; omega)]
  rw [Bool.eq_iff_iff]
  simp only [decide_eq_true_eq, Option.some.injEq]

theorem rootOf_of_valid {n : Int} {edges : List (Int × Int)} {uf : UnionFinder}
    {rho : Int → Int} {d : Int → Nat} (h : UnionFinder.Valid n edges uf rho d) (k : Int)
    (hk0 : 0 ≤ k) (hk1 : k < n) : uf.rootOf k = some (rho k) := by
  obtain ⟨uf1, e, -⟩ := Find_spec h k hk0 hk1
  unfold UnionFinder.rootOf
  rw [e]
  rfl

theorem connected_iff_of_valid {n : Int} {edges : List (Int × Int)} {uf : UnionFinder}
    {rho : Int → Int} {d : Int → Nat} (h : UnionFinder.Valid n edges uf rho d) (i j : Int)
    (hi0 : 0 ≤ i) (hi1 : i < n) (hj0 : 0 ≤ j) (hj1 : j < n) :
    rho i = rho j ↔ Connected edges i j :=
  ⟨h.2.2.2 i j hi0 hi1 hj0 hj1, linked_of_connected h.2.2⟩

theorem newUnionFinder_returns (n : Int) (h0 : 0 ≤ n) : ∃ uf, NewUnionFinder n = some uf := by
  delta NewUnionFinder
  rw [if_neg (by omega)]
  exact ⟨_, rfl⟩
/-! ## The union-find claims -/

/-- C7: for every state reachable from `NewUnionFinder(n)` (`n` an `int32`) by calls of
`Union` (and of `Find`) and all indices `i`, `j` of `[0, n)`: `Union(i, j)` returns, and
right after it `Find(i)` and then `Find(j)` return the same root; so does `Find(j)`
called first. -/
theorem union_joins_roots (n : Int) (edges : List (Int × Int)) (uf : UnionFinder)
    (hn : n < 2 ^ 31) (h : UnionFinder.Reachable n edges uf) (i j : Int)
    (hi0 : 0 ≤ i) (hi1 : i < n) (hj0 : 0 ≤ j) (hj1 : j < n) :
    ∃ uf1, uf.Union i j = some uf1 ∧
      ∃ r uf2 uf3, uf1.Find i = some (r, uf2) ∧ uf2.Find j = some (r, uf3) ∧
        uf1.rootOf j = some r := by
  obtain ⟨rho, d, hv⟩ := reachable_valid hn h
  obtain ⟨uf1, rho1, d1, e, hv1, -⟩ := Union_spec hv hn i j hi0 hi1 hj0 hj1
  obtain ⟨uf2, e2, hv2, -⟩ := Find_spec hv1 i hi0 hi1
  obtain ⟨uf3, e3, -⟩ := Find_spec hv2 j hj0 hj1
  have hij : rho1 i = rho1 j := hv1.2.2.1 (i, j) (List.mem_cons_self _ _)
  refine ⟨uf1, e, rho1 i, uf2, uf3, e2, ?_, ?_⟩
  · rw [e3, hij]
  · rw [rootOf_of_valid hv1 j hj0 hj1, hij]

/-- C7, witness: the state after `NewUnionFinder(4)` and `Union(0, 1)`, with `Union(1, 2)`. -/
theorem union_joins_roots_witness :
    ∃ uf1, examplePair.Union 1 2 = some uf1 ∧
      ∃ r uf2 uf3, uf1.Find 1 = some (r, uf2) ∧ uf2.Find 2 = some (r, uf3) ∧
        uf1.rootOf 2 = some r :=
  union_joins_roots 4 [(0, 1)] examplePair (by decide)
    (UnionFinder.Reachable.union [] exampleStart examplePair 0 1
      (UnionFinder.Reachable.init exampleStart (by with_unfolding_all rfl))
      (by decide) (by decide) (by decide) (by decide) (by with_unfolding_all rfl))
    1 2 (by decide) (by decide) (by decide) (by decide)

/-- C8: for every `n` (an `int32`) and every state reached from `NewUnionFinder(n)` by
the calls `Union(a_1, b_1)`, ..., `Union(a_k, b_k)` with calls of `Find` in between, and
all `i`, `j` of `[0, n)`: `Find(i)` and `Find(j)` return, and they return the same root
exactly when `i` and `j` are connected in the graph with the edges `{a_m, b_m}`; a
state reached with the same pairs in another order has the same pairs of indices with
equal roots. -/
theorem find_eq_iff_connected (n : Int) (edges : List (Int × Int)) (uf : UnionFinder)
    (hn : n < 2 ^ 31) (h : UnionFinder.Reachable n edges uf) (i j : Int)
    (hi0 : 0 ≤ i) (hi1 : i < n) (hj0 : 0 ≤ j) (hj1 : j < n) :
    ∃ ri rj uf1 uf2, uf.Find i = some (ri, uf1) ∧ uf1.Find j = some (rj, uf2) ∧
      uf.rootOf j = some rj ∧ (ri = rj ↔ Connected edges i j) ∧
      ∀ (edges1 : List (Int × Int)) (uf3 : UnionFinder),
        UnionFinder.Reachable n edges1 uf3 → edges1.Perm edges →
        ∃ si sj, uf3.rootOf i = some si ∧ uf3.rootOf j = some sj ∧ (si = sj ↔ ri = rj) := by
  obtain ⟨rho, d, hv⟩ := reachable_valid hn h
  obtain ⟨uf1, e1, hv1, -⟩ := Find_spec hv i hi0 hi1
  obtain ⟨uf2, e2, -⟩ := Find_spec hv1 j hj0 hj1
  have hc := connected_iff_of_valid hv i j hi0 hi1 hj0 hj1
  refine ⟨rho i, rho j, uf1, uf2, e1, e2, rootOf_of_valid hv j hj0 hj1, hc, ?_⟩
  intro edges1 uf3 h3 hperm
  obtain ⟨rho3, d3, hv3⟩ := reachable_valid hn h3
  have hc3 := connected_iff_of_valid hv3 i j hi0 hi1 hj0 hj1
  refine ⟨rho3 i, rho3 j, rootOf_of_valid hv3 i hi0 hi1, rootOf_of_valid hv3 j hj0 hj1, ?_⟩
  rw [hc3, hc]
  exact ⟨connected_of_subset (fun e he => hperm.mem_iff.mp he),
    connected_of_subset (fun e he => hperm.mem_iff.mpr he)⟩

/-- C8, witness: the state after `NewUnionFinder(4)` and `Union(0, 1)`, with the indices
1 and 0. -/
theorem find_eq_iff_connected_witness :
    ∃ ri rj uf1 uf2, examplePair.Find 1 = some (ri, uf1) ∧ uf1.Find 0 = some (rj, uf2) ∧
      examplePair.rootOf 0 = some rj ∧ (ri = rj ↔ Connected [(0, 1)] 1 0) ∧
      ∀ (edges1 : List (Int × Int)) (uf3 : UnionFinder),
        UnionFinder.Reachable 4 edges1 uf3 → edges1.Perm [(0, 1)] →
        ∃ si sj, uf3.rootOf 1 = some si ∧ uf3.rootOf 0 = some sj ∧ (si = sj ↔ ri = rj) :=
  find_eq_iff_connected 4 [(0, 1)] examplePair (by decide)
    (UnionFinder.Reachable.union [] exampleStart examplePair 0 1
      (UnionFinder.Reachable.init exampleStart (by with_unfolding_all rfl))
      (by decide) (by decide) (by decide) (by decide) (by with_unfolding_all rfl))
    1 0 (by decide) (by decide) (by decide) (by decide)

/-- C9: in every state reachable from `NewUnionFinder(n)` (`n` an `int32`) by calls of
`Union` and `Find`, for every index `i` of `[0, n)`: `Find(i)` returns a root `r`, and
`Size[r]`, read before or after that call, is the number of indices `k` of `[0, n)` for
which `Find(k)` returns `r`; these `k` are the indices connected with `i`. -/
theorem size_counts_component (n : Int) (edges : List (Int × Int)) (uf : UnionFinder)
    (hn : n < 2 ^ 31) (h : UnionFinder.Reachable n edges uf) (i : Int)
    (hi0 : 0 ≤ i) (hi1 : i < n) :
    ∃ r uf1, uf.Find i = some (r, uf1) ∧
      getI uf1.Size r = some (uf1.findCount n r) ∧
      getI uf.Size r = some (uf.findCount n r) ∧
      ∀ k : Int, 0 ≤ k → k < n →
        ((uf1.rootOf k = some r ↔ Connected edges i k) ∧
         (uf.rootOf k = some r ↔ Connected edges i k)) := by
  obtain ⟨rho, d, hv⟩ := reachable_valid hn h
  obtain ⟨uf1, e1, hv1, hs1, -⟩ := Find_spec hv i hi0 hi1
  obtain ⟨-, -, -, ⟨hr0, hr1⟩, -, hfix, -, -⟩ := hv.1.2 i hi0 hi1
  have hsz := hv.2.1.2.1 (rho i) hr0 hr1 hfix
  refine ⟨rho i, uf1, e1, ?_, ?_, ?_⟩
  · rw [findCount_eq n uf1 rho (rho i) (rootOf_of_valid hv1), hs1]
    exact hsz
  · rw [findCount_eq n uf rho (rho i) (rootOf_of_valid hv)]
    exact hsz
  · intro k hk0 hk1
    have hc := connected_iff_of_valid hv i k hi0 hi1 hk0 hk1
    rw [rootOf_of_valid hv1 k hk0 hk1, rootOf_of_valid hv k hk0 hk1, ← hc]
    simp only [Option.some.injEq]
    exact ⟨eq_comm, eq_comm⟩

/-- C9, witness: the state after `NewUnionFinder(4)` and `Union(0, 1)`, with the index 1. -/
theorem size_counts_component_witness :
    ∃ r uf1, examplePair.Find 1 = some (r, uf1) ∧
      getI uf1.Size r = some (uf1.findCount 4 r) ∧
      getI examplePair.Size r = some (examplePair.findCount 4 r) ∧
      ∀ k : Int, 0 ≤ k → k < 4 →
        ((uf1.rootOf k = some r ↔ Connected [(0, 1)] 1 k) ∧
         (examplePair.rootOf k = some r ↔ Connected [(0, 1)] 1 k)) :=
  size_counts_component 4 [(0, 1)] examplePair (by decide)
    (UnionFinder.Reachable.union [] exampleStart examplePair 0 1
      (UnionFinder.Reachable.init exampleStart (by with_unfolding_all rfl))
      (by decide) (by decide) (by decide) (by decide) (by with_unfolding_all rfl))
    1 (by decide) (by decide)

/-- C10: for every `n` of `[0, 2^31)`, `NewUnionFinder(n)` returns a state whose `Parent`
is the identity on `[0, n)` and whose `Size` is 1 everywhere; its `NGroup` is the zero
value 0, which is not `n` as soon as `n` is positive. -/
theorem new_union_finder_leaves_group_count_zero (n : Int) (h0 : 0 ≤ n) (hn : n < 2 ^ 31) :
    ∃ uf, NewUnionFinder n = some uf ∧
      (∀ x : Int, 0 ≤ x → x < n → getI uf.Parent x = some x) ∧
      (∀ x : Int, 0 ≤ x → x < n → getI uf.Size x = some 1) ∧
      uf.NGroup = 0 ∧ (0 < n → uf.NGroup ≠ n) := by
  obtain ⟨uf, e⟩ := newUnionFinder_returns n h0
  obtain ⟨-, -, hs, hg, hp⟩ := newUnionFinder_spec n uf hn e
  refine ⟨uf, e, hp, ?_, hg, ?_⟩
  · intro x hx0 hx1
    rw [hs, getI_replicate _ _ _ hx0 (by omega)]
  · intro hpos
    rw [hg]
    omega

/-- C10, witness: `NewUnionFinder(3)`, whose `NGroup` is 0 and not 3. -/
theorem new_union_finder_leaves_group_count_zero_witness :
    ∃ uf, NewUnionFinder 3 = some uf ∧
      (∀ x : Int, 0 ≤ x → x < 3 → getI uf.Parent x = some x) ∧
      (∀ x : Int, 0 ≤ x → x < 3 → getI uf.Size x = some 1) ∧
      uf.NGroup = 0 ∧ ((0 : Int) < 3 → uf.NGroup ≠ 3) :=
  new_union_finder_leaves_group_count_zero 3 (by decide) (by decide)
/-! ## Union-find: following `Parent` -/

theorem follow_zero (parent : List Int) (x : Int) :
    UnionFinder.follow parent 0 x = some x := rfl

theorem follow_succ (parent : List Int) (k : Nat) (x : Int) :
    UnionFinder.follow parent (k + 1) x =
      match getI parent x with
      | none => none
      | some px => UnionFinder.follow parent k px := rfl

theorem follow_succ_of (parent : List Int) (k : Nat) (x px : Int)
    (h : getI parent x = some px) :
    UnionFinder.follow parent (k + 1) x = UnionFinder.follow parent k px := by
  rw [follow_succ, h]

theorem follow_fixed (parent : List Int) (r : Int) (h : getI parent r = some r) :
    ∀ k, UnionFinder.follow parent k r = some r := by
  intro k
  induction k with
  | zero => rfl
  | succ k ih => rw [follow_succ_of parent k r r h, ih]

theorem follow_add (parent : List Int) (a : Nat) :
    ∀ (b : Nat) (x y : Int), UnionFinder.follow parent a x = some y →
    UnionFinder.follow parent (a + b) x = UnionFinder.follow parent b y := by
  induction a with
  | zero =>
    intro b x y h
    cases h
    rw [Nat.zero_add]
  | succ a ih =>
    intro b x y h
    rw [follow_succ] at h
    rw [show a + 1 + b = (a + b) + 1 by omega, follow_succ]
    cases hx : getI parent x with
    | none => rw [hx] at h; cases h
    | some px =>
      rw [hx] at h
      exact ih b px y h

/-- The fixed point reached from an index is unique. -/
theorem rootOf_unique {parent : List Int} {x r s : Int} (h1 : UnionFinder.RootOf parent x r)
    (h2 : UnionFinder.RootOf parent x s) : r = s := by
  obtain ⟨a, ha, hr⟩ := h1
  obtain ⟨b, hb, hs⟩ := h2
  have e1 := follow_add parent a b x r ha
  have e2 := follow_add parent b a x s hb
  rw [follow_fixed parent r hr] at e1
  rw [follow_fixed parent s hs, Nat.add_comm, e1] at e2
  exact Option.some.inj e2

theorem rootOf_step {parent : List Int} {x px r : Int} (hx : getI parent x = some px)
    (h : UnionFinder.RootOf parent px r) : UnionFinder.RootOf parent x r := by
  obtain ⟨k, hk, hr⟩ := h
  exact ⟨k + 1, by rw [follow_succ_of parent k x px hx, hk], hr⟩

theorem rootOf_of_step {parent : List Int} {x px r : Int} (hx : getI parent x = some px)
    (h : UnionFinder.RootOf parent x r) : UnionFinder.RootOf parent px r := by
  obtain ⟨k, hk, hr⟩ := h
  cases k with
  | zero =>
    cases hk
    rw [hr] at hx
    cases hx
    exact ⟨0, rfl, hr⟩
  | succ k =>
    rw [follow_succ_of parent k x px hx] at hk
    exact ⟨k, hk, hr⟩

/-- In a forest every index reaches its root. -/
theorem forest_rootOf {n : Int} {parent : List Int} {rho : Int → Int} {d : Int → Nat}
    (h : UnionFinder.Forest n parent rho d) :
    ∀ (m : Nat) (x : Int), 0 ≤ x → x < n → d x ≤ m → UnionFinder.RootOf parent x (rho x) := by
  intro m
  induction m with
  | zero =>
    intro x hx0 hx1 hd
    obtain ⟨px, hpx, -, -, -, hfix, hroot, hstep⟩ := h.2 x hx0 hx1
    by_cases e : px = x
    · rw [(hroot e).1]
      rw [e] at hpx
      exact ⟨0, rfl, hpx⟩
    · have := hstep e
      omega
  | succ m ih =>
    intro x hx0 hx1 hd
    obtain ⟨px, hpx, ⟨hp0, hp1⟩, -, hrho, hfix, hroot, hstep⟩ := h.2 x hx0 hx1
    by_cases e : px = x
    · rw [(hroot e).1]
      rw [e] at hpx
      exact ⟨0, rfl, hpx⟩
    · have h1 := ih px hp0 hp1 (by have := hstep e; omega)
      rw [hrho] at h1
      exact rootOf_step hpx h1
theorem rootOf_range {parent : List Int} {x r : Int} (h : UnionFinder.RootOf parent x r) :
    0 ≤ x ∧ x < parent.length := by
  obtain ⟨k, hk, hr⟩ := h
  cases k with
  | zero =>
    cases hk
    exact getI_lt_length hr
  | succ k =>
    rw [follow_succ] at hk
    cases hx : getI parent x with
    | none => rw [hx] at hk; cases hk
    | some px => exact getI_lt_length hx

theorem stepsTo_unique {parent : List Int} {x : Int} {k k1 : Nat} {r r1 : Int}
    (h : UnionFinder.StepsTo parent x k r) (h1 : UnionFinder.StepsTo parent x k1 r1) :
    k = k1 ∧ r = r1 := by
  obtain ⟨hf, hr, hmin⟩ := h
  obtain ⟨hf1, hr1, hmin1⟩ := h1
  have e : k = k1 := by
    rcases Nat.lt_trichotomy k k1 with hlt | heq | hgt
    · exact absurd hr (hmin1 k hlt r hf)
    · exact heq
    · exact absurd hr1 (hmin k1 hgt r1 hf1)
  subst e
  rw [hf] at hf1
  exact ⟨rfl, Option.some.inj hf1⟩

theorem stepsTo_fixed {parent : List Int} {x : Int} (h : getI parent x = some x) :
    UnionFinder.StepsTo parent x 0 x :=
  ⟨rfl, h, fun m hm => absurd hm (Nat.not_lt_zero m)⟩

theorem stepsTo_step {parent : List Int} {x px : Int} {k : Nat} {r : Int}
    (hx : getI parent x = some px) (hne : px ≠ x) (h : UnionFinder.StepsTo parent x k r) :
    ∃ k1, k = k1 + 1 ∧ UnionFinder.StepsTo parent px k1 r := by
  obtain ⟨hf, hr, hmin⟩ := h
  cases k with
  | zero =>
    cases hf
    rw [hr] at hx
    exact absurd (Option.some.inj hx).symm hne
  | succ k =>
    refine ⟨k, rfl, ?_, hr, ?_⟩
    · rw [follow_succ_of parent k x px hx] at hf
      exact hf
    · intro m hm y hy
      exact hmin (m + 1) (by omega) y (by rw [follow_succ_of parent m x px hx]; exact hy)

theorem exists_stepsTo {parent : List Int} {x r : Int} (h : UnionFinder.RootOf parent x r) :
    ∃ k, UnionFinder.StepsTo parent x k r := by
  classical
  have hex : ∃ k, ∃ s, UnionFinder.follow parent k x = some s ∧ getI parent s = some s := by
    obtain ⟨k, hk, hr⟩ := h
    exact ⟨k, r, hk, hr⟩
  obtain ⟨s, hs, hfix⟩ := Nat.find_spec hex
  have e : s = r := rootOf_unique ⟨_, hs, hfix⟩ h
  rw [e] at hs hfix
  refine ⟨Nat.find hex, hs, hfix, ?_⟩
  intro m hm y hy hy2
  exact Nat.find_min hex hm ⟨y, hy, hy2⟩

/-- A `Parent` array in which every index reaches a fixed point is a forest, with the
fixed points as roots and the numbers of reads as heights. -/
theorem rooted_forest (parent : List Int)
    (h : ∀ x : Int, 0 ≤ x → x < parent.length → ∃ r, UnionFinder.RootOf parent x r) :
    ∃ (rho : Int → Int) (d : Int → Nat),
      UnionFinder.Forest (parent.length : Int) parent rho d ∧
      ∀ x : Int, 0 ≤ x → x < parent.length → UnionFinder.StepsTo parent x (d x) (rho x) := by
  have key : ∀ x : Int, ∃ (k : Nat) (r : Int),
      0 ≤ x → x < parent.length → UnionFinder.StepsTo parent x k r := by
    intro x
    by_cases hx : 0 ≤ x ∧ x < parent.length
    · obtain ⟨r, hr⟩ := h x hx.1 hx.2
      obtain ⟨k, hk⟩ := exists_stepsTo hr
      exact ⟨k, r, fun _ _ => hk⟩
    · exact ⟨0, 0, fun h0 h1 => absurd ⟨h0, h1⟩ hx⟩
  choose d rho hspec using key
  refine ⟨rho, d, ⟨rfl, ?_⟩, hspec⟩
  intro x hx0 hx1
  have hsx := hspec x hx0 hx1
  obtain ⟨px, hpx⟩ := getI_of_lt parent x hx0 hx1
  have hroot : UnionFinder.RootOf parent x (rho x) := ⟨d x, hsx.1, hsx.2.1⟩
  have hrp := rootOf_of_step hpx hroot
  obtain ⟨hp0, hp1⟩ := rootOf_range hrp
  have hrr := getI_lt_length hsx.2.1
  have hsp := hspec px hp0 hp1
  refine ⟨px, hpx, ⟨hp0, hp1⟩, hrr, ?_, hsx.2.1, ?_, ?_⟩
  · exact rootOf_unique ⟨d px, hsp.1, hsp.2.1⟩ hrp
  · intro e
    rw [e] at hpx
    obtain ⟨e1, e2⟩ := stepsTo_unique hsx (stepsTo_fixed hpx)
    exact ⟨e2, e1⟩
  · intro e
    obtain ⟨k1, e1, hs1⟩ := stepsTo_step hpx e hsx
    obtain ⟨e2, -⟩ := stepsTo_unique hsp hs1
    omega
theorem steps_below {parent : List Int} {rho : Int → Int} {d : Int → Nat}
    (hspec : ∀ x : Int, 0 ≤ x → x < parent.length →
      UnionFinder.StepsTo parent x (d x) (rho x)) :
    ∀ (j : Nat) (x : Int), 0 ≤ x → x < parent.length → j ≤ d x →
    ∃ y : Int, 0 ≤ y ∧ y < parent.length ∧ d y = d x - j := by
  intro j
  induction j with
  | zero => intro x hx0 hx1 _; exact ⟨x, hx0, hx1, rfl⟩
  | succ j ih =>
    intro x hx0 hx1 hj
    obtain ⟨y, hy0, hy1, hdy⟩ := ih x hx0 hx1 (by omega)
    have hsy := hspec y hy0 hy1
    obtain ⟨py, hpy⟩ := getI_of_lt parent y hy0 hy1
    have hne : py ≠ y := by
      intro e
      rw [e] at hpy
      have := (stepsTo_unique hsy (stepsTo_fixed hpy)).1
      omega
    obtain ⟨k1, e1, hs1⟩ := stepsTo_step hpy hne hsy
    obtain ⟨hp0, hp1⟩ := rootOf_range ⟨k1, hs1.1, hs1.2.1⟩
    have e2 := (stepsTo_unique (hspec py hp0 hp1) hs1).1
    exact ⟨py, hp0, hp1, by omega⟩

/-- The number of reads from an index to its fixed point is below the length of
`Parent`: the indices met on the way are distinct. -/
theorem steps_lt_length {parent : List Int} {rho : Int → Int} {d : Int → Nat}
    (hspec : ∀ x : Int, 0 ≤ x → x < parent.length →
      UnionFinder.StepsTo parent x (d x) (rho x))
    (x : Int) (hx0 : 0 ≤ x) (hx1 : x < parent.length) : d x < parent.length := by
  have hsub : Finset.range (d x + 1) ⊆
      (Finset.range parent.length).image (fun (y : Nat) => d (Int.ofNat y)) := by
    intro m hm
    have hm1 : m < d x + 1 := Finset.mem_range.mp hm
    obtain ⟨y, hy0, hy1, hdy⟩ := steps_below hspec (d x - m) x hx0 hx1 (by omega)
    refine Finset.mem_image.mpr ⟨y.toNat, Finset.mem_range.mpr (by omega), ?_⟩
    simp only [Int.ofNat_eq_coe, Int.toNat_of_nonneg hy0]
    omega
  have h1 := Finset.card_le_card hsub
  have h2 := Finset.card_image_le (s := Finset.range parent.length)
    (f := fun (y : Nat) => d (Int.ofNat y))
  simp only [Finset.card_range] at h1 h2
  omega
theorem forest_follow_height {n : Int} {parent : List Int} {rho : Int → Int} {d : Int → Nat}
    (h : UnionFinder.Forest n parent rho d) :
    ∀ (m : Nat) (z y : Int), 0 ≤ z → z < n → UnionFinder.follow parent m z = some y →
    (0 ≤ y ∧ y < n) ∧ d y ≤ d z := by
  intro m
  induction m with
  | zero =>
    intro z y hz0 hz1 hy
    cases hy
    exact ⟨⟨hz0, hz1⟩, le_refl _⟩
  | succ m ih =>
    intro z y hz0 hz1 hy
    obtain ⟨pz, hpz, ⟨hp0, hp1⟩, -, -, -, hroot, hstep⟩ := h.2 z hz0 hz1
    rw [follow_succ_of parent m z pz hpz] at hy
    obtain ⟨hr, hd⟩ := ih pz y hp0 hp1 hy
    refine ⟨hr, ?_⟩
    by_cases e : pz = z
    · rw [e] at hd; exact hd
    · have := hstep e
      omega

theorem follow_set_eq {n : Int} {parent : List Int} {rho : Int → Int} {d : Int → Nat}
    (h : UnionFinder.Forest n parent rho d) (x v : Int) (hx0 : 0 ≤ x) (hx1 : x < n) :
    ∀ (m : Nat) (z : Int), 0 ≤ z → z < n → d z < d x →
    UnionFinder.follow (parent.set x.toNat v) m z = UnionFinder.follow parent m z := by
  have hxl : x < (parent.length : Int) := by have := h.1; omega
  intro m
  induction m with
  | zero => intro z _ _ _; rfl
  | succ m ih =>
    intro z hz0 hz1 hd
    obtain ⟨pz, hpz, ⟨hp0, hp1⟩, -, -, -, hroot, hstep⟩ := h.2 z hz0 hz1
    have hne : z ≠ x := by
      intro e
      rw [e] at hd
      omega
    have hpz2 : getI (parent.set x.toNat v) z = some pz := by
      rw [getI_set _ _ _ _ hx0 hxl hz0, if_neg hne]
      exact hpz
    rw [follow_succ_of _ m z pz hpz2, follow_succ_of _ m z pz hpz]
    apply ih pz hp0 hp1
    by_cases e : pz = z
    · rw [e]; exact hd
    · have := hstep e
      omega

/-- The second loop of `Find` in a forest: every index met on the way from `x` to its
root is pointed at the root, and no other entry of `Parent` is written. -/
theorem compress_exact {n : Int} {rho : Int → Int} {d : Int → Nat} :
    ∀ (fuel : Nat) (parent : List Int) (x : Int), UnionFinder.Forest n parent rho d →
    0 ≤ x → x < n → d x < fuel →
    ∃ parent1, UnionFinder.compress (rho x) fuel parent x = some parent1 ∧
      (∀ y : Int, UnionFinder.OnPath parent x y → getI parent1 y = some (rho x)) ∧
      (∀ y : Int, ¬ UnionFinder.OnPath parent x y → getI parent1 y = getI parent y) := by
  intro fuel
  induction fuel with
  | zero => intro parent x _ _ _ hd; omega
  | succ fuel ih =>
    intro parent x h hx0 hx1 hd
    obtain ⟨px, hpx, ⟨hp0, hp1⟩, -, hrho, -, hroot, hstep⟩ := h.2 x hx0 hx1
    have hxl : x < (parent.length : Int) := by have := h.1; omega
    rw [compress_succ]
    simp only [hpx]
    by_cases e : px = x
    · rw [if_neg (by simpa using e)]
      refine ⟨parent, rfl, ?_, fun y _ => rfl⟩
      intro y hy
      obtain ⟨m, hm⟩ := hy
      rw [e] at hpx
      rw [follow_fixed parent x hpx] at hm
      cases hm
      rw [(hroot e).1]
      exact hpx
    · rw [if_pos e, setI_of_lt parent x (rho x) hx0 hxl]
      obtain ⟨h2, -⟩ := forest_set_root h x px hx0 hx1 hpx e
      have hdp := hstep e
      obtain ⟨parent1, e1, hon, hoff⟩ := ih (parent.set x.toNat (rho x)) px h2 hp0 hp1
        (by omega)
      rw [hrho] at e1 hon
      have hpath : ∀ y : Int, UnionFinder.OnPath (parent.set x.toNat (rho x)) px y ↔
          UnionFinder.OnPath parent px y := by
        intro y
        constructor
        · rintro ⟨m, hm⟩
          exact ⟨m, by rw [← follow_set_eq h x (rho x) hx0 hx1 m px hp0 hp1 hdp]; exact hm⟩
        · rintro ⟨m, hm⟩
          exact ⟨m, by rw [follow_set_eq h x (rho x) hx0 hx1 m px hp0 hp1 hdp]; exact hm⟩
      have hnotx : ¬ UnionFinder.OnPath parent px x := by
        rintro ⟨m, hm⟩
        have := (forest_follow_height h m px x hp0 hp1 hm).2
        omega
      refine ⟨parent1, e1, ?_, ?_⟩
      · intro y hy
        obtain ⟨m, hm⟩ := hy
        cases m with
        | zero =>
          cases hm
          rw [hoff x (fun hc => hnotx ((hpath x).mp hc)), getI_set _ _ _ _ hx0 hxl hx0,
            if_pos rfl]
        | succ m =>
          rw [follow_succ_of parent m x px hpx] at hm
          exact hon y ((hpath y).mpr ⟨m, hm⟩)
      · intro y hy
        have hyx : y ≠ x := fun e2 => hy ⟨0, by rw [e2]; rfl⟩
        have hyp : ¬ UnionFinder.OnPath parent px y := by
          rintro ⟨m, hm⟩
          exact hy ⟨m + 1, by rw [follow_succ_of parent m x px hpx]; exact hm⟩
        rw [hoff y (fun hc => hyp ((hpath y).mp hc))]
        by_cases hy0 : y < 0
        · rw [getI_neg _ _ hy0, getI_neg _ _ hy0]
        · rw [getI_set _ _ _ _ hx0 hxl (by omega), if_neg hyx]
/-- C11: for every state in which following `Parent` from any index reaches a fixed
point, and every index `i`: `Find(i)` returns the fixed point `r` reached from `i`;
afterwards `Parent[k]` is `r` for every `k` met on the way from `i` to `r`, `Parent` is
unchanged at every other index, `Size` and `NGroup` are unchanged, and every index
reaches the same fixed point as before. -/
theorem find_compresses_path (uf : UnionFinder) (h : uf.Rooted) (i : Int) (hi0 : 0 ≤ i)
    (hi1 : i < uf.Parent.length) :
    ∃ r uf1, UnionFinder.RootOf uf.Parent i r ∧ uf.Find i = some (r, uf1) ∧
      (∀ k : Int, UnionFinder.OnPath uf.Parent i k → getI uf1.Parent k = some r) ∧
      (∀ k : Int, ¬ UnionFinder.OnPath uf.Parent i k →
        getI uf1.Parent k = getI uf.Parent k) ∧
      uf1.Size = uf.Size ∧ uf1.NGroup = uf.NGroup ∧
      ∀ x s : Int, UnionFinder.RootOf uf1.Parent x s ↔ UnionFinder.RootOf uf.Parent x s := by
  obtain ⟨rho, d, hf, hspec⟩ := rooted_forest uf.Parent h
  have hd : d i < uf.Parent.length + 1 := by
    have := steps_lt_length hspec i hi0 hi1
    omega
  obtain ⟨parent1, e1, hon, hoff⟩ := compress_exact (uf.Parent.length + 1) uf.Parent i hf
    hi0 hi1 hd
  obtain ⟨parent2, e2, hf2, -⟩ := compress_spec (uf.Parent.length + 1) uf.Parent i hf
    hi0 hi1 hd
  rw [e1] at e2
  cases e2
  refine ⟨rho i, { uf with Parent := parent1 }, ⟨d i, (hspec i hi0 hi1).1, (hspec i hi0 hi1).2.1⟩,
    ?_, hon, hoff, rfl, rfl, ?_⟩
  · delta UnionFinder.Find
    simp only [findRoot_spec hf _ i hi0 hi1 hd, e1]
  · intro x s
    have hl : (parent1.length : Int) = uf.Parent.length := hf2.1
    by_cases hx : 0 ≤ x ∧ x < (uf.Parent.length : Int)
    · have r1 := forest_rootOf hf2 (d x) x hx.1 hx.2 (le_refl _)
      have r2 := forest_rootOf hf (d x) x hx.1 hx.2 (le_refl _)
      constructor
      · intro hs
        rw [← rootOf_unique r1 hs]
        exact r2
      · intro hs
        rw [← rootOf_unique r2 hs]
        exact r1
    · constructor
      · intro hs
        have hr : 0 ≤ x ∧ x < (parent1.length : Int) := rootOf_range hs
        exact absurd (by omega) hx
      · intro hs
        exact absurd (rootOf_range hs) hx

/-- C11, witness: the state with the chain `2 -> 1 -> 0`, and `Find(2)`. -/
theorem find_compresses_path_witness :
    ∃ r uf1, UnionFinder.RootOf exampleChain.Parent 2 r ∧
      exampleChain.Find 2 = some (r, uf1) ∧
      (∀ k : Int, UnionFinder.OnPath exampleChain.Parent 2 k → getI uf1.Parent k = some r) ∧
      (∀ k : Int, ¬ UnionFinder.OnPath exampleChain.Parent 2 k →
        getI uf1.Parent k = getI exampleChain.Parent k) ∧
      uf1.Size = exampleChain.Size ∧ uf1.NGroup = exampleChain.NGroup ∧
      ∀ x s : Int, UnionFinder.RootOf uf1.Parent x s ↔
        UnionFinder.RootOf exampleChain.Parent x s :=
  find_compresses_path exampleChain
    (by
      intro x hx0 hx1
      have hx2 : x < 4 := hx1
      have hx : x = 0 ∨ x = 1 ∨ x = 2 ∨ x = 3 := by omega
      rcases hx with e | e | e | e
      · rw [e]; exact ⟨0, 0, by with_unfolding_all rfl, by with_unfolding_all rfl⟩
      · rw [e]; exact ⟨0, 1, by with_unfolding_all rfl, by with_unfolding_all rfl⟩
      · rw [e]; exact ⟨0, 2, by with_unfolding_all rfl, by with_unfolding_all rfl⟩
      · rw [e]; exact ⟨3, 0, by with_unfolding_all rfl, by with_unfolding_all rfl⟩)
    2 (by decide) (by decide)
/-! ## The pair finder: the brute-force loops -/

theorem mem_intRange (lo hi j : Int) : j ∈ intRange lo hi ↔ lo ≤ j ∧ j < hi := by
  unfold intRange
  rw [List.mem_map]
  constructor
  · rintro ⟨k, hk, rfl⟩
    have := List.mem_range.mp hk
    simp only [Int.ofNat_eq_coe]
    omega
  · rintro ⟨h1, h2⟩
    refine ⟨(j - lo).toNat, List.mem_range.mpr (by omega), ?_⟩
    simp only [Int.ofNat_eq_coe]
    omega

theorem nodup_intRange (lo hi : Int) : (intRange lo hi).Nodup := by
  unfold intRange
  apply List.Nodup.map _ (List.nodup_range _)
  intro a b h
  simp only [Int.ofNat_eq_coe] at h
  omega

theorem intRange_of_le (lo hi : Int) (h : hi ≤ lo) : intRange lo hi = [] := by
  unfold intRange
  rw [show (hi - lo).toNat = 0 by omega]
  rfl

theorem intRange_succ (lo hi : Int) (h : lo ≤ hi) :
    intRange lo (hi + 1) = intRange lo hi ++ [hi] := by
  unfold intRange
  rw [show (hi + 1 - lo).toNat = (hi - lo).toNat + 1 by omega, List.range_succ,
    List.map_append]
  simp only [List.map_cons, List.map_nil, Int.ofNat_eq_coe]
  congr 2
  omega

theorem append_zip {l1 l2 : List Int} (a b : Int) (h : l1.length = l2.length) :
    (l1 ++ [a]).zip (l2 ++ [b]) = l1.zip l2 ++ [(a, b)] := by
  rw [List.zip_append h]
  rfl

/-- The body of the inner loops adds the pair `(i, j)` exactly when the test passes. -/
theorem test_spec (r2 : F32) (p1 p2 : List Particle) (pi pj : Particle) (i j : Int)
    (out : Slice Int × Slice Int) (hi : getI p1 i = some pi) (hj : getI p2 j = some pj)
    (hl : out.1.elems.length = out.2.elems.length) :
    (Pairer.test r2 pi pj i j out).1.elems.length =
      (Pairer.test r2 pi pj i j out).2.elems.length ∧
    (Pairer.test r2 pi pj i j out).1.elems.zip (Pairer.test r2 pi pj i j out).2.elems =
      out.1.elems.zip out.2.elems ++
        ([j].filter (fun j => closeAt r2 p1 p2 i j)).map (fun j => (i, j)) := by
  have hc : closeAt r2 p1 p2 i j = F32.le (dist2 pi pj) r2 := by
    delta closeAt
    rw [hi, hj]
  delta Pairer.test
  by_cases h : F32.le (dist2 pi pj) r2 = true
  · rw [if_pos h, List.filter_cons_of_pos (by rw [hc]; exact h)]
    refine ⟨?_, ?_⟩
    · simp only [Slice.append, List.length_append, List.length_singleton, hl]
    · simp only [Slice.append, List.filter_nil, List.map_cons, List.map_nil]
      exact append_zip i j hl
  · rw [if_neg h, List.filter_cons_of_neg (by rw [hc]; exact h)]
    exact ⟨hl, by simp⟩

theorem scan_fold_spec (r2 : F32) (p1 p2 : List Particle) (i : Int) (pi : Particle)
    (hi : getI p1 i = some pi) :
    ∀ (l : List Int) (out : Slice Int × Slice Int),
    (∀ j ∈ l, 0 ≤ j ∧ j < p2.length) → out.1.elems.length = out.2.elems.length →
    ∃ out1, l.foldlM (fun acc j =>
        match getI p1 i, getI p2 j with
        | some pi, some pj => some (Pairer.test r2 pi pj i j acc)
        | _, _ => none) out = some out1 ∧
      out1.1.elems.length = out1.2.elems.length ∧
      out1.1.elems.zip out1.2.elems = out.1.elems.zip out.2.elems ++
        (l.filter (fun j => closeAt r2 p1 p2 i j)).map (fun j => (i, j)) := by
  intro l
  induction l with
  | nil => intro out _ hl; exact ⟨out, rfl, hl, by simp⟩
  | cons j l ih =>
    intro out hr hl
    obtain ⟨hj0, hj1⟩ := hr j (List.mem_cons_self _ _)
    obtain ⟨pj, hpj⟩ := getI_of_lt p2 j hj0 hj1
    obtain ⟨hl1, hz1⟩ := test_spec r2 p1 p2 pi pj i j out hi hpj hl
    obtain ⟨out2, e2, hl2, hz2⟩ := ih (Pairer.test r2 pi pj i j out)
      (fun k hk => hr k (List.mem_cons_of_mem _ hk)) hl1
    refine ⟨out2, ?_, hl2, ?_⟩
    · rw [List.foldlM_cons]
      simp only [hi, hpj] at e2 ⊢
      exact e2
    · rw [hz2, hz1, List.append_assoc, ← List.map_append, ← List.filter_append]
      rfl

/-- The inner loop over `lo ≤ j < hi` adds the pairs of `Pairer.hits`. -/
theorem scan_spec (r2 : F32) (p1 p2 : List Particle) (i lo hi : Int)
    (out : Slice Int × Slice Int) (hi0 : 0 ≤ i) (hi1 : i < p1.length) (hlo : 0 ≤ lo)
    (hhi : hi ≤ p2.length) (hl : out.1.elems.length = out.2.elems.length) :
    ∃ out1, Pairer.scan r2 p1 p2 i lo hi out = some out1 ∧
      out1.1.elems.length = out1.2.elems.length ∧
      out1.1.elems.zip out1.2.elems = out.1.elems.zip out.2.elems ++
        Pairer.hits r2 p1 p2 i lo hi := by
  obtain ⟨pi, hpi⟩ := getI_of_lt p1 i hi0 hi1
  exact scan_fold_spec r2 p1 p2 i pi hpi (intRange lo hi) out
    (fun j hj => by have := (mem_intRange lo hi j).mp hj; omega) hl
theorem upTo_zero {α : Type} (s : Slice α) :
    s.upTo 0 = some { elems := [], spare := s.elems ++ s.spare } := by
  simp [Slice.upTo]

theorem brute_fold_spec (r2 : F32) (p1 p2 : List Particle) (lo hi : Int → Int) :
    ∀ (l : List Int) (out : Slice Int × Slice Int),
    (∀ i ∈ l, (0 ≤ i ∧ i < p1.length) ∧ 0 ≤ lo i ∧ hi i ≤ p2.length) →
    out.1.elems.length = out.2.elems.length →
    ∃ out1, l.foldlM (fun acc i => Pairer.scan r2 p1 p2 i (lo i) (hi i) acc) out = some out1 ∧
      out1.1.elems.length = out1.2.elems.length ∧
      out1.1.elems.zip out1.2.elems = out.1.elems.zip out.2.elems ++
        l.flatMap (fun i => Pairer.hits r2 p1 p2 i (lo i) (hi i)) := by
  intro l
  induction l with
  | nil => intro out _ hl; exact ⟨out, rfl, hl, by simp⟩
  | cons i l ih =>
    intro out hr hl
    obtain ⟨⟨hi0, hi1⟩, hlo, hhi⟩ := hr i (List.mem_cons_self _ _)
    obtain ⟨out1, e1, hl1, hz1⟩ := scan_spec r2 p1 p2 i (lo i) (hi i) out hi0 hi1 hlo hhi hl
    obtain ⟨out2, e2, hl2, hz2⟩ := ih out1 (fun k hk => hr k (List.mem_cons_of_mem _ hk)) hl1
    refine ⟨out2, ?_, hl2, ?_⟩
    · rw [List.foldlM_cons, e1]
      exact e2
    · rw [hz2, hz1, List.append_assoc, List.flatMap_cons]

theorem mem_hits (r2 : F32) (p1 p2 : List Particle) (i lo hi : Int) (a b : Int) :
    (a, b) ∈ Pairer.hits r2 p1 p2 i lo hi ↔
      a = i ∧ (lo ≤ b ∧ b < hi) ∧ closeAt r2 p1 p2 i b = true := by
  unfold Pairer.hits
  rw [List.mem_map]
  constructor
  · rintro ⟨j, hj, e⟩
    rw [List.mem_filter, mem_intRange] at hj
    cases e
    exact ⟨rfl, hj.1, hj.2⟩
  · rintro ⟨rfl, h1, h2⟩
    exact ⟨b, by rw [List.mem_filter, mem_intRange]; exact ⟨h1, h2⟩, rfl⟩

theorem nodup_hits (r2 : F32) (p1 p2 : List Particle) (i lo hi : Int) :
    (Pairer.hits r2 p1 p2 i lo hi).Nodup := by
  unfold Pairer.hits
  apply List.Nodup.map _ ((nodup_intRange lo hi).filter _)
  intro a b h
  exact (Prod.mk.inj h).2

theorem nodup_flatMap_hits (r2 : F32) (p1 p2 : List Particle) (lo hi : Int → Int)
    (l : List Int) (hl : l.Nodup) :
    (l.flatMap (fun i => Pairer.hits r2 p1 p2 i (lo i) (hi i))).Nodup := by
  rw [List.nodup_flatMap]
  refine ⟨fun i _ => nodup_hits r2 p1 p2 i (lo i) (hi i), ?_⟩
  apply List.Pairwise.imp _ hl
  intro a b hab
  intro x hxa hxb
  obtain ⟨x1, x2⟩ := x
  have e1 := ((mem_hits r2 p1 p2 a _ _ x1 x2).mp hxa).1
  have e2 := ((mem_hits r2 p1 p2 b _ _ x1 x2).mp hxb).1
  exact hab (e1.symm.trans e2)

theorem mem_oneCellPairs (r : ℚ) (p : List Particle) (i j : Int) :
    (i, j) ∈ oneCellPairs r p ↔
      0 ≤ i ∧ i < j ∧ j < p.length ∧
        closeAt (F32.mul (F32.fin r) (F32.fin r)) p p i j = true := by
  unfold oneCellPairs
  rw [List.mem_flatMap]
  constructor
  · rintro ⟨a, ha, hm⟩
    rw [mem_intRange] at ha
    obtain ⟨e, hr, hc⟩ := (mem_hits _ p p a _ _ i j).mp hm
    subst e
    exact ⟨ha.1, by omega, hr.2, hc⟩
  · rintro ⟨h0, h1, h2, hc⟩
    exact ⟨i, (mem_intRange _ _ _).mpr (by omega),
      (mem_hits _ p p i _ _ i j).mpr ⟨rfl, by omega, hc⟩⟩

theorem mem_twoCellPairs (r : ℚ) (p1 p2 : List Particle) (i j : Int) :
    (i, j) ∈ twoCellPairs r p1 p2 ↔
      (0 ≤ i ∧ i < p1.length) ∧ (0 ≤ j ∧ j < p2.length) ∧
        closeAt (F32.mul (F32.fin r) (F32.fin r)) p1 p2 i j = true := by
  unfold twoCellPairs
  rw [List.mem_flatMap]
  constructor
  · rintro ⟨a, ha, hm⟩
    rw [mem_intRange] at ha
    obtain ⟨e, hr, hc⟩ := (mem_hits _ p1 p2 a _ _ i j).mp hm
    subst e
    exact ⟨⟨ha.1, by omega⟩, hr, hc⟩
  · rintro ⟨h0, h1, hc⟩
    exact ⟨i, (mem_intRange _ _ _).mpr (by omega),
      (mem_hits _ p1 p2 i _ _ i j).mpr ⟨rfl, h1, hc⟩⟩

/-- The brute-force branch of `FindPairsOneCell`. -/
theorem oneCell_brute_spec (pair : Pairer) (p : List Particle) (r : ℚ) :
    ∃ pair1, pair.FindPairsOneCell p r (-1) = some pair1 ∧
      pair1.StopEarly = pair.StopEarly ∧
      pair1.i1.elems.length = pair1.i2.elems.length ∧
      pair1.i1.elems.zip pair1.i2.elems = oneCellPairs r p := by
  obtain ⟨out1, e1, hl1, hz1⟩ := brute_fold_spec (F32.mul (F32.fin r) (F32.fin r)) p p
    (fun i => i + 1) (fun _ => (p.length : Int)) (intRange 0 ((p.length : Int) - 1))
    ({ elems := [], spare := pair.i1.elems ++ pair.i1.spare },
     { elems := [], spare := pair.i2.elems ++ pair.i2.spare })
    (fun i hi => by have := (mem_intRange _ _ _).mp hi; simp only; omega) rfl
  refine ⟨{ pair with i1 := out1.1, i2 := out1.2 }, ?_, rfl, hl1, ?_⟩
  · delta Pairer.FindPairsOneCell forRange
    simp only [upTo_zero, if_true]
    rw [e1]
  · rw [hz1]
    rfl

/-- The brute-force branch of `FindPairsTwoCells`. -/
theorem twoCells_brute_spec (pair : Pairer) (p1 p2 : List Particle) (r : ℚ) :
    ∃ pair1, pair.FindPairsTwoCells p1 p2 r (-1) = some pair1 ∧
      pair1.StopEarly = pair.StopEarly ∧
      pair1.i1.elems.length = pair1.i2.elems.length ∧
      pair1.i1.elems.zip pair1.i2.elems = twoCellPairs r p1 p2 := by
  obtain ⟨out1, e1, hl1, hz1⟩ := brute_fold_spec (F32.mul (F32.fin r) (F32.fin r)) p1 p2
    (fun _ => 0) (fun _ => (p2.length : Int)) (intRange 0 (p1.length : Int))
    ({ elems := [], spare := pair.i1.elems ++ pair.i1.spare },
     { elems := [], spare := pair.i2.elems ++ pair.i2.spare })
    (fun i hi => by have := (mem_intRange _ _ _).mp hi; simp only; omega) rfl
  refine ⟨{ pair with i1 := out1.1, i2 := out1.2 }, ?_, rfl, hl1, ?_⟩
  · delta Pairer.FindPairsTwoCells forRange
    simp only [upTo_zero, if_true]
    rw [e1]
  · rw [hz1]
    rfl
/-! ## `float32` rounding is monotone -/

theorem bump_spec (g s k : Nat) (h1 : s = 0 ∨ 2 ^ s ≤ g) (h2 : g < 2 ^ (s + (k + k))) :
    (F32.bump g s k = 0 ∨ 2 ^ F32.bump g s k ≤ g) ∧ g < 2 ^ (F32.bump g s k + k) := by
  unfold F32.bump
  by_cases h : 2 ^ (s + k) ≤ g
  · rw [if_pos h]
    exact ⟨Or.inr h, by rw [Nat.add_assoc]; exact h2⟩
  · rw [if_neg h]
    exact ⟨h1, by omega⟩

/-- The result `s` of `F32.shiftOf` on `g < 2^256`: `2^s ≤ g < 2^(s+1)`, or `s = 0`
and `g < 2`. -/
theorem shiftOf_spec (g : Nat) (hg : g < 2 ^ 256) :
    (F32.shiftOf g = 0 ∨ 2 ^ F32.shiftOf g ≤ g) ∧ g < 2 ^ (F32.shiftOf g + 1) := by
  unfold F32.shiftOf
  simp only [List.foldl]
  have h7 := bump_spec g 0 128 (Or.inl rfl) (by rw [show 0 + (128 + 128) = 256 from rfl]; exact hg)
  have h6 := bump_spec g _ 64 h7.1 h7.2
  have h5 := bump_spec g _ 32 h6.1 h6.2
  have h4 := bump_spec g _ 16 h5.1 h5.2
  have h3 := bump_spec g _ 8 h4.1 h4.2
  have h2 := bump_spec g _ 4 h3.1 h3.2
  have h1 := bump_spec g _ 2 h2.1 h2.2
  have h0 := bump_spec g _ 1 h1.1 h1.2
  exact h0

theorem shiftOf_mono (g g1 : Nat) (h : g ≤ g1) (hg : g1 < 2 ^ 256) :
    F32.shiftOf g ≤ F32.shiftOf g1 := by
  obtain ⟨a1, a2⟩ := shiftOf_spec g (by omega)
  obtain ⟨b1, b2⟩ := shiftOf_spec g1 hg
  by_contra hc
  have hlt : F32.shiftOf g1 + 1 ≤ F32.shiftOf g := by omega
  rcases a1 with e | e
  · omega
  · have := Nat.pow_le_pow_right (show 0 < 2 by omega) hlt
    omega

theorem rneDiv_le (a b : Nat) : F32.rneDiv a b ≤ a / b + 1 := by
  unfold F32.rneDiv
  split_ifs <;> omega

theorem le_rneDiv (a b : Nat) : a / b ≤ F32.rneDiv a b := by
  unfold F32.rneDiv
  split_ifs <;> omega

theorem rneDiv_exact (c b : Nat) (hb : 0 < b) : F32.rneDiv (c * b) b = c := by
  unfold F32.rneDiv
  rw [Nat.mul_mod_left, Nat.mul_div_cancel _ hb, if_pos (by omega)]

theorem div_le_div_cross (a b a1 b1 : Nat) (hb : 0 < b) (hb1 : 0 < b1)
    (h : a * b1 ≤ a1 * b) : a / b ≤ a1 / b1 := by
  rw [Nat.le_div_iff_mul_le hb1]
  have h1 : a / b * b ≤ a := Nat.div_mul_le_self a b
  have h2 : a / b * b1 * b ≤ a1 * b := by
    calc a / b * b1 * b = a / b * b * b1 := by ring
      _ ≤ a * b1 := Nat.mul_le_mul_right _ h1
      _ ≤ a1 * b := h
  exact Nat.le_of_mul_le_mul_right h2 hb

/-- Rounding to nearest, ties to even, is monotone in the fraction. -/
theorem rneDiv_mono (a b a1 b1 : Nat) (hb : 0 < b) (hb1 : 0 < b1)
    (h : a * b1 ≤ a1 * b) : F32.rneDiv a b ≤ F32.rneDiv a1 b1 := by
  have hq := div_le_div_cross a b a1 b1 hb hb1 h
  rcases Nat.lt_or_ge (a / b) (a1 / b1) with hlt | hge
  · have := rneDiv_le a b
    have := le_rneDiv a1 b1
    omega
  · have e : a / b = a1 / b1 := by omega
    have ha := Nat.div_add_mod a b
    have ha1 := Nat.div_add_mod a1 b1
    -- the remainders are ordered like the fractions
    have hr : (a % b) * b1 ≤ (a1 % b1) * b := by
      have h3 : (b * (a / b) + a % b) * b1 ≤ (b1 * (a / b) + a1 % b1) * b := by
        rw [ha, e, ha1]
        exact h
      nlinarith [h3]
    unfold F32.rneDiv
    rw [← e]
    by_cases c1 : 2 * (a % b) < b
    · rw [if_pos c1]
      split_ifs <;> omega
    · rw [if_neg c1]
      by_cases c2 : b < 2 * (a % b)
      · rw [if_pos c2]
        have c3 : b1 < 2 * (a1 % b1) := by
          by_contra hc
          have : 2 * (a1 % b1) ≤ b1 := by omega
          nlinarith
        rw [if_neg (show ¬ 2 * (a1 % b1) < b1 by omega), if_pos c3]
      · rw [if_neg c2]
        have c4 : b = 2 * (a % b) := by omega
        have c5 : b1 ≤ 2 * (a1 % b1) := by
          by_contra hc
          have : 2 * (a1 % b1) + 1 ≤ b1 := by omega
          nlinarith
        rw [if_neg (show ¬ 2 * (a1 % b1) < b1 by omega)]
        split_ifs <;> omega
theorem roundMag_eq (a d : Nat) :
    F32.roundMag a d =
      if 2 ^ 255 ≤ a * 2 ^ 149 / d / 2 ^ 23 then 2 ^ 24 * 2 ^ 254
      else F32.rneDiv (a * 2 ^ 149) (d * 2 ^ F32.shiftOf (a * 2 ^ 149 / d / 2 ^ 23)) *
        2 ^ F32.shiftOf (a * 2 ^ 149 / d / 2 ^ 23) := rfl

/-- A magnitude `N / d` in the binade of shift `s` rounds to at most `2^24 * 2^s`. -/
theorem rounded_le (N d s : Nat) (hd : 0 < d) (h : N / d / 2 ^ 23 < 2 ^ (s + 1)) :
    F32.rneDiv N (d * 2 ^ s) * 2 ^ s ≤ 2 ^ 24 * 2 ^ s := by
  apply Nat.mul_le_mul_right
  have hpos : 0 < d * 2 ^ s := Nat.mul_pos hd (Nat.pow_pos (by omega))
  have h1 : N / d < 2 ^ (s + 1) * 2 ^ 23 := (Nat.div_lt_iff_lt_mul (Nat.pow_pos (by omega))).mp h
  have h2 : N < 2 ^ (s + 1) * 2 ^ 23 * d := (Nat.div_lt_iff_lt_mul hd).mp h1
  have h3 : 2 ^ (s + 1) * 2 ^ 23 * d = 2 ^ 24 * (d * 2 ^ s) := by ring
  have h4 := rneDiv_mono N (d * 2 ^ s) (2 ^ 24 * (d * 2 ^ s)) (d * 2 ^ s) hpos hpos
    (Nat.mul_le_mul_right _ (by omega))
  rw [rneDiv_exact _ _ hpos] at h4
  exact h4

/-- A magnitude `N / d` in a binade of shift `s ≥ 1` rounds to at least `2^23 * 2^s`. -/
theorem le_rounded (N d s : Nat) (hd : 0 < d) (h : 2 ^ s ≤ N / d / 2 ^ 23) :
    2 ^ 23 * 2 ^ s ≤ F32.rneDiv N (d * 2 ^ s) * 2 ^ s := by
  apply Nat.mul_le_mul_right
  have hpos : 0 < d * 2 ^ s := Nat.mul_pos hd (Nat.pow_pos (by omega))
  have h1 : 2 ^ s * 2 ^ 23 ≤ N / d := (Nat.le_div_iff_mul_le (Nat.pow_pos (by omega))).mp h
  have h2 : 2 ^ s * 2 ^ 23 * d ≤ N := (Nat.le_div_iff_mul_le hd).mp h1
  have h3 : 2 ^ s * 2 ^ 23 * d = 2 ^ 23 * (d * 2 ^ s) := by ring
  have h4 := rneDiv_mono (2 ^ 23 * (d * 2 ^ s)) (d * 2 ^ s) N (d * 2 ^ s) hpos hpos
    (Nat.mul_le_mul_right _ (by omega))
  rw [rneDiv_exact _ _ hpos] at h4
  exact h4

theorem shiftOf_lt (g : Nat) (hg : g < 2 ^ 255) : F32.shiftOf g < 255 := by
  obtain ⟨h1, -⟩ := shiftOf_spec g (by
    have : (2 : Nat) ^ 255 ≤ 2 ^ 256 := Nat.pow_le_pow_right (by omega) (by omega)
    omega)
  rcases h1 with e | e
  · omega
  · by_contra hc
    have := Nat.pow_le_pow_right (show 0 < 2 by omega) (show 255 ≤ F32.shiftOf g by omega)
    omega

/-- The rounded magnitude is monotone in the fraction `a / d`. -/
theorem roundMag_mono (a d a1 d1 : Nat) (hd : 0 < d) (hd1 : 0 < d1)
    (h : a * d1 ≤ a1 * d) : F32.roundMag a d ≤ F32.roundMag a1 d1 := by
  have hN : a * 2 ^ 149 * d1 ≤ a1 * 2 ^ 149 * d := by
    calc a * 2 ^ 149 * d1 = a * d1 * 2 ^ 149 := by ring
      _ ≤ a1 * d * 2 ^ 149 := Nat.mul_le_mul_right _ h
      _ = a1 * 2 ^ 149 * d := by ring
  have hf := div_le_div_cross _ d _ d1 hd hd1 hN
  have hg : a * 2 ^ 149 / d / 2 ^ 23 ≤ a1 * 2 ^ 149 / d1 / 2 ^ 23 := Nat.div_le_div_right hf
  have h256 : (2 : Nat) ^ 255 ≤ 2 ^ 256 := Nat.pow_le_pow_right (by omega) (by omega)
  rw [roundMag_eq, roundMag_eq]
  generalize hs : F32.shiftOf (a * 2 ^ 149 / d / 2 ^ 23) = s
  generalize hs1 : F32.shiftOf (a1 * 2 ^ 149 / d1 / 2 ^ 23) = s1
  by_cases c1 : 2 ^ 255 ≤ a1 * 2 ^ 149 / d1 / 2 ^ 23
  · rw [if_pos c1]
    by_cases c : 2 ^ 255 ≤ a * 2 ^ 149 / d / 2 ^ 23
    · rw [if_pos c]
    · rw [if_neg c]
      have hlt := shiftOf_lt _ (Nat.lt_of_not_le c)
      rw [hs] at hlt
      have hsp := (shiftOf_spec (a * 2 ^ 149 / d / 2 ^ 23) (by omega)).2
      rw [hs] at hsp
      have h1 := rounded_le (a * 2 ^ 149) d s hd hsp
      have h2 : (2 : Nat) ^ s ≤ 2 ^ 254 := Nat.pow_le_pow_right (by omega) (by omega)
      calc _ ≤ 2 ^ 24 * 2 ^ s := h1
        _ ≤ 2 ^ 24 * 2 ^ 254 := Nat.mul_le_mul_left _ h2
  · have c : ¬ 2 ^ 255 ≤ a * 2 ^ 149 / d / 2 ^ 23 := by omega
    rw [if_neg c1, if_neg c]
    have hm := shiftOf_mono _ _ hg (by omega)
    rw [hs, hs1] at hm
    rcases Nat.eq_or_lt_of_le hm with e | hlt
    · subst e
      apply Nat.mul_le_mul_right
      apply rneDiv_mono _ _ _ _ (Nat.mul_pos hd (Nat.pow_pos (by omega)))
        (Nat.mul_pos hd1 (Nat.pow_pos (by omega)))
      calc a * 2 ^ 149 * (d1 * 2 ^ s) = a * 2 ^ 149 * d1 * 2 ^ s := by ring
        _ ≤ a1 * 2 ^ 149 * d * 2 ^ s := Nat.mul_le_mul_right _ hN
        _ = a1 * 2 ^ 149 * (d * 2 ^ s) := by ring
    · have hsp := (shiftOf_spec (a * 2 ^ 149 / d / 2 ^ 23) (by omega)).2
      rw [hs] at hsp
      have hsp1 := (shiftOf_spec (a1 * 2 ^ 149 / d1 / 2 ^ 23) (by omega)).1
      rw [hs1] at hsp1
      have h1 := rounded_le (a * 2 ^ 149) d s hd hsp
      have h2 := le_rounded (a1 * 2 ^ 149) d1 s1 hd1 (by
        rcases hsp1 with e | e
        · omega
        · exact e)
      have h3 : (2 : Nat) ^ (s + 1) ≤ 2 ^ s1 := Nat.pow_le_pow_right (by omega) hlt
      calc _ ≤ 2 ^ 24 * 2 ^ s := h1
        _ = 2 ^ 23 * 2 ^ (s + 1) := by ring
        _ ≤ 2 ^ 23 * 2 ^ s1 := Nat.mul_le_mul_left _ h3
        _ ≤ _ := h2
theorem mkRat_le_mkRat (a b : Int) (D : Nat) (hD : 0 < D) (h : a ≤ b) :
    mkRat a D ≤ mkRat b D := by
  rw [Rat.mkRat_eq_div, Rat.mkRat_eq_div]
  have hD1 : (0 : ℚ) < ((D : Int) : ℚ) := by exact_mod_cast hD
  exact div_le_div_of_nonneg_right (by exact_mod_cast h) (le_of_lt hD1)

theorem round_eq (n : Int) (d : Nat) :
    F32.round n d =
      if 2 ^ 24 * 2 ^ 253 ≤ F32.roundMag n.natAbs d then
        (if n < 0 then F32.ninf else F32.pinf)
      else F32.fin (mkRat (if n < 0 then -(F32.roundMag n.natAbs d : Int)
        else (F32.roundMag n.natAbs d : Int)) (2 ^ 149)) := rfl

theorem le_fin_fin (a b : ℚ) : F32.le (F32.fin a) (F32.fin b) = decide (a ≤ b) := rfl

theorem lt_fin_fin (a b : ℚ) : F32.lt (F32.fin a) (F32.fin b) = decide (a < b) := rfl

theorem natAbs_cross (n n1 : Int) (d d1 : Nat) (h0 : 0 ≤ n) (h : n * d1 ≤ n1 * d) :
    n.natAbs * d1 ≤ n1.natAbs * d := by
  have h1 : (n.natAbs : Int) = n := Int.natAbs_of_nonneg h0
  have h2 : n1 ≤ (n1.natAbs : Int) := Int.le_natAbs
  have h3 : (n.natAbs : Int) * d1 ≤ (n1.natAbs : Int) * d := by
    rw [h1]
    calc n * (d1 : Int) ≤ n1 * d := h
      _ ≤ (n1.natAbs : Int) * d := Int.mul_le_mul_of_nonneg_right h2 (Int.ofNat_nonneg d)
  have h4 : ((n.natAbs * d1 : Nat) : Int) ≤ ((n1.natAbs * d : Nat) : Int) := by
    rw [Nat.cast_mul, Nat.cast_mul]
    exact h3
  exact Int.ofNat_le.mp h4

/-- Rounding a fraction to `float32` is monotone. -/
theorem round_mono (n n1 : Int) (d d1 : Nat) (hd : 0 < d) (hd1 : 0 < d1)
    (h : n * d1 ≤ n1 * d) : F32.le (F32.round n d) (F32.round n1 d1) = true := by
  have hD : 0 < 2 ^ 149 := Nat.pow_pos (by omega)
  rw [round_eq, round_eq]
  by_cases hn : n < 0
  · by_cases hn1 : n1 < 0
    · -- both negative: the magnitudes are in the other order
      have hm : F32.roundMag n1.natAbs d1 ≤ F32.roundMag n.natAbs d := by
        apply roundMag_mono _ _ _ _ hd1 hd
        have := natAbs_cross (-n1) (-n) d1 d (by omega) (by
          rw [Int.neg_mul, Int.neg_mul]
          omega)
        rw [Int.natAbs_neg, Int.natAbs_neg] at this
        exact this
      simp only [hn, hn1, if_true]
      by_cases c : 2 ^ 24 * 2 ^ 253 ≤ F32.roundMag n.natAbs d
      · rw [if_pos c]
        split_ifs <;> rfl
      · rw [if_neg c, if_neg (by omega), le_fin_fin, decide_eq_true_eq]
        exact mkRat_le_mkRat _ _ _ hD (by omega)
    · simp only [hn, hn1, if_true, if_false]
      by_cases c : 2 ^ 24 * 2 ^ 253 ≤ F32.roundMag n.natAbs d
      · rw [if_pos c]
        split_ifs <;> rfl
      · rw [if_neg c]
        by_cases c1 : 2 ^ 24 * 2 ^ 253 ≤ F32.roundMag n1.natAbs d1
        · rw [if_pos c1]
          rfl
        · rw [if_neg c1, le_fin_fin, decide_eq_true_eq]
          exact mkRat_le_mkRat _ _ _ hD (by omega)
  · have hn1 : ¬ n1 < 0 := by
      intro hc
      have h1 : n1 * (d : Int) < 0 := Int.mul_neg_of_neg_of_pos hc (by exact_mod_cast hd)
      have h2 : 0 ≤ n * (d1 : Int) := Int.mul_nonneg (by omega) (Int.ofNat_nonneg d1)
      omega
    have hm : F32.roundMag n.natAbs d ≤ F32.roundMag n1.natAbs d1 :=
      roundMag_mono _ _ _ _ hd hd1 (natAbs_cross n n1 d d1 (by omega) h)
    simp only [hn, hn1, if_false]
    by_cases c1 : 2 ^ 24 * 2 ^ 253 ≤ F32.roundMag n1.natAbs d1
    · rw [if_pos c1]
      split_ifs <;> rfl
    · rw [if_neg c1, if_neg (by omega), le_fin_fin, decide_eq_true_eq]
      exact mkRat_le_mkRat _ _ _ hD (by omega)

theorem sub_fin_fin (a b : ℚ) :
    F32.sub (F32.fin a) (F32.fin b) =
      F32.round (a.num * b.den - b.num * a.den) (a.den * b.den) := rfl

/-- The `float32` difference is monotone in its first operand. -/
theorem sub_mono_left (a a1 b : ℚ) (h : a ≤ a1) :
    F32.le (F32.sub (F32.fin a) (F32.fin b)) (F32.sub (F32.fin a1) (F32.fin b)) = true := by
  rw [sub_fin_fin, sub_fin_fin]
  apply round_mono _ _ _ _ (Nat.mul_pos a.den_pos b.den_pos) (Nat.mul_pos a1.den_pos b.den_pos)
  have h1 : a.num * a1.den ≤ a1.num * a.den := Rat.le_def.mp h
  have h2 : (0 : Int) ≤ (b.den : Int) * b.den := Int.mul_nonneg (by omega) (by omega)
  push_cast
  nlinarith [Int.mul_le_mul_of_nonneg_right h1 h2]

/-- The `float32` difference is antitone in its second operand. -/
theorem sub_mono_right (a b b1 : ℚ) (h : b1 ≤ b) :
    F32.le (F32.sub (F32.fin a) (F32.fin b)) (F32.sub (F32.fin a) (F32.fin b1)) = true := by
  rw [sub_fin_fin, sub_fin_fin]
  apply round_mono _ _ _ _ (Nat.mul_pos a.den_pos b.den_pos) (Nat.mul_pos a.den_pos b1.den_pos)
  have h1 : b1.num * b.den ≤ b.num * b1.den := Rat.le_def.mp h
  have h2 : (0 : Int) ≤ (a.den : Int) * a.den := Int.mul_nonneg (by omega) (by omega)
  push_cast
  nlinarith [Int.mul_le_mul_of_nonneg_right h1 h2]

theorem F32_lt_of_lt_of_le (x y z : F32) (h1 : F32.lt x y = true) (h2 : F32.le y z = true) :
    F32.lt x z = true := by
  cases x <;> cases y <;> cases z <;> simp only [F32.lt, F32.le] at h1 h2 ⊢ <;>
    first
    | exact absurd h1 (by decide)
    | exact absurd h2 (by decide)
    | rfl
    | (rw [decide_eq_true_eq] at h1 h2 ⊢; exact lt_of_lt_of_le h1 h2)

theorem F32_le_trans (x y z : F32) (h1 : F32.le x y = true) (h2 : F32.le y z = true) :
    F32.le x z = true := by
  cases x <;> cases y <;> cases z <;> simp only [F32.lt, F32.le] at h1 h2 ⊢ <;>
    first
    | exact absurd h1 (by decide)
    | exact absurd h2 (by decide)
    | rfl
    | (rw [decide_eq_true_eq] at h1 h2 ⊢; exact le_trans h1 h2)
/-! ## The pair finder: the cursor loops -/

theorem forRange_inv {σ : Type} (lo hi : Int) (body : Int → σ → Option σ)
    (Inv : Int → σ → Prop) (s : σ) (hle : lo ≤ hi) (h0 : Inv lo s)
    (hstep : ∀ (k : Int) (t : σ), lo ≤ k → k < hi → Inv k t →
      ∃ t1, body k t = some t1 ∧ Inv (k + 1) t1) :
    ∃ t, forRange lo hi body s = some t ∧ Inv hi t := by
  have key : ∀ n : Nat, lo + n ≤ hi →
      ∃ t, forRange lo (lo + n) body s = some t ∧ Inv (lo + n) t := by
    intro n
    induction n with
    | zero =>
      intro _
      refine ⟨s, ?_, by simpa using h0⟩
      unfold forRange
      rw [intRange_of_le _ _ (by simp)]
      rfl
    | succ n ih =>
      intro hn
      obtain ⟨t, e, hi1⟩ := ih (by push_cast at hn ⊢; omega)
      obtain ⟨t1, e1, hi2⟩ := hstep (lo + n) t (by omega) (by push_cast at hn; omega) hi1
      refine ⟨t1, ?_, by push_cast; rw [← Int.add_assoc]; exact hi2⟩
      unfold forRange at e ⊢
      rw [show lo + ((n + 1 : Nat) : Int) = lo + n + 1 by push_cast; omega,
        intRange_succ _ _ (by omega), List.foldlM_append, e]
      simp [e1]
  obtain ⟨t, e, hi1⟩ := key (hi - lo).toNat (by omega)
  rw [show lo + ((hi - lo).toNat : Int) = hi by omega] at e hi1
  exact ⟨t, e, hi1⟩

theorem advanceHigh_succ (r : ℚ) (sortDim : Int) (p1 p2 : List Particle) (i : Int)
    (fuel : Nat) (high : Int) :
    Pairer.advanceHigh r sortDim p1 p2 i (fuel + 1) high =
      if high < (p2.length : Int) then
        match getI p2 high, getI p1 i with
        | some ph, some pi =>
          match Vec3.getI ph.X sortDim, Vec3.getI pi.X sortDim with
          | some a, some b =>
            if F32.lt (F32.fin r) (F32.sub (F32.fin a) (F32.fin b)) then some high
            else Pairer.advanceHigh r sortDim p1 p2 i fuel (high + 1)
          | _, _ => none
        | _, _ => none
      else some high := rfl

theorem advanceLow_succ (r : ℚ) (sortDim : Int) (p1 p2 : List Particle) (i : Int)
    (fuel : Nat) (low : Int) :
    Pairer.advanceLow r sortDim p1 p2 i (fuel + 1) low =
      if low < (p2.length : Int) then
        match getI p1 i, getI p2 low with
        | some pi, some pl =>
          match Vec3.getI pi.X sortDim, Vec3.getI pl.X sortDim with
          | some a, some b =>
            if F32.le (F32.sub (F32.fin a) (F32.fin b)) (F32.fin r) then some low
            else Pairer.advanceLow r sortDim p1 p2 i fuel (low + 1)
          | _, _ => none
        | _, _ => none
      else some low := rfl

theorem getI_coord (dim : Int) (hd0 : 0 ≤ dim) (hd1 : dim < 3) (a : Particle) :
    Vec3.getI a.X dim = some (a.coord dim) := by
  have hd : dim = 0 ∨ dim = 1 ∨ dim = 2 := by omega
  rcases hd with e | e | e <;> subst e <;> rfl

theorem beyond_eq (r : ℚ) (dim : Int) (hd0 : 0 ≤ dim) (hd1 : dim < 3)
    (p1 p2 : List Particle) (i j : Int) (pi pj : Particle) (hi : getI p1 i = some pi)
    (hj : getI p2 j = some pj) :
    Pairer.beyond r dim p1 p2 i j =
      F32.lt (F32.fin r) (F32.sub (F32.fin (pj.coord dim)) (F32.fin (pi.coord dim))) := by
  delta Pairer.beyond
  rw [hi, hj]
  simp only [getI_coord dim hd0 hd1]

theorem before_eq (r : ℚ) (dim : Int) (hd0 : 0 ≤ dim) (hd1 : dim < 3)
    (p1 p2 : List Particle) (i j : Int) (pi pj : Particle) (hi : getI p1 i = some pi)
    (hj : getI p2 j = some pj) :
    Pairer.before r dim p1 p2 i j =
      !(F32.le (F32.sub (F32.fin (pi.coord dim)) (F32.fin (pj.coord dim))) (F32.fin r)) := by
  delta Pairer.before
  rw [hi, hj]
  simp only [getI_coord dim hd0 hd1]

/-- The `high` cursor loop: it stops at the first index from `high` on whose gap is
above `r`, or at the end of `p2`. -/
theorem advanceHigh_spec (r : ℚ) (dim : Int) (hd0 : 0 ≤ dim) (hd1 : dim < 3)
    (p1 p2 : List Particle) (i : Int) (hi0 : 0 ≤ i) (hi1 : i < p1.length) :
    ∀ (fuel : Nat) (high : Int), 0 ≤ high → (p2.length : Int) - high < fuel → 0 < fuel →
    ∃ high1, Pairer.advanceHigh r dim p1 p2 i fuel high = some high1 ∧
      high ≤ high1 ∧ (high ≤ p2.length → high1 ≤ p2.length) ∧
      (∀ j : Int, high ≤ j → j < high1 → Pairer.beyond r dim p1 p2 i j = false) ∧
      (high1 < p2.length → Pairer.beyond r dim p1 p2 i high1 = true) := by
  obtain ⟨pi, hpi⟩ := getI_of_lt p1 i hi0 hi1
  intro fuel
  induction fuel with
  | zero => intro high h0 hf hpos; omega
  | succ fuel ih =>
    intro high h0 hf _
    rw [advanceHigh_succ]
    by_cases c : high < (p2.length : Int)
    · rw [if_pos c]
      obtain ⟨ph, hph⟩ := getI_of_lt p2 high h0 c
      have hb := beyond_eq r dim hd0 hd1 p1 p2 i high pi ph hpi hph
      simp only [hph, hpi, getI_coord dim hd0 hd1]
      by_cases c2 : F32.lt (F32.fin r)
          (F32.sub (F32.fin (ph.coord dim)) (F32.fin (pi.coord dim))) = true
      · rw [if_pos c2]
        exact ⟨high, rfl, le_refl _, fun h => h, fun j h1 h2 => by omega,
          fun _ => by rw [hb]; exact c2⟩
      · rw [if_neg c2]
        obtain ⟨high1, e, h1, h2, h3, h4⟩ := ih (high + 1) (by omega) (by omega) (by omega)
        refine ⟨high1, e, by omega, fun _ => h2 (by omega), ?_, h4⟩
        intro j hj0 hj1
        by_cases ej : j = high
        · rw [ej, hb]
          simpa using c2
        · exact h3 j (by omega) hj1
    · rw [if_neg c]
      exact ⟨high, rfl, le_refl _, fun h => h, fun j h1 h2 => by omega, fun h => absurd h c⟩

/-- The `low` cursor loop: it stops at the first index from `low` on whose gap is not
above `r`, or at the end of `p2`. -/
theorem advanceLow_spec (r : ℚ) (dim : Int) (hd0 : 0 ≤ dim) (hd1 : dim < 3)
    (p1 p2 : List Particle) (i : Int) (hi0 : 0 ≤ i) (hi1 : i < p1.length) :
    ∀ (fuel : Nat) (low : Int), 0 ≤ low → (p2.length : Int) - low < fuel → 0 < fuel →
    ∃ low1, Pairer.advanceLow r dim p1 p2 i fuel low = some low1 ∧
      low ≤ low1 ∧ (low ≤ p2.length → low1 ≤ p2.length) ∧
      (∀ j : Int, low ≤ j → j < low1 → Pairer.before r dim p1 p2 i j = true) ∧
      (low1 < p2.length → Pairer.before r dim p1 p2 i low1 = false) := by
  obtain ⟨pi, hpi⟩ := getI_of_lt p1 i hi0 hi1
  intro fuel
  induction fuel with
  | zero => intro low h0 hf hpos; omega
  | succ fuel ih =>
    intro low h0 hf _
    rw [advanceLow_succ]
    by_cases c : low < (p2.length : Int)
    · rw [if_pos c]
      obtain ⟨pl, hpl⟩ := getI_of_lt p2 low h0 c
      have hb := before_eq r dim hd0 hd1 p1 p2 i low pi pl hpi hpl
      simp only [hpl, hpi, getI_coord dim hd0 hd1]
      by_cases c2 : F32.le (F32.sub (F32.fin (pi.coord dim)) (F32.fin (pl.coord dim)))
          (F32.fin r) = true
      · rw [if_pos c2]
        exact ⟨low, rfl, le_refl _, fun h => h, fun j h1 h2 => by omega,
          fun _ => by rw [hb, c2]; rfl⟩
      · rw [if_neg c2]
        obtain ⟨low1, e, h1, h2, h3, h4⟩ := ih (low + 1) (by omega) (by omega) (by omega)
        refine ⟨low1, e, by omega, fun _ => h2 (by omega), ?_, h4⟩
        intro j hj0 hj1
        by_cases ej : j = low
        · rw [ej, hb]
          simpa using c2
        · exact h3 j (by omega) hj1
    · rw [if_neg c]
      exact ⟨low, rfl, le_refl _, fun h => h, fun j h1 h2 => by omega, fun h => absurd h c⟩
theorem sortedAlong_iff_chain (dim : Int) :
    ∀ p : List Particle,
      SortedAlong dim p ↔ List.Chain' (fun a b => a.coord dim ≤ b.coord dim) p
  | [] => by simp [SortedAlong]
  | [_] => by simp [SortedAlong]
  | a :: b :: l => by
    rw [List.chain'_cons, ← sortedAlong_iff_chain dim (b :: l)]
    rfl

theorem sorted_coord_le (dim : Int) (p : List Particle) (h : SortedAlong dim p) (i j : Int)
    (a b : Particle) (hi : getI p i = some a) (hj : getI p j = some b) (hij : i ≤ j) :
    a.coord dim ≤ b.coord dim := by
  have hpw : List.Pairwise (fun a b => a.coord dim ≤ b.coord dim) p := by
    haveI : IsTrans Particle (fun a b => a.coord dim ≤ b.coord dim) :=
      ⟨fun _ _ _ h1 h2 => le_trans h1 h2⟩
    exact List.chain'_iff_pairwise.mp ((sortedAlong_iff_chain dim p).mp h)
  obtain ⟨hi0, hi1⟩ := getI_lt_length hi
  obtain ⟨hj0, hj1⟩ := getI_lt_length hj
  rw [getI_eq_getElem? _ _ hi0] at hi
  rw [getI_eq_getElem? _ _ hj0] at hj
  rcases lt_or_eq_of_le hij with hlt | heq
  · have hi2 : i.toNat < p.length := by omega
    have hj2 : j.toNat < p.length := by omega
    have := List.pairwise_iff_getElem.mp hpw i.toNat j.toNat hi2 hj2 (by omega)
    rw [List.getElem?_eq_getElem hi2] at hi
    rw [List.getElem?_eq_getElem hj2] at hj
    rw [← Option.some.inj hi, ← Option.some.inj hj]
    exact this
  · rw [heq, hj] at hi
    rw [Option.some.inj hi]

/-- Along a sorted `p2` the gap of the `high` cursor grows with `j`. -/
theorem beyond_mono_right (r : ℚ) (dim : Int) (hd0 : 0 ≤ dim) (hd1 : dim < 3)
    (p1 p2 : List Particle) (hs : SortedAlong dim p2) (i j j1 : Int)
    (hi0 : 0 ≤ i) (hi1 : i < p1.length) (hj0 : 0 ≤ j) (hjj : j ≤ j1) (hj1 : j1 < p2.length)
    (h : Pairer.beyond r dim p1 p2 i j = true) : Pairer.beyond r dim p1 p2 i j1 = true := by
  obtain ⟨pi, hpi⟩ := getI_of_lt p1 i hi0 hi1
  obtain ⟨pj, hpj⟩ := getI_of_lt p2 j hj0 (by omega)
  obtain ⟨pk, hpk⟩ := getI_of_lt p2 j1 (by omega) hj1
  rw [beyond_eq r dim hd0 hd1 p1 p2 i j pi pj hpi hpj] at h
  rw [beyond_eq r dim hd0 hd1 p1 p2 i j1 pi pk hpi hpk]
  exact F32_lt_of_lt_of_le _ _ _ h
    (sub_mono_left _ _ _ (sorted_coord_le dim p2 hs j j1 pj pk hpj hpk hjj))

/-- Along a sorted `p1` the gap of the `high` cursor shrinks as `i` grows. -/
theorem beyond_mono_left (r : ℚ) (dim : Int) (hd0 : 0 ≤ dim) (hd1 : dim < 3)
    (p1 p2 : List Particle) (hs : SortedAlong dim p1) (i i1 j : Int)
    (hi0 : 0 ≤ i) (hii : i ≤ i1) (hi1 : i1 < p1.length) (hj0 : 0 ≤ j) (hj1 : j < p2.length)
    (h : Pairer.beyond r dim p1 p2 i j = false) : Pairer.beyond r dim p1 p2 i1 j = false := by
  obtain ⟨pi, hpi⟩ := getI_of_lt p1 i hi0 (by omega)
  obtain ⟨pk, hpk⟩ := getI_of_lt p1 i1 (by omega) hi1
  obtain ⟨pj, hpj⟩ := getI_of_lt p2 j hj0 hj1
  rw [beyond_eq r dim hd0 hd1 p1 p2 i j pi pj hpi hpj] at h
  rw [beyond_eq r dim hd0 hd1 p1 p2 i1 j pk pj hpk hpj]
  by_contra hc
  rw [Bool.not_eq_false] at hc
  have := F32_lt_of_lt_of_le _ _ _ hc
    (sub_mono_right _ _ _ (sorted_coord_le dim p1 hs i i1 pi pk hpi hpk hii))
  rw [this] at h
  cases h

/-- Along a sorted `p1` the gap of the `low` cursor grows with `i`. -/
theorem before_mono_left (r : ℚ) (dim : Int) (hd0 : 0 ≤ dim) (hd1 : dim < 3)
    (p1 p2 : List Particle) (hs : SortedAlong dim p1) (i i1 j : Int)
    (hi0 : 0 ≤ i) (hii : i ≤ i1) (hi1 : i1 < p1.length) (hj0 : 0 ≤ j) (hj1 : j < p2.length)
    (h : Pairer.before r dim p1 p2 i j = true) : Pairer.before r dim p1 p2 i1 j = true := by
  obtain ⟨pi, hpi⟩ := getI_of_lt p1 i hi0 (by omega)
  obtain ⟨pk, hpk⟩ := getI_of_lt p1 i1 (by omega) hi1
  obtain ⟨pj, hpj⟩ := getI_of_lt p2 j hj0 hj1
  rw [before_eq r dim hd0 hd1 p1 p2 i j pi pj hpi hpj] at h
  rw [before_eq r dim hd0 hd1 p1 p2 i1 j pk pj hpk hpj]
  by_contra hc
  rw [Bool.not_eq_true, Bool.not_eq_false'] at hc
  rw [Bool.not_eq_true'] at h
  have := F32_le_trans _ _ _
    (sub_mono_left _ _ (pj.coord dim) (sorted_coord_le dim p1 hs i i1 pi pk hpi hpk hii)) hc
  rw [this] at h
  cases h

/-- Along a sorted `p2` the gap of the `low` cursor shrinks as `j` grows. -/
theorem before_mono_right (r : ℚ) (dim : Int) (hd0 : 0 ≤ dim) (hd1 : dim < 3)
    (p1 p2 : List Particle) (hs : SortedAlong dim p2) (i j j1 : Int)
    (hi0 : 0 ≤ i) (hi1 : i < p1.length) (hj0 : 0 ≤ j) (hjj : j ≤ j1) (hj1 : j1 < p2.length)
    (h : Pairer.before r dim p1 p2 i j = false) : Pairer.before r dim p1 p2 i j1 = false := by
  obtain ⟨pi, hpi⟩ := getI_of_lt p1 i hi0 hi1
  obtain ⟨pj, hpj⟩ := getI_of_lt p2 j hj0 (by omega)
  obtain ⟨pk, hpk⟩ := getI_of_lt p2 j1 (by omega) hj1
  rw [before_eq r dim hd0 hd1 p1 p2 i j pi pj hpi hpj] at h
  rw [before_eq r dim hd0 hd1 p1 p2 i j1 pi pk hpi hpk]
  rw [Bool.not_eq_false'] at h ⊢
  exact F32_le_trans _ _ _
    (sub_mono_right (pi.coord dim) _ _ (sorted_coord_le dim p2 hs j j1 pj pk hpj hpk hjj)) h

/-- Filtering a range by a window is filtering the part of the range in the window. -/
theorem filter_intRange_window (P : Int → Bool) (a lo hi : Int) :
    ∀ (n : Nat), (intRange a (a + n)).filter (fun j => decide (lo ≤ j ∧ j < hi) && P j) =
      (intRange (max a lo) (min (a + n) hi)).filter P := by
  intro n
  induction n with
  | zero =>
    rw [intRange_of_le _ _ (by simp), intRange_of_le _ _ (by simp)]
    rfl
  | succ n ih =>
    rw [show a + ((n + 1 : Nat) : Int) = a + n + 1 by push_cast; omega,
      intRange_succ _ _ (by omega), List.filter_append, ih]
    by_cases c : lo ≤ a + n ∧ a + n < hi
    · rw [show min (a + n + 1) hi = min (a + n) hi + 1 by omega,
        intRange_succ _ _ (by omega), List.filter_append,
        show min (a + (n : Int)) hi = a + n by omega]
      congr 1
      simp only [List.filter_cons, List.filter_nil, c, and_self, decide_True, Bool.true_and]
    · rw [List.filter_cons_of_neg (by simp only [c, decide_False, Bool.false_and]; decide),
        List.filter_nil, List.append_nil]
      by_cases c2 : a + n < lo
      · rw [intRange_of_le _ _ (by omega), intRange_of_le _ _ (by omega)]
      · rw [show min (a + n + 1) hi = min (a + n) hi by omega]
/-! ## The pair finder: the sorted branches -/

theorem forRange_of_le {σ : Type} (lo hi : Int) (body : Int → σ → Option σ) (s : σ)
    (h : hi ≤ lo) : forRange lo hi body s = some s := by
  unfold forRange
  rw [intRange_of_le _ _ h]
  rfl

theorem flatMap_intRange_succ {β : Type} (f : Int → List β) (k : Int) (hk : 0 ≤ k) :
    (intRange 0 (k + 1)).flatMap f = (intRange 0 k).flatMap f ++ f k := by
  rw [intRange_succ _ _ hk, List.flatMap_append]
  simp

/-- Inside a sorted list the inner loop of the sorted branch, run up to the cursor,
meets exactly the indices whose gap is not above `r`. -/
theorem hits_eq_slab_row (r : ℚ) (dim : Int) (hd0 : 0 ≤ dim) (hd1 : dim < 3)
    (p : List Particle) (hs : SortedAlong dim p) (k high high1 : Int)
    (hk0 : 0 ≤ k) (hk1 : k < p.length) (hh0 : 0 ≤ high) (h1 : high ≤ high1)
    (h2 : high1 ≤ p.length)
    (hprev : ∀ j : Int, k < j → j < high → Pairer.beyond r dim p p k j = false)
    (h3 : ∀ j : Int, high ≤ j → j < high1 → Pairer.beyond r dim p p k j = false)
    (h4 : high1 < p.length → Pairer.beyond r dim p p k high1 = true) :
    Pairer.hits (F32.mul (F32.fin r) (F32.fin r)) p p k (k + 1) high1 =
      ((intRange (k + 1) (p.length : Int)).filter (fun j =>
        closeAt (F32.mul (F32.fin r) (F32.fin r)) p p k j && !Pairer.beyond r dim p p k j)).map
        (fun j => (k, j)) := by
  unfold Pairer.hits
  congr 1
  have hc : (intRange (k + 1) (p.length : Int)).filter (fun j =>
      closeAt (F32.mul (F32.fin r) (F32.fin r)) p p k j && !Pairer.beyond r dim p p k j) =
      (intRange (k + 1) (p.length : Int)).filter (fun j =>
        decide (k + 1 ≤ j ∧ j < high1) &&
          closeAt (F32.mul (F32.fin r) (F32.fin r)) p p k j) := by
    apply List.filter_congr
    intro j hj
    rw [mem_intRange] at hj
    by_cases c : j < high1
    · have hb : Pairer.beyond r dim p p k j = false := by
        by_cases c2 : j < high
        · exact hprev j (by omega) c2
        · exact h3 j (by omega) c
      rw [hb, decide_eq_true (show k + 1 ≤ j ∧ j < high1 from ⟨hj.1, c⟩)]
      simp
    · have hb : Pairer.beyond r dim p p k j = true :=
        beyond_mono_right r dim hd0 hd1 p p hs k high1 j hk0 hk1 (by omega) (by omega) hj.2
          (h4 (by omega))
      rw [hb, decide_eq_false (show ¬ (k + 1 ≤ j ∧ j < high1) from fun h => c h.2)]
      simp
  rw [hc]
  have hw := filter_intRange_window
    (fun j => closeAt (F32.mul (F32.fin r) (F32.fin r)) p p k j) (k + 1) (k + 1) high1
    ((p.length : Int) - (k + 1)).toNat
  rw [show k + 1 + ((((p.length : Int) - (k + 1)).toNat : Nat) : Int) = (p.length : Int) by omega]
    at hw
  rw [hw, show max (k + 1) (k + 1) = k + 1 by omega]
  by_cases c : k + 1 ≤ high1
  · rw [show min (p.length : Int) high1 = high1 by omega]
  · rw [intRange_of_le _ _ (by omega), intRange_of_le _ _ (by omega)]

/-- The sorted branch of `FindPairsOneCell` on a list sorted along `dim`: it returns the
pairs of the brute-force branch whose gap along `dim` is not above `r`. -/
theorem oneCell_sorted_spec (pair : Pairer) (p : List Particle) (r : ℚ) (dim : Int)
    (hd0 : 0 ≤ dim) (hd1 : dim < 3) (hs : SortedAlong dim p) :
    ∃ pair1, pair.FindPairsOneCell p r dim = some pair1 ∧
      pair1.StopEarly = pair.StopEarly ∧
      pair1.i1.elems.length = pair1.i2.elems.length ∧
      pair1.i1.elems.zip pair1.i2.elems = oneCellSlabPairs r dim p := by
  have hne : ¬ dim = -1 := by omega
  by_cases hlen : (p.length : Int) - 1 < 0
  · refine ⟨{ pair with i1 := { elems := [], spare := pair.i1.elems ++ pair.i1.spare },
                        i2 := { elems := [], spare := pair.i2.elems ++ pair.i2.spare } },
      ?_, rfl, rfl, ?_⟩
    · delta Pairer.FindPairsOneCell
      simp only [upTo_zero, if_neg hne]
      rw [forRange_of_le _ _ _ _ (by omega)]
    · unfold oneCellSlabPairs
      rw [intRange_of_le _ _ (by omega)]
      rfl
  · obtain ⟨st, e, ⟨-, -⟩, hl, hz, -⟩ := forRange_inv 0 ((p.length : Int) - 1)
      (fun i (st : Int × Slice Int × Slice Int) =>
        match Pairer.advanceHigh r dim p p i (p.length + 1) st.1 with
        | none => none
        | some high =>
          match Pairer.scan (F32.mul (F32.fin r) (F32.fin r)) p p i (i + 1) high st.2 with
          | none => none
          | some acc => some (high, acc))
      (fun k st => (0 ≤ st.1 ∧ st.1 ≤ p.length) ∧
        st.2.1.elems.length = st.2.2.elems.length ∧
        st.2.1.elems.zip st.2.2.elems = (intRange 0 k).flatMap (fun i =>
          ((intRange (i + 1) (p.length : Int)).filter (fun j =>
            closeAt (F32.mul (F32.fin r) (F32.fin r)) p p i j &&
              !Pairer.beyond r dim p p i j)).map (fun j => (i, j))) ∧
        ∀ j : Int, k < j → j < st.1 → Pairer.beyond r dim p p k j = false)
      (1, { elems := [], spare := pair.i1.elems ++ pair.i1.spare },
          { elems := [], spare := pair.i2.elems ++ pair.i2.spare })
      (by omega)
      ⟨⟨by omega, by omega⟩, rfl, by rw [intRange_of_le _ _ (le_refl _)]; rfl,
        fun j h1 h2 => by omega⟩
      (by
        intro k st hk0 hk1 hinv
        obtain ⟨⟨hh0, hh1⟩, hl, hz, hprev⟩ := hinv
        obtain ⟨high1, e1, h1, h2, h3, h4⟩ := advanceHigh_spec r dim hd0 hd1 p p k hk0
          (by omega) (p.length + 1) st.1 hh0 (by push_cast; omega) (by omega)
        obtain ⟨out1, e2, hl1, hz1⟩ := scan_spec (F32.mul (F32.fin r) (F32.fin r)) p p k
          (k + 1) high1 st.2 hk0 (by omega) (by omega) (h2 hh1) hl
        refine ⟨(high1, out1), ?_, ⟨by omega, h2 hh1⟩, hl1, ?_, ?_⟩
        · simp only [e1, e2]
        · rw [hz1, hz, flatMap_intRange_succ _ k hk0,
            hits_eq_slab_row r dim hd0 hd1 p hs k st.1 high1 hk0 (by omega) hh0 h1 (h2 hh1)
              hprev h3 h4]
        · intro j hj0 hj1
          have hb : Pairer.beyond r dim p p k j = false := by
            by_cases c2 : j < st.1
            · exact hprev j (by omega) c2
            · exact h3 j (by omega) hj1
          exact beyond_mono_left r dim hd0 hd1 p p hs k (k + 1) j hk0 (by omega) (by omega)
            (by omega) (by have := h2 hh1; omega) hb)
    refine ⟨{ pair with i1 := st.2.1, i2 := st.2.2 }, ?_, rfl, hl, hz⟩
    delta Pairer.FindPairsOneCell
    simp only [upTo_zero, if_neg hne]
    erw [e]
/-- Between two sorted lists the inner loop of the sorted branch, run between the two
cursors, meets exactly the indices whose two gaps are not above `r`. -/
theorem hits_eq_two_row (r : ℚ) (dim : Int) (hd0 : 0 ≤ dim) (hd1 : dim < 3)
    (p1 p2 : List Particle) (hs : SortedAlong dim p2) (k low1 high1 : Int)
    (hk0 : 0 ≤ k) (hk1 : k < p1.length) (hl0 : 0 ≤ low1) (hh0 : 0 ≤ high1)
    (hh1 : high1 ≤ p2.length)
    (hb1 : ∀ j : Int, 0 ≤ j → j < low1 → Pairer.before r dim p1 p2 k j = true)
    (hb2 : low1 < p2.length → Pairer.before r dim p1 p2 k low1 = false)
    (hy1 : ∀ j : Int, 0 ≤ j → j < high1 → Pairer.beyond r dim p1 p2 k j = false)
    (hy2 : high1 < p2.length → Pairer.beyond r dim p1 p2 k high1 = true) :
    Pairer.hits (F32.mul (F32.fin r) (F32.fin r)) p1 p2 k low1 high1 =
      ((intRange 0 (p2.length : Int)).filter (fun j =>
        closeAt (F32.mul (F32.fin r) (F32.fin r)) p1 p2 k j &&
          (!Pairer.before r dim p1 p2 k j && !Pairer.beyond r dim p1 p2 k j))).map
        (fun j => (k, j)) := by
  unfold Pairer.hits
  congr 1
  have hc : (intRange 0 (p2.length : Int)).filter (fun j =>
      closeAt (F32.mul (F32.fin r) (F32.fin r)) p1 p2 k j &&
        (!Pairer.before r dim p1 p2 k j && !Pairer.beyond r dim p1 p2 k j)) =
      (intRange 0 (p2.length : Int)).filter (fun j =>
        decide (low1 ≤ j ∧ j < high1) &&
          closeAt (F32.mul (F32.fin r) (F32.fin r)) p1 p2 k j) := by
    apply List.filter_congr
    intro j hj
    rw [mem_intRange] at hj
    have e1 : Pairer.before r dim p1 p2 k j = !decide (low1 ≤ j) := by
      by_cases c : j < low1
      · rw [hb1 j hj.1 c, decide_eq_false (show ¬ low1 ≤ j by omega)]
        rfl
      · rw [before_mono_right r dim hd0 hd1 p1 p2 hs k low1 j hk0 hk1 hl0 (by omega) hj.2
          (hb2 (by omega)), decide_eq_true (show low1 ≤ j by omega)]
        rfl
    have e2 : Pairer.beyond r dim p1 p2 k j = !decide (j < high1) := by
      by_cases c : j < high1
      · rw [hy1 j hj.1 c, decide_eq_true c]
        rfl
      · rw [beyond_mono_right r dim hd0 hd1 p1 p2 hs k high1 j hk0 hk1 hh0 (by omega) hj.2
          (hy2 (by omega)), decide_eq_false c]
        rfl
    rw [e1, e2, Bool.decide_and]
    simp only [Bool.not_not]
    rw [Bool.and_comm]
  rw [hc]
  have hw := filter_intRange_window
    (fun j => closeAt (F32.mul (F32.fin r) (F32.fin r)) p1 p2 k j) 0 low1 high1 p2.length
  rw [Int.zero_add] at hw
  rw [hw, show max 0 low1 = low1 by omega, show min (p2.length : Int) high1 = high1 by omega]

/-- The sorted branch of `FindPairsTwoCells` on two lists sorted along `dim`: it returns
the pairs of the brute-force branch whose gaps along `dim` are not above `r`. -/
theorem twoCells_sorted_spec (pair : Pairer) (p1 p2 : List Particle) (r : ℚ) (dim : Int)
    (hd0 : 0 ≤ dim) (hd1 : dim < 3) (hs1 : SortedAlong dim p1) (hs2 : SortedAlong dim p2) :
    ∃ pair1, pair.FindPairsTwoCells p1 p2 r dim = some pair1 ∧
      pair1.StopEarly = pair.StopEarly ∧
      pair1.i1.elems.length = pair1.i2.elems.length ∧
      pair1.i1.elems.zip pair1.i2.elems = twoCellSlabPairs r dim p1 p2 := by
  have hne : ¬ dim = -1 := by omega
  obtain ⟨st, e, -, -, hl, hz, -⟩ := forRange_inv 0 (p1.length : Int)
    (fun i (st : Int × Int × Slice Int × Slice Int) =>
      match Pairer.advanceLow r dim p1 p2 i (p2.length + 1) st.1 with
      | none => none
      | some low =>
        match Pairer.advanceHigh r dim p1 p2 i (p2.length + 1) st.2.1 with
        | none => none
        | some high =>
          match Pairer.scan (F32.mul (F32.fin r) (F32.fin r)) p1 p2 i low high st.2.2 with
          | none => none
          | some acc => some (low, high, acc))
    (fun k st => (0 ≤ st.1 ∧ st.1 ≤ p2.length) ∧ (0 ≤ st.2.1 ∧ st.2.1 ≤ p2.length) ∧
      st.2.2.1.elems.length = st.2.2.2.elems.length ∧
      st.2.2.1.elems.zip st.2.2.2.elems = (intRange 0 k).flatMap (fun i =>
        ((intRange 0 (p2.length : Int)).filter (fun j =>
          closeAt (F32.mul (F32.fin r) (F32.fin r)) p1 p2 i j &&
            (!Pairer.before r dim p1 p2 i j && !Pairer.beyond r dim p1 p2 i j))).map
          (fun j => (i, j))) ∧
      (k < p1.length →
        (∀ j : Int, 0 ≤ j → j < st.1 → Pairer.before r dim p1 p2 k j = true) ∧
        (∀ j : Int, 0 ≤ j → j < st.2.1 → Pairer.beyond r dim p1 p2 k j = false)))
    (0, 0, { elems := [], spare := pair.i1.elems ++ pair.i1.spare },
           { elems := [], spare := pair.i2.elems ++ pair.i2.spare })
    (by omega)
    ⟨⟨le_refl _, by simp⟩, ⟨le_refl _, by simp⟩, rfl,
      by rw [intRange_of_le _ _ (le_refl _)]; rfl,
      fun _ => ⟨fun j h1 h2 => by simp only at h2; omega,
        fun j h1 h2 => by simp only at h2; omega⟩⟩
    (by
      intro k st hk0 hk1 hinv
      obtain ⟨⟨hl0, hl1⟩, ⟨hh0, hh1⟩, hl, hz, hcur⟩ := hinv
      obtain ⟨hbprev, hyprev⟩ := hcur hk1
      obtain ⟨low1, e1, a1, a2, a3, a4⟩ := advanceLow_spec r dim hd0 hd1 p1 p2 k hk0 hk1
        (p2.length + 1) st.1 hl0 (by push_cast; omega) (by omega)
      obtain ⟨high1, e2, b1, b2, b3, b4⟩ := advanceHigh_spec r dim hd0 hd1 p1 p2 k hk0 hk1
        (p2.length + 1) st.2.1 hh0 (by push_cast; omega) (by omega)
      have hb1 : ∀ j : Int, 0 ≤ j → j < low1 → Pairer.before r dim p1 p2 k j = true := by
        intro j hj0 hj1
        by_cases c : j < st.1
        · exact hbprev j hj0 c
        · exact a3 j (by omega) hj1
      have hy1 : ∀ j : Int, 0 ≤ j → j < high1 → Pairer.beyond r dim p1 p2 k j = false := by
        intro j hj0 hj1
        by_cases c : j < st.2.1
        · exact hyprev j hj0 c
        · exact b3 j (by omega) hj1
      obtain ⟨out1, e3, hl2, hz2⟩ := scan_spec (F32.mul (F32.fin r) (F32.fin r)) p1 p2 k
        low1 high1 st.2.2 hk0 hk1 (by omega) (b2 hh1) hl
      refine ⟨(low1, high1, out1), ?_, ⟨by show 0 ≤ low1; omega, a2 hl1⟩,
        ⟨by show 0 ≤ high1; omega, b2 hh1⟩, hl2, ?_, ?_⟩
      · simp only [e1, e2, e3]
      · rw [hz2, hz, flatMap_intRange_succ _ k hk0,
          hits_eq_two_row r dim hd0 hd1 p1 p2 hs2 k low1 high1 hk0 hk1 (by omega) (by omega)
            (b2 hh1) hb1 a4 hy1 b4]
      · intro hk2
        refine ⟨?_, ?_⟩
        · intro j hj0 hj1
          have hj2 : j < low1 := hj1
          exact before_mono_left r dim hd0 hd1 p1 p2 hs1 k (k + 1) j hk0 (by omega) hk2 hj0
            (by have := a2 hl1; omega) (hb1 j hj0 hj2)
        · intro j hj0 hj1
          have hj2 : j < high1 := hj1
          exact beyond_mono_left r dim hd0 hd1 p1 p2 hs1 k (k + 1) j hk0 (by omega) hk2 hj0
            (by have := b2 hh1; omega) (hy1 j hj0 hj2))
  refine ⟨{ pair with i1 := st.2.2.1, i2 := st.2.2.2 }, ?_, rfl, hl, hz⟩
  delta Pairer.FindPairsTwoCells
  simp only [upTo_zero, if_neg hne]
  erw [e]
/-! ## The pair finder: the sorted result as a part of the brute-force result -/

theorem filter_flatMap {α β : Type} (q : β → Bool) (f : α → List β) (l : List α) :
    (l.flatMap f).filter q = l.flatMap (fun a => (f a).filter q) := by
  induction l with
  | nil => rfl
  | cons a l ih => rw [List.flatMap_cons, List.filter_append, ih, List.flatMap_cons]

theorem oneCellSlabPairs_eq_filter (r : ℚ) (dim : Int) (p : List Particle) :
    oneCellSlabPairs r dim p =
      (oneCellPairs r p).filter (fun x => !Pairer.beyond r dim p p x.1 x.2) := by
  unfold oneCellSlabPairs oneCellPairs
  rw [filter_flatMap]
  congr 1
  funext i
  unfold Pairer.hits
  rw [List.filter_map, List.filter_filter]
  congr 1
  apply List.filter_congr
  intro j _
  simp only [Function.comp]
  rw [Bool.and_comm]

theorem twoCellSlabPairs_eq_filter (r : ℚ) (dim : Int) (p1 p2 : List Particle) :
    twoCellSlabPairs r dim p1 p2 =
      (twoCellPairs r p1 p2).filter (fun x =>
        !Pairer.before r dim p1 p2 x.1 x.2 && !Pairer.beyond r dim p1 p2 x.1 x.2) := by
  unfold twoCellSlabPairs twoCellPairs
  rw [filter_flatMap]
  congr 1
  funext i
  unfold Pairer.hits
  rw [List.filter_map, List.filter_filter]
  congr 1
  apply List.filter_congr
  intro j _
  simp only [Function.comp]
  rw [Bool.and_comm]

theorem zip_eq_nil_of {l1 l2 : List Int} (hl : l1.length = l2.length)
    (hz : l1.zip l2 = []) : l1 = [] ∧ l2 = [] := by
  cases l1 with
  | nil =>
    cases l2 with
    | nil => exact ⟨rfl, rfl⟩
    | cons b l2 => cases hl
  | cons a l1 =>
    cases l2 with
    | nil => cases hl
    | cons b l2 => cases hz
/-! ## `float32` operations on exact results -/

theorem F32_le_antisymm (x y : F32) (h1 : F32.le x y = true) (h2 : F32.le y x = true) :
    x = y := by
  cases x <;> cases y <;> simp only [F32.le] at h1 h2 <;>
    first
    | exact absurd h1 (by decide)
    | exact absurd h2 (by decide)
    | rfl
    | (rw [decide_eq_true_eq] at h1 h2; rw [le_antisymm h1 h2])

/-- The rounding of a fraction depends on its value only. -/
theorem round_congr (n n1 : Int) (d d1 : Nat) (hd : 0 < d) (hd1 : 0 < d1)
    (h : n * d1 = n1 * d) : F32.round n d = F32.round n1 d1 :=
  F32_le_antisymm _ _ (round_mono n n1 d d1 hd hd1 (le_of_eq h))
    (round_mono n1 n d1 d hd1 hd (le_of_eq h.symm))

/-- The rounding of a fraction is the rounding of the rational number it stands for. -/
theorem round_of_value (q : ℚ) (n : Int) (d : Nat) (hd : 0 < d)
    (h : q = (n : ℚ) / (d : ℚ)) : F32.round n d = F32.ofRat q := by
  unfold F32.ofRat
  apply round_congr n q.num d q.den hd q.den_pos
  have hd0 : (d : ℚ) ≠ 0 := by exact_mod_cast (ne_of_gt hd)
  have hq0 : (q.den : ℚ) ≠ 0 := by exact_mod_cast (ne_of_gt q.den_pos)
  have h2 : (q.num : ℚ) / (q.den : ℚ) = (n : ℚ) / (d : ℚ) := by
    rw [Rat.num_div_den]; exact h
  have h3 : (q.num : ℚ) * (d : ℚ) = (n : ℚ) * (q.den : ℚ) := by
    field_simp at h2
    linarith
  exact_mod_cast h3.symm

theorem sub_eq_ofRat (a b : ℚ) : F32.sub (F32.fin a) (F32.fin b) = F32.ofRat (a - b) := by
  rw [sub_fin_fin]
  apply round_of_value _ _ _ (Nat.mul_pos a.den_pos b.den_pos)
  have ha : (a.den : ℚ) ≠ 0 := by exact_mod_cast (ne_of_gt a.den_pos)
  have hb : (b.den : ℚ) ≠ 0 := by exact_mod_cast (ne_of_gt b.den_pos)
  conv_lhs => rw [← Rat.num_div_den a, ← Rat.num_div_den b]
  push_cast
  field_simp
  try ring

theorem mul_eq_ofRat (a b : ℚ) : F32.mul (F32.fin a) (F32.fin b) = F32.ofRat (a * b) := by
  show F32.round (a.num * b.num) (a.den * b.den) = _
  apply round_of_value _ _ _ (Nat.mul_pos a.den_pos b.den_pos)
  have ha : (a.den : ℚ) ≠ 0 := by exact_mod_cast (ne_of_gt a.den_pos)
  have hb : (b.den : ℚ) ≠ 0 := by exact_mod_cast (ne_of_gt b.den_pos)
  conv_lhs => rw [← Rat.num_div_den a, ← Rat.num_div_den b]
  push_cast
  field_simp
  try ring

theorem add_eq_ofRat (a b : ℚ) : F32.add (F32.fin a) (F32.fin b) = F32.ofRat (a + b) := by
  show F32.round (a.num * b.den + b.num * a.den) (a.den * b.den) = _
  apply round_of_value _ _ _ (Nat.mul_pos a.den_pos b.den_pos)
  have ha : (a.den : ℚ) ≠ 0 := by exact_mod_cast (ne_of_gt a.den_pos)
  have hb : (b.den : ℚ) ≠ 0 := by exact_mod_cast (ne_of_gt b.den_pos)
  conv_lhs => rw [← Rat.num_div_den a, ← Rat.num_div_den b]
  push_cast
  field_simp
  try ring

/-- Where no operation rounds, `dr2` is the squared Euclidean distance. -/
theorem dist2_exact (a b : Particle) (h : ExactDist a b) : dist2 a b = F32.fin (sqDist a b) := by
  obtain ⟨h0, h1, h2, h3, h4, h5, h6, h7⟩ := h
  unfold F32.Exact at h0 h1 h2 h3 h4 h5 h6 h7
  show F32.add (F32.add
      (F32.mul (F32.sub (F32.fin a.X.x0) (F32.fin b.X.x0))
        (F32.sub (F32.fin a.X.x0) (F32.fin b.X.x0)))
      (F32.mul (F32.sub (F32.fin a.X.x1) (F32.fin b.X.x1))
        (F32.sub (F32.fin a.X.x1) (F32.fin b.X.x1))))
      (F32.mul (F32.sub (F32.fin a.X.x2) (F32.fin b.X.x2))
        (F32.sub (F32.fin a.X.x2) (F32.fin b.X.x2))) = _
  rw [sub_eq_ofRat, sub_eq_ofRat, sub_eq_ofRat, h0, h1, h2, mul_eq_ofRat, mul_eq_ofRat,
    mul_eq_ofRat, h3, h4, h5, add_eq_ofRat, h6, add_eq_ofRat]
  exact h7

/-- Where neither `dr2` nor `r*r` rounds, the test of the inner loops is the comparison
of the squared Euclidean distance with `r*r`. -/
theorem closeAt_exact (r : ℚ) (p1 p2 : List Particle) (hr : F32.Exact (r * r))
    (hp : ∀ a ∈ p1, ∀ b ∈ p2, ExactDist a b) (i j : Int) :
    closeAt (F32.mul (F32.fin r) (F32.fin r)) p1 p2 i j = true ↔
      ∃ a b, getI p1 i = some a ∧ getI p2 j = some b ∧ sqDist a b ≤ r * r := by
  unfold F32.Exact at hr
  rw [mul_eq_ofRat, hr]
  unfold closeAt
  cases hi : getI p1 i with
  | none =>
    constructor
    · intro h; cases h
    · rintro ⟨a, b, ha, -⟩; cases ha
  | some a =>
    cases hj : getI p2 j with
    | none =>
      constructor
      · intro h; cases h
      · rintro ⟨a1, b, -, hb, -⟩; cases hb
    | some b =>
      show F32.le (dist2 a b) (F32.fin (r * r)) = true ↔ _
      rw [dist2_exact a b (hp a (mem_of_getI hi) b (mem_of_getI hj)), le_fin_fin,
        decide_eq_true_eq]
      constructor
      · intro h; exact ⟨a, b, rfl, rfl, h⟩
      · rintro ⟨a1, b1, ha, hb, h⟩
        cases ha; cases hb
        exact h

/-! ## The pair finder claims -/

/-- C12, amended: for every list `p` of points, every linking length `r` and every prior
state of the `Pairer`, `FindPairsOneCell(p, r, -1)` returns two slices of equal length
whose pairs are the index pairs `(i, j)` with `0 ≤ i < j < len(p)` for which the value
`dr2` that the source computes in `float32`, every operation rounded, is at most the
`float32` product `r*r`: each of them once, in lexicographic order, and nothing else.
Where no operation rounds, neither for `r*r` nor for `dr2` on any two points of `p`,
these are the pairs whose squared Euclidean distance is at most `r*r`. -/
theorem one_cell_brute_force_is_exact (pair : Pairer) (p : List Particle) (r : ℚ) :
    ∃ pair1, pair.FindPairsOneCell p r (-1) = some pair1 ∧
      pair1.i1.elems.length = pair1.i2.elems.length ∧
      pair1.pairs = oneCellPairs r p ∧ pair1.pairs.Nodup ∧
      (∀ i j : Int, (i, j) ∈ pair1.pairs ↔
        0 ≤ i ∧ i < j ∧ j < p.length ∧
          closeAt (F32.mul (F32.fin r) (F32.fin r)) p p i j = true) ∧
      (F32.Exact (r * r) → (∀ a ∈ p, ∀ b ∈ p, ExactDist a b) →
        ∀ i j : Int, (i, j) ∈ pair1.pairs ↔
          0 ≤ i ∧ i < j ∧ j < p.length ∧
            ∃ a b, getI p i = some a ∧ getI p j = some b ∧ sqDist a b ≤ r * r) := by
  obtain ⟨pair1, e, -, hl, hz⟩ := oneCell_brute_spec pair p r
  have hz1 : pair1.pairs = oneCellPairs r p := hz
  have hmem : ∀ i j : Int, (i, j) ∈ pair1.pairs ↔
      0 ≤ i ∧ i < j ∧ j < p.length ∧
        closeAt (F32.mul (F32.fin r) (F32.fin r)) p p i j = true := by
    intro i j
    rw [hz1]
    exact mem_oneCellPairs r p i j
  refine ⟨pair1, e, hl, hz1, ?_, hmem, ?_⟩
  · rw [hz1]
    exact nodup_flatMap_hits _ p p (fun i => i + 1) (fun _ => (p.length : Int)) _
      (nodup_intRange _ _)
  · intro hr hp i j
    rw [hmem i j, closeAt_exact r p p hr hp i j]

/-- C12, witness: the four points of `linePoints` with `r = 1`, where no operation
rounds. -/
theorem one_cell_brute_force_is_exact_witness :
    F32.Exact (1 * 1) ∧ (∀ a ∈ linePoints, ∀ b ∈ linePoints, ExactDist a b) ∧
    ∃ pair1, Pairer.new.FindPairsOneCell linePoints 1 (-1) = some pair1 ∧
      pair1.pairs = [(0, 1), (1, 2), (2, 3)] ∧
      ∀ i j : Int, (i, j) ∈ pair1.pairs ↔
        0 ≤ i ∧ i < j ∧ j < linePoints.length ∧
          ∃ a b, getI linePoints i = some a ∧ getI linePoints j = some b ∧
            sqDist a b ≤ 1 * 1 := by
  have hr : F32.Exact (1 * 1) := by with_unfolding_all decide
  have hp : ∀ a ∈ linePoints, ∀ b ∈ linePoints, ExactDist a b := by
    with_unfolding_all decide
  obtain ⟨pair1, e, -, hz, -, -, hex⟩ :=
    one_cell_brute_force_is_exact Pairer.new linePoints 1
  refine ⟨hr, hp, pair1, e, ?_, hex hr hp⟩
  rw [hz]
  with_unfolding_all decide

/-- C12, counterexample: the two points of `roundedGapPoints`, at the distance
`3 * 2^(-76)`, and `r = 5 * 2^(-77)`, all `float32` values. The squared distance
`1.125 * 2^(-149)` is above `r*r = 0.78125 * 2^(-149)`, but both round to `2^(-149)` in
`float32`, and the pair `(0, 1)` is returned. -/
theorem one_cell_returns_a_pair_beyond_r :
    F32.Exact (mkRat 3 (2 ^ 76)) ∧ F32.Exact (mkRat 5 (2 ^ 77)) ∧
    (0 : ℚ) ≤ mkRat 5 (2 ^ 77) ∧
    mkRat 5 (2 ^ 77) * mkRat 5 (2 ^ 77) <
      sqDist (pointAt 0 0 0) (pointAt (mkRat 3 (2 ^ 76)) 0 0) ∧
    (Pairer.new.FindPairsOneCell roundedGapPoints (mkRat 5 (2 ^ 77)) (-1)).map Pairer.pairs =
      some [(0, 1)] := by
  refine ⟨by with_unfolding_all rfl, by with_unfolding_all rfl, ?_, ?_, ?_⟩ <;>
    with_unfolding_all decide

/-- C13, amended: for all lists `p1`, `p2` of points, every linking length `r` and every
prior state of the `Pairer`, `FindPairsTwoCells(p1, p2, r, -1)` returns the index pairs
`(i, j)` with `0 ≤ i < len(p1)` and `0 ≤ j < len(p2)` for which the value `dr2` that the
source computes in `float32`, every operation rounded, is at most the `float32` product
`r*r`: each of them once, in lexicographic order, and nothing else; the result is empty
when one of the lists is. Where no operation rounds, neither for `r*r` nor for `dr2` on
any point of `p1` and any point of `p2`, these are the pairs whose squared Euclidean
distance is at most `r*r`. -/
theorem two_cells_brute_force_is_exact (pair : Pairer) (p1 p2 : List Particle) (r : ℚ) :
    ∃ pair1, pair.FindPairsTwoCells p1 p2 r (-1) = some pair1 ∧
      pair1.i1.elems.length = pair1.i2.elems.length ∧
      pair1.pairs = twoCellPairs r p1 p2 ∧ pair1.pairs.Nodup ∧
      (∀ i j : Int, (i, j) ∈ pair1.pairs ↔
        (0 ≤ i ∧ i < p1.length) ∧ (0 ≤ j ∧ j < p2.length) ∧
          closeAt (F32.mul (F32.fin r) (F32.fin r)) p1 p2 i j = true) ∧
      (p1 = [] ∨ p2 = [] → pair1.i1.elems = [] ∧ pair1.i2.elems = []) ∧
      (F32.Exact (r * r) → (∀ a ∈ p1, ∀ b ∈ p2, ExactDist a b) →
        ∀ i j : Int, (i, j) ∈ pair1.pairs ↔
          (0 ≤ i ∧ i < p1.length) ∧ (0 ≤ j ∧ j < p2.length) ∧
            ∃ a b, getI p1 i = some a ∧ getI p2 j = some b ∧ sqDist a b ≤ r * r) := by
  obtain ⟨pair1, e, -, hl, hz⟩ := twoCells_brute_spec pair p1 p2 r
  have hz1 : pair1.pairs = twoCellPairs r p1 p2 := hz
  have hmem : ∀ i j : Int, (i, j) ∈ pair1.pairs ↔
      (0 ≤ i ∧ i < p1.length) ∧ (0 ≤ j ∧ j < p2.length) ∧
        closeAt (F32.mul (F32.fin r) (F32.fin r)) p1 p2 i j = true := by
    intro i j
    rw [hz1]
    exact mem_twoCellPairs r p1 p2 i j
  refine ⟨pair1, e, hl, hz1, ?_, hmem, ?_, ?_⟩
  · rw [hz1]
    exact nodup_flatMap_hits _ p1 p2 (fun _ => 0) (fun _ => (p2.length : Int)) _
      (nodup_intRange _ _)
  · intro hempty
    apply zip_eq_nil_of hl
    apply List.eq_nil_iff_forall_not_mem.mpr
    rintro ⟨i, j⟩ hij
    have h := (hmem i j).mp hij
    rcases hempty with e1 | e1
    · rw [e1] at h
      have := h.1
      simp only [List.length_nil, Nat.cast_zero] at this
      omega
    · rw [e1] at h
      have := h.2.1
      simp only [List.length_nil, Nat.cast_zero] at this
      omega
  · intro hr hp i j
    rw [hmem i j, closeAt_exact r p1 p2 hr hp i j]

/-- C13, witness: the four points of `linePoints` against the two points of
`coincidentPoints`, with `r = 2`, where no operation rounds. -/
theorem two_cells_brute_force_is_exact_witness :
    F32.Exact (2 * 2) ∧ (∀ a ∈ linePoints, ∀ b ∈ coincidentPoints, ExactDist a b) ∧
    ∃ pair1, Pairer.new.FindPairsTwoCells linePoints coincidentPoints 2 (-1) = some pair1 ∧
      ∀ i j : Int, (i, j) ∈ pair1.pairs ↔
        (0 ≤ i ∧ i < linePoints.length) ∧ (0 ≤ j ∧ j < coincidentPoints.length) ∧
          ∃ a b, getI linePoints i = some a ∧ getI coincidentPoints j = some b ∧
            sqDist a b ≤ 2 * 2 := by
  have hr : F32.Exact (2 * 2) := by with_unfolding_all decide
  have hp : ∀ a ∈ linePoints, ∀ b ∈ coincidentPoints, ExactDist a b := by
    with_unfolding_all decide
  obtain ⟨pair1, e, -, -, -, -, -, hex⟩ :=
    two_cells_brute_force_is_exact Pairer.new linePoints coincidentPoints 2
  exact ⟨hr, hp, pair1, e, hex hr hp⟩

/-- C13, counterexample: the origin against the point at the distance `3 * 2^(-76)`
along the first axis, and `r = 5 * 2^(-77)`, all `float32` values. The squared distance
`1.125 * 2^(-149)` is above `r*r = 0.78125 * 2^(-149)`, but both round to `2^(-149)` in
`float32`, and the pair `(0, 0)` is returned. -/
theorem two_cells_return_a_pair_beyond_r :
    F32.Exact (mkRat 3 (2 ^ 76)) ∧ F32.Exact (mkRat 5 (2 ^ 77)) ∧
    (0 : ℚ) ≤ mkRat 5 (2 ^ 77) ∧
    mkRat 5 (2 ^ 77) * mkRat 5 (2 ^ 77) <
      sqDist (pointAt 0 0 0) (pointAt (mkRat 3 (2 ^ 76)) 0 0) ∧
    (Pairer.new.FindPairsTwoCells [pointAt 0 0 0] [pointAt (mkRat 3 (2 ^ 76)) 0 0]
      (mkRat 5 (2 ^ 77)) (-1)).map Pairer.pairs = some [(0, 0)] := by
  refine ⟨by with_unfolding_all rfl, by with_unfolding_all rfl, ?_, ?_, ?_⟩ <;>
    with_unfolding_all decide

/-- C14, amended: for every `dim` in `{0, 1, 2}`, every `r` and every list `p` sorted
ascending along the coordinate `dim`, `FindPairsOneCell(p, r, dim)` returns, in the same
order, the pairs `(i, j)` of the brute-force call `FindPairsOneCell(p, r, -1)` whose gap
`p[j].X[dim] - p[i].X[dim]`, as computed in `float32`, is not above `r`; the two calls
return the same pairs when no pair of the brute-force call has its gap above `r`. -/
theorem one_cell_sorted_is_brute_force_in_slab (pair pair0 : Pairer) (p : List Particle)
    (r : ℚ) (dim : Int) (hd0 : 0 ≤ dim) (hd1 : dim < 3) (hs : SortedAlong dim p) :
    ∃ s b, pair.FindPairsOneCell p r dim = some s ∧
      pair0.FindPairsOneCell p r (-1) = some b ∧
      s.i1.elems.length = s.i2.elems.length ∧
      s.pairs = b.pairs.filter (fun x => !Pairer.beyond r dim p p x.1 x.2) ∧
      ((∀ i j : Int, (i, j) ∈ b.pairs → Pairer.beyond r dim p p i j = false) →
        s.pairs = b.pairs) := by
  obtain ⟨s, e, -, hl, hz⟩ := oneCell_sorted_spec pair p r dim hd0 hd1 hs
  obtain ⟨b, e0, -, -, hz0⟩ := oneCell_brute_spec pair0 p r
  have hz1 : s.pairs = oneCellSlabPairs r dim p := hz
  have hz2 : b.pairs = oneCellPairs r p := hz0
  have hf : s.pairs = b.pairs.filter (fun x => !Pairer.beyond r dim p p x.1 x.2) := by
    rw [hz1, hz2]
    exact oneCellSlabPairs_eq_filter r dim p
  refine ⟨s, b, e, e0, hl, hf, ?_⟩
  intro hall
  rw [hf, List.filter_eq_self]
  rintro ⟨i, j⟩ hij
  rw [hall i j hij]
  rfl

/-- C14, witness: the four points of `linePoints`, sorted along the first axis, with
`r = 1`. -/
theorem one_cell_sorted_is_brute_force_in_slab_witness :
    ∃ s b, Pairer.new.FindPairsOneCell linePoints 1 0 = some s ∧
      Pairer.new.FindPairsOneCell linePoints 1 (-1) = some b ∧
      s.i1.elems.length = s.i2.elems.length ∧
      s.pairs = b.pairs.filter (fun x => !Pairer.beyond 1 0 linePoints linePoints x.1 x.2) ∧
      ((∀ i j : Int, (i, j) ∈ b.pairs →
          Pairer.beyond 1 0 linePoints linePoints i j = false) →
        s.pairs = b.pairs) :=
  one_cell_sorted_is_brute_force_in_slab Pairer.new Pairer.new linePoints 1 0
    (by decide) (by decide) (by decide)

/-- C14, counterexample: the two points of `tinyGapPoints`, sorted along the first axis,
and `r = 0`. The square of their distance `2^(-100)` underflows to 0 in `float32`, so
the brute-force call returns the pair `(0, 1)`; their gap is above `r`, so the sorted call
returns nothing. -/
theorem one_cell_sorted_differs_on_underflow :
    SortedAlong 0 tinyGapPoints ∧
    (Pairer.new.FindPairsOneCell tinyGapPoints 0 (-1)).map Pairer.pairs = some [(0, 1)] ∧
    (Pairer.new.FindPairsOneCell tinyGapPoints 0 0).map Pairer.pairs = some [] := by
  with_unfolding_all decide

/-- C15: with the flag `StopEarly` set, `FindPairsOneCell` and `FindPairsTwoCells` return
three pairs and more on the points of `linePoints`, in both modes: the flag is not
read. -/
theorem stop_early_is_ignored :
    (Pairer.stopping.FindPairsOneCell linePoints 1 (-1)).map Pairer.pairs =
      some [(0, 1), (1, 2), (2, 3)] ∧
    (Pairer.stopping.FindPairsOneCell linePoints 1 0).map Pairer.pairs =
      some [(0, 1), (1, 2), (2, 3)] ∧
    (Pairer.stopping.FindPairsTwoCells linePoints linePoints 1 (-1)).map Pairer.pairs =
      some [(0, 0), (0, 1), (1, 0), (1, 1), (1, 2), (2, 1), (2, 2), (2, 3), (3, 2), (3, 3)] ∧
    (Pairer.stopping.FindPairsTwoCells linePoints linePoints 1 0).map Pairer.pairs =
      some [(0, 0), (0, 1), (1, 0), (1, 1), (1, 2), (2, 1), (2, 2), (2, 3), (3, 2), (3, 3)] := by
  with_unfolding_all decide

/-- C20, amended: for every `dim` in `{0, 1, 2}`, every `r` and all lists `p1`, `p2`
sorted ascending along the coordinate `dim`, `FindPairsTwoCells(p1, p2, r, dim)` returns,
in the same order, the pairs `(i, j)` of the brute-force call
`FindPairsTwoCells(p1, p2, r, -1)` whose gaps `p1[i].X[dim] - p2[j].X[dim]` and
`p2[j].X[dim] - p1[i].X[dim]`, as computed in `float32`, are not above `r`; the two calls
return the same list when no pair of the brute-force call has a gap above `r`. -/
theorem two_cells_sorted_is_brute_force_in_slab (pair pair0 : Pairer)
    (p1 p2 : List Particle) (r : ℚ) (dim : Int) (hd0 : 0 ≤ dim) (hd1 : dim < 3)
    (hs1 : SortedAlong dim p1) (hs2 : SortedAlong dim p2) :
    ∃ s b, pair.FindPairsTwoCells p1 p2 r dim = some s ∧
      pair0.FindPairsTwoCells p1 p2 r (-1) = some b ∧
      s.i1.elems.length = s.i2.elems.length ∧
      s.pairs = b.pairs.filter (fun x =>
        !Pairer.before r dim p1 p2 x.1 x.2 && !Pairer.beyond r dim p1 p2 x.1 x.2) ∧
      ((∀ i j : Int, (i, j) ∈ b.pairs →
          Pairer.before r dim p1 p2 i j = false ∧ Pairer.beyond r dim p1 p2 i j = false) →
        s.pairs = b.pairs) := by
  obtain ⟨s, e, -, hl, hz⟩ := twoCells_sorted_spec pair p1 p2 r dim hd0 hd1 hs1 hs2
  obtain ⟨b, e0, -, -, hz0⟩ := twoCells_brute_spec pair0 p1 p2 r
  have hz1 : s.pairs = twoCellSlabPairs r dim p1 p2 := hz
  have hz2 : b.pairs = twoCellPairs r p1 p2 := hz0
  have hf : s.pairs = b.pairs.filter (fun x =>
      !Pairer.before r dim p1 p2 x.1 x.2 && !Pairer.beyond r dim p1 p2 x.1 x.2) := by
    rw [hz1, hz2]
    exact twoCellSlabPairs_eq_filter r dim p1 p2
  refine ⟨s, b, e, e0, hl, hf, ?_⟩
  intro hall
  rw [hf, List.filter_eq_self]
  rintro ⟨i, j⟩ hij
  rw [(hall i j hij).1, (hall i j hij).2]
  rfl

/-- C20, witness: the four points of `linePoints` against themselves, with `r = 1`. -/
theorem two_cells_sorted_is_brute_force_in_slab_witness :
    ∃ s b, Pairer.new.FindPairsTwoCells linePoints linePoints 1 0 = some s ∧
      Pairer.new.FindPairsTwoCells linePoints linePoints 1 (-1) = some b ∧
      s.i1.elems.length = s.i2.elems.length ∧
      s.pairs = b.pairs.filter (fun x =>
        !Pairer.before 1 0 linePoints linePoints x.1 x.2 &&
          !Pairer.beyond 1 0 linePoints linePoints x.1 x.2) ∧
      ((∀ i j : Int, (i, j) ∈ b.pairs →
          Pairer.before 1 0 linePoints linePoints i j = false ∧
            Pairer.beyond 1 0 linePoints linePoints i j = false) →
        s.pairs = b.pairs) :=
  two_cells_sorted_is_brute_force_in_slab Pairer.new Pairer.new linePoints linePoints 1 0
    (by decide) (by decide) (by decide) (by decide)

/-- C20, counterexample: the first point of `tinyGapPoints` against the second, each a
sorted list, and `r = 0`. The square of their distance underflows to 0 in `float32`, so
the brute-force call returns the pair `(0, 0)`; the gap `p2[0].X[0] - p1[0].X[0]` is above
`r`, so the sorted call returns nothing. -/
theorem two_cells_sorted_differs_on_underflow :
    SortedAlong 0 (tinyGapPoints.take 1) ∧ SortedAlong 0 (tinyGapPoints.drop 1) ∧
    (Pairer.new.FindPairsTwoCells (tinyGapPoints.take 1) (tinyGapPoints.drop 1) 0
      (-1)).map Pairer.pairs = some [(0, 0)] ∧
    (Pairer.new.FindPairsTwoCells (tinyGapPoints.take 1) (tinyGapPoints.drop 1) 0
      0).map Pairer.pairs = some [] := by
  with_unfolding_all decide
/-! ## Sorting particles -/

theorem F32_le_of_lt (a b : F32) (h : F32.lt a b = true) : F32.le a b = true := by
  cases a <;> cases b <;> simp only [F32.lt, F32.le] at h ⊢ <;>
    first
    | exact absurd h (by decide)
    | rfl
    | (rw [decide_eq_true_eq] at h ⊢; exact le_of_lt h)

theorem F32_le_of_not_lt (a b : F32) (ha : a ≠ F32.nan) (hb : b ≠ F32.nan)
    (h : ¬ F32.lt b a = true) : F32.le a b = true := by
  cases a <;> cases b <;> simp only [F32.lt, F32.le] at h ⊢ <;>
    first
    | exact absurd rfl ha
    | exact absurd rfl hb
    | rfl
    | exact absurd rfl h
    | exact absurd trivial h
    | (rw [decide_eq_true_eq] at h ⊢; exact not_lt.mp h)

theorem F32_lt_asymm (a b : F32) (h : F32.lt a b = true) : ¬ F32.lt b a = true := by
  cases a <;> cases b <;> simp only [F32.lt] at h ⊢ <;>
    first
    | exact absurd h (by decide)
    | exact (by decide)
    | (rw [decide_eq_true_eq] at h ⊢; exact not_lt.mpr (le_of_lt h))

theorem cmpKey_neg_iff (x y : F32) :
    (if F32.lt x y then (-1 : Int) else if F32.gt x y then 1 else 0) < 0 ↔
      F32.lt x y = true := by
  split_ifs with h1 h2
  · simp [h1]
  · simp [h1]
  · simp [h1]

theorem cmpKey_pos_iff (x y : F32) :
    0 < (if F32.lt x y then (-1 : Int) else if F32.gt x y then 1 else 0) ↔
      F32.lt y x = true := by
  split_ifs with h1 h2
  · constructor
    · intro h; omega
    · intro h; exact absurd h (F32_lt_asymm x y h1)
  · constructor
    · intro _; exact h2
    · intro _; omega
  · constructor
    · intro h; omega
    · intro h; exact absurd h h2

theorem strictWeakOn_of_key (cmp : FloatParticle → FloatParticle → Int)
    (key : FloatParticle → F32)
    (h : ∀ a b, cmp a b =
      if F32.lt (key a) (key b) then (-1 : Int) else if F32.gt (key a) (key b) then 1 else 0)
    (l : List FloatParticle) (hn : ∀ a ∈ l, key a ≠ F32.nan) : StrictWeakOn cmp l := by
  refine ⟨?_, ?_, ?_⟩
  · intro a _ b _ hab
    rw [h, cmpKey_neg_iff] at hab
    rw [h, cmpKey_neg_iff]
    exact F32_lt_asymm _ _ hab
  · intro a ha b hb c _ hca
    rw [h, cmpKey_neg_iff] at hca
    rw [h, cmpKey_neg_iff, h, cmpKey_neg_iff]
    by_cases hba : F32.lt (key b) (key a) = true
    · exact Or.inl hba
    · exact Or.inr (F32_lt_of_lt_of_le _ _ _ hca
        (F32_le_of_not_lt _ _ (hn a ha) (hn b hb) hba))
  · intro a _ b _
    rw [h, cmpKey_pos_iff, h, cmpKey_neg_iff]

theorem chain_getI {α : Type} (R : α → α → Prop) :
    ∀ (l : List α), List.Chain' R l → ∀ (k : Int) (a b : α),
    getI l k = some a → getI l (k + 1) = some b → R a b := by
  intro l
  induction l with
  | nil =>
    intro _ k a b ha _
    have := getI_lt_length ha
    simp at this
    omega
  | cons x l ih =>
    intro hc k a b ha hb
    have hk := (getI_lt_length ha).1
    cases l with
    | nil =>
      have := (getI_lt_length hb).2
      simp at this
      omega
    | cons y l =>
      rw [List.chain'_cons] at hc
      by_cases h0 : k = 0
      · subst h0
        rw [getI_eq_getElem? _ _ (le_refl _)] at ha
        rw [getI_eq_getElem? _ _ (by omega)] at hb
        simp at ha hb
        rw [← ha, ← hb]
        exact hc.1
      · apply ih hc.2 (k - 1) a b
        · rw [getI_eq_getElem? _ _ (by omega)] at ha ⊢
          rw [show k.toNat = (k - 1).toNat + 1 by omega] at ha
          simpa using ha
        · rw [getI_eq_getElem? _ _ (by omega)] at hb ⊢
          rw [show (k + 1).toNat = (k - 1 + 1).toNat + 1 by omega] at hb
          simpa using hb

/-- An insertion keeps a list sorted, for a relation that is total and transitive on the
elements at hand. -/
theorem orderedInsert_pairwise_on {α : Type} (r : α → α → Prop) [DecidableRel r]
    (S : α → Prop) (htot : ∀ a b, S a → S b → r a b ∨ r b a)
    (htr : ∀ a b c, S a → S b → S c → r a b → r b c → r a c) :
    ∀ (l : List α) (a : α), S a → (∀ x ∈ l, S x) → l.Pairwise r →
    (l.orderedInsert r a).Pairwise r := by
  intro l
  induction l with
  | nil =>
    intro a _ _ _
    simp
  | cons b l ih =>
    intro a ha hl hp
    have hb : S b := hl b (List.mem_cons_self _ _)
    have hl2 : ∀ x ∈ l, S x := fun x hx => hl x (List.mem_cons_of_mem _ hx)
    rw [List.pairwise_cons] at hp
    rw [List.orderedInsert]
    split_ifs with hab
    · rw [List.pairwise_cons]
      refine ⟨?_, List.pairwise_cons.mpr hp⟩
      intro x hx
      rcases List.mem_cons.mp hx with e | e
      · rw [e]; exact hab
      · exact htr a b x ha hb (hl2 x e) hab (hp.1 x e)
    · have hba : r b a := (htot a b ha hb).resolve_left hab
      rw [List.pairwise_cons]
      refine ⟨?_, ih a ha hl2 hp.2⟩
      intro x hx
      rcases (List.mem_orderedInsert r).mp hx with e | e
      · rw [e]; exact hba
      · exact hp.1 x e

theorem insertionSort_pairwise_on {α : Type} (r : α → α → Prop) [DecidableRel r]
    (S : α → Prop) (htot : ∀ a b, S a → S b → r a b ∨ r b a)
    (htr : ∀ a b c, S a → S b → S c → r a b → r b c → r a c) :
    ∀ (l : List α), (∀ x ∈ l, S x) → (l.insertionSort r).Pairwise r := by
  intro l
  induction l with
  | nil =>
    intro _
    simp
  | cons a l ih =>
    intro hl
    have hl2 : ∀ x ∈ l, S x := fun x hx => hl x (List.mem_cons_of_mem _ hx)
    rw [List.insertionSort_cons_eq_take_drop]
    rw [← List.orderedInsert_eq_take_drop]
    apply orderedInsert_pairwise_on r S htot htr _ a (hl a (List.mem_cons_self _ _)) _
      (ih hl2)
    intro x hx
    exact hl2 x ((List.perm_insertionSort r l).subset hx)

/-- The insertion sort meets the contract of `slices.SortFunc`. -/
theorem insertionSortFunc_contract : SortFuncContract insertionSortFunc := by
  intro cmp l hsw
  obtain ⟨hasym, hneg, -⟩ := hsw
  refine ⟨List.perm_insertionSort _ l, ?_⟩
  apply List.Pairwise.chain'
  apply insertionSort_pairwise_on (fun a b => ¬ cmp b a < 0) (fun x => x ∈ l) _ _ l
    (fun x hx => hx)
  · intro a b ha hb
    by_cases h : cmp b a < 0
    · exact Or.inr (hasym b hb a ha h)
    · exact Or.inl h
  · intro a b c ha hb hc hab hbc hca
    rcases hneg a ha b hb c hc hca with h | h
    · exact hab h
    · exact hbc h

theorem getI_list_zero {α : Type} (a : α) (l : List α) : getI (a :: l) 0 = some a := by
  rw [getI_eq_getElem? _ _ (le_refl _)]
  simp

theorem getI_list_one {α : Type} (a b : α) (l : List α) : getI (a :: b :: l) 1 = some b := by
  rw [getI_eq_getElem? _ _ (by omega)]
  simp

theorem getI_list_two {α : Type} (a b c : α) (l : List α) :
    getI (a :: b :: c :: l) 2 = some c := by
  rw [getI_eq_getElem? _ _ (by omega)]
  simp

theorem getI_floatCoord (dim : Int) (hd0 : 0 ≤ dim) (hd1 : dim < 3) (a : FloatParticle) :
    FloatVec3.getI a.X dim = some (a.coord dim) := by
  have hd : dim = 0 ∨ dim = 1 ∨ dim = 2 := by omega
  rcases hd with e | e | e <;> subst e <;> rfl

/-- The function `sort3Index` on keys none of which is a NaN: it returns its three
indices rearranged, by decreasing key. -/
theorem sort3Index_spec (key : Int → F32) (ix iy iz : Int) (hx : key ix ≠ F32.nan)
    (hy : key iy ≠ F32.nan) (hz : key iz ≠ F32.nan) :
    [(sort3Index (key ix) (key iy) (key iz) ix iy iz).1,
      (sort3Index (key ix) (key iy) (key iz) ix iy iz).2.1,
      (sort3Index (key ix) (key iy) (key iz) ix iy iz).2.2].Perm [ix, iy, iz] ∧
    F32.le (key (sort3Index (key ix) (key iy) (key iz) ix iy iz).2.2)
      (key (sort3Index (key ix) (key iy) (key iz) ix iy iz).2.1) = true ∧
    F32.le (key (sort3Index (key ix) (key iy) (key iz) ix iy iz).2.1)
      (key (sort3Index (key ix) (key iy) (key iz) ix iy iz).1) = true := by
  unfold sort3Index
  split_ifs with h1 h2 h3 h4 h5 <;> simp only [F32.gt] at * <;>
    refine ⟨?_, ?_, ?_⟩ <;>
    first
    | exact F32_le_of_lt _ _ (by assumption)
    | exact F32_le_of_not_lt _ _ (by assumption) (by assumption) (by assumption)
    | exact List.Perm.refl _
    | exact List.Perm.swap _ _ _
    | exact List.Perm.cons _ (List.Perm.swap _ _ _)
    | exact (List.Perm.swap _ _ _).trans (List.Perm.cons _ (List.Perm.swap _ _ _))
    | exact (List.Perm.cons _ (List.Perm.swap _ _ _)).trans (List.Perm.swap _ _ _)
    | exact ((List.Perm.swap _ _ _).trans (List.Perm.cons _ (List.Perm.swap _ _ _))).trans
        (List.Perm.swap _ _ _)

/-- The library sort behind `SortParticles`, for a comparator that reads the key `key`
and a slice without a NaN key. -/
theorem sortFunc_sorts
    (sortFunc : (FloatParticle → FloatParticle → Int) → List FloatParticle →
      List FloatParticle)
    (hsf : SortFuncContract sortFunc) (cmp : FloatParticle → FloatParticle → Int)
    (key : FloatParticle → F32)
    (h : ∀ a b, cmp a b =
      if F32.lt (key a) (key b) then (-1 : Int) else if F32.gt (key a) (key b) then 1 else 0)
    (p : List FloatParticle) (hn : ∀ a ∈ p, key a ≠ F32.nan) :
    (sortFunc cmp p).Perm p ∧
    List.Chain' (fun a b => F32.le (key a) (key b) = true) (sortFunc cmp p) := by
  obtain ⟨hperm, hchain⟩ := hsf cmp p (strictWeakOn_of_key cmp key h p hn)
  refine ⟨hperm, ?_⟩
  have hmem : ∀ a ∈ sortFunc cmp p, key a ≠ F32.nan := fun a ha => hn a (hperm.subset ha)
  revert hchain hmem
  generalize sortFunc cmp p = q
  intro hchain hmem
  induction q with
  | nil => exact List.chain'_nil
  | cons a q ih =>
    cases q with
    | nil => exact List.chain'_singleton a
    | cons b q =>
      rw [List.chain'_cons] at hchain ⊢
      refine ⟨?_, ih hchain.2 (fun x hx => hmem x (List.mem_cons_of_mem _ hx))⟩
      apply F32_le_of_not_lt _ _ (hmem a (List.mem_cons_self _ _))
        (hmem b (List.mem_cons_of_mem _ (List.mem_cons_self _ _)))
      intro hlt
      apply hchain.1
      rw [h, cmpKey_neg_iff]
      exact hlt

/-- The method `SortParticles` for `dim` in `{0, 1, 2}` on a slice without a NaN for the
coordinate `dim`: the slice is rearranged and then sorted ascending along `dim`. -/
theorem sortParticles_spec
    (sortFunc : (FloatParticle → FloatParticle → Int) → List FloatParticle →
      List FloatParticle)
    (hsf : SortFuncContract sortFunc) (p : List FloatParticle) (dim : Int) (hd0 : 0 ≤ dim)
    (hd1 : dim < 3) (hn : NoNaNAlong dim p) :
    ∃ q, Pairer.SortParticles sortFunc p dim = some q ∧ q.Perm p ∧
      List.Chain' (fun a b => F32.le (a.coord dim) (b.coord dim) = true) q := by
  rcases p with _ | ⟨a, _ | ⟨b, _ | ⟨c, _ | ⟨d, l⟩⟩⟩⟩
  · exact ⟨[], rfl, List.Perm.refl _, List.chain'_nil⟩
  · exact ⟨[a], rfl, List.Perm.refl _, List.chain'_singleton a⟩
  · have ha : a.coord dim ≠ F32.nan := hn a (by simp)
    have hb : b.coord dim ≠ F32.nan := hn b (by simp)
    simp only [Pairer.SortParticles, getI_floatCoord dim hd0 hd1]
    by_cases h : F32.gt (a.coord dim) (b.coord dim) = true
    · rw [if_pos h]
      refine ⟨_, rfl, List.Perm.swap _ _ _, ?_⟩
      rw [List.chain'_cons]
      exact ⟨F32_le_of_lt _ _ h, List.chain'_singleton a⟩
    · rw [if_neg h]
      refine ⟨_, rfl, List.Perm.refl _, ?_⟩
      rw [List.chain'_cons]
      exact ⟨F32_le_of_not_lt _ _ ha hb h, List.chain'_singleton b⟩
  · have ha : a.coord dim ≠ F32.nan := hn a (by simp)
    have hb : b.coord dim ≠ F32.nan := hn b (by simp)
    have hc : c.coord dim ≠ F32.nan := hn c (by simp)
    simp only [Pairer.SortParticles, getI_floatCoord dim hd0 hd1]
    unfold sort3Index
    split_ifs with h1 h2 h3 h4 h5 <;>
      simp only [F32.gt, getI_list_zero, getI_list_one, getI_list_two] at * <;>
      refine ⟨_, rfl, ?_, ?_⟩ <;>
      first
      | exact List.Perm.refl _
      | exact List.Perm.swap _ _ _
      | exact List.Perm.cons _ (List.Perm.swap _ _ _)
      | exact (List.Perm.swap _ _ _).trans (List.Perm.cons _ (List.Perm.swap _ _ _))
      | exact (List.Perm.cons _ (List.Perm.swap _ _ _)).trans (List.Perm.swap _ _ _)
      | exact ((List.Perm.swap _ _ _).trans (List.Perm.cons _ (List.Perm.swap _ _ _))).trans
          (List.Perm.swap _ _ _)
      | (rw [List.chain'_cons, List.chain'_cons]
         refine ⟨?_, ?_, List.chain'_singleton _⟩ <;>
         first
         | exact F32_le_of_lt _ _ (by assumption)
         | exact F32_le_of_not_lt _ _ (by assumption) (by assumption) (by assumption))
  · have hd : dim = 0 ∨ dim = 1 ∨ dim = 2 := by omega
    rcases hd with e | e | e <;> subst e
    · obtain ⟨h1, h2⟩ := sortFunc_sorts sortFunc hsf ParticleXCmp (fun a => a.X.x0)
        (fun _ _ => rfl) (a :: b :: c :: d :: l) hn
      exact ⟨_, rfl, h1, h2⟩
    · obtain ⟨h1, h2⟩ := sortFunc_sorts sortFunc hsf ParticleYCmp (fun a => a.X.x1)
        (fun _ _ => rfl) (a :: b :: c :: d :: l) hn
      exact ⟨_, rfl, h1, h2⟩
    · obtain ⟨h1, h2⟩ := sortFunc_sorts sortFunc hsf ParticleZCmp (fun a => a.X.x2)
        (fun _ _ => rfl) (a :: b :: c :: d :: l) hn
      exact ⟨_, rfl, h1, h2⟩

/-! ## Friends of friends: the linking loop -/

theorem union_returns {n : Int} {edges : List (Int × Int)} {uf : UnionFinder}
    (hn : n < 2 ^ 31) (h : UnionFinder.Reachable n edges uf) (i j : Int)
    (hi0 : 0 ≤ i) (hi1 : i < n) (hj0 : 0 ≤ j) (hj1 : j < n) :
    ∃ uf1, uf.Union i j = some uf1 ∧ UnionFinder.Reachable n ((i, j) :: edges) uf1 := by
  obtain ⟨rho, d, hv⟩ := reachable_valid hn h
  obtain ⟨uf1, -, -, e, -⟩ := Union_spec hv hn i j hi0 hi1 hj0 hj1
  exact ⟨uf1, e, UnionFinder.Reachable.union edges uf uf1 i j h hi0 hi1 hj0 hj1 e⟩

/-- The unions of one point with the indices of a list: the state stays reachable, and
the pairs handed to `Union` are those of the point with the other indices of the
list. -/
theorem link_fold_spec {n : Int} (hn : n < 2 ^ 31) (i : Int) (hi0 : 0 ≤ i) (hi1 : i < n) :
    ∀ (l : List Int) (uf : UnionFinder) (edges : List (Int × Int)),
    UnionFinder.Reachable n edges uf → (∀ j ∈ l, 0 ≤ j ∧ j < n) →
    ∃ uf1 edges1,
      l.foldlM (fun acc j => if i = j then some acc else acc.Union i j) uf = some uf1 ∧
      UnionFinder.Reachable n edges1 uf1 ∧
      ∀ e : Int × Int, e ∈ edges1 ↔ e ∈ edges ∨ (e.1 = i ∧ e.2 ∈ l ∧ e.2 ≠ i) := by
  intro l
  induction l with
  | nil =>
    intro uf edges hr _
    exact ⟨uf, edges, rfl, hr, fun e => by simp⟩
  | cons j l ih =>
    intro uf edges hr hl
    obtain ⟨hj0, hj1⟩ := hl j (List.mem_cons_self _ _)
    by_cases hij : i = j
    · obtain ⟨uf1, edges1, e1, hr1, hm1⟩ := ih uf edges hr
        (fun k hk => hl k (List.mem_cons_of_mem _ hk))
      refine ⟨uf1, edges1, ?_, hr1, ?_⟩
      · rw [List.foldlM_cons, if_pos hij]
        exact e1
      · intro e
        rw [hm1 e]
        constructor
        · rintro (h | ⟨h1, h2, h3⟩)
          · exact Or.inl h
          · exact Or.inr ⟨h1, List.mem_cons_of_mem _ h2, h3⟩
        · rintro (h | ⟨h1, h2, h3⟩)
          · exact Or.inl h
          · rcases List.mem_cons.mp h2 with h4 | h4
            · exact absurd (h4.trans hij.symm) h3
            · exact Or.inr ⟨h1, h4, h3⟩
    · obtain ⟨uf0, e0, hr0⟩ := union_returns hn hr i j hi0 hi1 hj0 hj1
      obtain ⟨uf1, edges1, e1, hr1, hm1⟩ := ih uf0 ((i, j) :: edges) hr0
        (fun k hk => hl k (List.mem_cons_of_mem _ hk))
      refine ⟨uf1, edges1, ?_, hr1, ?_⟩
      · rw [List.foldlM_cons, if_neg hij, e0]
        exact e1
      · intro e
        rw [hm1 e, List.mem_cons]
        constructor
        · rintro ((h | h) | ⟨h1, h2, h3⟩)
          · rw [h]
            exact Or.inr ⟨rfl, List.mem_cons_self _ _, fun hc => hij hc.symm⟩
          · exact Or.inl h
          · exact Or.inr ⟨h1, List.mem_cons_of_mem _ h2, h3⟩
        · rintro (h | ⟨h1, h2, h3⟩)
          · exact Or.inl (Or.inr h)
          · rcases List.mem_cons.mp h2 with h4 | h4
            · exact Or.inl (Or.inl (Prod.ext h1 h4))
            · exact Or.inr ⟨h1, h4, h3⟩

/-- The first loop of `FOF`: it returns a reachable state, and the pairs handed to
`Union` are the pairs of different points that the finder reports. -/
theorem link_loop_spec (find : Vec3 → List Int) (within : Vec3 → Vec3 → Prop)
    (x : List Vec3) (hN : (x.length : Int) < 2 ^ 31) (hf : FinderExact find within x)
    (uf0 : UnionFinder) (h0 : NewUnionFinder (x.length : Int) = some uf0) :
    ∃ uf1 edges, forRange 0 (x.length : Int) (FOF.link find x) uf0 = some uf1 ∧
      UnionFinder.Reachable (x.length : Int) edges uf1 ∧
      ∀ e : Int × Int, e ∈ edges ↔
        e.1 ≠ e.2 ∧ ∃ xa, getI x e.1 = some xa ∧ e.2 ∈ find xa := by
  obtain ⟨uf1, e, edges, hr, hm⟩ := forRange_inv 0 (x.length : Int) (FOF.link find x)
    (fun k uf => ∃ edges, UnionFinder.Reachable (x.length : Int) edges uf ∧
      ∀ e : Int × Int, e ∈ edges ↔
        e.1 < k ∧ e.1 ≠ e.2 ∧ ∃ xa, getI x e.1 = some xa ∧ e.2 ∈ find xa)
    uf0 (by omega)
    ⟨[], UnionFinder.Reachable.init uf0 h0, fun e => by
      constructor
      · intro h; cases h
      · rintro ⟨h1, -, xa, h2, -⟩
        have := (getI_lt_length h2).1
        omega⟩
    (by
      intro k uf hk0 hk1 hinv
      obtain ⟨edges, hr, hm⟩ := hinv
      obtain ⟨xk, hxk⟩ := getI_of_lt x k hk0 hk1
      obtain ⟨uf1, edges1, e1, hr1, hm1⟩ := link_fold_spec hN k hk0 hk1 (find xk) uf edges hr
        (by
          intro j hj
          obtain ⟨xj, hxj, -⟩ := (hf xk j).mp hj
          exact getI_lt_length hxj)
      refine ⟨uf1, ?_, edges1, hr1, ?_⟩
      · delta FOF.link
        simp only [hxk]
        exact e1
      · intro e
        rw [hm1 e, hm e]
        constructor
        · rintro (⟨h1, h2, h3⟩ | ⟨h1, h2, h3⟩)
          · exact ⟨by omega, h2, h3⟩
          · exact ⟨by omega, fun hc => h3 (hc.symm.trans h1), xk, by rw [h1]; exact hxk, h2⟩
        · rintro ⟨h1, h2, xa, h3, h4⟩
          by_cases hc : e.1 = k
          · rw [hc, hxk] at h3
            cases h3
            exact Or.inr ⟨hc, h4, fun hd => h2 (hc.trans hd.symm)⟩
          · exact Or.inl ⟨by omega, h2, xa, h3, h4⟩)
  refine ⟨uf1, edges, e, hr, ?_⟩
  intro e1
  rw [hm e1]
  constructor
  · rintro ⟨-, h2, h3⟩
    exact ⟨h2, h3⟩
  · rintro ⟨h2, xa, h3, h4⟩
    exact ⟨(getI_lt_length h3).2, h2, xa, h3, h4⟩

/-- The pairs handed to `Union` connect exactly the chain-connected points. -/
theorem connected_iff_chain (find : Vec3 → List Int) (within : Vec3 → Vec3 → Prop)
    (x : List Vec3) (hf : FinderExact find within x) (edges : List (Int × Int))
    (hm : ∀ e : Int × Int, e ∈ edges ↔
      e.1 ≠ e.2 ∧ ∃ xa, getI x e.1 = some xa ∧ e.2 ∈ find xa) (a b : Int) :
    Connected edges a b ↔ ChainConnected within x a b := by
  unfold Connected ChainConnected
  constructor
  · intro h
    apply Relation.EqvGen.mono _ h
    intro c d hcd
    obtain ⟨-, xc, hxc, hd⟩ := (hm (c, d)).mp hcd
    obtain ⟨xd, hxd, hw⟩ := (hf xc d).mp hd
    exact ⟨xc, xd, hxc, hxd, hw⟩
  · intro h
    induction h with
    | rel c d hcd =>
      obtain ⟨xc, xd, hxc, hxd, hw⟩ := hcd
      by_cases e : c = d
      · rw [e]
        exact Relation.EqvGen.refl d
      · exact Relation.EqvGen.rel c d ((hm (c, d)).mpr ⟨e, xc, hxc, (hf xc d).mpr ⟨xd, hxd, hw⟩⟩)
    | refl c => exact Relation.EqvGen.refl c
    | symm c d _ ih => exact Relation.EqvGen.symm c d ih
    | trans c d f _ _ ih1 ih2 => exact Relation.EqvGen.trans c d f ih1 ih2
/-! ## Friends of friends: the labels -/

/-- The second loop of `FOF` on a valid state: every point gets its root as label, or
-1 when the size of its root is below `nMin32`. -/
theorem label_loop_spec (N : Nat) (hN : (N : Int) < 2 ^ 31) (nMin32 : Int)
    (edges : List (Int × Int)) (uf : UnionFinder) (rho : Int → Int) (d : Int → Nat)
    (hv : UnionFinder.Valid (N : Int) edges uf rho d) :
    ∃ st, forRange 0 (N : Int) (FOF.label nMin32) (List.replicate N 0, uf) = some st ∧
      st.1.length = N ∧
      ∀ i : Int, 0 ≤ i → i < N →
        getI st.1 i =
          some (if classCount (N : Int) rho (rho i) < nMin32 then -1 else rho i) := by
  obtain ⟨st, e, hl, -, hg⟩ := forRange_inv 0 (N : Int) (FOF.label nMin32)
    (fun k st => st.1.length = N ∧ UnionFinder.Valid (N : Int) edges st.2 rho d ∧
      ∀ i : Int, 0 ≤ i → i < k →
        getI st.1 i =
          some (if classCount (N : Int) rho (rho i) < nMin32 then -1 else rho i))
    (List.replicate N 0, uf) (by omega)
    ⟨List.length_replicate _ _, hv, fun i h0 h1 => by omega⟩
    (by
      intro k st hk0 hk1 hinv
      obtain ⟨hl, hv1, hg⟩ := hinv
      obtain ⟨uf1, e1, hv2, -, -⟩ := Find_spec hv1 k hk0 hk1
      obtain ⟨-, -, -, ⟨hr0, hr1⟩, -, hfix, -, -⟩ := hv2.1.2 k hk0 hk1
      have hsz := hv2.2.1.2.1 (rho k) hr0 hr1 hfix
      have hkl : k < (st.1.length : Int) := by omega
      have hkl2 : k < ((st.1.set k.toNat (rho k)).length : Int) := by
        rw [List.length_set]; exact hkl
      delta FOF.label
      simp only [wrap32_of_nonneg hk0 (by omega), e1, setI_of_lt st.1 k (rho k) hk0 hkl, hsz]
      by_cases c : classCount (N : Int) rho (rho k) < nMin32
      · rw [if_pos c, setI_of_lt _ k (-1) hk0 hkl2]
        refine ⟨_, rfl, by simp only [List.length_set]; exact hl, hv2, ?_⟩
        intro i hi0 hi1
        simp only []
        rw [getI_set _ _ _ _ hk0 hkl2 hi0]
        by_cases ei : i = k
        · rw [if_pos ei, ei, if_pos c]
        · rw [if_neg ei, getI_set _ _ _ _ hk0 hkl hi0, if_neg ei]
          exact hg i hi0 (by omega)
      · rw [if_neg c]
        refine ⟨_, rfl, by simp only [List.length_set]; exact hl, hv2, ?_⟩
        intro i hi0 hi1
        simp only []
        rw [getI_set _ _ _ _ hk0 hkl hi0]
        by_cases ei : i = k
        · rw [if_pos ei, ei, if_neg c]
        · rw [if_neg ei]
          exact hg i hi0 (by omega))
  exact ⟨st, e, hl, hg⟩

/-- The third loop of `FOF`, when the finder only reports indices of `groups`: a probe
gets -1 when the finder reports nothing, and else the label of the first index. -/
theorem probe_loop_spec (find : Vec3 → List Int) (cen : List Vec3) (groups : List Int)
    (hfind : ∀ (q : Vec3) (j : Int), j ∈ find q → 0 ≤ j ∧ j < groups.length) :
    ∃ cg, forRange 0 (cen.length : Int) (FOF.probe find cen groups)
        (List.replicate cen.length 0) = some cg ∧
      cg.length = cen.length ∧
      ∀ c : Int, 0 ≤ c → c < cen.length → ∃ q, getI cen c = some q ∧
        getI cg c = (match find q with
          | [] => some (-1)
          | k :: _ => getI groups k) ∧ ∃ g, getI cg c = some g := by
  obtain ⟨cg, e, hl, hg⟩ := forRange_inv 0 (cen.length : Int) (FOF.probe find cen groups)
    (fun k cg => cg.length = cen.length ∧
      ∀ c : Int, 0 ≤ c → c < k → ∃ q, getI cen c = some q ∧
        getI cg c = (match find q with
          | [] => some (-1)
          | k :: _ => getI groups k) ∧ ∃ g, getI cg c = some g)
    (List.replicate cen.length 0) (by omega)
    ⟨List.length_replicate _ _, fun c h0 h1 => by omega⟩
    (by
      intro k cg hk0 hk1 hinv
      obtain ⟨hl, hg⟩ := hinv
      obtain ⟨q, hq⟩ := getI_of_lt cen k hk0 hk1
      have hkl : k < (cg.length : Int) := by omega
      -- the value written for the probe `k`
      have hval : ∃ v, (match find q with
          | [] => some (-1)
          | j :: _ => getI groups j) = some v ∧
          FOF.probe find cen groups k cg = some (cg.set k.toNat v) := by
        delta FOF.probe
        simp only [hq]
        cases hfq : find q with
        | nil => exact ⟨-1, rfl, setI_of_lt cg k (-1) hk0 hkl⟩
        | cons j rest =>
          obtain ⟨hj0, hj1⟩ := hfind q j (by rw [hfq]; exact List.mem_cons_self _ _)
          obtain ⟨g, hg1⟩ := getI_of_lt groups j hj0 hj1
          simp only [hg1]
          exact ⟨g, rfl, setI_of_lt cg k g hk0 hkl⟩
      obtain ⟨v, hv1, hv2⟩ := hval
      refine ⟨cg.set k.toNat v, hv2, by rw [List.length_set]; exact hl, ?_⟩
      intro c hc0 hc1
      rw [getI_set _ _ _ _ hk0 hkl hc0]
      by_cases ec : c = k
      · rw [if_pos ec, ec]
        exact ⟨q, hq, hv1.symm, v, rfl⟩
      · rw [if_neg ec]
        exact hg c hc0 (by omega))
  exact ⟨cg, e, hl, hg⟩
theorem wrap32_of_fits {x : Int} (h0 : -2 ^ 31 ≤ x) (h1 : x < 2 ^ 31) : wrap32 x = x := by
  unfold wrap32
  norm_num at h0 h1 ⊢
  omega

theorem chain_range (within : Vec3 → Vec3 → Prop) (x : List Vec3) (a b : Int)
    (h : ChainConnected within x a b) :
    (0 ≤ a ∧ a < x.length) ↔ (0 ≤ b ∧ b < x.length) := by
  unfold ChainConnected at h
  induction h with
  | rel c d hcd =>
    obtain ⟨xc, xd, hxc, hxd, -⟩ := hcd
    exact ⟨fun _ => getI_lt_length hxd, fun _ => getI_lt_length hxc⟩
  | refl c => exact Iff.rfl
  | symm c d _ ih => exact ih.symm
  | trans c d f _ _ ih1 ih2 => exact ih1.trans ih2

/-- The indices of a class of the root map, without repetition; their number is the
class count. -/
theorem class_list (N : Nat) (rho : Int → Int) (r : Int) :
    ∃ comp : List Int, comp.Nodup ∧ ((comp.length : Int) = classCount (N : Int) rho r) ∧
      ∀ k : Int, k ∈ comp ↔ (0 ≤ k ∧ k < N) ∧ rho k = r := by
  refine ⟨((List.range N).filter (fun (m : Nat) => decide (rho (Int.ofNat m) = r))).map
    Int.ofNat, ?_, ?_, ?_⟩
  · apply List.Nodup.map _ ((List.nodup_range N).filter _)
    intro a b hab
    exact Int.ofNat.inj hab
  · unfold classCount
    rw [List.length_map, Int.toNat_ofNat]
  · intro k
    rw [List.mem_map]
    constructor
    · rintro ⟨m, hm, rfl⟩
      rw [List.mem_filter, List.mem_range, decide_eq_true_eq] at hm
      refine ⟨⟨Int.ofNat_nonneg m, ?_⟩, hm.2⟩
      simp only [Int.ofNat_eq_coe]
      omega
    · rintro ⟨⟨h0, h1⟩, h2⟩
      refine ⟨k.toNat, ?_, ?_⟩
      · rw [List.mem_filter, List.mem_range, decide_eq_true_eq]
        refine ⟨by omega, ?_⟩
        simp only [Int.ofNat_eq_coe, Int.toNat_of_nonneg h0]
        exact h2
      · simp only [Int.ofNat_eq_coe, Int.toNat_of_nonneg h0]
/-- The function `FOF` on fewer than `2^31` points with an exact finder: it returns, the
labels are the roots of the union-find state after the first loop, whose classes are
the chain-connected components, or
-1 where the class has fewer than `int32(nMin)` points, and a probe gets -1 or the
label of the first point that the finder reports. -/
theorem FOF_spec (find : Vec3 → List Int) (within : Vec3 → Vec3 → Prop)
    (x cen : List Vec3) (nMin : Int) (hN : (x.length : Int) < 2 ^ 31)
    (hf : FinderExact find within x) :
    ∃ (rho : Int → Int) (d : Int → Nat) (edges : List (Int × Int)) (uf0 uf1 : UnionFinder)
        (groups cenGroups : List Int),
      FOF find x cen nMin = some (groups, cenGroups) ∧
      NewUnionFinder (x.length : Int) = some uf0 ∧
      forRange 0 (x.length : Int) (FOF.link find x) uf0 = some uf1 ∧
      UnionFinder.Valid (x.length : Int) edges uf1 rho d ∧
      groups.length = x.length ∧ cenGroups.length = cen.length ∧
      (∀ i : Int, 0 ≤ i → i < x.length →
        (0 ≤ rho i ∧ rho i < x.length) ∧ rho (rho i) = rho i) ∧
      (∀ i j : Int, 0 ≤ i → i < x.length → 0 ≤ j → j < x.length →
        (rho i = rho j ↔ ChainConnected within x i j)) ∧
      (∀ i : Int, 0 ≤ i → i < x.length →
        getI groups i = some (if classCount (x.length : Int) rho (rho i) < wrap32 nMin
          then -1 else rho i)) ∧
      (∀ c : Int, 0 ≤ c → c < cen.length → ∃ q, getI cen c = some q ∧
        getI cenGroups c = (match find q with
          | [] => some (-1)
          | k :: _ => getI groups k) ∧ ∃ g, getI cenGroups c = some g) := by
  have hw : wrap32 (x.length : Int) = (x.length : Int) :=
    wrap32_of_nonneg (Int.ofNat_nonneg _) hN
  obtain ⟨uf0, e0⟩ := newUnionFinder_returns (x.length : Int) (Int.ofNat_nonneg _)
  obtain ⟨uf1, edges, e1, hr, hm⟩ := link_loop_spec find within x hN hf uf0 e0
  obtain ⟨rho, d, hv⟩ := reachable_valid hN hr
  obtain ⟨st, e2, hl, hg⟩ := label_loop_spec x.length hN (wrap32 nMin) edges uf1 rho d hv
  obtain ⟨cg, e3, hcl, hcg⟩ := probe_loop_spec find cen st.1 (by
    intro q j hj
    obtain ⟨xj, hxj, -⟩ := (hf q j).mp hj
    rw [hl]
    exact getI_lt_length hxj)
  refine ⟨rho, d, edges, uf0, uf1, st.1, cg, ?_, e0, e1, hv, hl, hcl, ?_, ?_, hg, hcg⟩
  · delta FOF
    rw [hw, e0, Option.some_bind, e1, Option.some_bind, e2, Option.some_bind, e3,
      Option.some_bind]
  · intro i hi0 hi1
    obtain ⟨-, -, -, hrr, -, -, -, -⟩ := hv.1.2 i hi0 hi1
    exact ⟨hrr, (forest_root_fixed hv.1 i hi0 hi1).1⟩
  · intro i j hi0 hi1 hj0 hj1
    rw [connected_iff_of_valid hv i j hi0 hi1 hj0 hj1]
    exact connected_iff_chain find within x hf edges hm i j

/-! ## The sorting claim -/

/-- C16, amended: for every `dim` in `{0, 1, 2}` and every list `p` of points, of any
length, none of which has a NaN for its coordinate `dim`, `SortParticles(p, dim)` returns
and leaves in `p` a permutation of its contents that is sorted ascending along the
coordinate `dim`: `p[k].X[dim] <= p[k+1].X[dim]` for all `k`. The library sort
`slices.SortFunc` enters through its contract. And for three keys none of which is a
NaN, `sort3Index` returns its three indices rearranged so that the key of `mini` is at
most the key of `midi`, which is at most the key of `maxi`. -/
theorem sort_particles_sorts_along_dim
    (sortFunc : (FloatParticle → FloatParticle → Int) → List FloatParticle →
      List FloatParticle)
    (hsf : SortFuncContract sortFunc) (p : List FloatParticle) (dim : Int) (hd0 : 0 ≤ dim)
    (hd1 : dim < 3) (hn : NoNaNAlong dim p) (key : Int → F32) (ix iy iz : Int)
    (hx : key ix ≠ F32.nan) (hy : key iy ≠ F32.nan) (hz : key iz ≠ F32.nan) :
    (∃ q, Pairer.SortParticles sortFunc p dim = some q ∧ q.Perm p ∧
      q.length = p.length ∧
      ∀ (k : Int) (a b : FloatParticle), getI q k = some a → getI q (k + 1) = some b →
        F32.le (a.coord dim) (b.coord dim) = true) ∧
    [(sort3Index (key ix) (key iy) (key iz) ix iy iz).1,
      (sort3Index (key ix) (key iy) (key iz) ix iy iz).2.1,
      (sort3Index (key ix) (key iy) (key iz) ix iy iz).2.2].Perm [ix, iy, iz] ∧
    F32.le (key (sort3Index (key ix) (key iy) (key iz) ix iy iz).2.2)
      (key (sort3Index (key ix) (key iy) (key iz) ix iy iz).2.1) = true ∧
    F32.le (key (sort3Index (key ix) (key iy) (key iz) ix iy iz).2.1)
      (key (sort3Index (key ix) (key iy) (key iz) ix iy iz).1) = true := by
  obtain ⟨q, e, hp, hs⟩ := sortParticles_spec sortFunc hsf p dim hd0 hd1 hn
  exact ⟨⟨q, e, hp, hp.length_eq, chain_getI _ q hs⟩, sort3Index_spec key ix iy iz hx hy hz⟩

/-- C16, witness: the five points of `shuffledPoints`, two of them at infinity, along
the first axis, with the insertion sort for the library sort; and the keys 3, 1, 2 for
`sort3Index`. -/
theorem sort_particles_sorts_along_dim_witness :
    NoNaNAlong 0 shuffledPoints ∧
    (∃ q, Pairer.SortParticles insertionSortFunc shuffledPoints 0 = some q ∧
      q.Perm shuffledPoints ∧ q.length = shuffledPoints.length ∧
      ∀ (k : Int) (a b : FloatParticle), getI q k = some a → getI q (k + 1) = some b →
        F32.le (a.coord 0) (b.coord 0) = true) ∧
    [(sort3Index (F32.fin 3) (F32.fin 1) (F32.fin 2) 0 1 2).1,
      (sort3Index (F32.fin 3) (F32.fin 1) (F32.fin 2) 0 1 2).2.1,
      (sort3Index (F32.fin 3) (F32.fin 1) (F32.fin 2) 0 1 2).2.2].Perm [0, 1, 2] ∧
    F32.le
      ((fun i : Int => if i = 0 then F32.fin 3 else if i = 1 then F32.fin 1 else F32.fin 2)
        (sort3Index (F32.fin 3) (F32.fin 1) (F32.fin 2) 0 1 2).2.2)
      ((fun i : Int => if i = 0 then F32.fin 3 else if i = 1 then F32.fin 1 else F32.fin 2)
        (sort3Index (F32.fin 3) (F32.fin 1) (F32.fin 2) 0 1 2).2.1) = true ∧
    F32.le
      ((fun i : Int => if i = 0 then F32.fin 3 else if i = 1 then F32.fin 1 else F32.fin 2)
        (sort3Index (F32.fin 3) (F32.fin 1) (F32.fin 2) 0 1 2).2.1)
      ((fun i : Int => if i = 0 then F32.fin 3 else if i = 1 then F32.fin 1 else F32.fin 2)
        (sort3Index (F32.fin 3) (F32.fin 1) (F32.fin 2) 0 1 2).1) = true :=
  ⟨by decide,
    sort_particles_sorts_along_dim insertionSortFunc insertionSortFunc_contract
      shuffledPoints 0 (by decide) (by decide) (by decide)
      (fun i : Int => if i = 0 then F32.fin 3 else if i = 1 then F32.fin 1 else F32.fin 2)
      0 1 2 (fun h => F32.noConfusion h) (fun h => F32.noConfusion h)
      (fun h => F32.noConfusion h)⟩

/-- C16, counterexample: the three points of `nanPoints`, whose first coordinates are 2,
NaN and 1. Every comparison with the NaN is false, so `sort3Index(2, NaN, 1, 0, 1, 2)`
returns `(2, 1, 0)`, naming the key 1 the maximum and the key 2 the minimum, and
`SortParticles` leaves the slice as it is, which is not sorted: 2 is not at most NaN,
and not at most 1 either. -/
theorem sort_particles_keeps_nan_slice_unsorted :
    nanPoints.map (FloatParticle.coord 0) = [F32.fin 2, F32.nan, F32.fin 1] ∧
    sort3Index (F32.fin 2) F32.nan (F32.fin 1) 0 1 2 = (2, 1, 0) ∧
    Pairer.SortParticles insertionSortFunc nanPoints 0 = some nanPoints ∧
    F32.le (F32.fin 2) F32.nan = false ∧ F32.le (F32.fin 2) (F32.fin 1) = false := by
  refine ⟨?_, ?_, ?_, ?_, ?_⟩ <;> with_unfolding_all decide

/-- The finder modelled from the spec is exact for its distance test. -/
theorem finder_find_exact (x : List Vec3) (r : ℚ) :
    FinderExact (Finder.Find x r) (fun q a => withinLength r q a = true) x := by
  intro q j
  unfold Finder.Find
  rw [List.mem_filter, mem_intRange]
  constructor
  · rintro ⟨-, h⟩
    cases hx : getI x j with
    | none => rw [hx] at h; cases h
    | some a => rw [hx] at h; exact ⟨a, rfl, h⟩
  · rintro ⟨a, ha, h⟩
    refine ⟨getI_lt_length ha, ?_⟩
    rw [ha]
    exact h

/-! ## The friends-of-friends claims -/

/-- C17, amended: assuming the neighbour finder returns, for a query position, exactly
the indices of the points within the linking length of it, for every input `x` of
`N < 2^31` points and every `nMin` of the `int32` range, `FOF` returns `groups` of length
`N` such that `groups[i] == -1` exactly when the chain-connected component of the point
`i` has fewer than `nMin` points; a label that is not -1 is `uf.Find(i)` on the
union-find state after the linking loop, and two labels that are not -1 are equal
exactly when their points are in the same chain-connected component. -/
theorem fof_labels_are_components (find : Vec3 → List Int) (within : Vec3 → Vec3 → Prop)
    (x cen : List Vec3) (nMin : Int) (hN : (x.length : Int) < 2 ^ 31)
    (hn0 : -2 ^ 31 ≤ nMin) (hn1 : nMin < 2 ^ 31) (hf : FinderExact find within x) :
    ∃ (groups cenGroups : List Int) (uf0 uf1 : UnionFinder),
      FOF find x cen nMin = some (groups, cenGroups) ∧ groups.length = x.length ∧
      NewUnionFinder (x.length : Int) = some uf0 ∧
      forRange 0 (x.length : Int) (FOF.link find x) uf0 = some uf1 ∧
      ∀ i : Int, 0 ≤ i → i < x.length → ∃ (g : Int) (comp : List Int),
        getI groups i = some g ∧ comp.Nodup ∧
        (∀ k : Int, k ∈ comp ↔ ChainConnected within x i k) ∧
        (g = -1 ↔ (comp.length : Int) < nMin) ∧
        (g ≠ -1 → (∃ uf2, uf1.Find i = some (g, uf2)) ∧
          ∀ (j g2 : Int), getI groups j = some g2 → g2 ≠ -1 →
            (g = g2 ↔ ChainConnected within x i j)) := by
  obtain ⟨rho, d, edges, uf0, uf1, groups, cg, e, e0, e1, hv, hl, -, hrho, hconn, hg, -⟩ :=
    FOF_spec find within x cen nMin hN hf
  have hw := wrap32_of_fits hn0 hn1
  refine ⟨groups, cg, uf0, uf1, e, hl, e0, e1, ?_⟩
  intro i hi0 hi1
  obtain ⟨comp, hnd, hlen, hmem⟩ := class_list x.length rho (rho i)
  have hgi := hg i hi0 hi1
  rw [hw, ← hlen] at hgi
  have hri := (hrho i hi0 hi1).1
  refine ⟨_, comp, hgi, hnd, ?_, ?_, ?_⟩
  · intro k
    rw [hmem]
    constructor
    · rintro ⟨⟨hk0, hk1⟩, hk⟩
      exact (hconn i k hi0 hi1 hk0 hk1).mp hk.symm
    · intro hc
      have hr := (chain_range within x i k hc).mp ⟨hi0, hi1⟩
      exact ⟨hr, ((hconn i k hi0 hi1 hr.1 hr.2).mpr hc).symm⟩
  · by_cases h : (comp.length : Int) < nMin
    · rw [if_pos h]
      exact ⟨fun _ => h, fun _ => rfl⟩
    · rw [if_neg h]
      exact ⟨fun h1 => by omega, fun h1 => absurd h1 h⟩
  · by_cases h : (comp.length : Int) < nMin
    · rw [if_pos h]
      intro hne
      exact absurd rfl hne
    · rw [if_neg h]
      intro _
      obtain ⟨uf2, e2, -⟩ := Find_spec hv i hi0 hi1
      refine ⟨⟨uf2, e2⟩, ?_⟩
      intro j g2 hj hg2
      have hjr := getI_lt_length hj
      rw [hl] at hjr
      have hgj := hg j hjr.1 hjr.2
      rw [hj] at hgj
      have hg2eq : g2 = rho j := by
        by_cases h2 : classCount (x.length : Int) rho (rho j) < wrap32 nMin
        · rw [if_pos h2] at hgj
          exact absurd (Option.some.inj hgj) hg2
        · rw [if_neg h2] at hgj
          exact Option.some.inj hgj
      rw [hg2eq]
      exact hconn i j hi0 hi1 hjr.1 hjr.2

/-- C17, witness: the three points of `pairAndLoner` with the linking length 1 and
`nMin = 2`, for the finder modelled from the spec. -/
theorem fof_labels_are_components_witness :
    ∃ (groups cenGroups : List Int) (uf0 uf1 : UnionFinder),
      FOF (Finder.Find pairAndLoner 1) pairAndLoner [] 2 = some (groups, cenGroups) ∧
      groups.length = pairAndLoner.length ∧
      NewUnionFinder (pairAndLoner.length : Int) = some uf0 ∧
      forRange 0 (pairAndLoner.length : Int) (FOF.link (Finder.Find pairAndLoner 1) pairAndLoner)
        uf0 = some uf1 ∧
      ∀ i : Int, 0 ≤ i → i < pairAndLoner.length → ∃ (g : Int) (comp : List Int),
        getI groups i = some g ∧ comp.Nodup ∧
        (∀ k : Int, k ∈ comp ↔
          ChainConnected (fun q a => withinLength 1 q a = true) pairAndLoner i k) ∧
        (g = -1 ↔ (comp.length : Int) < 2) ∧
        (g ≠ -1 → (∃ uf2, uf1.Find i = some (g, uf2)) ∧
          ∀ (j g2 : Int), getI groups j = some g2 → g2 ≠ -1 →
            (g = g2 ↔
              ChainConnected (fun q a => withinLength 1 q a = true) pairAndLoner i j)) :=
  fof_labels_are_components (Finder.Find pairAndLoner 1)
    (fun q a => withinLength 1 q a = true) pairAndLoner [] 2 (by decide) (by decide)
    (by decide) (finder_find_exact pairAndLoner 1)

/-- C17, counterexample: one point, the linking length 1 and `nMin = 2^32`, for the
finder modelled from the spec (every exact finder returns the index 0 for the query at
the point itself). The component of the point has one point, fewer than `nMin`, but
`int32(nMin)` is 0 and the label is 0, not -1. -/
theorem fof_label_kept_for_wrapped_nmin :
    FOF (Finder.Find [⟨0, 0, 0⟩] 1) [⟨0, 0, 0⟩] [] (2 ^ 32) = some ([0], []) := by
  with_unfolding_all decide
/-- C18, amended: assuming an exact neighbour finder, for every input `x` of `N < 2^31`
points, every `nMin` of the `int32` range and every list `cen` of `M` probes, `FOF`
returns `cenGroups` of length `M` where, for each probe `c`, `cenGroups[c] == -1` if the
finder returns nothing for the probe (which is when no point is within the linking
length of it), and otherwise `cenGroups[c] == groups[k]` for the first index `k` the
finder returns, which is -1 exactly when the component of `k` has fewer than `nMin`
points; with zero points and zero probes both outputs are empty. -/
theorem fof_probes_take_first_neighbour (find : Vec3 → List Int)
    (within : Vec3 → Vec3 → Prop) (x cen : List Vec3) (nMin : Int)
    (hN : (x.length : Int) < 2 ^ 31) (hn0 : -2 ^ 31 ≤ nMin) (hn1 : nMin < 2 ^ 31)
    (hf : FinderExact find within x) :
    ∃ (groups cenGroups : List Int),
      FOF find x cen nMin = some (groups, cenGroups) ∧ groups.length = x.length ∧
      cenGroups.length = cen.length ∧
      (∀ c : Int, 0 ≤ c → c < cen.length → ∃ (q : Vec3) (g : Int),
        getI cen c = some q ∧ getI cenGroups c = some g ∧
        (find q = [] ↔ ∀ (j : Int) (xj : Vec3), getI x j = some xj → ¬ within q xj) ∧
        (find q = [] → g = -1) ∧
        ∀ (k : Int) (rest : List Int), find q = k :: rest →
          getI groups k = some g ∧ ∃ comp : List Int, comp.Nodup ∧
            (∀ m : Int, m ∈ comp ↔ ChainConnected within x k m) ∧
            (g = -1 ↔ (comp.length : Int) < nMin)) ∧
      (x = [] → cen = [] → groups = [] ∧ cenGroups = []) := by
  obtain ⟨rho, d, edges, uf0, uf1, groups, cg, e, -, -, -, hl, hcl, hrho, hconn, hg, hcg⟩ :=
    FOF_spec find within x cen nMin hN hf
  have hw := wrap32_of_fits hn0 hn1
  refine ⟨groups, cg, e, hl, hcl, ?_, ?_⟩
  · intro c hc0 hc1
    obtain ⟨q, hq, hm, g, hgc⟩ := hcg c hc0 hc1
    refine ⟨q, g, hq, hgc, ?_, ?_, ?_⟩
    · constructor
      · intro he j xj hxj hwi
        have : j ∈ find q := (hf q j).mpr ⟨xj, hxj, hwi⟩
        rw [he] at this
        cases this
      · intro hno
        apply List.eq_nil_iff_forall_not_mem.mpr
        intro j hj
        obtain ⟨xj, hxj, hwi⟩ := (hf q j).mp hj
        exact hno j xj hxj hwi
    · intro he
      rw [he, hgc] at hm
      exact Option.some.inj hm
    · intro k rest he
      rw [he, hgc] at hm
      have hm : some g = getI groups k := hm
      have hk : k ∈ find q := by rw [he]; exact List.mem_cons_self _ _
      obtain ⟨xk, hxk, -⟩ := (hf q k).mp hk
      obtain ⟨hk0, hk1⟩ := getI_lt_length hxk
      obtain ⟨comp, hnd, hlen, hmem⟩ := class_list x.length rho (rho k)
      have hgk := hg k hk0 hk1
      rw [hw, ← hlen, ← hm] at hgk
      have hrk := (hrho k hk0 hk1).1
      refine ⟨hm.symm, comp, hnd, ?_, ?_⟩
      · intro m
        rw [hmem]
        constructor
        · rintro ⟨⟨hm0, hm1⟩, hmk⟩
          exact (hconn k m hk0 hk1 hm0 hm1).mp hmk.symm
        · intro hc
          have hr := (chain_range within x k m hc).mp ⟨hk0, hk1⟩
          exact ⟨hr, ((hconn k m hk0 hk1 hr.1 hr.2).mpr hc).symm⟩
      · by_cases h : (comp.length : Int) < nMin
        · rw [if_pos h] at hgk
          exact ⟨fun _ => h, fun _ => Option.some.inj hgk⟩
        · rw [if_neg h] at hgk
          have hgr : g = rho k := Option.some.inj hgk
          exact ⟨fun h1 => by omega, fun h1 => absurd h1 h⟩
  · intro hx hc
    rw [hx] at hl
    rw [hc] at hcl
    exact ⟨List.eq_nil_of_length_eq_zero hl, List.eq_nil_of_length_eq_zero hcl⟩

/-- C18, witness: the three points of `pairAndLoner` with the linking length 1 and
`nMin = 2`, for the finder modelled from the spec, and two probes: one at the loner and
one far from all points. -/
theorem fof_probes_take_first_neighbour_witness :
    ∃ (groups cenGroups : List Int),
      FOF (Finder.Find pairAndLoner 1) pairAndLoner [⟨5, 0, 0⟩, ⟨9, 0, 0⟩] 2 =
        some (groups, cenGroups) ∧
      groups.length = pairAndLoner.length ∧
      cenGroups.length = ([⟨5, 0, 0⟩, ⟨9, 0, 0⟩] : List Vec3).length ∧
      (∀ c : Int, 0 ≤ c → c < ([⟨5, 0, 0⟩, ⟨9, 0, 0⟩] : List Vec3).length →
        ∃ (q : Vec3) (g : Int),
        getI ([⟨5, 0, 0⟩, ⟨9, 0, 0⟩] : List Vec3) c = some q ∧ getI cenGroups c = some g ∧
        (Finder.Find pairAndLoner 1 q = [] ↔
          ∀ (j : Int) (xj : Vec3), getI pairAndLoner j = some xj →
            ¬ (fun q a => withinLength 1 q a = true) q xj) ∧
        (Finder.Find pairAndLoner 1 q = [] → g = -1) ∧
        ∀ (k : Int) (rest : List Int), Finder.Find pairAndLoner 1 q = k :: rest →
          getI groups k = some g ∧ ∃ comp : List Int, comp.Nodup ∧
            (∀ m : Int, m ∈ comp ↔
              ChainConnected (fun q a => withinLength 1 q a = true) pairAndLoner k m) ∧
            (g = -1 ↔ (comp.length : Int) < 2)) ∧
      (pairAndLoner = [] → ([⟨5, 0, 0⟩, ⟨9, 0, 0⟩] : List Vec3) = [] →
        groups = [] ∧ cenGroups = []) :=
  fof_probes_take_first_neighbour (Finder.Find pairAndLoner 1)
    (fun q a => withinLength 1 q a = true) pairAndLoner [⟨5, 0, 0⟩, ⟨9, 0, 0⟩] 2
    (by decide) (by decide) (by decide) (finder_find_exact pairAndLoner 1)

/-- C18, counterexample: the three points of `pairAndLoner`, a probe at the loner, the
linking length 1 and `nMin = 2^31`, for the finder modelled from the spec. The first
index the finder returns for the probe is 2, whose component has one point, fewer than
`nMin`; but `int32(nMin)` is negative, `groups[2]` is 2 and so is the label of the
probe. -/
theorem fof_probe_label_kept_for_wrapped_nmin :
    Finder.Find pairAndLoner 1 ⟨5, 0, 0⟩ = [2] ∧
    FOF (Finder.Find pairAndLoner 1) pairAndLoner [⟨5, 0, 0⟩] (2 ^ 31) =
      some ([0, 0, 2], [2]) := by
  with_unfolding_all decide
/-! ## The prefix sums of the counting sort -/

/-- C19, amended: for every span without a negative component whose cell count `n` has
`n + 1` representable as an `int64`, and every list `p` of `N < 2^63` points with
truncated coordinates in the span, after `Resize(span)` and `Bin(p)` on a
`CountingSortGrid` in any state: `BinEdges[0] == 0`, `BinEdges[n] == N`, and for every
flat cell index `i` of `[0, n)` the difference `BinEdges[i+1] - BinEdges[i]` is the number
of input points whose flat cell index is `i`, and `Data[BinEdges[i] : BinEdges[i+1]]` is
the list of the input points of the cell `i` in their input order. -/
theorem counting_sort_bin_edges_are_prefix_sums (g : CountingSortGrid) (span : Idx3)
    (p : List Particle) (hs : SpanFits span) (hp : PointsIn span p)
    (hn : (p.length : Int) < 2 ^ 63) :
    ∃ g1 g2, g.Resize span = some g1 ∧ g1.Bin p = some g2 ∧
      g2.Dy = span.i0 ∧ g2.Dz = mul64 span.i0 span.i1 ∧
      cellCount span = span.i0 * span.i1 * span.i2 ∧
      getI g2.BinEdges.elems 0 = some 0 ∧
      getI g2.BinEdges.elems (cellCount span) = some (p.length : Int) ∧
      ∀ i : Int, 0 ≤ i → i < cellCount span → ∃ lo hi : Int,
        getI g2.BinEdges.elems i = some lo ∧ getI g2.BinEdges.elems (i + 1) = some hi ∧
        hi - lo = countAt g2.Dy g2.Dz p i ∧
        g2.Data.sub lo hi =
          some (p.filter (fun pi => decide (flatIndex g2.Dy g2.Dz (cellOf pi) = i))) := by
  obtain ⟨g1, e1, hy, hz, hed⟩ := countingSort_Resize_spec g hs
  have hcn := cellCount_nonneg hs
  have hcl := cellCount_lt hs
  have hkeys : ∀ pi ∈ p, 0 ≤ flatIndex g1.Dy g1.Dz (cellOf pi) ∧
      flatIndex g1.Dy g1.Dz (cellOf pi) < ((cellCount span).toNat : Int) := by
    intro pi hpi
    rw [hy, hz]
    exact flat_range_of_span hs (hp pi hpi)
  obtain ⟨g2, e2, hy2, hz2, hdl, hedges, hdata⟩ :=
    countingSort_Bin_spec g1 (cellCount span).toNat p hn hed hkeys
  have htn : ((cellCount span).toNat : Int) = cellCount span := Int.toNat_of_nonneg hcn
  rw [htn] at hedges hkeys
  rw [← hy2, ← hz2] at hedges hdata hkeys
  refine ⟨g1, g2, e1, e2, hy2.trans hy, hz2.trans hz, cellCount_eq hs, ?_, ?_, ?_⟩
  · rw [hedges 0 (le_refl _) hcn, countBelow_eq_zero]
    intro pi hpi
    exact (hkeys pi hpi).1
  · rw [hedges (cellCount span) hcn (le_refl _), countBelow_eq_length]
    intro pi hpi
    exact (hkeys pi hpi).2
  · intro i hi0 hi1
    have hsucc := countBelow_succ g2.Dy g2.Dz p i
    have hbn := countBelow_nonneg g2.Dy g2.Dz p i
    have han := countAt_nonneg g2.Dy g2.Dz p i
    have htop := countBelow_le_length g2.Dy g2.Dz p (i + 1)
    refine ⟨countBelow g2.Dy g2.Dz p i, countBelow g2.Dy g2.Dz p (i + 1),
      hedges i hi0 (by omega), hedges (i + 1) (by omega) (by omega), by omega, ?_⟩
    apply Slice.sub_eq _ _ _ _ hbn (by omega) (by omega)
    · show ((p.filter (fun pi => decide (flatIndex g2.Dy g2.Dz (cellOf pi) = i))).length : Int)
        = _
      have : countAt g2.Dy g2.Dz p i =
          ((p.filter (fun pi => decide (flatIndex g2.Dy g2.Dz (cellOf pi) = i))).length : Int) :=
        rfl
      omega
    · intro t x hx
      exact hdata i t x hx

/-- C19, witness: the span `{2, 3, 2}` and the seven points of `TestSmallGrid`, on a new
grid. -/
theorem counting_sort_bin_edges_are_prefix_sums_witness :
    ∃ g1 g2, CountingSortGrid.new.Resize ⟨2, 3, 2⟩ = some g1 ∧
      g1.Bin smallGridPoints = some g2 ∧
      g2.Dy = (⟨2, 3, 2⟩ : Idx3).i0 ∧
      g2.Dz = mul64 (⟨2, 3, 2⟩ : Idx3).i0 (⟨2, 3, 2⟩ : Idx3).i1 ∧
      cellCount ⟨2, 3, 2⟩ =
        (⟨2, 3, 2⟩ : Idx3).i0 * (⟨2, 3, 2⟩ : Idx3).i1 * (⟨2, 3, 2⟩ : Idx3).i2 ∧
      getI g2.BinEdges.elems 0 = some 0 ∧
      getI g2.BinEdges.elems (cellCount ⟨2, 3, 2⟩) = some (smallGridPoints.length : Int) ∧
      ∀ i : Int, 0 ≤ i → i < cellCount ⟨2, 3, 2⟩ → ∃ lo hi : Int,
        getI g2.BinEdges.elems i = some lo ∧ getI g2.BinEdges.elems (i + 1) = some hi ∧
        hi - lo = countAt g2.Dy g2.Dz smallGridPoints i ∧
        g2.Data.sub lo hi =
          some (smallGridPoints.filter
            (fun pi => decide (flatIndex g2.Dy g2.Dz (cellOf pi) = i))) :=
  counting_sort_bin_edges_are_prefix_sums CountingSortGrid.new ⟨2, 3, 2⟩ smallGridPoints
    (by decide) (by decide) (by decide)

/-- C19, counterexample: the span `{2^32, 2^32, 1}` has positive components and the point
at the origin lies in it, but its cell count `2^64` wraps to 0 in `int64`: `Resize`
leaves `BinEdges` with the one entry `BinEdges[0]`, and `Bin` panics on
`Counts[0]++`. -/
theorem counting_sort_bin_fails_past_int64 :
    SpanPositive ⟨2 ^ 32, 2 ^ 32, 1⟩ ∧ PointsIn ⟨2 ^ 32, 2 ^ 32, 1⟩ [Particle.zero] ∧
    (CountingSortGrid.new.Resize ⟨2 ^ 32, 2 ^ 32, 1⟩).map
      (fun g1 => g1.BinEdges.elems) = some [0] ∧
    (CountingSortGrid.new.Resize ⟨2 ^ 32, 2 ^ 32, 1⟩).bind
      (fun g1 => g1.Bin [Particle.zero]) = none := by
  refine ⟨by decide, by decide, ?_, ?_⟩
  · with_unfolding_all decide
  · with_unfolding_all rfl
/-! ## Union-find: the number of roots and the group count -/

theorem rootCount_nonneg (n : Int) (rho : Int → Int) : 0 ≤ rootCount n rho := by
  unfold rootCount; omega

theorem rootCount_le (n : Int) (rho : Int → Int) (hn : 0 ≤ n) : rootCount n rho ≤ n := by
  unfold rootCount
  have := List.length_filter_le (fun (x : Nat) => decide (rho (Int.ofNat x) = Int.ofNat x))
    (List.range n.toNat)
  simp only [List.length_range] at this
  omega

theorem rootCount_id (n : Int) (hn : 0 ≤ n) : rootCount n (fun x => x) = n := by
  unfold rootCount
  rw [List.filter_eq_self.mpr (fun x _ => by simp), List.length_range]
  omega

/-- Away from the root `a`, attaching `a` under `b` keeps the roots. -/
theorem mergeRoot_fixed_iff (rho : Int → Int) (a b : Int) (hab : a ≠ b) (hb : rho b = b)
    (x : Int) (hx : x ≠ a) : mergeRoot rho a b x = x ↔ rho x = x := by
  by_cases h : rho x = a
  · rw [mergeRoot_of_eq rho a b x h, h]
    constructor
    · intro e
      rw [← e, hb] at h
      exact absurd h.symm hab
    · intro e
      exact absurd e.symm hx
  · rw [mergeRoot_of_ne rho a b x h]

theorem filter_roots_merge (rho : Int → Int) (a b : Int) (ha0 : 0 ≤ a) (hab : a ≠ b)
    (ha : rho a = a) (hb : rho b = b) (l : List Nat) (hl : l.Nodup) :
    (a.toNat ∈ l →
      (l.filter (fun (x : Nat) =>
        decide (mergeRoot rho a b (Int.ofNat x) = Int.ofNat x))).length + 1 =
      (l.filter (fun (x : Nat) => decide (rho (Int.ofNat x) = Int.ofNat x))).length) ∧
    (a.toNat ∉ l →
      (l.filter (fun (x : Nat) =>
        decide (mergeRoot rho a b (Int.ofNat x) = Int.ofNat x))).length =
      (l.filter (fun (x : Nat) => decide (rho (Int.ofNat x) = Int.ofNat x))).length) := by
  induction l with
  | nil => exact ⟨fun h => (by cases h), fun _ => rfl⟩
  | cons x l ih =>
    obtain ⟨hxl, hnd⟩ := List.nodup_cons.mp hl
    obtain ⟨ih1, ih2⟩ := ih hnd
    by_cases hxa : Int.ofNat x = a
    · have hmem : a.toNat ∉ l := by
        rw [← hxa]
        exact hxl
      have h1 : ¬ mergeRoot rho a b (Int.ofNat x) = Int.ofNat x := by
        rw [hxa, mergeRoot_of_eq rho a b a ha]
        exact Ne.symm hab
      have h2 : rho (Int.ofNat x) = Int.ofNat x := by rw [hxa]; exact ha
      rw [List.filter_cons_of_neg (by rw [decide_eq_true_eq]; exact h1),
        List.filter_cons_of_pos (by rw [decide_eq_true_eq]; exact h2), List.length_cons,
        ih2 hmem]
      refine ⟨fun _ => rfl, fun h => ?_⟩
      exfalso
      apply h
      rw [← hxa]
      exact List.mem_cons_self _ _
    · have hne : x ≠ a.toNat := by
        intro e
        apply hxa
        rw [e]
        exact Int.toNat_of_nonneg ha0
      have hiff := mergeRoot_fixed_iff rho a b hab hb (Int.ofNat x) hxa
      have hmem : a.toNat ∈ x :: l ↔ a.toNat ∈ l := by
        rw [List.mem_cons]
        exact ⟨fun h => h.resolve_left (Ne.symm hne), fun h => Or.inr h⟩
      rw [hmem]
      by_cases h2 : rho (Int.ofNat x) = Int.ofNat x
      · rw [List.filter_cons_of_pos (by rw [decide_eq_true_eq]; exact hiff.mpr h2),
          List.filter_cons_of_pos (by rw [decide_eq_true_eq]; exact h2), List.length_cons,
          List.length_cons]
        exact ⟨fun h => (by rw [← ih1 h]), fun h => (by rw [ih2 h])⟩
      · rw [List.filter_cons_of_neg (by rw [decide_eq_true_eq]; exact fun e => h2 (hiff.mp e)),
          List.filter_cons_of_neg (by rw [decide_eq_true_eq]; exact h2)]
        exact ⟨ih1, ih2⟩

/-- Attaching the root `a` under the root `b` takes one root away. -/
theorem rootCount_merge (n : Int) (rho : Int → Int) (a b : Int) (ha0 : 0 ≤ a) (ha1 : a < n)
    (hab : a ≠ b) (ha : rho a = a) (hb : rho b = b) :
    rootCount n (mergeRoot rho a b) + 1 = rootCount n rho := by
  unfold rootCount
  have h := (filter_roots_merge rho a b ha0 hab ha hb (List.range n.toNat)
    (List.nodup_range _)).1 (List.mem_range.mpr (by omega))
  omega

/-- Every reachable state over fewer than `2^31` indices is valid for a root map, and its
group count is the number of roots less `n`: the count starts at 0, not at `n`. -/
theorem reachable_groups {n : Int} {edges : List (Int × Int)} {uf : UnionFinder}
    (hn : n < 2 ^ 31) (h : UnionFinder.Reachable n edges uf) :
    ∃ rho d, UnionFinder.Valid n edges uf rho d ∧ uf.NGroup = rootCount n rho - n := by
  induction h with
  | init uf h0 =>
    obtain ⟨hn0, -, -, hg, -⟩ := newUnionFinder_spec n uf hn h0
    refine ⟨_, _, newUnionFinder_valid n uf hn h0, ?_⟩
    rw [hg, rootCount_id n hn0, sub_self]
  | union edges uf uf1 i j _ hi0 hi1 hj0 hj1 hu ih =>
    obtain ⟨rho, d, hv, hg⟩ := ih
    obtain ⟨uf2, rho1, d1, e, hv1, hsame, hdiff⟩ := Union_spec hv hn i j hi0 hi1 hj0 hj1
    rw [hu] at e
    cases e
    refine ⟨rho1, d1, hv1, ?_⟩
    by_cases hij : rho i = rho j
    · obtain ⟨e1, -, e3⟩ := hsame hij
      rw [e3, hg, e1]
    · obtain ⟨e3, hlt, hge⟩ := hdiff hij
      obtain ⟨-, -, -, ⟨hri0, hri1⟩, -, -, -, -⟩ := hv.1.2 i hi0 hi1
      obtain ⟨-, -, -, ⟨hrj0, hrj1⟩, -, -, -, -⟩ := hv.1.2 j hj0 hj1
      have hfi := (forest_root_fixed hv.1 i hi0 hi1).1
      have hfj := (forest_root_fixed hv.1 j hj0 hj1).1
      have hcount : rootCount n rho1 + 1 = rootCount n rho := by
        by_cases h1 : classCount n rho (rho i) < classCount n rho (rho j)
        · rw [(hlt h1).1]
          exact rootCount_merge n rho _ _ hri0 hri1 hij hfi hfj
        · rw [(hge h1).1]
          exact rootCount_merge n rho _ _ hrj0 hrj1 (Ne.symm hij) hfj hfi
      have h0 := rootCount_nonneg n rho1
      have h1 := rootCount_le n rho (by omega)
      rw [e3, hg, wrap32_of_fits (by omega) (by omega)]
      omega
  | find edges uf uf1 i r _ hi0 hi1 hf ih =>
    obtain ⟨rho, d, hv, hg⟩ := ih
    obtain ⟨uf2, e, hv1, -, hg1⟩ := Find_spec hv i hi0 hi1
    rw [hf] at e
    cases e
    exact ⟨rho, d, hv1, hg1.trans hg⟩
/-! ## The union-by-size claim -/

/-- C21: for every state reachable from `NewUnionFinder(n)` (`n` an `int32`) by calls of
`Union` and `Find` and all indices `i`, `j` of `[0, n)`, with the roots `ri = Find(i)`,
`rj = Find(j)` and their sizes `si = Size[ri]`, `sj = Size[rj]`: `Union(i, j)` returns; if
`ri == rj` it changes neither `Size` nor `NGroup` nor the root of any index; otherwise
`NGroup` decreases by exactly 1, and if `si < sj` then `ri` is attached under `rj`, which
stays a root with `Size[rj] = si + sj`, else `rj` is attached under `ri`, which stays a
root with `Size[ri] = si + sj`; the indices of the attached tree get the surviving root
and every other index keeps its root. -/
theorem union_attaches_smaller_tree (n : Int) (edges : List (Int × Int)) (uf : UnionFinder)
    (hn : n < 2 ^ 31) (h : UnionFinder.Reachable n edges uf) (i j : Int)
    (hi0 : 0 ≤ i) (hi1 : i < n) (hj0 : 0 ≤ j) (hj1 : j < n) :
    ∃ (ri rj si sj : Int) (ufi ufj uf1 : UnionFinder),
      uf.Find i = some (ri, ufi) ∧ ufi.Find j = some (rj, ufj) ∧ uf.rootOf j = some rj ∧
      getI uf.Size ri = some si ∧ getI uf.Size rj = some sj ∧
      uf.Union i j = some uf1 ∧
      (ri = rj → uf1.Size = uf.Size ∧ uf1.NGroup = uf.NGroup ∧
        ∀ k : Int, 0 ≤ k → k < n → uf1.rootOf k = uf.rootOf k) ∧
      (ri ≠ rj → uf1.NGroup = uf.NGroup - 1 ∧
        (si < sj → getI uf1.Parent ri = some rj ∧ getI uf1.Parent rj = some rj ∧
          getI uf1.Size rj = some (si + sj) ∧
          ∀ k : Int, 0 ≤ k → k < n →
            uf1.rootOf k = if uf.rootOf k = some ri then some rj else uf.rootOf k) ∧
        (¬ si < sj → getI uf1.Parent rj = some ri ∧ getI uf1.Parent ri = some ri ∧
          getI uf1.Size ri = some (si + sj) ∧
          ∀ k : Int, 0 ≤ k → k < n →
            uf1.rootOf k = if uf.rootOf k = some rj then some ri else uf.rootOf k)) := by
  obtain ⟨rho, d, hv, hg⟩ := reachable_groups hn h
  obtain ⟨ufi, e1, hvi, -, -⟩ := Find_spec hv i hi0 hi1
  obtain ⟨ufj, e2, -, -, -⟩ := Find_spec hvi j hj0 hj1
  obtain ⟨uf1, rho1, d1, e, hv1, hsame, hdiff⟩ := Union_spec hv hn i j hi0 hi1 hj0 hj1
  obtain ⟨-, -, -, ⟨hri0, hri1⟩, -, hpi, -, -⟩ := hv.1.2 i hi0 hi1
  obtain ⟨-, -, -, ⟨hrj0, hrj1⟩, -, hpj, -, -⟩ := hv.1.2 j hj0 hj1
  have hfi := (forest_root_fixed hv.1 i hi0 hi1).1
  have hfj := (forest_root_fixed hv.1 j hj0 hj1).1
  have hroot : ∀ k : Int, 0 ≤ k → k < n → uf.rootOf k = some (rho k) :=
    fun k hk0 hk1 => rootOf_of_valid hv k hk0 hk1
  have hroot1 : ∀ k : Int, 0 ≤ k → k < n → uf1.rootOf k = some (rho1 k) :=
    fun k hk0 hk1 => rootOf_of_valid hv1 k hk0 hk1
  -- the surviving root `b` after the root `a` has been attached under it
  have hmerge : ∀ a b : Int, a ≠ b → 0 ≤ b → b < n → rho b = b →
      rho1 = mergeRoot rho a b →
      getI uf1.Parent b = some b ∧
      getI uf1.Size b = some (classCount n rho a + classCount n rho b) ∧
      ∀ k : Int, 0 ≤ k → k < n →
        uf1.rootOf k = if uf.rootOf k = some a then some b else uf.rootOf k := by
    intro a b hab hb0 hb1 hb hr
    have hrb : rho1 b = b := by
      rw [hr, mergeRoot_of_ne rho a b b (by rw [hb]; exact Ne.symm hab), hb]
    obtain ⟨-, -, -, -, -, hpb, -, -⟩ := hv1.1.2 b hb0 hb1
    rw [hrb] at hpb
    refine ⟨hpb, ?_, ?_⟩
    · rw [hv1.2.1.2.1 b hb0 hb1 hpb, hr, classCount_merge n rho a b hab]
    · intro k hk0 hk1
      rw [hroot1 k hk0 hk1, hroot k hk0 hk1, hr]
      by_cases hk : rho k = a
      · rw [mergeRoot_of_eq rho a b k hk, if_pos (by rw [hk])]
      · rw [mergeRoot_of_ne rho a b k hk, if_neg (fun e => hk (Option.some.inj e))]
  refine ⟨rho i, rho j, classCount n rho (rho i), classCount n rho (rho j), ufi, ufj, uf1,
    e1, e2, hroot j hj0 hj1, hv.2.1.2.1 (rho i) hri0 hri1 hpi,
    hv.2.1.2.1 (rho j) hrj0 hrj1 hpj, e, ?_, ?_⟩
  · intro hij
    obtain ⟨h1, h2, h3⟩ := hsame hij
    refine ⟨h2, h3, ?_⟩
    intro k hk0 hk1
    rw [hroot1 k hk0 hk1, hroot k hk0 hk1, h1]
  · intro hij
    obtain ⟨h3, hlt, hge⟩ := hdiff hij
    have hcount : ∃ a b, rho1 = mergeRoot rho a b ∧ 0 ≤ a ∧ a < n ∧ a ≠ b ∧ rho a = a ∧
        rho b = b := by
      by_cases h1 : classCount n rho (rho i) < classCount n rho (rho j)
      · exact ⟨rho i, rho j, (hlt h1).1, hri0, hri1, hij, hfi, hfj⟩
      · exact ⟨rho j, rho i, (hge h1).1, hrj0, hrj1, Ne.symm hij, hfj, hfi⟩
    obtain ⟨a, b, hr, ha0, ha1, hab, ha, hb⟩ := hcount
    have hc := rootCount_merge n rho a b ha0 ha1 hab ha hb
    rw [← hr] at hc
    have hc0 := rootCount_nonneg n rho1
    have hc1 := rootCount_le n rho (by omega)
    refine ⟨?_, ?_, ?_⟩
    · rw [h3, wrap32_of_fits (by omega) (by omega)]
    · intro h1
      obtain ⟨hr1, hp1⟩ := hlt h1
      obtain ⟨m1, m2, m3⟩ := hmerge (rho i) (rho j) hij hrj0 hrj1 hfj hr1
      exact ⟨hp1, m1, m2, m3⟩
    · intro h1
      obtain ⟨hr1, hp1⟩ := hge h1
      obtain ⟨m1, m2, m3⟩ := hmerge (rho j) (rho i) (Ne.symm hij) hri0 hri1 hfi hr1
      rw [add_comm] at m2
      exact ⟨hp1, m1, m2, m3⟩

/-- C21, witness: the state after `NewUnionFinder(4)` and `Union(0, 1)`, with
`Union(2, 1)`, which attaches the root 2 under the root 0. -/
theorem union_attaches_smaller_tree_witness :
    ∃ (ri rj si sj : Int) (ufi ufj uf1 : UnionFinder),
      examplePair.Find 2 = some (ri, ufi) ∧ ufi.Find 1 = some (rj, ufj) ∧
      examplePair.rootOf 1 = some rj ∧
      getI examplePair.Size ri = some si ∧ getI examplePair.Size rj = some sj ∧
      examplePair.Union 2 1 = some uf1 ∧
      (ri = rj → uf1.Size = examplePair.Size ∧ uf1.NGroup = examplePair.NGroup ∧
        ∀ k : Int, 0 ≤ k → k < 4 → uf1.rootOf k = examplePair.rootOf k) ∧
      (ri ≠ rj → uf1.NGroup = examplePair.NGroup - 1 ∧
        (si < sj → getI uf1.Parent ri = some rj ∧ getI uf1.Parent rj = some rj ∧
          getI uf1.Size rj = some (si + sj) ∧
          ∀ k : Int, 0 ≤ k → k < 4 →
            uf1.rootOf k =
              if examplePair.rootOf k = some ri then some rj else examplePair.rootOf k) ∧
        (¬ si < sj → getI uf1.Parent rj = some ri ∧ getI uf1.Parent ri = some ri ∧
          getI uf1.Size ri = some (si + sj) ∧
          ∀ k : Int, 0 ≤ k → k < 4 →
            uf1.rootOf k =
              if examplePair.rootOf k = some rj then some ri else examplePair.rootOf k)) :=
  union_attaches_smaller_tree 4 [(0, 1)] examplePair (by decide)
    (UnionFinder.Reachable.union [] exampleStart examplePair 0 1
      (UnionFinder.Reachable.init exampleStart (by with_unfolding_all rfl))
      (by decide) (by decide) (by decide) (by decide) (by with_unfolding_all rfl))
    2 1 (by decide) (by decide) (by decide) (by decide)
/-! ## The forest claim -/

/-- In a forest the walk along `Parent` from `x` meets its first fixed point, the root
of `x`, after at most `d x` reads. -/
theorem forest_stepsTo {n : Int} {parent : List Int} {rho : Int → Int} {d : Int → Nat}
    (h : UnionFinder.Forest n parent rho d) :
    ∀ (m : Nat) (x : Int), 0 ≤ x → x < n → d x ≤ m →
    ∃ k, k ≤ d x ∧ UnionFinder.StepsTo parent x k (rho x) := by
  intro m
  induction m with
  | zero =>
    intro x hx0 hx1 hd
    obtain ⟨px, hpx, -, -, -, -, hroot, hdrop⟩ := h.2 x hx0 hx1
    by_cases e : px = x
    · rw [e] at hpx
      refine ⟨0, Nat.zero_le _, ?_⟩
      rw [(hroot e).1]
      exact stepsTo_fixed hpx
    · have := hdrop e
      omega
  | succ m ih =>
    intro x hx0 hx1 hd
    obtain ⟨px, hpx, ⟨hp0, hp1⟩, -, hrho, -, hroot, hdrop⟩ := h.2 x hx0 hx1
    by_cases e : px = x
    · rw [e] at hpx
      refine ⟨0, Nat.zero_le _, ?_⟩
      rw [(hroot e).1]
      exact stepsTo_fixed hpx
    · have hlt := hdrop e
      obtain ⟨k, hk, hf, hr, hmin⟩ := ih px hp0 hp1 (by omega)
      rw [hrho] at hf hr
      refine ⟨k + 1, by omega, ?_, hr, ?_⟩
      · rw [follow_succ_of parent k x px hpx]
        exact hf
      · intro m1 hm1 y hy
        cases m1 with
        | zero =>
          cases hy
          rw [hpx]
          exact fun e1 => e (Option.some.inj e1)
        | succ m2 =>
          rw [follow_succ_of parent m2 x px hpx] at hy
          exact hmin m2 (by omega) y hy

/-- C22: in `NewUnionFinder(n)` (`n` an `int32`) and in every state reached from it by
calls of `Find` and `Union` with indices in `[0, n)`, `Parent` has `n` entries, every
entry is in `[0, n)`, and following `Parent` from any index meets its first fixed point
after fewer than `n` reads; so both loops of `Find` end, on `n` iterations or more as
on the `len(Parent) + 1` of the model, and `Find` returns that fixed point. -/
theorem reachable_states_are_forests (n : Int) (edges : List (Int × Int)) (uf : UnionFinder)
    (hn : n < 2 ^ 31) (h : UnionFinder.Reachable n edges uf) :
    (uf.Parent.length : Int) = n ∧
    ∀ x : Int, 0 ≤ x → x < n →
      (∃ px, getI uf.Parent x = some px ∧ 0 ≤ px ∧ px < n) ∧
      ∃ (k : Nat) (r : Int), UnionFinder.StepsTo uf.Parent x k r ∧ (k : Int) < n ∧
        (∀ fuel : Nat, n ≤ fuel →
          UnionFinder.findRoot uf.Parent fuel x = some r ∧
          ∃ parent1, UnionFinder.compress r fuel uf.Parent x = some parent1) ∧
        ∃ uf1, uf.Find x = some (r, uf1) := by
  obtain ⟨rho, d, hv⟩ := reachable_valid hn h
  refine ⟨hv.1.1, ?_⟩
  intro x hx0 hx1
  obtain ⟨px, hpx, hpr, -⟩ := hv.1.2 x hx0 hx1
  obtain ⟨k, hk, hsteps⟩ := forest_stepsTo hv.1 (d x) x hx0 hx1 (le_refl _)
  have hd : (d x : Int) < n := by
    have h1 := hv.2.1.2.2 x hx0 hx1
    have h2 := classCount_le n rho (rho x) (by omega)
    omega
  obtain ⟨uf1, e, -⟩ := Find_spec hv x hx0 hx1
  refine ⟨⟨px, hpx, hpr.1, hpr.2⟩, k, rho x, hsteps, by omega, ?_, uf1, e⟩
  intro fuel hfuel
  refine ⟨findRoot_spec hv.1 fuel x hx0 hx1 (by omega), ?_⟩
  obtain ⟨parent1, e1, -⟩ := compress_spec fuel uf.Parent x hv.1 hx0 hx1 (by omega)
  exact ⟨parent1, e1⟩

/-- C22, witness: the state after `NewUnionFinder(4)` and `Union(0, 1)`. -/
theorem reachable_states_are_forests_witness :
    (examplePair.Parent.length : Int) = 4 ∧
    ∀ x : Int, 0 ≤ x → x < 4 →
      (∃ px, getI examplePair.Parent x = some px ∧ 0 ≤ px ∧ px < 4) ∧
      ∃ (k : Nat) (r : Int), UnionFinder.StepsTo examplePair.Parent x k r ∧ (k : Int) < 4 ∧
        (∀ fuel : Nat, (4 : Int) ≤ fuel →
          UnionFinder.findRoot examplePair.Parent fuel x = some r ∧
          ∃ parent1, UnionFinder.compress r fuel examplePair.Parent x = some parent1) ∧
        ∃ uf1, examplePair.Find x = some (r, uf1) :=
  reachable_states_are_forests 4 [(0, 1)] examplePair (by decide)
    (UnionFinder.Reachable.union [] exampleStart examplePair 0 1
      (UnionFinder.Reachable.init exampleStart (by with_unfolding_all rfl))
      (by decide) (by decide) (by decide) (by decide) (by with_unfolding_all rfl))
/-! ## The grid operations return -/

/-- One swap of the innermost loop of `CycleSortGrid.Bin`, in a state of the sorting
loops: the element `q` at `i = BinEnds[srcBin]` belongs to another cell. The target
`j = BinEnds[dstBin]` lies in the range of that cell, the loop goes on with the arrays
after the swap, in which `q` sits at `j`, and one position less is left to fill. -/
theorem cycleSort_swap_step (Dy Dz : Int) (n : Int) (p : List Particle)
    (hn : (p.length : Int) < 2 ^ 63)
    (hkeys : ∀ pi ∈ p, 0 ≤ flatIndex Dy Dz (cellOf pi) ∧ flatIndex Dy Dz (cellOf pi) < n)
    (s i : Int) (hs0 : 0 ≤ s) (hs1 : s < n) (hi1 : i < countBelow Dy Dz p (s + 1))
    (fuel : Nat) (arr : List Particle) (ends : List Int) (q : Particle)
    (hpl : CycleSortGrid.Placed Dy Dz p n arr ends) (hi : getI ends s = some i)
    (hq : getI arr i = some q) (hds : flatIndex Dy Dz (cellOf q) ≠ s) :
    ∃ (j : Int) (pj : Particle),
      getI ends (flatIndex Dy Dz (cellOf q)) = some j ∧
      countBelow Dy Dz p (flatIndex Dy Dz (cellOf q)) ≤ j ∧
      j < countBelow Dy Dz p (flatIndex Dy Dz (cellOf q) + 1) ∧
      getI arr j = some pj ∧
      CycleSortGrid.swapLoop Dy Dz s i (fuel + 1) (flatIndex Dy Dz (cellOf q)) (arr, ends) =
        CycleSortGrid.swapLoop Dy Dz s i fuel (flatIndex Dy Dz (cellOf pj))
          ((arr.set i.toNat pj).set j.toNat q,
            ends.set (flatIndex Dy Dz (cellOf q)).toNat (j + 1)) ∧
      CycleSortGrid.Placed Dy Dz p n ((arr.set i.toNat pj).set j.toNat q)
        (ends.set (flatIndex Dy Dz (cellOf q)).toNat (j + 1)) ∧
      getI ((arr.set i.toNat pj).set j.toNat q) j = some q ∧
      CycleSortGrid.room Dy Dz p (ends.set (flatIndex Dy Dz (cellOf q)).toNat (j + 1)) =
        CycleSortGrid.room Dy Dz p ends - 1 ∧
      0 ≤ CycleSortGrid.room Dy Dz p (ends.set (flatIndex Dy Dz (cellOf q)).toNat (j + 1)) := by
  have hqp : q ∈ p := hpl.1.subset (mem_of_getI hq)
  obtain ⟨hd0, hd1⟩ := hkeys q hqp
  obtain ⟨es, hes, hslo, -, -⟩ := hpl.2.2 s hs0 hs1
  rw [hi] at hes; cases hes
  obtain ⟨j, hj, hjlo, -, -⟩ := hpl.2.2 (flatIndex Dy Dz (cellOf q)) hd0 hd1
  have hi0 : 0 ≤ i := le_trans (countBelow_nonneg _ _ _ _) hslo
  have hj1 := cycleSort_Placed_room hpl (flatIndex Dy Dz (cellOf q)) i j q hd0 hd1 hj hi0 hq
    rfl (cycleSort_outside_of_ne Dy Dz p hds hslo hi1)
  have hlen := cycleSort_Placed_length hpl
  have htop := countBelow_le_length Dy Dz p (flatIndex Dy Dz (cellOf q) + 1)
  have hj0 : 0 ≤ j := le_trans (countBelow_nonneg _ _ _ _) hjlo
  obtain ⟨pj, hpj⟩ := getI_of_lt arr j hj0 (by omega)
  have hij : i ≠ j := cycleSort_ranges_disjoint Dy Dz p (fun e => hds e.symm)
    hslo hi1 hjlo hj1
  have hil := (getI_lt_length hq).2
  have hel := (getI_lt_length hj).2
  have hadd : add64 j 1 = j + 1 := wrap64_of_nonneg (by omega) (by omega)
  have hget : getI ((arr.set i.toNat pj).set j.toNat q) i = some pj := by
    rw [getI_set _ _ _ _ hj0 (by simp; omega) hi0, if_neg hij,
      getI_set _ _ _ _ hi0 hil hi0, if_pos rfl]
  have hgetj : getI ((arr.set i.toNat pj).set j.toNat q) j = some q := by
    rw [getI_set _ _ _ _ hj0 (by simp; omega) hj0, if_pos rfl]
  have hpl2 := cycleSort_Placed_swap hpl s (flatIndex Dy Dz (cellOf q)) i j q pj hs0 hs1
    hd0 hd1 hds hi hi1 hj hj1 hq rfl hpj
  have hroom2 := cycleSort_room_set Dy Dz p ends (flatIndex Dy Dz (cellOf q)) j hd0 hj
  refine ⟨j, pj, hj, hjlo, hj1, hpj, ?_, hpl2, hgetj, hroom2,
    cycleSort_room_nonneg Dy Dz p n _ _ hpl2⟩
  rw [cycleSort_swapLoop_succ, if_pos hds]
  simp only [hj, hpj, hq, setI_of_lt arr i pj hi0 hil,
    setI_of_lt (arr.set i.toNat pj) j q hj0 (by simp; omega),
    hadd, setI_of_lt ends (flatIndex Dy Dz (cellOf q)) (j + 1) hd0 hel, hget]
theorem infallible_of_contract {G : Type} {I : BinnedGrid G} (h : I.Contract) (span : Idx3)
    (p : List Particle) (hs : SpanFits span) (hp : PointsIn span p)
    (hn : (p.length : Int) < 2 ^ 63) : I.Infallible span p := by
  intro g
  obtain ⟨g1, g2, e1, e2, hc⟩ := h g span p hs hp hn
  refine ⟨g1, g2, e1, e2, ?_⟩
  intro c out hin
  obtain ⟨h1, h2, l, h3, -, h4⟩ := hc c hin out
  exact ⟨⟨_, h1⟩, ⟨_, h2⟩, ⟨_, h4⟩, ⟨_, h3⟩⟩

theorem not_infallible_of_panic {G : Type} (I : BinnedGrid G) (g : G) (span : Idx3)
    (p : List Particle) (h : I.resizeBin g span p = none) : ¬ I.Infallible span p := by
  intro hinf
  obtain ⟨g1, g2, e1, e2, -⟩ := hinf g
  unfold BinnedGrid.resizeBin at h
  rw [e1] at h
  have h2 : I.Bin g1 p = none := h
  rw [e2] at h2
  cases h2

/-- The state in which the sorting loops of `CycleSortGrid.Bin` start, and every swap
of the innermost loop. -/
theorem cycleSort_swaps_spec (span : Idx3) (p : List Particle)
    (hs : SpanFits span) (hp : PointsIn span p) (hn : (p.length : Int) < 2 ^ 63) :
    CycleSortGrid.SwapsInRange span p := by
  intro g
  obtain ⟨g1, e1, hy, hz, hed, hen, -⟩ := cycleSort_Resize_spec g hs
  have hcn := cellCount_nonneg hs
  have hcl := cellCount_lt hs
  have htn : ((cellCount span).toNat : Int) = cellCount span := Int.toNat_of_nonneg hcn
  have hkeys : ∀ pi ∈ p, 0 ≤ flatIndex g1.Dy g1.Dz (cellOf pi) ∧
      flatIndex g1.Dy g1.Dz (cellOf pi) < ((cellCount span).toNat : Int) := by
    intro pi hpi
    rw [hy, hz]
    exact flat_range_of_span hs (hp pi hpi)
  obtain ⟨g2, e2, -, -, hedges, -, -⟩ :=
    cycleSort_Bin_spec g1 (cellCount span).toNat p hn (by omega) hed hen hkeys
  rw [htn] at hedges hkeys
  have hB0 : countBelow g1.Dy g1.Dz p 0 = 0 :=
    countBelow_eq_zero _ _ _ _ (fun pi hpi => (hkeys pi hpi).1)
  have hBn : countBelow g1.Dy g1.Dz p (cellCount span) = p.length :=
    countBelow_eq_length _ _ _ _ (fun pi hpi => (hkeys pi hpi).2)
  have hel := (getI_lt_length (hedges (cellCount span) hcn (le_refl _))).2
  have htk : (g2.BinEdges.elems.take (cellCount span).toNat).length = (cellCount span).toNat := by
    rw [List.length_take]; omega
  refine ⟨g1, g2, e1, e2, hedges, ?_, ?_, ?_⟩
  · refine ⟨List.Perm.refl _, by rw [htk, htn], ?_⟩
    intro d hd0 hd1
    refine ⟨countBelow g1.Dy g1.Dz p d, ?_, le_refl _, countBelow_mono _ _ _ (by omega), ?_⟩
    · rw [getI_take _ _ _ hd0 (by omega)]
      exact hedges d hd0 (by omega)
    · intro x hx0 hx1
      omega
  · rw [cycleSort_room_init, htk, htn, hBn, hB0, sub_zero]
    intro d hd
    rw [htk] at hd
    rw [← getI_natCast, getI_take _ _ _ (by omega) (by omega)]
    exact hedges d (by omega) (by omega)
  · intro s i fuel arr ends q hs0 hs1 hpl hi hi1 hq hds
    exact cycleSort_swap_step g1.Dy g1.Dz (cellCount span) p hn hkeys s i hs0 hs1 hi1 fuel
      arr ends q hpl hi hq hds

/-- C23, amended: for each of the five grid variants, every span without a negative
component whose cell count `n` has `n + 1` representable as an `int64`, and every list
of fewer than `2^63` points with truncated coordinates in the span: `Resize` and `Bin`
return, and `Size` and `Get` return on every cell of the span, so that no call indexes
outside an array, follows `nil` or `-1`, or runs on for ever. In `CycleSortGrid.Bin`
the swap target `j = BinEnds[dstBin]` satisfies `BinEdges[dstBin] <= j < BinEdges[dstBin+1]`
and each swap puts an element into a slot of its cell and leaves one position less to
fill, of the `N` there are at the start. -/
theorem grid_operations_return (span : Idx3) (p : List Particle) (hs : SpanFits span)
    (hp : PointsIn span p) (hn : (p.length : Int) < 2 ^ 63) :
    ArrayListGrid.methods.Infallible span p ∧
    NaiveLinkedListGrid.methods.Infallible span p ∧
    LinkedListGrid.methods.Infallible span p ∧
    CountingSortGrid.methods.Infallible span p ∧
    CycleSortGrid.methods.Infallible span p ∧
    CycleSortGrid.SwapsInRange span p :=
  ⟨infallible_of_contract arrayList_contract span p hs hp hn,
    infallible_of_contract naiveList_contract span p hs hp hn,
    infallible_of_contract linkedList_contract span p hs hp hn,
    infallible_of_contract countingSort_contract span p hs hp hn,
    infallible_of_contract cycleSort_contract span p hs hp hn,
    cycleSort_swaps_spec span p hs hp hn⟩

/-- C23, witness: the span `{2, 3, 2}` and the seven points of `TestSmallGrid`. -/
theorem grid_operations_return_witness :
    SpanFits ⟨2, 3, 2⟩ ∧ PointsIn ⟨2, 3, 2⟩ smallGridPoints ∧
    ((smallGridPoints.length : Int) < 2 ^ 63) ∧
    ArrayListGrid.methods.Infallible ⟨2, 3, 2⟩ smallGridPoints ∧
    NaiveLinkedListGrid.methods.Infallible ⟨2, 3, 2⟩ smallGridPoints ∧
    LinkedListGrid.methods.Infallible ⟨2, 3, 2⟩ smallGridPoints ∧
    CountingSortGrid.methods.Infallible ⟨2, 3, 2⟩ smallGridPoints ∧
    CycleSortGrid.methods.Infallible ⟨2, 3, 2⟩ smallGridPoints ∧
    CycleSortGrid.SwapsInRange ⟨2, 3, 2⟩ smallGridPoints :=
  ⟨by decide, by decide, by decide,
    grid_operations_return ⟨2, 3, 2⟩ smallGridPoints (by decide) (by decide) (by decide)⟩

/-- C23, counterexample: the span `{2^32, 2^32, 1}` has no negative component and the
point at the origin lies in it, but its cell count `2^64` wraps to 0 in `int64`:
`Resize` allocates no cell and `Bin` indexes outside its arrays, in each of the five
variants. -/
theorem grid_bin_panics_past_int64 :
    SpanPositive ⟨2 ^ 32, 2 ^ 32, 1⟩ ∧ PointsIn ⟨2 ^ 32, 2 ^ 32, 1⟩ [Particle.zero] ∧
    ¬ ArrayListGrid.methods.Infallible ⟨2 ^ 32, 2 ^ 32, 1⟩ [Particle.zero] ∧
    ¬ NaiveLinkedListGrid.methods.Infallible ⟨2 ^ 32, 2 ^ 32, 1⟩ [Particle.zero] ∧
    ¬ LinkedListGrid.methods.Infallible ⟨2 ^ 32, 2 ^ 32, 1⟩ [Particle.zero] ∧
    ¬ CountingSortGrid.methods.Infallible ⟨2 ^ 32, 2 ^ 32, 1⟩ [Particle.zero] ∧
    ¬ CycleSortGrid.methods.Infallible ⟨2 ^ 32, 2 ^ 32, 1⟩ [Particle.zero] :=
  ⟨by decide, by decide,
    not_infallible_of_panic _ ArrayListGrid.new _ _ arrayList_bin_panics_past_int64,
    not_infallible_of_panic _ NaiveLinkedListGrid.new _ _ naiveList_bin_panics_past_int64,
    not_infallible_of_panic _ LinkedListGrid.new _ _ linkedList_bin_panics_past_int64,
    not_infallible_of_panic _ CountingSortGrid.new _ _ countingSort_bin_panics_past_int64,
    not_infallible_of_panic _ CycleSortGrid.new _ _ cycleSort_bin_panics_past_int64⟩
/-! ## The flat cell index -/

/-- Every flat index below the cell count is the flat index of a cell of the span. -/
theorem flatIndex_onto {span : Idx3} (h : SpanFits span) (k : Int) (hk0 : 0 ≤ k)
    (hk1 : k < cellCount span) :
    ∃ c, InSpan span c ∧ flatIndex span.i0 (mul64 span.i0 span.i1) c = k := by
  rw [cellCount_eq h] at hk1
  obtain ⟨h0, h1, h2, h3⟩ := h
  have hx : 0 < span.i0 := by
    rcases eq_or_lt_of_le h0 with e | e
    · rw [← e] at hk1
      simp only [zero_mul] at hk1
      omega
    · exact e
  have hy : 0 < span.i1 := by
    rcases eq_or_lt_of_le h1 with e | e
    · rw [← e] at hk1
      simp only [mul_zero, zero_mul] at hk1
      omega
    · exact e
  have hq0 : 0 ≤ k / span.i0 := Int.ediv_nonneg hk0 h0
  have hq1 : k / span.i0 < span.i2 * span.i1 :=
    Int.ediv_lt_of_lt_mul hx (by linarith)
  have hc : InSpan span ⟨k % span.i0, (k / span.i0) % span.i1, k / span.i0 / span.i1⟩ :=
    ⟨⟨Int.emod_nonneg _ (ne_of_gt hx), Int.emod_lt_of_pos _ hx⟩,
      ⟨Int.emod_nonneg _ (ne_of_gt hy), Int.emod_lt_of_pos _ hy⟩,
      Int.ediv_nonneg hq0 h1, Int.ediv_lt_of_lt_mul hy hq1⟩
  refine ⟨_, hc, ?_⟩
  rw [stride_eq ⟨h0, h1, h2, h3⟩ hc, flatIndex_eq ⟨h0, h1, h2, h3⟩ hc]
  have e1 := Int.emod_add_ediv k span.i0
  have e2 := Int.emod_add_ediv (k / span.i0) span.i1
  show k % span.i0 + (k / span.i0) % span.i1 * span.i0
    + k / span.i0 / span.i1 * (span.i0 * span.i1) = k
  linear_combination e1 + span.i0 * e2

/-- C24, amended: for every span `(sx, sy, sz)` without a negative component whose cell
count `n = sx*sy*sz` has `n + 1` representable as an `int64`, with `Dy = sx` and
`Dz = sx*sy` as set by `Resize`, the map `(ix, iy, iz) -> ix + iy*Dy + iz*Dz` of the
`int64` arithmetic sends the cells of the span one-to-one onto `[0, n)`, and the arrays
that `Resize` allocates in each of the five variants have `n` entries (`n + 1` for
`BinEdges`), so that no cell of the span maps outside of them. -/
theorem flat_index_is_bijection (span : Idx3) (hs : SpanFits span) :
    cellCount span = span.i0 * span.i1 * span.i2 ∧
    (∀ c, InSpan span c →
      flatIndex span.i0 (mul64 span.i0 span.i1) c =
        c.i0 + c.i1 * span.i0 + c.i2 * (span.i0 * span.i1) ∧
      0 ≤ flatIndex span.i0 (mul64 span.i0 span.i1) c ∧
      flatIndex span.i0 (mul64 span.i0 span.i1) c < cellCount span) ∧
    (∀ c d, InSpan span c → InSpan span d →
      flatIndex span.i0 (mul64 span.i0 span.i1) c =
        flatIndex span.i0 (mul64 span.i0 span.i1) d → c = d) ∧
    (∀ k : Int, 0 ≤ k → k < cellCount span →
      ∃ c, InSpan span c ∧ flatIndex span.i0 (mul64 span.i0 span.i1) c = k) ∧
    (∀ g : ArrayListGrid, ∃ g1, g.Resize span = some g1 ∧ g1.Dy = span.i0 ∧
      g1.Dz = mul64 span.i0 span.i1 ∧ (g1.Data.elems.length : Int) = cellCount span) ∧
    (∀ g : NaiveLinkedListGrid, ∃ g1, g.Resize span = some g1 ∧ g1.Dy = span.i0 ∧
      g1.Dz = mul64 span.i0 span.i1 ∧ (g1.Heads.elems.length : Int) = cellCount span ∧
      (g1.Sizes.elems.length : Int) = cellCount span) ∧
    (∀ g : LinkedListGrid, ∃ g1, g.Resize span = some g1 ∧ g1.Dy = span.i0 ∧
      g1.Dz = mul64 span.i0 span.i1 ∧ (g1.Heads.elems.length : Int) = cellCount span ∧
      (g1.Sizes.elems.length : Int) = cellCount span) ∧
    (∀ g : CountingSortGrid, ∃ g1, g.Resize span = some g1 ∧ g1.Dy = span.i0 ∧
      g1.Dz = mul64 span.i0 span.i1 ∧
      (g1.BinEdges.elems.length : Int) = cellCount span + 1) ∧
    (∀ g : CycleSortGrid, ∃ g1, g.Resize span = some g1 ∧ g1.Dy = span.i0 ∧
      g1.Dz = mul64 span.i0 span.i1 ∧
      (g1.BinEdges.elems.length : Int) = cellCount span + 1 ∧
      (g1.BinEnds.elems.length : Int) = cellCount span) := by
  have hcn := cellCount_nonneg hs
  have htn : ((cellCount span).toNat : Int) = cellCount span := Int.toNat_of_nonneg hcn
  refine ⟨cellCount_eq hs, ?_, ?_, fun k hk0 hk1 => flatIndex_onto hs k hk0 hk1,
    ?_, ?_, ?_, ?_, ?_⟩
  · intro c hc
    rw [stride_eq hs hc]
    exact ⟨flatIndex_eq hs hc, flatIndex_range hs hc⟩
  · intro c d hc hd e
    rw [stride_eq hs hc] at e
    exact flatIndex_inj hs hc hd e
  · intro g
    obtain ⟨g1, e, hy, hz, hd⟩ := arrayList_Resize_spec g hs
    exact ⟨g1, e, hy, hz, by rw [hd, List.length_replicate, htn]⟩
  · intro g
    obtain ⟨g1, e, hy, hz, hh, hsz⟩ := naiveList_Resize_spec g hs
    exact ⟨g1, e, hy, hz, by rw [hh, List.length_replicate, htn],
      by rw [hsz, List.length_replicate, htn]⟩
  · intro g
    obtain ⟨g1, e, hy, hz, hh, hsz, -⟩ := linkedList_Resize_spec g hs
    exact ⟨g1, e, hy, hz, by rw [hh, List.length_replicate, htn],
      by rw [hsz, List.length_replicate, htn]⟩
  · intro g
    obtain ⟨g1, e, hy, hz, hed⟩ := countingSort_Resize_spec g hs
    refine ⟨g1, e, hy, hz, ?_⟩
    rw [hed, List.length_replicate]
    push_cast
    rw [htn]
  · intro g
    obtain ⟨g1, e, hy, hz, hed, hen, -⟩ := cycleSort_Resize_spec g hs
    refine ⟨g1, e, hy, hz, ?_, by rw [hen, htn]⟩
    rw [hed, List.length_replicate]
    push_cast
    rw [htn]

/-- C24, witness: the span `{2, 3, 2}`. -/
theorem flat_index_is_bijection_witness :
    SpanFits ⟨2, 3, 2⟩ ∧
    (∀ c d, InSpan ⟨2, 3, 2⟩ c → InSpan ⟨2, 3, 2⟩ d →
      flatIndex 2 (mul64 2 3) c = flatIndex 2 (mul64 2 3) d → c = d) ∧
    (∀ k : Int, 0 ≤ k → k < cellCount ⟨2, 3, 2⟩ →
      ∃ c, InSpan ⟨2, 3, 2⟩ c ∧ flatIndex 2 (mul64 2 3) c = k) :=
  ⟨by decide, (flat_index_is_bijection ⟨2, 3, 2⟩ (by decide)).2.2.1,
    (flat_index_is_bijection ⟨2, 3, 2⟩ (by decide)).2.2.2.1⟩

/-- C24, counterexample: the span `{2^32, 2^32, 2}` has positive components, but the
stride `Dz = 2^64` wraps to 0 in `int64`, so that the cells `(0, 0, 0)` and `(0, 0, 1)`
share the flat index 0; and the cell count wraps to 0 too, so that this index lies
outside of the arrays that `Resize` allocates. -/
theorem flat_index_collides_past_int64 :
    SpanPositive ⟨2 ^ 32, 2 ^ 32, 2⟩ ∧
    InSpan ⟨2 ^ 32, 2 ^ 32, 2⟩ ⟨0, 0, 0⟩ ∧ InSpan ⟨2 ^ 32, 2 ^ 32, 2⟩ ⟨0, 0, 1⟩ ∧
    flatIndex (2 ^ 32) (mul64 (2 ^ 32) (2 ^ 32)) ⟨0, 0, 0⟩ = 0 ∧
    flatIndex (2 ^ 32) (mul64 (2 ^ 32) (2 ^ 32)) ⟨0, 0, 1⟩ = 0 ∧
    cellCount ⟨2 ^ 32, 2 ^ 32, 2⟩ = 0 ∧
    (ArrayListGrid.new.Resize ⟨2 ^ 32, 2 ^ 32, 2⟩).map (fun g1 => g1.Data.elems.length)
      = some 0 := by
  refine ⟨by decide, by decide, by decide, ?_, ?_, ?_, ?_⟩ <;> with_unfolding_all decide
/-! ## The sign of the linking length -/

theorem F32_mul_neg_self (r : ℚ) :
    F32.mul (F32.fin (-r)) (F32.fin (-r)) = F32.mul (F32.fin r) (F32.fin r) := by
  show F32.round ((-r).num * (-r).num) ((-r).den * (-r).den) =
    F32.round (r.num * r.num) (r.den * r.den)
  rw [Rat.neg_num, Rat.neg_den, neg_mul_neg]

/-- C25: the brute-force mode of `FindPairsOneCell` reads the linking length through
`r*r` only: for every `p` and `r` and every prior state the calls with `r` and with `-r`
return the same. The sorted mode compares the coordinate gap with `r` itself: on the two
coincident points of `coincidentPoints`, sorted along the first axis, with `r = -1` it
returns no pair while the brute-force mode returns the pair `(0, 1)`. -/
theorem negative_length_splits_the_modes :
    (∀ (pair : Pairer) (p : List Particle) (r : ℚ),
      pair.FindPairsOneCell p r (-1) = pair.FindPairsOneCell p (-r) (-1)) ∧
    SortedAlong 0 coincidentPoints ∧
    (Pairer.new.FindPairsOneCell coincidentPoints (-1) 0).map Pairer.pairs = some [] ∧
    (Pairer.new.FindPairsOneCell coincidentPoints (-1) (-1)).map Pairer.pairs =
      some [(0, 1)] := by
  refine ⟨?_, by decide, ?_, ?_⟩
  · intro pair p r
    simp only [Pairer.FindPairsOneCell, F32_mul_neg_self, if_true]
  · with_unfolding_all decide
  · with_unfolding_all decide

end Symfof
